import Mathlib

/-!
# LessSimpleRA: paged storage engine and relational operators

A shallow embedding of the storage layer (`page.cpp`, `bufferManager.cpp`,
`cursor.cpp`, `table.cpp`) and of the executors under `src/executors/`.

Conventions of the embedding.

* C++ `int` / `long long` values are `Int`; sizes and `uint` counters are `Nat`.
  Where the source narrows or mixes signedness the wrap is written out with `% 2 ^ w`.
* The global singletons (`tableCatalogue`, `bufferManager`, the temp directory) are the
  fields of one explicit `State` that every operation takes and returns.
* A page file is the list of its lines, each line the list of integers written on it.
  Reading with `fin >> number` sees only the token stream, i.e. the concatenation.
* A source CSV is its list of header names and its data lines, each data line the list of
  integers it holds; splitting and trimming of the text are not part of the model.
* Loops driven by `Cursor::getNext` carry a fuel argument.
-/

namespace LessSimpleRA

/-! ## Constants (`global.h`, `global.cpp`) -/

/-- `const unsigned int BLOCK_SIZE = 32768`. -/
def BLOCK_SIZE : Nat := 32768

/-- `const unsigned int BLOCK_COUNT = 2`. -/
def BLOCK_COUNT : Nat := 2

/-! ## Rows, pages, tables -/

abbrev Row := List Int

/-- `Table::RowLocation = pair<int,int>`: page index, row index in the page. -/
abbrev RowLocation := Int × Int

/-- `std::map<int, RowLocation>`: association list kept in ascending key order. -/
abbrev IndexMap := List (Int × RowLocation)

/-- The members of `class Page` (`page.h`). -/
structure Page where
  tableName : String
  pageName : String
  columnCount : Nat
  rowCount : Int
  rows : List Row
  pageIndex : Int
deriving DecidableEq

/-- The members of `class Table` (`table.h`) that the modelled code reads or writes. -/
structure Table where
  tableName : String
  sourceFileName : String
  columns : List String
  columnCount : Nat
  rowCount : Int
  blockCount : Nat
  maxRowsPerBlock : Nat
  rowsPerBlockCount : List Nat
  multiColumnIndexData : List (String × IndexMap)
deriving DecidableEq

/-- A source CSV file: the column names of its header line and its data lines. -/
structure SourceFile where
  header : List String
  lines : List (List Int)
deriving DecidableEq

/-- The process-wide state: catalogue, buffer pool (front of the deque first), page files
and source files. -/
structure State where
  tables : String → Option Table
  pages : List Page
  files : String → Option (List (List Int))
  sources : String → Option SourceFile

/-- `Page::Page()`: the sentinel page. -/
def Page.empty : Page :=
  { tableName := "", pageName := "", columnCount := 0, rowCount := 0, rows := [], pageIndex := -1 }

/-- The page file path `"../data/temp/" + tableName + "_Page" + to_string(pageIndex)`. -/
def pageNameOf (tableName : String) (pageIndex : Int) : String :=
  "../data/temp/" ++ tableName ++ "_Page" ++ toString pageIndex

/-- One pass of the inner loop of `Page::Page(tableName, pageIndex)`: read `columnCount`
integers from the token stream; `none` when the stream runs dry. -/
def readRow : Nat → List Int → Option (Row × List Int)
  | 0, toks => some ([], toks)
  | _ + 1, [] => none
  | n + 1, t :: toks =>
    match readRow n toks with
    | some (r, rest) => some (t :: r, rest)
    | none => none

/-- The outer loop of `Page::Page(tableName, pageIndex)`: read `n` rows.  The result is the
rows read so far and whether all `n` were read. -/
def readRows (columnCount : Nat) : Nat → List Int → List Row × Bool
  | 0, _ => ([], true)
  | n + 1, toks =>
    match readRow columnCount toks with
    | none => ([], false)
    | some (r, rest) =>
      let res := readRows columnCount n rest
      (r :: res.1, res.2)

/-- `Page::Page(const string &tableName, int pageIndex)`: load a page from its file, with the
row count taken from the catalogue entry of the table. -/
def Page.load (s : State) (tableName : String) (pageIndex : Int) : Page :=
  match s.tables tableName with
  | none => Page.empty
  | some table =>
    if pageIndex < 0 ∨ pageIndex ≥ (table.blockCount : Int) then Page.empty
    else if pageIndex < (table.rowsPerBlockCount.length : Int) then
      let rowCount := table.rowsPerBlockCount.getD pageIndex.toNat 0
      if rowCount = 0 then
        { tableName := tableName, pageName := pageNameOf tableName pageIndex,
          columnCount := table.columnCount, rowCount := 0, rows := [], pageIndex := pageIndex }
      else
        match s.files (pageNameOf tableName pageIndex) with
        | none => Page.empty
        | some lines =>
          let res := readRows table.columnCount rowCount lines.flatten
          if res.2 then
            { tableName := tableName, pageName := pageNameOf tableName pageIndex,
              columnCount := table.columnCount, rowCount := rowCount, rows := res.1,
              pageIndex := pageIndex }
          else
            { tableName := tableName, pageName := pageNameOf tableName pageIndex,
              columnCount := table.columnCount, rowCount := res.1.length, rows := [],
              pageIndex := -1 }
    else Page.empty

/-- `Page::getRow(int rowIndex)`: the row, or the empty row when out of range. -/
def Page.getRow (p : Page) (rowIndex : Int) : Row :=
  if 0 ≤ rowIndex ∧ rowIndex.toNat < p.rows.length then p.rows.getD rowIndex.toNat [] else []

/-- `Page::Page(tableName, pageIndex, rows, rowCount)`: a row count that differs from the
vector size is replaced by the vector size. -/
def Page.ofRows (tableName : String) (pageIndex : Int) (rows : List Row) (rowCount : Int) :
    Page :=
  { tableName := tableName
    pageIndex := pageIndex
    rows := rows
    rowCount := if rowCount ≠ (rows.length : Int) then (rows.length : Int) else rowCount
    columnCount := match rows with
      | [] => 0
      | r :: _ => r.length
    pageName := pageNameOf tableName pageIndex }

/-- Replace the content of one file. -/
def setFile {α : Type} (files : String → Option α) (name : String) (content : Option α) :
    String → Option α :=
  fun n => if n = name then content else files n

/-- `Page::writePage()`: truncate the page file and write every row of the `rows` vector, one
line per row.  Nothing is written for an empty page name or a negative page index. -/
def Page.writePage (p : Page) (files : String → Option (List (List Int))) :
    String → Option (List (List Int)) :=
  if p.pageName = "" ∨ p.pageIndex < 0 then files
  else setFile files p.pageName (some p.rows)

/-! ## Buffer manager -/

/-- `BufferManager::getPage`: a resident page is moved to the back of the deque and returned;
otherwise the page is loaded, the front page is written back and dropped when the pool is
full, and the loaded page is appended.  A failed load returns the sentinel page and leaves
the pool alone. -/
def getPage (s : State) (tableName : String) (pageIndex : Int) : Page × State :=
  let pageName := pageNameOf tableName pageIndex
  match s.pages.find? (fun p => decide (p.pageName = pageName)) with
  | some foundPage =>
    (foundPage,
      { s with pages := s.pages.eraseP (fun p => decide (p.pageName = pageName)) ++ [foundPage] })
  | none =>
    let newPage := Page.load s tableName pageIndex
    if newPage.pageIndex = -1 then (Page.empty, s)
    else if s.pages.length ≥ BLOCK_COUNT then
      match s.pages with
      | [] => (newPage, { s with pages := [newPage] })
      | evictedPage :: rest =>
        (newPage, { s with files := evictedPage.writePage s.files, pages := rest ++ [newPage] })
    else (newPage, { s with pages := s.pages ++ [newPage] })

/-- `BufferManager::clearPoolForTable`: drop every resident page whose name starts with
`"../data/temp/" + tableName + "_Page"`; nothing is written. -/
def clearPoolForTable (s : State) (tableName : String) : State :=
  let pfx := "../data/temp/" ++ tableName ++ "_Page"
  { s with pages := s.pages.filter (fun p => !(pfx.data.isPrefixOf p.pageName.data)) }

/-- Modelled from the spec: `BufferManager::writePage(table, pageIndex, rows, rowCount)`, which
is called by `Table::blockify` and the mutating executors but whose body is not among the
sources: "construct a Page and write it through".  The page is built with
`Page::Page(tableName, pageIndex, rows, rowCount)` and written with `Page::writePage`; the
pool is not touched. -/
def BufferManager.writePage (s : State) (tableName : String) (pageIndex : Int)
    (rows : List Row) (rowCount : Int) : State :=
  { s with files := (Page.ofRows tableName pageIndex rows rowCount).writePage s.files }

/-! ## Cursor -/

/-- The members of `class Cursor` (`cursor.h`). -/
structure Cursor where
  page : Page
  pageIndex : Int
  tableName : String
  pagePointer : Int
deriving DecidableEq

/-- `Cursor::Cursor(tableName, pageIndex)`. -/
def Cursor.create (s : State) (tableName : String) (pageIndex : Int) : Cursor × State :=
  let r := getPage s tableName pageIndex
  ({ page := r.1, pagePointer := 0, tableName := tableName, pageIndex := pageIndex }, r.2)

/-- `Cursor::nextPage(pageIndex)`. -/
def Cursor.nextPage (c : Cursor) (s : State) (pageIndex : Int) : Cursor × State :=
  match s.tables c.tableName with
  | some table =>
    if pageIndex ≥ 0 ∧ pageIndex < (table.blockCount : Int) then
      let r := getPage s c.tableName pageIndex
      ({ c with page := r.1, pageIndex := pageIndex, pagePointer := 0 }, r.2)
    else ({ c with page := Page.empty, pageIndex := -1, pagePointer := 0 }, s)
  | none => ({ c with page := Page.empty, pageIndex := -1, pagePointer := 0 }, s)

/-- `Table::getNextPage(cursor)`. -/
def Table.getNextPage (table : Table) (c : Cursor) (s : State) : Cursor × State :=
  if c.pageIndex < (table.blockCount : Int) - 1 then c.nextPage s (c.pageIndex + 1) else (c, s)

/-- `Cursor::getNext()`. -/
def Cursor.getNext (c : Cursor) (s : State) : Row × Cursor × State :=
  let result := c.page.getRow c.pagePointer
  let c1 := { c with pagePointer := c.pagePointer + 1 }
  if result = [] then
    match s.tables c.tableName with
    | some table =>
      let r := table.getNextPage c1 s
      if r.1.pagePointer = 0 ∧ r.1.page.pageIndex ≠ -1 then
        (r.1.page.getRow r.1.pagePointer, { r.1 with pagePointer := r.1.pagePointer + 1 }, r.2)
      else (result, r.1, r.2)
    | none => (result, c1, s)
  else (result, c1, s)

/-- `Table::getCursor()`: a cursor on page 0. -/
def Table.getCursor (table : Table) (s : State) : Cursor × State :=
  Cursor.create s table.tableName 0

/-- The first `n` results of successive `Cursor::getNext` calls. -/
def getNextN : Nat → Cursor → State → List Row × Cursor × State
  | 0, c, s => ([], c, s)
  | n + 1, c, s =>
    let r := c.getNext s
    let rest := getNextN n r.2.1 r.2.2
    (r.1 :: rest.1, rest.2)

/-- The source files of a state. -/
abbrev Sources := String → Option SourceFile

/-- The loop `while (!(row = cursor.getNext()).empty()) body(row)`.  The bodies of these loops
in the executors update local variables (the accumulator) and append rows to the source file
of the result relation, so the body is a function of the accumulator and the source files;
`none` when the fuel runs out before the cursor returns the empty row. -/
def cursorLoop {σ : Type} (body : σ → Sources → Row → σ × Sources) :
    Nat → σ → Cursor → State → Option (σ × Cursor × State)
  | 0, _, _, _ => none
  | fuel + 1, acc, c, s =>
    let r := c.getNext s
    if r.1 = [] then some (acc, r.2.1, r.2.2)
    else
      let b := body acc r.2.2.sources r.1
      cursorLoop body fuel b.1 r.2.1 { r.2.2 with sources := b.2 }

/-! ## Tables (`table.cpp`) -/

/-- The loop of `Table::getColumnIndex`. -/
def findColumn (columnName : String) : List String → Nat → Int
  | [], _ => -1
  | c :: cs, k => if c = columnName then (k : Int) else findColumn columnName cs (k + 1)

/-- `Table::getColumnIndex`: position of the column among the first `columnCount` names, or -1. -/
def Table.getColumnIndex (t : Table) (columnName : String) : Int :=
  findColumn columnName (t.columns.take t.columnCount) 0

/-- `Table::isColumn`. -/
def Table.isColumn (t : Table) (columnName : String) : Bool :=
  t.columns.contains columnName

/-- `Table::isIndexed`: `multiColumnIndexData.count(columnName) > 0`. -/
def Table.isIndexed (t : Table) (columnName : String) : Bool :=
  (t.multiColumnIndexData.lookup columnName).isSome

/-- `Table::clearIndex`. -/
def Table.clearIndex (t : Table) : Table := { t with multiColumnIndexData := [] }

/-- `index[key] = location` on a `std::map<int, RowLocation>`: insert in key order, or
overwrite the entry of an equal key. -/
def IndexMap.assign : IndexMap → Int → RowLocation → IndexMap
  | [], k, loc => [(k, loc)]
  | (k', loc') :: rest, k, loc =>
    if k < k' then (k, loc) :: (k', loc') :: rest
    else if k = k' then (k, loc) :: rest
    else (k', loc') :: IndexMap.assign rest k loc

/-- `multiColumnIndexData[colName] = map` on the outer `unordered_map`. -/
def setColumnIndex : List (String × IndexMap) → String → IndexMap → List (String × IndexMap)
  | [], c, m => [(c, m)]
  | (c', m') :: rest, c, m =>
    if c' = c then (c, m) :: rest else (c', m') :: setColumnIndex rest c m

/-- The `maxRowsPerBlock` computation shared by `Table::Table(tableName, columns)` and
`Table::extractColumnNames`: `(uint)((BLOCK_SIZE * 1000) / (sizeof(int) * columnCount))`,
raised to 1 when it is 0. -/
def computeMaxRowsPerBlock (columnCount : Nat) : Nat :=
  let m := ((BLOCK_SIZE * 1000) % 2 ^ 32 / (4 * columnCount)) % 2 ^ 32
  if m = 0 then 1 else m

/-- `Table::Table(tableName, columns)`: the table object of a new relation. -/
def Table.create (tableName : String) (columns : List String) : Table :=
  { tableName := tableName
    sourceFileName := "../data/temp/" ++ tableName ++ ".csv"
    columns := columns
    columnCount := columns.length
    maxRowsPerBlock := if columns.length > 0 ∧ BLOCK_SIZE > 0 then computeMaxRowsPerBlock columns.length else 0
    rowCount := 0
    blockCount := 0
    rowsPerBlockCount := []
    multiColumnIndexData := [] }

/-- The file effect of `Table::Table(tableName, columns)`: the temporary source file is
truncated and holds the header only. -/
def Table.createFile (t : Table) (s : State) : State :=
  { s with sources := setFile s.sources t.sourceFileName (some { header := t.columns, lines := [] }) }

/-- `Table::writeRow<int>(row)`: append one line to the source file. -/
def Table.writeRow (t : Table) (sources : Sources) (row : Row) : Sources :=
  if t.sourceFileName = "" then sources
  else
    let file := (sources t.sourceFileName).getD { header := [], lines := [] }
    setFile sources t.sourceFileName (some { file with lines := file.lines ++ [row] })

/-- The local variables of the `while (getline(fin, line))` loop of `Table::blockify`. -/
structure BlockifyVars where
  rowsInPage : List Row
  pageRowCounter : Nat
  table : Table
  state : State

/-- One iteration of the `while (getline(fin, line))` loop of `Table::blockify` on a line that
holds the integers `vals`.  The values are copied into row `pageRowCounter` of the page
buffer as they are parsed; a line with too few or too many values is skipped; a full buffer
is written as page `blockCount`. -/
def blockifyLine (v : BlockifyVars) (vals : List Int) : BlockifyVars :=
  let k := min vals.length v.table.columnCount
  let buf := v.rowsInPage.set v.pageRowCounter
    (vals.take k ++ (v.rowsInPage.getD v.pageRowCounter []).drop k)
  if vals.length = v.table.columnCount then
    let t1 := { v.table with rowCount := v.table.rowCount + 1 }
    let pageRowCounter := v.pageRowCounter + 1
    if pageRowCounter = t1.maxRowsPerBlock then
      { rowsInPage := buf
        pageRowCounter := 0
        table := { t1 with blockCount := t1.blockCount + 1,
                           rowsPerBlockCount := t1.rowsPerBlockCount ++ [pageRowCounter] }
        state := BufferManager.writePage v.state t1.tableName (t1.blockCount : Int) buf
          (pageRowCounter : Int) }
    else { v with rowsInPage := buf, pageRowCounter := pageRowCounter, table := t1 }
  else { v with rowsInPage := buf }

/-- The local variables of `Table::blockify` before its loop: a page buffer of
`maxRowsPerBlock` rows of `columnCount` zeros, and the table statistics reset. -/
def blockifyStart (t : Table) (s : State) : BlockifyVars :=
  { rowsInPage := List.replicate t.maxRowsPerBlock (List.replicate t.columnCount 0)
    pageRowCounter := 0
    table := { t with rowCount := 0, blockCount := 0, rowsPerBlockCount := [] }
    state := s }

/-- `Table::blockify`: split the data lines of the source file into pages of
`maxRowsPerBlock` rows and write them; a final partial page is written from the same
buffer.  Returns `false` when the source file cannot be opened, the table has no column or
`maxRowsPerBlock` is 0.  (The distinct-value statistics are not modelled.) -/
def Table.blockify (t : Table) (s : State) : Bool × Table × State :=
  match s.sources t.sourceFileName with
  | none => (false, t, s)
  | some file =>
    let lines := file.lines
    let t0 := { t with rowCount := 0, blockCount := 0, rowsPerBlockCount := [] }
    if t0.columnCount = 0 then (false, t0, s)
    else if t0.maxRowsPerBlock = 0 then (false, t0, s)
    else
      let v := lines.foldl blockifyLine (blockifyStart t s)
      if v.pageRowCounter > 0 then
        (true,
          { v.table with blockCount := v.table.blockCount + 1,
                         rowsPerBlockCount := v.table.rowsPerBlockCount ++ [v.pageRowCounter] },
          BufferManager.writePage v.state v.table.tableName (v.table.blockCount : Int) v.rowsInPage
            (v.pageRowCounter : Int))
      else (true, v.table, v.state)

/-- `TableCatalogue::insertTable`: `tables[table->tableName] = table`. -/
def insertTable (s : State) (t : Table) : State :=
  { s with tables := fun n => if n = t.tableName then some t else s.tables n }

/-- `haystack.find(pattern) != npos` on character lists. -/
def containsSub (pattern : List Char) : List Char → Bool
  | [] => pattern.isEmpty
  | c :: cs => pattern.isPrefixOf (c :: cs) || containsSub pattern cs

/-- `Table::isPermanent`: the source file path starts with `../data/` and has no `/temp/`. -/
def Table.isPermanent (t : Table) : Bool :=
  "../data/".data.isPrefixOf t.sourceFileName.data && !containsSub "/temp/".data t.sourceFileName.data

/-- Modelled from the spec: `Table::unload` deletes its files through
`BufferManager::deleteFile`, whose body is not among the sources: "delete all page files
`pageIndex ∈ [0, blockCount)`; if the source file is temporary, delete it; drop indices". -/
def Table.unload (t : Table) (s : State) : State :=
  let files := (List.range t.blockCount).foldl
    (fun f (i : Nat) => setFile f (pageNameOf t.tableName (i : Int)) none) s.files
  let sources := if t.sourceFileName ≠ "" ∧ t.isPermanent = false then
      setFile s.sources t.sourceFileName none
    else s.sources
  { s with files := files, sources := sources }

/-! ## Parsed commands (`syntacticParser.h`) -/

inductive BinaryOperator where
  | LESS_THAN | GREATER_THAN | LEQ | GEQ | EQUAL | NOT_EQUAL | NO_BINOP_CLAUSE
deriving DecidableEq

inductive SelectType where
  | COLUMN | INT_LITERAL | NO_SELECT_CLAUSE
deriving DecidableEq

inductive SortingStrategy where
  | ASC | DESC | NO_SORT_CLAUSE
deriving DecidableEq

/-- The fields of `class ParsedQuery` read by the modelled executors. -/
structure ParsedQuery where
  loadRelationName : String := ""
  selectType : SelectType := SelectType.NO_SELECT_CLAUSE
  selectionBinaryOperator : BinaryOperator := BinaryOperator.NO_BINOP_CLAUSE
  selectionResultRelationName : String := ""
  selectionRelationName : String := ""
  selectionFirstColumnName : String := ""
  selectionIntLiteral : Int := 0
  joinResultRelationName : String := ""
  joinFirstRelationName : String := ""
  joinSecondRelationName : String := ""
  joinFirstColumnName : String := ""
  joinSecondColumnName : String := ""
  groupByRelationName : String := ""
  groupByColumn : String := ""
  resultTableName : String := ""
  havingFunction : String := ""
  havingAttribute : String := ""
  havingOperator : String := ""
  havingValue : String := ""
  returnFunction : String := ""
  returnAttribute : String := ""
  orderByResultRelationName : String := ""
  orderByColumn : String := ""
  orderByRelationName : String := ""
  orderByStrategy : SortingStrategy := SortingStrategy.NO_SORT_CLAUSE
  sortRelationName : String := ""
  tableName : String := ""
  insertColumnsAndValues : List (String × Int) := []
  sortColumns : List String := []
  sortingStrategies : List SortingStrategy := []
  renameFromColumnName : String := ""
  renameToColumnName : String := ""
  crossResultRelationName : String := ""
  crossFirstRelationName : String := ""
  crossSecondRelationName : String := ""

/-- Modelled from the spec: `evaluateBinOp` is declared in `executor.h` but its body is not
among the sources: "comparisons are the obvious totally-ordered operations on signed
integers".  The placeholder `NO_BINOP_CLAUSE` compares as false. -/
def evaluateBinOp (value1 value2 : Int) : BinaryOperator → Bool
  | BinaryOperator.LESS_THAN => decide (value1 < value2)
  | BinaryOperator.GREATER_THAN => decide (value1 > value2)
  | BinaryOperator.LEQ => decide (value1 ≤ value2)
  | BinaryOperator.GEQ => decide (value1 ≥ value2)
  | BinaryOperator.EQUAL => decide (value1 = value2)
  | BinaryOperator.NOT_EQUAL => decide (value1 ≠ value2)
  | BinaryOperator.NO_BINOP_CLAUSE => false

/-! ## LOAD (`table.cpp`, `executors/load.cpp`) -/

/-- `Table::Table(tableName)`: the table object of a relation to be loaded. -/
def Table.new (tableName : String) : Table :=
  { tableName := tableName, sourceFileName := "../data/" ++ tableName ++ ".csv", columns := [],
    columnCount := 0, rowCount := 0, blockCount := 0, maxRowsPerBlock := 0,
    rowsPerBlockCount := [], multiColumnIndexData := [] }

/-- The loop of `Table::extractColumnNames` over the names of the header: an empty or a
repeated name stops the extraction. -/
def extractLoop : List String → List String → Bool × List String
  | [], columns => (true, columns)
  | word :: rest, columns =>
    if word = "" then (false, columns)
    else if columns.contains word then (false, columns)
    else extractLoop rest (columns ++ [word])

/-- `Table::extractColumnNames`. -/
def Table.extractColumnNames (t : Table) (header : List String) : Bool × Table :=
  let r := extractLoop header []
  if r.1 = false then (false, { t with columns := r.2 })
  else
    let t1 := { t with columns := r.2, columnCount := r.2.length }
    if t1.columnCount = 0 then (false, t1)
    else if BLOCK_SIZE > 0 then
      (true, { t1 with maxRowsPerBlock := computeMaxRowsPerBlock t1.columnCount })
    else (false, { t1 with maxRowsPerBlock := 0 })

/-- `Table::load`: read the header, then blockify. -/
def Table.load (t : Table) (s : State) : Bool × Table × State :=
  match s.sources t.sourceFileName with
  | none => (false, t, s)
  | some file =>
    let r := t.extractColumnNames file.header
    if r.1 then r.2.blockify s else (false, r.2, s)

/-- The innermost loop of the index build of `executeLOAD`: every row of the page whose
column `columnIndex` exists is recorded under its value, later rows overwriting. -/
def indexPageRows (columnIndex : Nat) (page : Page) (pageIdx : Nat) (rowsInPage : Nat)
    (index : IndexMap) : IndexMap :=
  (List.range rowsInPage).foldl
    (fun m (rowIdx : Nat) =>
      let rowData := page.getRow (rowIdx : Int)
      if rowData ≠ [] ∧ columnIndex < rowData.length then
        IndexMap.assign m (rowData.getD columnIndex 0) ((pageIdx : Int), (rowIdx : Int))
      else m)
    index

/-- The page loop of the index build of `executeLOAD` for one column. -/
def indexColumnPages (table : Table) (columnIndex : Nat) (acc : IndexMap × State)
    (pageIdx : Nat) : IndexMap × State :=
  if pageIdx ≥ table.rowsPerBlockCount.length then acc
  else
    let r := getPage acc.2 table.tableName (pageIdx : Int)
    (indexPageRows columnIndex r.1 pageIdx (table.rowsPerBlockCount.getD pageIdx 0) acc.1, r.2)

/-- The body of the column loop of the index build of `executeLOAD`.  The table object is the
one registered in the catalogue, so the catalogue entry changes with it. -/
def buildColumnIndex (acc : Table × State) (columnIndex : Nat) : Table × State :=
  let colName := acc.1.columns.getD columnIndex ""
  let r := (List.range acc.1.blockCount).foldl (indexColumnPages acc.1 columnIndex) ([], acc.2)
  let table := { acc.1 with
    multiColumnIndexData := setColumnIndex acc.1.multiColumnIndexData colName r.1 }
  (table, insertTable r.2 table)

/-- The implicit index creation of `executeLOAD` (after `insertTable`): clear the indices,
then build one index per column. -/
def buildAllIndices (table : Table) (s : State) : Table × State :=
  let t0 := table.clearIndex
  if t0.columnCount > 0 then
    (List.range t0.columnCount).foldl buildColumnIndex (t0, insertTable s t0)
  else (t0, insertTable s t0)

/-- `executeLOAD`.  The call `table->buildIndices()` that precedes `insertTable` is left out:
its body is not among the sources, and whatever indices it builds are dropped by the
`clearIndex()` that follows. -/
def executeLOAD (pq : ParsedQuery) (s : State) : State :=
  let r := (Table.new pq.loadRelationName).load s
  if r.1 then (buildAllIndices r.2.1 (insertTable r.2.2 r.2.1)).2
  else r.2.2

/-! ## SEARCH (`executors/search.cpp`) -/

/-- `fetchRows`: fetch the rows at the given locations, keeping the pages fetched so far in a
local cache, and write each non-empty row to the result table. -/
def fetchRows (resultTable sourceTable : Table) :
    List RowLocation → List (Int × Page) → State → State
  | [], _, s => s
  | loc :: rest, pageCache, s =>
    match pageCache.lookup loc.1 with
    | none =>
      let r := getPage s sourceTable.tableName loc.1
      if r.1.pageName = "" then fetchRows resultTable sourceTable rest pageCache r.2
      else
        let rowData := r.1.getRow loc.2
        fetchRows resultTable sourceTable rest ((loc.1, r.1) :: pageCache)
          (if rowData ≠ [] then { r.2 with sources := resultTable.writeRow r.2.sources rowData }
           else r.2)
    | some page =>
      let rowData := page.getRow loc.2
      fetchRows resultTable sourceTable rest pageCache
        (if rowData ≠ [] then { s with sources := resultTable.writeRow s.sources rowData } else s)

/-- The `switch (op)` of `executeSEARCH`: the locations to fetch and whether the index was
used.  `lower_bound` / `upper_bound` on the ascending map are the ends of the runs of keys
below / not above the value. -/
def indexLookup (index : IndexMap) (value : Int) : BinaryOperator → List RowLocation × Bool
  | BinaryOperator.EQUAL =>
    match index.lookup value with
    | some loc => ([loc], true)
    | none => ([], false)
  | BinaryOperator.LESS_THAN => ((index.takeWhile (fun e => decide (e.1 < value))).map Prod.snd, true)
  | BinaryOperator.LEQ => ((index.takeWhile (fun e => decide (e.1 ≤ value))).map Prod.snd, true)
  | BinaryOperator.GREATER_THAN => ((index.dropWhile (fun e => decide (e.1 ≤ value))).map Prod.snd, true)
  | BinaryOperator.GEQ => ((index.dropWhile (fun e => decide (e.1 < value))).map Prod.snd, true)
  | BinaryOperator.NOT_EQUAL => ([], false)
  | BinaryOperator.NO_BINOP_CLAUSE => ([], false)

/-- The body of the full-scan loop of `executeSEARCH`. -/
def searchScanBody (resultTable : Table) (searchColumnIndex : Int) (comparisonValue : Int)
    (comparisonOp : BinaryOperator) (_ : Unit) (sources : Sources) (row : Row) : Unit × Sources :=
  if searchColumnIndex ≥ (row.length : Int) then ((), sources)
  else if evaluateBinOp (row.getD searchColumnIndex.toNat 0) comparisonValue comparisonOp then
    ((), resultTable.writeRow sources row)
  else ((), sources)

/-- The finalisation of `executeSEARCH`: blockify the result and register it, or unload it
when `blockify` returns false. -/
def finishResult (resultTable : Table) (s : State) : State :=
  let b := resultTable.blockify s
  if b.1 then insertTable b.2.2 b.2.1 else b.2.1.unload b.2.2

/-- `executeSEARCH`; `none` when the fuel of the full scan runs out. -/
def executeSEARCH (fuel : Nat) (pq : ParsedQuery) (s : State) : Option State :=
  match s.tables pq.selectionRelationName with
  | none => some s
  | some table =>
    let resultantTable := Table.create pq.selectionResultRelationName table.columns
    let s0 := resultantTable.createFile s
    let queryColumnName := pq.selectionFirstColumnName
    let viaIndex : State × Bool :=
      if table.isIndexed queryColumnName ∧ pq.selectType = SelectType.INT_LITERAL then
        match table.multiColumnIndexData.lookup queryColumnName with
        | none => (s0, false)
        | some index =>
          let r := indexLookup index pq.selectionIntLiteral pq.selectionBinaryOperator
          if r.2 = true ∧ r.1 ≠ [] then (fetchRows resultantTable table r.1 [] s0, true)
          else (s0, r.2)
      else (s0, false)
    if viaIndex.2 = false then
      let cur := table.getCursor viaIndex.1
      let searchColumnIndex := table.getColumnIndex queryColumnName
      if searchColumnIndex < 0 then some (resultantTable.unload cur.2)
      else
        match cursorLoop
            (searchScanBody resultantTable searchColumnIndex pq.selectionIntLiteral
              pq.selectionBinaryOperator) fuel () cur.1 cur.2 with
        | none => none
        | some r => some (finishResult resultantTable r.2.2)
    else some (finishResult resultantTable viaIndex.1)

/-! ## JOIN (`executors/join.cpp`) -/

/-- How an executor ends: with a new state, in undefined behaviour of the source (null
dereference, division by zero, subscript outside a vector), with a C++ exception that
nothing catches, or with the fuel of a scan loop used up. -/
inductive Outcome where
  | done (s : State)
  | undefined
  | thrown
  | outOfFuel

/-- `row[i]` on a `vector<int>`.  A subscript outside the row is undefined behaviour in the
source; the model then reads 0 (element 0 for a negative subscript). -/
def subscript (row : Row) (i : Int) : Int := row.getD i.toNat 0

/-- `unordered_map<int, vector<vector<int>>>`: association list, one bucket per key. -/
abbrev HashTable := List (Int × List Row)

/-- `hashTable[key].push_back(row)`. -/
def hashInsert : HashTable → Int → Row → HashTable
  | [], key, row => [(key, [row])]
  | (k, rows) :: rest, key, row =>
    if k = key then (k, rows ++ [row]) :: rest else (k, rows) :: hashInsert rest key row

/-- The body of the build loop of `executeJOIN`. -/
def joinBuildBody (smallerIndex : Int) (hashTable : HashTable) (sources : Sources) (row : Row) :
    HashTable × Sources :=
  (hashInsert hashTable (subscript row smallerIndex) row, sources)

/-- The body of the probe loop of `executeJOIN`: one result row per row of the bucket of the
key, the row of the first relation on the left. -/
def joinProbeBody (hashTable : HashTable) (largerIndex : Int) (smallerIsFirst : Bool)
    (resultantTable : Table) (_ : Unit) (sources : Sources) (row : Row) : Unit × Sources :=
  match hashTable.lookup (subscript row largerIndex) with
  | some rows =>
    ((), rows.foldl
      (fun src smallerTableRow =>
        resultantTable.writeRow src
          (if smallerIsFirst then smallerTableRow ++ row else row ++ smallerTableRow))
      sources)
  | none => ((), sources)

/-- `executeJOIN`.  The catalogue hands out one object per name, so the pointer tests
`smallerTable == table1` and `largerTable == table1` also hold when both names are the
same. -/
def executeJOIN (fuel : Nat) (pq : ParsedQuery) (s : State) : Outcome :=
  match s.tables pq.joinFirstRelationName, s.tables pq.joinSecondRelationName with
  | some table1, some table2 =>
    let sameObject := decide (pq.joinFirstRelationName = pq.joinSecondRelationName)
    let smallerTable := if table1.rowCount ≤ table2.rowCount then table1 else table2
    let largerTable := if table1.rowCount > table2.rowCount then table1 else table2
    let smallerIsFirst := decide (table1.rowCount ≤ table2.rowCount) || sameObject
    let largerIsFirst := decide (table1.rowCount > table2.rowCount) || sameObject
    let smallerColumn := if smallerIsFirst then pq.joinFirstColumnName else pq.joinSecondColumnName
    let largerColumn := if largerIsFirst then pq.joinFirstColumnName else pq.joinSecondColumnName
    let smallerIndex := smallerTable.getColumnIndex smallerColumn
    let largerIndex := largerTable.getColumnIndex largerColumn
    let cursor := smallerTable.getCursor s
    match cursorLoop (joinBuildBody smallerIndex) fuel [] cursor.1 cursor.2 with
    | none => Outcome.outOfFuel
    | some built =>
      let resultantTable :=
        Table.create pq.joinResultRelationName (table1.columns ++ table2.columns)
      let cursor2 := largerTable.getCursor (resultantTable.createFile built.2.2)
      match cursorLoop (joinProbeBody built.1 largerIndex smallerIsFirst resultantTable) fuel ()
          cursor2.1 cursor2.2 with
      | none => Outcome.outOfFuel
      | some probed =>
        let b := resultantTable.blockify probed.2.2
        if b.1 then Outcome.done (insertTable b.2.2 b.2.1) else Outcome.done b.2.2
  | _, _ => Outcome.undefined

/-- The join of two row lists on columns `i1` and `i2`, the rows of the first list outermost. -/
def joinRows (rows1 rows2 : List Row) (i1 i2 : Int) : List Row :=
  rows1.flatMap (fun r1 =>
    (rows2.filter (fun r2 => decide (subscript r1 i1 = subscript r2 i2))).map (fun r2 => r1 ++ r2))

/-! ## Well-formedness predicates used by the statements -/

/-- Value of a decimal digit character. -/
def digitVal (c : Char) : Nat := c.toNat - 48

/-- What `BufferManager::getPage` hands out for a page, without the pool reordering: the
resident copy when there is one, otherwise the page loaded from its file. -/
def viewPage (s : State) (tableName : String) (pageIndex : Int) : Page :=
  match s.pages.find? (fun p => decide (p.pageName = pageNameOf tableName pageIndex)) with
  | some foundPage => foundPage
  | none =>
    if (Page.load s tableName pageIndex).pageIndex = -1 then Page.empty
    else Page.load s tableName pageIndex

/-- Table `name` is registered under its own name and catalogue, page files and buffer pool
agree about its pages (I2): it has `blockCount` pages, the file of page `i` is readable and
holds exactly the `rowsPerBlockCount[i]` rows `pages[i]`, every row has `columnCount`
integers, and every resident page under one of the table's page names is a copy of that
page of the table. -/
def Held (s : State) (name : String) (pages : List (List Row)) : Prop :=
  ∃ t, s.tables name = some t ∧ t.tableName = name ∧ t.blockCount = pages.length ∧
    t.rowsPerBlockCount = pages.map List.length ∧
    (∀ p ∈ pages, ∀ r ∈ p, r.length = t.columnCount) ∧
    (∀ i, i < pages.length → (Page.load s name (i : Int)).rows = pages.getD i [] ∧
      (Page.load s name (i : Int)).pageIndex = (i : Int)) ∧
    ∀ p ∈ s.pages, ∀ j : Nat, p.pageName = pageNameOf name (j : Int) →
      j < pages.length ∧ p.rows = pages.getD j [] ∧ p.pageIndex = (j : Int)

/-- Catalogue and page files agree about the pages of table `name` (the part of `Held` that
does not mention the buffer pool): the rows stored in the page files of the table. -/
def Stored (s : State) (name : String) (pages : List (List Row)) : Prop :=
  ∃ t, s.tables name = some t ∧ t.tableName = name ∧ t.blockCount = pages.length ∧
    t.rowsPerBlockCount = pages.map List.length ∧
    (∀ p ∈ pages, ∀ r ∈ p, r.length = t.columnCount) ∧
    ∀ i, i < pages.length → (Page.load s name (i : Int)).rows = pages.getD i [] ∧
      (Page.load s name (i : Int)).pageIndex = (i : Int)

/-- The loop invariant of `Table::blockify` after the valid lines `done`: the pages written
so far are full and their files start with their rows, the first `pageRowCounter` rows of the
buffer are the rows not yet written, and nothing but page files of the table has changed. -/
def BlockifyInv (t0 : Table) (s0 : State) (done : List Row) (v : BlockifyVars) : Prop :=
  ∃ pagesW : List (List Row),
    done = pagesW.flatten ++ v.rowsInPage.take v.pageRowCounter ∧
    (∀ p ∈ pagesW, p.length = t0.maxRowsPerBlock) ∧
    v.rowsInPage.length = t0.maxRowsPerBlock ∧
    (∀ r ∈ v.rowsInPage, r.length = t0.columnCount) ∧
    v.pageRowCounter < t0.maxRowsPerBlock ∧
    v.table = { t0 with rowCount := (done.length : Int), blockCount := pagesW.length,
                        rowsPerBlockCount := pagesW.map List.length } ∧
    v.state.tables = s0.tables ∧ v.state.pages = s0.pages ∧ v.state.sources = s0.sources ∧
    (∀ i, i < pagesW.length → ∃ lines extra,
      v.state.files (pageNameOf t0.tableName (i : Int)) = some lines ∧
      lines.flatten = (pagesW.getD i []).flatten ++ extra) ∧
    (∀ n, (∀ i : Nat, n ≠ pageNameOf t0.tableName (i : Int)) → v.state.files n = s0.files n)

/-- The cursor stands in page `i` of the table, before row `j`. -/
def CursorAt (c : Cursor) (name : String) (pages : List (List Row)) (i j : Nat) : Prop :=
  c.tableName = name ∧ c.pageIndex = (i : Int) ∧ c.page.rows = pages.getD i [] ∧
    c.pagePointer = (j : Int) ∧ i < pages.length ∧ j ≤ (pages.getD i []).length

/-- The cursor has returned every row and has no further page to move to. -/
def Exhausted (s : State) (c : Cursor) : Prop :=
  ∃ t, s.tables c.tableName = some t ∧ ¬ (c.pageIndex < (t.blockCount : Int) - 1) ∧
    0 ≤ c.pagePointer ∧ (c.page.rows.length : Int) ≤ c.pagePointer

/-- The rows a cursor standing in page `i` at row `j` has still to return. -/
def remainingRows (pages : List (List Row)) (i j : Nat) : List Row :=
  (pages.getD i []).drop j ++ (pages.drop (i + 1)).flatten

/-! ## Example states -/

/-- A two-column table `T` with rows `(1,2),(3,4),(5,6)` on two pages. -/
def exampleTable : Table :=
  { tableName := "T", sourceFileName := "../data/T.csv", columns := ["A", "B"], columnCount := 2,
    rowCount := 3, blockCount := 2, maxRowsPerBlock := 2, rowsPerBlockCount := [2, 1],
    multiColumnIndexData := [] }

/-- A state in which `exampleTable` is registered, its page 0 is resident and its page 1 is on
disk; the pool is full, its second slot taken by a page of another table. -/
def exampleState : State :=
  { tables := fun n => if n = "T" then some exampleTable else none
    pages := [{ tableName := "T", pageName := "../data/temp/T_Page0", columnCount := 2,
                rowCount := 2, rows := [[1, 2], [3, 4]], pageIndex := 0 },
              { tableName := "U", pageName := "../data/temp/U_Page0", columnCount := 1,
                rowCount := 1, rows := [[7]], pageIndex := 0 }]
    files := fun n =>
      if n = "../data/temp/T_Page0" then some [[1, 2], [3, 4]]
      else if n = "../data/temp/T_Page1" then some [[5, 6]] else none
    sources := fun _ => none }

/-- Scenario S2: the CSV of `T(A,B,C)` with rows `(1,2,3),(4,5,6),(7,8,9),(1,20,30)` in the data
directory, nothing loaded yet. -/
def stateS2 : State :=
  { tables := fun _ => none
    pages := []
    files := fun _ => none
    sources := fun n =>
      if n = "../data/T.csv" then
        some { header := ["A", "B", "C"], lines := [[1, 2, 3], [4, 5, 6], [7, 8, 9], [1, 20, 30]] }
      else none }

/-- `LOAD T`. -/
def queryLoadT : ParsedQuery := { loadRelationName := "T" }

/-- `Y <- SEARCH FROM T WHERE A == 1`. -/
def querySearchS2 : ParsedQuery :=
  { selectType := SelectType.INT_LITERAL, selectionBinaryOperator := BinaryOperator.EQUAL,
    selectionResultRelationName := "Y", selectionRelationName := "T",
    selectionFirstColumnName := "A", selectionIntLiteral := 1 }

/-- Scenario S2 after `LOAD T`. -/
def stateS2Loaded : State := executeLOAD queryLoadT stateS2

/-- Scenario S2 after `LOAD T`, with the indices of `T` dropped (`Table::clearIndex`), so that
`executeSEARCH` takes its full-scan path. -/
def stateS2Unindexed : State :=
  match stateS2Loaded.tables "T" with
  | some t => insertTable stateS2Loaded t.clearIndex
  | none => stateS2Loaded

/-- The data lines an executor has written to the source file of a result relation. -/
def emittedRows (s : State) (resultName : String) : Option (List Row) :=
  (s.sources ("../data/temp/" ++ resultName ++ ".csv")).map SourceFile.lines

/-- The state an executor ended with, when it ended normally. -/
def Outcome.state : Outcome → Option State
  | Outcome.done s => some s
  | _ => none

/-- The rows of table `name` as catalogue and page files hold them: the rows of pages
`0 .. blockCount - 1` in order, each page read as `Page::Page(tableName, pageIndex)` reads it. -/
def storedRows (s : State) (name : String) : Option (List Row) :=
  (s.tables name).map (fun t =>
    (List.range t.blockCount).flatMap (fun (i : Nat) => (Page.load s name (i : Int)).rows))

/-- Scenario S3: `E(EID,DID)` = `(1,10),(2,10),(3,20)` and `D(DID,NAME_TAG)` = `(10,100),(20,200)`,
each on one page, nothing resident. -/
def stateS3 : State :=
  { tables := fun n =>
      if n = "E" then
        some { tableName := "E", sourceFileName := "../data/E.csv", columns := ["EID", "DID"],
               columnCount := 2, rowCount := 3, blockCount := 1, maxRowsPerBlock := 4096000,
               rowsPerBlockCount := [3], multiColumnIndexData := [] }
      else if n = "D" then
        some { tableName := "D", sourceFileName := "../data/D.csv", columns := ["DID", "NAME_TAG"],
               columnCount := 2, rowCount := 2, blockCount := 1, maxRowsPerBlock := 4096000,
               rowsPerBlockCount := [2], multiColumnIndexData := [] }
      else none
    pages := []
    files := fun n =>
      if n = "../data/temp/E_Page0" then some [[1, 10], [2, 10], [3, 20]]
      else if n = "../data/temp/D_Page0" then some [[10, 100], [20, 200]] else none
    sources := fun _ => none }

/-- `R <- JOIN E, D ON DID DID`. -/
def queryJoinS3 : ParsedQuery :=
  { joinResultRelationName := "R", joinFirstRelationName := "E", joinSecondRelationName := "D",
    joinFirstColumnName := "DID", joinSecondColumnName := "DID" }

/-- Relations `A(X,Y)` = `(1,10),(2,20)` and `B(Y,Z)` = `(10,100),(20,200),(30,300)`, where
`A` has three pages of which the middle one has lost its rows (`rowsPerBlockCount = [1,0,1]`,
as `DELETE` leaves a page whose rows all matched). -/
def stateGap : State :=
  { tables := fun n =>
      if n = "A" then
        some { tableName := "A", sourceFileName := "../data/A.csv", columns := ["X", "Y"],
               columnCount := 2, rowCount := 2, blockCount := 3, maxRowsPerBlock := 4096000,
               rowsPerBlockCount := [1, 0, 1], multiColumnIndexData := [] }
      else if n = "B" then
        some { tableName := "B", sourceFileName := "../data/B.csv", columns := ["Y", "Z"],
               columnCount := 2, rowCount := 3, blockCount := 1, maxRowsPerBlock := 4096000,
               rowsPerBlockCount := [3], multiColumnIndexData := [] }
      else none
    pages := []
    files := fun n =>
      if n = "../data/temp/A_Page0" then some [[1, 10]]
      else if n = "../data/temp/A_Page1" then some []
      else if n = "../data/temp/A_Page2" then some [[2, 20]]
      else if n = "../data/temp/B_Page0" then some [[10, 100], [20, 200], [30, 300]] else none
    sources := fun _ => none }

/-- `R <- JOIN A, B ON Y Y`. -/
def queryJoinGap : ParsedQuery :=
  { joinResultRelationName := "R", joinFirstRelationName := "A", joinSecondRelationName := "B",
    joinFirstColumnName := "Y", joinSecondColumnName := "Y" }

/-! ## GROUP BY (`executors/groupby.cpp`) -/

/-- The value of a `w`-bit two's complement integer with the bits of `x`: what a conversion to
`int` (`w = 32`) or `long long` (`w = 64`) yields. -/
def toSigned (w : Nat) (x : Int) : Int :=
  let m := x % 2 ^ w
  if m < 2 ^ (w - 1) then m else m - 2 ^ w

/-- `isspace` in the C locale: space and the control characters 9 to 13. -/
def isSpaceC (c : Char) : Bool := decide (c.toNat = 32) || (decide (9 ≤ c.toNat) && decide (c.toNat ≤ 13))

/-- `std::stoi(str)`: skip leading white space, read an optional sign and the decimal digits
that follow, ignore the rest; `none` when it throws (`invalid_argument` when no digit
follows, `out_of_range` when the value is not an `int`). -/
def stoi (str : String) : Option Int :=
  let cs := str.data.dropWhile isSpaceC
  let negative := decide (cs.head?.map Char.toNat = some 45)
  let signed := decide (cs.head?.map Char.toNat = some 45 ∨ cs.head?.map Char.toNat = some 43)
  let digits := (if signed then cs.drop 1 else cs).takeWhile Char.isDigit
  if digits = [] then none
  else
    let n : Int := digits.foldl (fun acc c => acc * 10 + ((c.toNat - 48 : Nat) : Int)) 0
    let v := if negative then -n else n
    if v < -2147483648 ∨ v > 2147483647 then none else some v

/-- `unordered_map<int, pair<vector<int>, vector<int>>>`: association list, one entry per
group value, in order of first insertion (the iteration order of the source is unspecified). -/
abbrev Groups := List (Int × (List Int × List Int))

/-- `groups[g].first.push_back(h); groups[g].second.push_back(r)`. -/
def groupInsert : Groups → Int → Int → Int → Groups
  | [], g, h, r => [(g, ([h], [r]))]
  | (k, vs) :: rest, g, h, r =>
    if k = g then (k, (vs.1 ++ [h], vs.2 ++ [r])) :: rest else (k, vs) :: groupInsert rest g h r

/-- The body of the scan loop of `executeGROUPBY`: a row shorter than `columnCount` is
skipped. -/
def groupByBody (columnCount : Nat) (groupByIndex havingIndex returnIndex : Int)
    (groups : Groups) (sources : Sources) (row : Row) : Groups × Sources :=
  if row.length < columnCount then (groups, sources)
  else
    (groupInsert groups (subscript row groupByIndex) (subscript row havingIndex)
      (subscript row returnIndex), sources)

/-- `applyAggregate(funcName, values)`, result type `long long`.  The sum is accumulated in a
`long long`.  In `sum / values.size()` the divisor is a `size_t`, an unsigned 64-bit type, so
the usual arithmetic conversions turn `sum` into an unsigned 64-bit value, the division is
unsigned, and the quotient is converted back to `long long` on return. -/
def applyAggregate (funcName : String) (values : List Int) : Int :=
  if values = [] then 0
  else if funcName = "COUNT" then (values.length : Int)
  else if funcName = "SUM" then toSigned 64 values.sum
  else if funcName = "AVG" then
    let sum := toSigned 64 values.sum
    toSigned 64 (sum % 2 ^ 64 / (values.length : Int))
  else if funcName = "MAX" then values.foldl max (values.headD 0)
  else if funcName = "MIN" then values.foldl min (values.headD 0)
  else 0

/-- `evaluateCondition(aggregateValue, op, conditionValue)`. -/
def evaluateCondition (aggregateValue : Int) (op : String) (conditionValue : Int) : Bool :=
  if op = ">" then decide (aggregateValue > conditionValue)
  else if op = "<" then decide (aggregateValue < conditionValue)
  else if op = ">=" then decide (aggregateValue ≥ conditionValue)
  else if op = "<=" then decide (aggregateValue ≤ conditionValue)
  else if op = "==" then decide (aggregateValue = conditionValue)
  else if op = "!=" then decide (aggregateValue ≠ conditionValue)
  else false

/-- The loop of `executeGROUPBY` over the groups: the result rows `{groupValue, returnAggInt}`
of the groups that pass the HAVING condition; `none` when `stoi(parsedQuery.havingValue)`
throws. -/
def groupResultRows (pq : ParsedQuery) : Groups → List Row → Option (List Row)
  | [], resultRows => some resultRows
  | (groupValue, vs) :: rest, resultRows =>
    if vs.1 = [] ∨ vs.2 = [] then groupResultRows pq rest resultRows
    else
      let havingAggResult := applyAggregate pq.havingFunction vs.1
      match stoi pq.havingValue with
      | none => none
      | some havingConditionValue =>
        if evaluateCondition havingAggResult pq.havingOperator havingConditionValue then
          let returnAggResult := applyAggregate pq.returnFunction vs.2
          groupResultRows pq rest (resultRows ++ [[groupValue, toSigned 32 returnAggResult]])
        else groupResultRows pq rest resultRows

/-- `executeGROUPBY`.  (`groupByRelationName` is read by the executor; the declaration of
`ParsedQuery` among the sources lacks it, so it is a field of the model.) -/
def executeGROUPBY (fuel : Nat) (pq : ParsedQuery) (s : State) : Outcome :=
  match s.tables pq.groupByRelationName with
  | none => Outcome.done s
  | some inputTable =>
    let groupByIndex := inputTable.getColumnIndex pq.groupByColumn
    let havingIndex := inputTable.getColumnIndex pq.havingAttribute
    let returnIndex := inputTable.getColumnIndex pq.returnAttribute
    if groupByIndex < 0 ∨ havingIndex < 0 ∨ returnIndex < 0 then Outcome.done s
    else
      let cursor := inputTable.getCursor s
      match cursorLoop (groupByBody inputTable.columnCount groupByIndex havingIndex returnIndex)
          fuel [] cursor.1 cursor.2 with
      | none => Outcome.outOfFuel
      | some scanned =>
        match groupResultRows pq scanned.1 [] with
        | none => Outcome.thrown
        | some resultRows =>
          let returnHeader := pq.returnFunction ++ pq.returnAttribute
          let resultTable := Table.create pq.resultTableName [pq.groupByColumn, returnHeader]
          let s1 := resultTable.createFile scanned.2.2
          let s2 := { s1 with sources := resultRows.foldl resultTable.writeRow s1.sources }
          let b := Table.blockify { resultTable with rowCount := (resultRows.length : Int) } s2
          Outcome.done (insertTable b.2.2 b.2.1)

/-- Scenario S5: `EMP(DID, SAL)` = `(1,10),(1,30),(2,50),(2,60),(3,5)` on one page, nothing
resident. -/
def stateS5 : State :=
  { tables := fun n =>
      if n = "EMP" then
        some { tableName := "EMP", sourceFileName := "../data/EMP.csv", columns := ["DID", "SAL"],
               columnCount := 2, rowCount := 5, blockCount := 1, maxRowsPerBlock := 4096000,
               rowsPerBlockCount := [5], multiColumnIndexData := [] }
      else none
    pages := []
    files := fun n =>
      if n = "../data/temp/EMP_Page0" then some [[1, 10], [1, 30], [2, 50], [2, 60], [3, 5]]
      else none
    sources := fun _ => none }

/-- `R <- GROUP BY DID FROM EMP HAVING AVG(SAL) > 20 RETURN MAX(SAL)`. -/
def queryGroupS5 : ParsedQuery :=
  { groupByRelationName := "EMP", groupByColumn := "DID", resultTableName := "R",
    havingFunction := "AVG", havingAttribute := "SAL", havingOperator := ">", havingValue := "20",
    returnFunction := "MAX", returnAttribute := "SAL" }

/-- `EMP(DID, SAL)` = `(1,-3),(1,-1)` on one page, nothing resident. -/
def stateNegative : State :=
  { tables := fun n =>
      if n = "EMP" then
        some { tableName := "EMP", sourceFileName := "../data/EMP.csv", columns := ["DID", "SAL"],
               columnCount := 2, rowCount := 2, blockCount := 1, maxRowsPerBlock := 4096000,
               rowsPerBlockCount := [2], multiColumnIndexData := [] }
      else none
    pages := []
    files := fun n => if n = "../data/temp/EMP_Page0" then some [[1, -3], [1, -1]] else none
    sources := fun _ => none }

/-- `R <- GROUP BY DID FROM EMP HAVING AVG(SAL) < 0 RETURN MAX(SAL)`. -/
def queryGroupNegative : ParsedQuery :=
  { groupByRelationName := "EMP", groupByColumn := "DID", resultTableName := "R",
    havingFunction := "AVG", havingAttribute := "SAL", havingOperator := "<", havingValue := "0",
    returnFunction := "MAX", returnAttribute := "SAL" }

/-- The aggregates as the specification defines them: "Aggregates use signed 64-bit
accumulation; AVG is integer division of SUM by COUNT", the division signed and truncating
toward zero. -/
def specAggregate (funcName : String) (values : List Int) : Int :=
  if funcName = "COUNT" then (values.length : Int)
  else if funcName = "SUM" then values.sum
  else if funcName = "AVG" then Int.tdiv values.sum (values.length : Int)
  else if funcName = "MAX" then values.foldl max (values.headD 0)
  else if funcName = "MIN" then values.foldl min (values.headD 0)
  else 0

/-! ## SORT (`executors/sort.cpp`) -/

/-- How a loop of an executor ends: normally, in undefined behaviour of the source, or with
the fuel used up. -/
inductive LoopResult (α : Type) where
  | finished (a : α)
  | undefined
  | outOfFuel

/-- `BufferManager::deletePage(tableName, pageIndex)`: drop the page from the pool and remove
its file. -/
def BufferManager.deletePage (s : State) (tableName : String) (pageIndex : Int) : State :=
  { s with pages := s.pages.filter (fun p => decide (p.pageName ≠ pageNameOf tableName pageIndex))
           files := setFile s.files (pageNameOf tableName pageIndex) none }

/-- Modelled from the spec: the body of `Table::buildIndices` is not among the sources:
"Build all-column indices: after blockify, for each column `c` and for every row, record
`(value_c → (pageIndex, rowIndexInPage))`.  Later identical keys overwrite earlier ones".
The loops are those `executeLOAD` spells out for the same purpose. -/
def Table.buildIndices (table : Table) (s : State) : Table × State :=
  buildAllIndices table s

/-- `readBlock(table, blockIndex)`: `rowsPerBlockCount[blockIndex]` calls of `getNext` on a
cursor opened on the block. -/
def readBlock (table : Table) (blockIndex : Nat) (s : State) : List Row × State :=
  let c := Cursor.create s table.tableName (blockIndex : Int)
  let r := getNextN (table.rowsPerBlockCount.getD blockIndex 0) c.1 c.2
  (r.1, r.2.2)

/-- The loop of `compareRows` over the sort columns and their strategies. -/
def compareRowsFrom (table : Table) (a b : Row) : List String → List SortingStrategy → Bool
  | [], _ => false
  | col :: cols, strategies =>
    let colIdx := table.getColumnIndex col
    if subscript a colIdx = subscript b colIdx then compareRowsFrom table a b cols strategies.tail
    else if strategies.head? = some SortingStrategy.ASC then
      decide (subscript a colIdx < subscript b colIdx)
    else decide (subscript a colIdx > subscript b colIdx)

/-- `compareRows(a, b, table)`: the lexicographic multi-key comparison, "a before b". -/
def compareRows (pq : ParsedQuery) (table : Table) (a b : Row) : Bool :=
  compareRowsFrom table a b pq.sortColumns pq.sortingStrategies

/-- Insert `x` into a sorted list, before the first element that is not before `x`. -/
def insertSorted (lt : Row → Row → Bool) (x : Row) : List Row → List Row
  | [] => [x]
  | y :: ys => if lt y x then y :: insertSorted lt x ys else x :: y :: ys

/-- `std::sort(begin, end, lt)`.  The standard leaves the order of equivalent elements open;
the model keeps their order (insertion sort). -/
def stdSort (lt : Row → Row → Bool) (rows : List Row) : List Row :=
  rows.foldr (insertSorted lt) []

/-- A sequence cut into pieces of `n` elements, the last one possibly shorter, as the
page-writing loops of the sort executors cut rows into pages and the merge passes cut the
runs into groups (`n > 0`; `fuel` bounds the number of pieces). -/
def chunksOf {α : Type} (n : Nat) : Nat → List α → List (List α)
  | 0, _ => []
  | fuel + 1, xs =>
    match xs with
    | [] => []
    | x :: rest => (x :: rest).take n :: chunksOf n fuel ((x :: rest).drop n)

/-- The local variables of phase 1 of `executeSORT`. -/
structure SortRuns where
  runPageNames : List String
  state : State
  endless : Bool

/-- One iteration of the run loop of `executeSORT`: read the blocks `startBlock .. endBlock`,
sort their rows and write them as pages of the run table `<table>_run_<k>`.  With
`maxRowsPerBlock = 0` the page-writing loop of a run that has a row never ends (`endless`). -/
def sortRun (pq : ParsedQuery) (table : Table) (numBlocks blocksPerRun : Nat) (acc : SortRuns)
    (startBlock : Nat) : SortRuns :=
  let endBlock := min (startBlock + blocksPerRun - 1) (numBlocks - 1)
  let read := (List.range (endBlock + 1 - startBlock)).foldl
    (fun (p : List Row × State) k =>
      let blockData := readBlock table (startBlock + k) p.2
      (p.1 ++ blockData.1, blockData.2))
    ([], acc.state)
  let runData := stdSort (compareRows pq table) read.1
  let tempRunTableName := table.tableName ++ "_run_" ++ toString (startBlock / blocksPerRun)
  (chunksOf table.maxRowsPerBlock runData.length runData).enum.foldl
    (fun (v : SortRuns) (pg : Nat × List Row) =>
      let tempPage := Page.ofRows tempRunTableName (pg.1 : Int) pg.2 (pg.2.length : Int)
      { v with runPageNames := v.runPageNames ++ [tempPage.pageName]
               state := { v.state with files := tempPage.writePage v.state.files } })
    { runPageNames := acc.runPageNames, state := read.2
      endless := acc.endless || (decide (table.maxRowsPerBlock = 0) && !runData.isEmpty) }

/-- The loops of `executeSORT` that delete the run pages: page `i` is deleted as page
`i % d` of run `i / d`, where `d = numBlocks / blocksPerRun`. -/
def deleteRunPages (table : Table) (d : Nat) (count : Nat) (s : State) : State :=
  (List.range count).foldl
    (fun st i => BufferManager.deletePage st (table.tableName ++ "_run_" ++ toString (i / d))
      ((i % d : Nat) : Int))
    s

/-- The local variables of phases 2 and 3 of `executeSORT`. -/
structure MergeVars where
  minHeap : List (Row × Nat)
  runCursors : List Cursor
  pageRows : List Row
  rowCounter : Nat
  pageCounter : Nat
  table : Table
  state : State

/-- The cursor-initialisation loop of `executeSORT`: one cursor per run page, opened on page
`i % d` of run `i / d`, and its first row pushed on the heap. -/
def initRunCursors (table : Table) (d : Nat) (count : Nat) (s : State) : MergeVars :=
  (List.range count).foldl
    (fun (v : MergeVars) i =>
      let c := Cursor.create v.state (table.tableName ++ "_run_" ++ toString (i / d))
        ((i % d : Nat) : Int)
      let r := c.1.getNext c.2
      { v with runCursors := v.runCursors ++ [r.2.1]
               minHeap := if r.1 ≠ [] then v.minHeap ++ [(r.1, i)] else v.minHeap
               state := r.2.2 })
    { minHeap := [], runCursors := [], pageRows := [], rowCounter := 0, pageCounter := 0,
      table := table, state := s }

/-- `minHeap.top()`: an element no other element is before; the first such element stands
for the one the heap would deliver. -/
def heapTop (lt : Row → Row → Bool) : List (Row × Nat) → Option (Row × Nat)
  | [] => none
  | e :: rest =>
    match heapTop lt rest with
    | none => some e
    | some m => if lt m.1 e.1 then some m else some e

/-- The merge loop of `executeSORT` (phase 3): pop the top of the heap, append it to the
page buffer, refill the heap from the cursor of its run, write the buffer when it is full. -/
def mergeLoop (pq : ParsedQuery) : Nat → MergeVars → LoopResult MergeVars
  | 0, _ => LoopResult.outOfFuel
  | fuel + 1, v =>
    match heapTop (compareRows pq v.table) v.minHeap with
    | none => LoopResult.finished v
    | some top =>
      match v.runCursors.get? top.2 with
      | none => LoopResult.undefined
      | some cursor =>
        let r := cursor.getNext v.state
        let popped := v.minHeap.erase top
        let v1 := { v with
          minHeap := if r.1 ≠ [] then popped ++ [(r.1, top.2)] else popped
          runCursors := v.runCursors.set top.2 r.2.1
          pageRows := v.pageRows ++ [top.1]
          rowCounter := v.rowCounter + 1
          state := r.2.2 }
        if v1.rowCounter = v1.table.maxRowsPerBlock then
          if v1.pageCounter < v1.table.rowsPerBlockCount.length then
            let resultPage := Page.ofRows v1.table.tableName (v1.pageCounter : Int) v1.pageRows
              (v1.rowCounter : Int)
            let table1 := { v1.table with
              rowsPerBlockCount := v1.table.rowsPerBlockCount.set v1.pageCounter v1.rowCounter }
            mergeLoop pq fuel { v1 with
              pageRows := [], rowCounter := 0, pageCounter := v1.pageCounter + 1, table := table1
              state := insertTable
                { v1.state with files := resultPage.writePage v1.state.files } table1 }
          else LoopResult.undefined
        else mergeLoop pq fuel v1

/-- The end of phase 3 of `executeSORT`: write the last, partially filled page and set
`blockCount` and the size of `rowsPerBlockCount` to the number of pages written. -/
def finishMerge (v : MergeVars) : Table × State :=
  let last :=
    if v.rowCounter > 0 then
      let resultPage := Page.ofRows v.table.tableName (v.pageCounter : Int) v.pageRows
        (v.rowCounter : Int)
      let counts :=
        if v.pageCounter < v.table.rowsPerBlockCount.length then
          v.table.rowsPerBlockCount.set v.pageCounter v.rowCounter
        else v.table.rowsPerBlockCount ++ [v.rowCounter]
      (counts, v.pageCounter + 1, resultPage.writePage v.state.files)
    else (v.table.rowsPerBlockCount, v.pageCounter, v.state.files)
  let table1 := { v.table with
    blockCount := last.2.1
    rowsPerBlockCount := last.1.take last.2.1 ++ List.replicate (last.2.1 - last.1.length) 0 }
  (table1, insertTable { v.state with files := last.2.2 } table1)

/-- `executeSORT`, with `blocksPerRun = BLOCK_COUNT`.  The divisor
`numBlocks / blocksPerRun` of the loops over the run pages is evaluated in their first
iteration; when it is 0 the division `i / 0` is undefined behaviour. -/
def executeSORT (fuel : Nat) (pq : ParsedQuery) (s : State) : Outcome :=
  match s.tables pq.sortRelationName with
  | none => Outcome.done s
  | some table =>
    let numBlocks := table.blockCount
    let blocksPerRun := BLOCK_COUNT
    let runs := ((List.range ((numBlocks + blocksPerRun - 1) / blocksPerRun)).map
      (fun k => k * blocksPerRun)).foldl (sortRun pq table numBlocks blocksPerRun)
      { runPageNames := [], state := s, endless := false }
    if runs.endless then Outcome.outOfFuel
    else if runs.runPageNames = [] then Outcome.done runs.state
    else if numBlocks / blocksPerRun = 0 then Outcome.undefined
    else if runs.runPageNames.length > BLOCK_COUNT - 1 then
      Outcome.done
        (deleteRunPages table (numBlocks / blocksPerRun) runs.runPageNames.length runs.state)
    else
      let v := initRunCursors table (numBlocks / blocksPerRun) runs.runPageNames.length runs.state
      match mergeLoop pq fuel v with
      | LoopResult.outOfFuel => Outcome.outOfFuel
      | LoopResult.undefined => Outcome.undefined
      | LoopResult.finished merged =>
        let written := finishMerge merged
        let cleaned := deleteRunPages table (numBlocks / blocksPerRun) runs.runPageNames.length
          written.2
        Outcome.done (written.1.buildIndices cleaned).2

/-- Scenario S4: `T(col)` with the rows `5,3,8,1,9,2,7,4,6` on one page, nothing resident. -/
def stateS4 : State :=
  { tables := fun n =>
      if n = "T" then
        some { tableName := "T", sourceFileName := "../data/T.csv", columns := ["col"],
               columnCount := 1, rowCount := 9, blockCount := 1, maxRowsPerBlock := 8192000,
               rowsPerBlockCount := [9], multiColumnIndexData := [] }
      else none
    pages := []
    files := fun n =>
      if n = "../data/temp/T_Page0" then some [[5], [3], [8], [1], [9], [2], [7], [4], [6]]
      else none
    sources := fun _ => none }

/-- `SORT T BY col IN ASC`. -/
def querySortS4 : ParsedQuery :=
  { sortRelationName := "T", sortColumns := ["col"], sortingStrategies := [SortingStrategy.ASC] }

/-- Whether an executor ended in undefined behaviour of the source. -/
def Outcome.isUndefined : Outcome → Bool
  | Outcome.undefined => true
  | _ => false

/-- A table `T(col)` with the rows `3,1,2` on three pages of one row each. -/
def stateThreePages : State :=
  { tables := fun n =>
      if n = "T" then
        some { tableName := "T", sourceFileName := "../data/T.csv", columns := ["col"],
               columnCount := 1, rowCount := 3, blockCount := 3, maxRowsPerBlock := 8192000,
               rowsPerBlockCount := [1, 1, 1], multiColumnIndexData := [] }
      else none
    pages := []
    files := fun n =>
      if n = "../data/temp/T_Page0" then some [[3]]
      else if n = "../data/temp/T_Page1" then some [[1]]
      else if n = "../data/temp/T_Page2" then some [[2]] else none
    sources := fun _ => none }

/-- A table `T(col)` with the rows `2,1,3` on two pages. -/
def stateTwoPages : State :=
  { tables := fun n =>
      if n = "T" then
        some { tableName := "T", sourceFileName := "../data/T.csv", columns := ["col"],
               columnCount := 1, rowCount := 3, blockCount := 2, maxRowsPerBlock := 8192000,
               rowsPerBlockCount := [2, 1], multiColumnIndexData := [] }
      else none
    pages := []
    files := fun n =>
      if n = "../data/temp/T_Page0" then some [[2], [1]]
      else if n = "../data/temp/T_Page1" then some [[3]] else none
    sources := fun _ => none }

/-! ## ORDER BY (`executors/orderby.cpp`) -/

/-- `compareRowsOrderBy(a, b, table)`: "a before b" on the single ORDER BY column. -/
def compareRowsOrderBy (pq : ParsedQuery) (table : Table) (a b : Row) : Bool :=
  let colIdx := table.getColumnIndex pq.orderByColumn
  if pq.orderByStrategy = SortingStrategy.ASC then decide (subscript a colIdx < subscript b colIdx)
  else decide (subscript a colIdx > subscript b colIdx)

/-- `readBlockOrderBy(table, blockIndex)`: `rowsPerBlockCount[blockIndex]` calls of `getNext`
on a cursor opened on the block. -/
def readBlockOrderBy (table : Table) (blockIndex : Nat) (s : State) : List Row × State :=
  let c := Cursor.create s table.tableName (blockIndex : Int)
  let r := getNextN (table.rowsPerBlockCount.getD blockIndex 0) c.1 c.2
  (r.1, r.2.2)

/-- The selection loop of `mergeMultipleRunsOrderBy`: the first run whose head no head of a
later run is before, with that head; `i` is the index of the first run of the list. -/
def bestRun (lt : Row → Row → Bool) : List (List Row) → Nat → Option (Nat × Row) →
    Option (Nat × Row)
  | [], _, best => best
  | [] :: rest, i, best => bestRun lt rest (i + 1) best
  | (currentRow :: _) :: rest, i, none => bestRun lt rest (i + 1) (some (i, currentRow))
  | (currentRow :: _) :: rest, i, some b =>
    if lt currentRow b.2 then bestRun lt rest (i + 1) (some (i, currentRow))
    else bestRun lt rest (i + 1) (some b)

/-- `mergeMultipleRunsOrderBy(runs, table)`: move the best head to the output until every run
is used up; `fuel` bounds the number of rows moved. -/
def mergeMultipleRunsOrderBy (lt : Row → Row → Bool) : Nat → List (List Row) → List Row
  | 0, _ => []
  | fuel + 1, runs =>
    match bestRun lt runs 0 none with
    | none => []
    | some b => b.2 :: mergeMultipleRunsOrderBy lt fuel (runs.modify List.tail b.1)

/-- One pass of phase 2 of `executeORDERBY`: merge the runs in groups of up to 9. -/
def mergePass (lt : Row → Row → Bool) (sortedRuns : List (List Row)) : List (List Row) :=
  (chunksOf 9 sortedRuns.length sortedRuns).map
    (fun runsToMerge => mergeMultipleRunsOrderBy lt (runsToMerge.map List.length).sum runsToMerge)

/-- Phase 2 of `executeORDERBY`: `while (sortedRuns.size() > 1)` merge passes; `fuel` bounds
the number of passes. -/
def mergeRuns (lt : Row → Row → Bool) : Nat → List (List Row) → List (List Row)
  | 0, sortedRuns => sortedRuns
  | fuel + 1, sortedRuns =>
    if sortedRuns.length > 1 then mergeRuns lt fuel (mergePass lt sortedRuns) else sortedRuns

/-- One iteration of the run loop of `executeORDERBY`: read up to 10 blocks from
`startBlock` on and sort their rows. -/
def orderByRun (pq : ParsedQuery) (sourceTable : Table) (numBlocks : Nat)
    (acc : List (List Row) × State) (startBlock : Nat) : List (List Row) × State :=
  let endBlock := min (startBlock + 10 - 1) (numBlocks - 1)
  let read := (List.range (endBlock + 1 - startBlock)).foldl
    (fun (p : List Row × State) k =>
      let blockData := readBlockOrderBy sourceTable (startBlock + k) p.2
      (p.1 ++ blockData.1, blockData.2))
    ([], acc.2)
  (acc.1 ++ [stdSort (compareRowsOrderBy pq sourceTable) read.1], read.2)

/-- The page-writing loop of `executeORDERBY`: page `i` of the result is written straight to
its file. -/
def writeResultPages (tableName : String) (pages : List (List Row))
    (files : String → Option (List (List Int))) : String → Option (List (List Int)) :=
  pages.enum.foldl
    (fun fs pg => (Page.ofRows tableName (pg.1 : Int) pg.2 (pg.2.length : Int)).writePage fs)
    files

/-- `executeORDERBY`.  A source relation that is not registered is dereferenced as a null
pointer, and `sortedRuns[0]` of a relation without blocks is a subscript outside the vector;
a result table with `maxRowsPerBlock = 0` makes the page-writing loop run forever.  (The
distinct-value statistics are not modelled.) -/
def executeORDERBY (pq : ParsedQuery) (s : State) : Outcome :=
  match s.tables pq.orderByRelationName with
  | none => Outcome.undefined
  | some sourceTable =>
    let numBlocks := sourceTable.blockCount
    let runs := ((List.range ((numBlocks + 9) / 10)).map (fun k => k * 10)).foldl
      (orderByRun pq sourceTable numBlocks) ([], s)
    match mergeRuns (compareRowsOrderBy pq sourceTable) runs.1.length runs.1 with
    | [] => Outcome.undefined
    | sortedData :: _ =>
      let resultTable := Table.create pq.orderByResultRelationName sourceTable.columns
      let s1 := resultTable.createFile runs.2
      if resultTable.maxRowsPerBlock = 0 ∧ sortedData ≠ [] then Outcome.outOfFuel
      else
        let pages := chunksOf resultTable.maxRowsPerBlock sortedData.length sortedData
        let table1 := { resultTable with
          rowCount := (sortedData.length : Int)
          rowsPerBlockCount := pages.map List.length
          blockCount := pages.length }
        Outcome.done (insertTable
          { s1 with files := writeResultPages resultTable.tableName pages s1.files } table1)

/-- `R <- ORDER BY DID DESC ON E` on scenario S3. -/
def queryOrderS3 : ParsedQuery :=
  { orderByResultRelationName := "R", orderByColumn := "DID", orderByRelationName := "E",
    orderByStrategy := SortingStrategy.DESC }

/-- No resident page carries a page name of table `name`. -/
def Fresh (s : State) (name : String) : Prop :=
  ∀ p ∈ s.pages, ∀ j : Nat, p.pageName ≠ pageNameOf name (j : Int)

/-- The state `s2` arises from `s1` by page fetches for table `name`: catalogue and source
files are the same, consistent tables stay consistent, and no page of another table has
become resident. -/
def ReadsOf (name : String) (s1 s2 : State) : Prop :=
  s2.tables = s1.tables ∧ s2.sources = s1.sources ∧
    (∀ n pg, Held s1 n pg → Held s2 n pg) ∧
    (∀ other, other ≠ name → Fresh s1 other → Fresh s2 other)

/-! ## INSERT (`executors/insert.cpp`) -/

/-- The loop of `executeINSERT` that fills `rowToInsert`: `rowToInsert[colIdx] = value` for
each assignment; `none` when a column is not found. -/
def insertRowValues (table : Table) : List (String × Int) → Row → Option Row
  | [], rowToInsert => some rowToInsert
  | pair :: rest, rowToInsert =>
    let colIdx := table.getColumnIndex pair.1
    if colIdx < 0 then none
    else insertRowValues table rest (rowToInsert.set colIdx.toNat pair.2)

/-- The index loop of `executeINSERT`: for every column that has an index,
`multiColumnIndexData[colName][key] = location`. -/
def insertIndexUpdate (table : Table) (rowToInsert : Row) (location : RowLocation) :
    List (String × IndexMap) :=
  (List.range table.columnCount).foldl
    (fun indexData colIdx =>
      let colName := table.columns.getD colIdx ""
      let key := rowToInsert.getD colIdx 0
      match indexData.lookup colName with
      | some index => setColumnIndex indexData colName (index.assign key location)
      | none => indexData)
    table.multiColumnIndexData

/-- Steps 4 and 5 of `executeINSERT` and its end: count the row, update the indices, drop the
resident pages of the table.  The table object is the one registered in the catalogue. -/
def finishInsert (table : Table) (rowToInsert : Row) (location : RowLocation) (s : State) :
    State :=
  let table1 := { table with
    rowCount := table.rowCount + 1
    multiColumnIndexData := insertIndexUpdate table rowToInsert location }
  clearPoolForTable (insertTable s table1) table.tableName

/-- `executeINSERT`. -/
def executeINSERT (pq : ParsedQuery) (s : State) : State :=
  match s.tables pq.tableName with
  | none => s
  | some table =>
    match insertRowValues table pq.insertColumnsAndValues (List.replicate table.columnCount 0) with
    | none => s
    | some rowToInsert =>
      if table.blockCount > 0 then
        let lastPageIndex := table.blockCount - 1
        if lastPageIndex ≥ table.rowsPerBlockCount.length then s
        else
          let rowsInLastPage := table.rowsPerBlockCount.getD lastPageIndex 0
          if rowsInLastPage < table.maxRowsPerBlock then
            let r := getPage s table.tableName (lastPageIndex : Int)
            let pageData := ((List.range rowsInLastPage).map
              (fun (i : Nat) => r.1.getRow (i : Int))).filter (fun existingRow => existingRow ≠ [])
            if pageData.length ≠ rowsInLastPage then r.2
            else
              let s1 := BufferManager.writePage r.2 table.tableName (lastPageIndex : Int)
                (pageData ++ [rowToInsert]) ((pageData.length + 1 : Nat) : Int)
              let table1 := { table with
                rowsPerBlockCount := table.rowsPerBlockCount.set lastPageIndex (rowsInLastPage + 1) }
              finishInsert table1 rowToInsert ((lastPageIndex : Int), (rowsInLastPage : Int)) s1
          else
            let s1 := BufferManager.writePage s table.tableName (table.blockCount : Int)
              [rowToInsert] 1
            let table1 := { table with
              blockCount := table.blockCount + 1
              rowsPerBlockCount := table.rowsPerBlockCount ++ [1] }
            finishInsert table1 rowToInsert ((table.blockCount : Int), 0) s1
      else
        let s1 := BufferManager.writePage s table.tableName 0 [rowToInsert] 1
        let table1 := { table with
          blockCount := 1
          rowsPerBlockCount := table.rowsPerBlockCount ++ [1] }
        finishInsert table1 rowToInsert (0, 0) s1

/-- The location the specification gives an inserted row: "Append to the last page if
`rowsPerBlockCount[last] < maxRowsPerBlock`, else create a new page", page 0 for an empty
table. -/
def insertLocation (table : Table) : RowLocation :=
  if table.blockCount > 0 ∧
      table.rowsPerBlockCount.getD (table.blockCount - 1) 0 < table.maxRowsPerBlock then
    (((table.blockCount - 1 : Nat) : Int), ((table.rowsPerBlockCount.getD (table.blockCount - 1) 0 : Nat) : Int))
  else ((table.blockCount : Int), 0)

/-- The pages of a table after a row is inserted at the location of the specification. -/
def pagesAfterInsert (maxRowsPerBlock : Nat) (pages : List (List Row)) (row : Row) :
    List (List Row) :=
  if pages ≠ [] ∧ (pages.getLast?.getD []).length < maxRowsPerBlock then
    pages.dropLast ++ [pages.getLast?.getD [] ++ [row]]
  else pages ++ [[row]]

/-- The invariants of the table metadata: `rowCount` is the sum of `rowsPerBlockCount` (I1),
`rowsPerBlockCount` has `blockCount` entries, and no page holds more than `maxRowsPerBlock`
rows. -/
def MetadataOk (t : Table) : Prop :=
  t.rowCount = ((t.rowsPerBlockCount.sum : Nat) : Int) ∧
    t.rowsPerBlockCount.length = t.blockCount ∧
    ∀ n ∈ t.rowsPerBlockCount, n ≤ t.maxRowsPerBlock

/-- Scenario S6: `T(A,B)` with the rows `(1,10),(2,20)` on one page and an index on each
column; page 0 is resident. -/
def stateS6 : State :=
  { tables := fun n =>
      if n = "T" then
        some { tableName := "T", sourceFileName := "../data/T.csv", columns := ["A", "B"],
               columnCount := 2, rowCount := 2, blockCount := 1, maxRowsPerBlock := 4096000,
               rowsPerBlockCount := [2],
               multiColumnIndexData :=
                 [("A", [(1, (0, 0)), (2, (0, 1))]), ("B", [(10, (0, 0)), (20, (0, 1))])] }
      else none
    pages := [{ tableName := "T", pageName := "../data/temp/T_Page0", columnCount := 2,
                rowCount := 2, rows := [[1, 10], [2, 20]], pageIndex := 0 }]
    files := fun n => if n = "../data/temp/T_Page0" then some [[1, 10], [2, 20]] else none
    sources := fun _ => none }

/-- `INSERT INTO T ( A = 3, B = 30 )`. -/
def queryInsertS6 : ParsedQuery :=
  { tableName := "T", insertColumnsAndValues := [("A", 3), ("B", 30)] }

/-- `INSERT INTO T ( B = 30 )`. -/
def queryInsertB : ParsedQuery :=
  { tableName := "T", insertColumnsAndValues := [("B", 30)] }

/-! ## UPDATE (`executors/update.cpp`) -/

/-- The body of the row loop of `executeUPDATE` on one buffered row: the row after the step
and whether it was modified.  A row too short for one of the two columns is skipped; a row
that satisfies the condition is written only when its target value differs. -/
def updateRow (whereColIdx targetColIdx condVal : Int) (opEnum : BinaryOperator) (newVal : Int)
    (row : Row) : Row × Bool :=
  if whereColIdx ≥ (row.length : Int) ∨ targetColIdx ≥ (row.length : Int) then (row, false)
  else if evaluateBinOp (subscript row whereColIdx) condVal opEnum then
    if subscript row targetColIdx ≠ newVal then (row.set targetColIdx.toNat newVal, true)
    else (row, false)
  else (row, false)

/-- The body of the page loop of `executeUPDATE`: the state and `totalRowsUpdated`.  The page
is fetched through the pool, its rows are copied into `pageData`, and a modified `pageData` is
handed to `BufferManager::writePage`. -/
def updatePage (table : Table) (whereColIdx targetColIdx condVal : Int)
    (opEnum : BinaryOperator) (newVal : Int) (acc : State × Nat) (pageIdx : Nat) : State × Nat :=
  let r := getPage acc.1 table.tableName (pageIdx : Int)
  if pageIdx ≥ table.rowsPerBlockCount.length then (r.2, acc.2)
  else
    let rowsInPage := table.rowsPerBlockCount.getD pageIdx 0
    let pageData := ((List.range rowsInPage).map
      (fun (i : Nat) => r.1.getRow (i : Int))).filter (fun row => row ≠ [])
    if pageData.length ≠ rowsInPage then (r.2, acc.2)
    else
      let updated := pageData.map (updateRow whereColIdx targetColIdx condVal opEnum newVal)
      let modified := (updated.filter (fun u => u.2)).length
      if modified > 0 then
        (BufferManager.writePage r.2 table.tableName (pageIdx : Int) (updated.map Prod.fst)
          (rowsInPage : Int), acc.2 + modified)
      else (r.2, acc.2)

/-- `executeUPDATE`.  The table object is the one registered in the catalogue (under its own
name), so `clearIndex()` changes the catalogue entry. -/
def executeUPDATE (pq : ParsedQuery) (s : State) : State :=
  match s.tables pq.tableName with
  | none => s
  | some table0 =>
    let table := if table0.multiColumnIndexData ≠ [] then table0.clearIndex else table0
    let s0 := insertTable s table
    let whereColIdx := table.getColumnIndex pq.selectionFirstColumnName
    let targetColIdx := table.getColumnIndex pq.renameFromColumnName
    match stoi pq.renameToColumnName with
    | none => s0
    | some newVal =>
      if whereColIdx < 0 ∨ targetColIdx < 0 then s0
      else
        let r := (List.range table.blockCount).foldl
          (updatePage table whereColIdx targetColIdx pq.selectionIntLiteral
            pq.selectionBinaryOperator newVal) (s0, 0)
        if r.2 > 0 then clearPoolForTable r.1 table.tableName else r.1

/-! ## DELETE (`executors/delete.cpp`) -/

/-- The local variables of the page loop of `executeDELETE`. -/
structure DeleteVars where
  state : State
  totalRowsDeleted : Nat
  newRowsPerBlockCount : List Nat

/-- The body of the page loop of `executeDELETE`; `none` when `rowsPerBlockCount[pageIdx]`
subscripts outside the vector.  Rows for which the condition is false (or that are too short
for the column) are kept; when a row was dropped the kept rows are handed to
`BufferManager::writePage`. -/
def deletePageRows (table : Table) (whereColIdx valueToCompare : Int) (op : BinaryOperator)
    (v : DeleteVars) (pageIdx : Nat) : Option DeleteVars :=
  let r := getPage v.state table.tableName (pageIdx : Int)
  if pageIdx ≥ table.rowsPerBlockCount.length then none
  else
    let originalRowsInPage := table.rowsPerBlockCount.getD pageIdx 0
    let currentPageData := ((List.range originalRowsInPage).map
      (fun (i : Nat) => r.1.getRow (i : Int))).filter (fun row => row ≠ [])
    if currentPageData.length ≠ originalRowsInPage then
      some { state := r.2, totalRowsDeleted := v.totalRowsDeleted,
             newRowsPerBlockCount := v.newRowsPerBlockCount ++ [originalRowsInPage] }
    else
      let rowsToKeep := currentPageData.filter (fun row =>
        decide (whereColIdx ≥ (row.length : Int)) ||
          !evaluateBinOp (subscript row whereColIdx) valueToCompare op)
      let rowsDeletedThisPage := currentPageData.length - rowsToKeep.length
      if rowsDeletedThisPage > 0 then
        some { state := BufferManager.writePage r.2 table.tableName (pageIdx : Int) rowsToKeep
                 (rowsToKeep.length : Int),
               totalRowsDeleted := v.totalRowsDeleted + rowsDeletedThisPage,
               newRowsPerBlockCount := v.newRowsPerBlockCount ++ [rowsToKeep.length] }
      else
        some { state := r.2, totalRowsDeleted := v.totalRowsDeleted,
               newRowsPerBlockCount := v.newRowsPerBlockCount ++ [originalRowsInPage] }

/-- `executeDELETE`.  The table object is the one registered in the catalogue (under its own
name); `blockCount` is not changed. -/
def executeDELETE (pq : ParsedQuery) (s : State) : Outcome :=
  match s.tables pq.tableName with
  | none => Outcome.done s
  | some table0 =>
    let table := if table0.multiColumnIndexData ≠ [] then table0.clearIndex else table0
    let s0 := insertTable s table
    let whereColIdx := table.getColumnIndex pq.selectionFirstColumnName
    if whereColIdx < 0 then Outcome.done s0
    else
      match (List.range table.blockCount).foldl
          (fun acc (pageIdx : Nat) => acc.bind (fun v =>
            deletePageRows table whereColIdx pq.selectionIntLiteral pq.selectionBinaryOperator v
              pageIdx))
          (some { state := s0, totalRowsDeleted := 0, newRowsPerBlockCount := [] }) with
      | none => Outcome.undefined
      | some v =>
        if v.totalRowsDeleted > 0 then
          let table1 := { table with
            rowCount := table.rowCount - (v.totalRowsDeleted : Int)
            rowsPerBlockCount := v.newRowsPerBlockCount }
          Outcome.done (clearPoolForTable (insertTable v.state table1) table.tableName)
        else Outcome.done v.state

/-- `UPDATE T WHERE col >= 0 SET col = 9`. -/
def queryUpdateAll : ParsedQuery :=
  { tableName := "T", selectionFirstColumnName := "col",
    selectionBinaryOperator := BinaryOperator.GEQ, selectionIntLiteral := 0,
    renameFromColumnName := "col", renameToColumnName := "9" }

/-- `DELETE FROM T WHERE col == 1`. -/
def queryDeleteOne : ParsedQuery :=
  { tableName := "T", selectionFirstColumnName := "col",
    selectionBinaryOperator := BinaryOperator.EQUAL, selectionIntLiteral := 1 }

/-- A table `T(col)` with the rows `1,2,3,4` on three pages: `1,2` on page 0, `3` on page 1 and
`4` on page 2; nothing resident. -/
def stateFourRows : State :=
  { tables := fun n =>
      if n = "T" then
        some { tableName := "T", sourceFileName := "../data/T.csv", columns := ["col"],
               columnCount := 1, rowCount := 4, blockCount := 3, maxRowsPerBlock := 8192000,
               rowsPerBlockCount := [2, 1, 1], multiColumnIndexData := [] }
      else none
    pages := []
    files := fun n =>
      if n = "../data/temp/T_Page0" then some [[1], [2]]
      else if n = "../data/temp/T_Page1" then some [[3]]
      else if n = "../data/temp/T_Page2" then some [[4]] else none
    sources := fun _ => none }

/-- The first `n` rows a fresh cursor on table `name` returns in state `s`. -/
def scanRows (n : Nat) (s : State) (name : String) : Option (List Row) :=
  (s.tables name).map (fun t => (getNextN n (t.getCursor s).1 (t.getCursor s).2).1)

/-! ## Buffer pool calls (`bufferManager.cpp`) -/

/-- `BufferManager::insertIntoPool(page)`: a resident page of the same name is erased, the
front page is dropped (not written) when the pool is full, and the page is appended. -/
def insertIntoPool (s : State) (page : Page) : State :=
  let pages1 := s.pages.eraseP (fun p => decide (p.pageName = page.pageName))
  let pages2 := if pages1.length ≥ BLOCK_COUNT then pages1.drop 1 else pages1
  { s with pages := pages2 ++ [page] }

/-- `BufferManager::deleteTablePages(tableName)`: drop every resident page whose name starts
with the page prefix of the table, and remove the `blockCount` page files of a registered
table. -/
def BufferManager.deleteTablePages (s : State) (tableName : String) : State :=
  let pfx := "../data/temp/" ++ tableName ++ "_Page"
  let pages := s.pages.filter (fun p => !(pfx.data.isPrefixOf p.pageName.data))
  match s.tables tableName with
  | some table =>
    { s with pages := pages
             files := (List.range table.blockCount).foldl
               (fun f (i : Nat) => setFile f (pageNameOf tableName (i : Int)) none) s.files }
  | none => { s with pages := pages }

/-- A call of one of the member functions of `BufferManager` that change the pool. -/
inductive PoolCall where
  | getPage (tableName : String) (pageIndex : Int)
  | insertIntoPool (page : Page)
  | deletePage (tableName : String) (pageIndex : Int)
  | deleteTablePages (tableName : String)
  | clearPoolForTable (tableName : String)

/-- The state after a call. -/
def PoolCall.run (s : State) : PoolCall → State
  | PoolCall.getPage tableName pageIndex => (LessSimpleRA.getPage s tableName pageIndex).2
  | PoolCall.insertIntoPool page => LessSimpleRA.insertIntoPool s page
  | PoolCall.deletePage tableName pageIndex => BufferManager.deletePage s tableName pageIndex
  | PoolCall.deleteTablePages tableName => BufferManager.deleteTablePages s tableName
  | PoolCall.clearPoolForTable tableName => LessSimpleRA.clearPoolForTable s tableName

/-- `BufferManager::inPool(pageName)`. -/
def inPool (s : State) (pageName : String) : Bool :=
  s.pages.any (fun p => decide (p.pageName = pageName))

/-- The page name a call accesses, when the call is an `insertIntoPool` or a `getPage` that
succeeds (the page is resident or its load does not fail); `none` for every other call. -/
def PoolCall.accessed (s : State) : PoolCall → Option String
  | PoolCall.getPage tableName pageIndex =>
    if inPool s (pageNameOf tableName pageIndex) = true ∨
        (Page.load s tableName pageIndex).pageIndex ≠ -1 then
      some (pageNameOf tableName pageIndex)
    else none
  | PoolCall.insertIntoPool page => some page.pageName
  | _ => none

/-- Run a sequence of accesses: the names accessed, in order, and the final state; `none`
when a call of the sequence is not an access. -/
def runAccesses : State → List PoolCall → Option (List String × State)
  | s, [] => some ([], s)
  | s, call :: rest =>
    match call.accessed s with
    | none => none
    | some name =>
      match runAccesses (call.run s) rest with
      | none => none
      | some r => some (name :: r.1, r.2)

/-- The number of accesses of the log (oldest first) that follow the last access of `name`;
the length of the log when `name` was never accessed. -/
def accessAge (log : List String) (name : String) : Nat :=
  log.reverse.indexOf name

/-- A registered table `Z` of one page that holds no row and has no page file. -/
def stateEmptyPage : State :=
  { tables := fun n =>
      if n = "Z" then
        some { tableName := "Z", sourceFileName := "../data/Z.csv", columns := ["A"],
               columnCount := 1, rowCount := 0, blockCount := 1, maxRowsPerBlock := 8192000,
               rowsPerBlockCount := [0], multiColumnIndexData := [] }
      else none
    pages := []
    files := fun _ => none
    sources := fun _ => none }

/-- The pool invariant (I3): at most `BLOCK_COUNT` resident pages, no two of the same name. -/
def PoolInv (s : State) : Prop :=
  s.pages.length ≤ BLOCK_COUNT ∧ (s.pages.map Page.pageName).Nodup

/-- The table object of scenario S2 after `Table::extractColumnNames` has read the header
`A,B,C`: three columns, `maxRowsPerBlock = 32768000 / (4 * 3) = 2730666`. -/
def tableS2 : Table := ((Table.new "T").extractColumnNames ["A", "B", "C"]).2

/-- A full scan of table `name`: the rows the loop
`while (!(row = cursor.getNext()).empty())` visits on a fresh cursor, in order; `none` when
the table is not registered or the fuel runs out before the cursor returns the empty row. -/
def fullScan (fuel : Nat) (s : State) (name : String) : Option (List Row) :=
  match s.tables name with
  | none => none
  | some t =>
    (cursorLoop (fun (acc : List Row) (src : Sources) (row : Row) => (acc ++ [row], src)) fuel []
      (t.getCursor s).1 (t.getCursor s).2).map (fun r => r.1)

/-- The metadata `(rowCount, blockCount, rowsPerBlockCount)` of table `name`. -/
def tableCounts (s : State) (name : String) : Option (Int × Nat × List Nat) :=
  (s.tables name).map (fun t => (t.rowCount, t.blockCount, t.rowsPerBlockCount))

/-! ## Index contents -/

/-- The row at row index `r` of page `p` of the pages of a table (empty when there is none). -/
def rowAt (pages : List (List Row)) (p r : Nat) : Row := (pages.getD p []).getD r []

/-- The `(value, location)` pairs of column `ci` over the rows of page `p`, in row order. -/
def pageEntries (ci : Nat) (pages : List (List Row)) (p : Nat) : List (Int × RowLocation) :=
  (List.range (pages.getD p []).length).map (fun (r : Nat) =>
    ((rowAt pages p r).getD ci 0, ((p : Int), (r : Int))))

/-- The `(value, location)` pairs of column `ci` over all rows, in page-then-row order. -/
def indexEntries (ci : Nat) (pages : List (List Row)) : List (Int × RowLocation) :=
  (List.range pages.length).flatMap (pageEntries ci pages)

/-- The state `s2` arises from `s1` by work on table `name` alone: the catalogue entries of the
other tables are the same, the other tables stay consistent, no table leaves the catalogue,
and no page becomes resident under a page name of a relation that is not in the catalogue. -/
def Frame (name : String) (s1 s2 : State) : Prop :=
  (∀ other, other ≠ name → s2.tables other = s1.tables other) ∧
    (∀ other, other ≠ name → ∀ pg, Held s1 other pg → Held s2 other pg) ∧
    (∀ n, s1.tables n ≠ none → s2.tables n ≠ none) ∧
    (∀ n, s2.tables n = none → Fresh s1 n → Fresh s2 n)

/-- The pages of `exampleTable` in `exampleState`. -/
def examplePages : List (List Row) := [[[1, 2], [3, 4]], [[5, 6]]]

/-! ## Index soundness (I4) over the reachable states -/

/-- Index soundness (I4) of the table registered as `name`: whenever the index of a column `c`
maps a value `v` to a location `(p, r)`, reading row `r` of page `p` through the buffer manager
yields a row that has column `c` and holds `v` there. -/
def IndexSound (s : State) (name : String) : Prop :=
  ∀ t, s.tables name = some t → ∀ c idx, t.multiColumnIndexData.lookup c = some idx →
    ∀ v loc, idx.lookup v = some loc →
      ∃ ci : Nat, t.getColumnIndex c = (ci : Int) ∧
        ci < ((getPage s name loc.1).1.getRow loc.2).length ∧
        ((getPage s name loc.1).1.getRow loc.2).getD ci 0 = v

/-- The states reached from an empty catalogue and an empty pool by `LOAD` commands for
relations that are not yet in the catalogue (what `semanticParseLOAD` admits) and by `INSERT`,
`UPDATE` and `DELETE` commands. -/
inductive Reachable : State → Prop where
  | init (s : State) (ht : ∀ n, s.tables n = none) (hp : s.pages = []) : Reachable s
  | load (s : State) (pq : ParsedQuery) (h : Reachable s)
      (hnew : s.tables pq.loadRelationName = none) : Reachable (executeLOAD pq s)
  | insert (s : State) (pq : ParsedQuery) (h : Reachable s) : Reachable (executeINSERT pq s)
  | update (s : State) (pq : ParsedQuery) (h : Reachable s) : Reachable (executeUPDATE pq s)
  | delete (s s' : State) (pq : ParsedQuery) (h : Reachable s)
      (hd : executeDELETE pq s = Outcome.done s') : Reachable s'

/-- Every entry of every index of `t` is the location of a row of `pages` that holds the key
of the entry in the column of the index. -/
def SoundOn (t : Table) (pages : List (List Row)) : Prop :=
  ∀ c idx, t.multiColumnIndexData.lookup c = some idx → ∀ e ∈ idx,
    ∃ ci p r : Nat, t.getColumnIndex c = (ci : Int) ∧ ci < t.columnCount ∧
      e.2 = ((p : Int), (r : Int)) ∧ p < pages.length ∧ r < (pages.getD p []).length ∧
      (rowAt pages p r).getD ci 0 = e.1

/-- The invariant of the reachable states: tables are registered under their own names, no
page is resident under a page name of a relation that is not in the catalogue, and a table
that has indices has distinct column names, consistent pages and sound indices. -/
def ReachInv (s : State) : Prop :=
  (∀ name t, s.tables name = some t → t.tableName = name) ∧
    (∀ name, s.tables name = none → Fresh s name) ∧
    (∀ name t, s.tables name = some t → t.multiColumnIndexData ≠ [] →
      t.columnCount = t.columns.length ∧ 0 < t.columnCount ∧ t.columns.Nodup ∧
      ∃ pages, Held s name pages ∧ SoundOn t pages)

/-- `INSERT INTO T ( A = 5, B = 6, C = 7 )`. -/
def queryInsertS2 : ParsedQuery :=
  { tableName := "T", insertColumnsAndValues := [("A", 5), ("B", 6), ("C", 7)] }

/-! ## Example states for page loads -/

/-- A table `T(A,B)` whose catalogue entry gives page 0 three rows while the page file holds
two complete rows and one further integer. -/
def stateShortPage : State :=
  { tables := fun n =>
      if n = "T" then
        some { tableName := "T", sourceFileName := "../data/T.csv", columns := ["A", "B"],
               columnCount := 2, rowCount := 3, blockCount := 1, maxRowsPerBlock := 4096000,
               rowsPerBlockCount := [3], multiColumnIndexData := [] }
      else none
    pages := []
    files := fun n => if n = "../data/temp/T_Page0" then some [[1, 2], [3, 4], [5]] else none
    sources := fun _ => none }

/-- A table `T(A,B)` whose catalogue entry gives page 0 one row while the page file holds two
rows. -/
def stateLongPage : State :=
  { tables := fun n =>
      if n = "T" then
        some { tableName := "T", sourceFileName := "../data/T.csv", columns := ["A", "B"],
               columnCount := 2, rowCount := 1, blockCount := 1, maxRowsPerBlock := 4096000,
               rowsPerBlockCount := [1], multiColumnIndexData := [] }
      else none
    pages := []
    files := fun n => if n = "../data/temp/T_Page0" then some [[1, 2], [3, 4]] else none
    sources := fun _ => none }

/-! ## RENAME (`Table::renameColumn`) -/

/-- `multiColumnIndexData.erase(colName)` on the outer `unordered_map`. -/
def eraseColumnIndex : List (String × IndexMap) → String → List (String × IndexMap)
  | [], _ => []
  | (c', m') :: rest, c =>
    if c' = c then eraseColumnIndex rest c else (c', m') :: eraseColumnIndex rest c

/-- The index update inside the loop of `Table::renameColumn`: when the column has an index
map, it is copied under the new name and the entry of the old name is erased. -/
def renameIndex (index : List (String × IndexMap)) (fromColumnName toColumnName : String) :
    List (String × IndexMap) :=
  match index.lookup fromColumnName with
  | some indexMapCopy =>
    eraseColumnIndex (setColumnIndex index toColumnName indexMapCopy) fromColumnName
  | none => index

/-- `Table::renameColumn`: the loop over the first `columnCount` names stops at the first name
equal to `fromColumnName`; there the index is rekeyed and the name is replaced.  Nothing
changes when no name matches. -/
def Table.renameColumn (t : Table) (fromColumnName toColumnName : String) : Table :=
  let columnCounter := findColumn fromColumnName (t.columns.take t.columnCount) 0
  if columnCounter < 0 then t
  else
    { t with multiColumnIndexData := renameIndex t.multiColumnIndexData fromColumnName toColumnName
             columns := t.columns.set columnCounter.toNat toColumnName }

/-- The table `T(A,B,C)` of scenario S2 with an index on column `A` only. -/
def tableIndexedA : Table :=
  { tableS2 with multiColumnIndexData := [("A", [(1, (0, 3)), (4, (0, 1)), (7, (0, 2))])] }

/-! ## Example inputs for SEARCH -/

/-- The catalogue entry of `T` in scenario S2 after `LOAD T`: four rows on one page and an
index on every column (the row `(1,20,30)` has overwritten the entry of key 1 in the index of
`A`). -/
def tableS2Loaded : Table :=
  { tableName := "T", sourceFileName := "../data/T.csv", columns := ["A", "B", "C"],
    columnCount := 3, rowCount := 4, blockCount := 1, maxRowsPerBlock := 2730666,
    rowsPerBlockCount := [4],
    multiColumnIndexData :=
      [("A", [(1, (0, 3)), (4, (0, 1)), (7, (0, 2))]),
       ("B", [(2, (0, 0)), (5, (0, 1)), (8, (0, 2)), (20, (0, 3))]),
       ("C", [(3, (0, 0)), (6, (0, 1)), (9, (0, 2)), (30, (0, 3))])] }

/-- `Y <- SEARCH FROM T WHERE A >= 4`. -/
def querySearchGeq : ParsedQuery :=
  { selectType := SelectType.INT_LITERAL, selectionBinaryOperator := BinaryOperator.GEQ,
    selectionResultRelationName := "Y", selectionRelationName := "T",
    selectionFirstColumnName := "A", selectionIntLiteral := 4 }

/-- `Y <- SEARCH FROM T WHERE A != 1`. -/
def querySearchNeq : ParsedQuery :=
  { selectType := SelectType.INT_LITERAL, selectionBinaryOperator := BinaryOperator.NOT_EQUAL,
    selectionResultRelationName := "Y", selectionRelationName := "T",
    selectionFirstColumnName := "A", selectionIntLiteral := 1 }

/-- `Y <- SEARCH FROM A WHERE X != 5`. -/
def querySearchGap : ParsedQuery :=
  { selectType := SelectType.INT_LITERAL, selectionBinaryOperator := BinaryOperator.NOT_EQUAL,
    selectionResultRelationName := "Y", selectionRelationName := "A",
    selectionFirstColumnName := "X", selectionIntLiteral := 5 }

/-! ## CROSS (`executors/cross.cpp`) -/

/-- The body of the inner loop of `executeCROSS`: the concatenation of the outer and the inner
row is written to the result relation. -/
def crossInnerBody (resultantTable : Table) (row1 : Row) (_ : Unit) (sources : Sources)
    (row2 : Row) : Unit × Sources :=
  ((), resultantTable.writeRow sources (row1 ++ row2))

/-- The outer loop `while (!row1.empty())` of `executeCROSS`, entered with the row `row1` that
`cursor1` has just returned: a fresh cursor on the second relation is scanned to its end, then
the first cursor moves on.  `none` when the fuel `n` of the outer loop or the fuel `fuel` of
an inner scan runs out. -/
def crossLoop (table2 resultantTable : Table) (fuel : Nat) :
    Nat → Row → Cursor → State → Option State
  | 0, _, _, _ => none
  | n + 1, row1, cursor1, s =>
    if row1 = [] then some s
    else
      let cursor2 := table2.getCursor s
      match cursorLoop (crossInnerBody resultantTable row1) fuel () cursor2.1 cursor2.2 with
      | none => none
      | some inner =>
        let r := cursor1.getNext inner.2.2
        crossLoop table2 resultantTable fuel n r.1 r.2.1 r.2.2

/-- The column names of the result of `executeCROSS`: every column name prefixed with the
name of its table and `_`. -/
def crossColumns (table1 table2 : Table) : List String :=
  table1.columns.map (fun col => table1.tableName ++ "_" ++ col) ++
    table2.columns.map (fun col => table2.tableName ++ "_" ++ col)

/-- `executeCROSS`.  The two relations are dereferenced without a test (the tests before only
print), the result relation is blockified and registered whatever `blockify` returns. -/
def executeCROSS (fuel : Nat) (pq : ParsedQuery) (s : State) : Outcome :=
  match s.tables pq.crossFirstRelationName, s.tables pq.crossSecondRelationName with
  | some table1, some table2 =>
    let resultantTable := Table.create pq.crossResultRelationName (crossColumns table1 table2)
    let cursor1 := table1.getCursor (resultantTable.createFile s)
    let cursor2 := table2.getCursor cursor1.2
    let r := cursor1.1.getNext cursor2.2
    match crossLoop table2 resultantTable fuel fuel r.1 r.2.1 r.2.2 with
    | none => Outcome.outOfFuel
    | some s1 =>
      let b := resultantTable.blockify s1
      Outcome.done (insertTable b.2.2 b.2.1)
  | _, _ => Outcome.undefined

/-- `R <- CROSS E D`. -/
def queryCrossS3 : ParsedQuery :=
  { crossResultRelationName := "R", crossFirstRelationName := "E", crossSecondRelationName := "D" }

/-- `R <- CROSS E E`. -/
def queryCrossSelf : ParsedQuery :=
  { crossResultRelationName := "R", crossFirstRelationName := "E", crossSecondRelationName := "E" }

/-- Scenario S3 with the column `DID` of `D` renamed to `DNO`, so that `E` and `D` share no
column name. -/
def stateS3Renamed : State :=
  match stateS3.tables "D" with
  | some d => insertTable stateS3 (d.renameColumn "DID" "DNO")
  | none => stateS3

/-- `R <- JOIN E, D ON DID DNO`. -/
def queryJoinRenamed : ParsedQuery :=
  { joinResultRelationName := "R", joinFirstRelationName := "E", joinSecondRelationName := "D",
    joinFirstColumnName := "DID", joinSecondColumnName := "DNO" }

/-- The catalogue entry that `R <- JOIN E, D ON DID DNO` registers in `stateS3Renamed`. -/
def tableJoinResult : Table :=
  { tableName := "R", sourceFileName := "../data/temp/R.csv",
    columns := ["EID", "DID", "DNO", "NAME_TAG"], columnCount := 4, rowCount := 3,
    blockCount := 1, maxRowsPerBlock := 2048000, rowsPerBlockCount := [3],
    multiColumnIndexData := [] }

/-- The catalogue entry that `R <- CROSS E D` registers in scenario S3. -/
def tableCrossResult : Table :=
  { tableName := "R", sourceFileName := "../data/temp/R.csv",
    columns := ["E_EID", "E_DID", "D_DID", "D_NAME_TAG"], columnCount := 4, rowCount := 6,
    blockCount := 1, maxRowsPerBlock := 2048000, rowsPerBlockCount := [6],
    multiColumnIndexData := [] }

/-! ## The text of source files (`Table::extractColumnNames`, `Table::blockify`,
`Table::writeRow`, `Table::makePermanent`) -/

/-- `getline(s, word, delim)` on the characters left in a string stream: the characters before
the first `delim` and the characters after it; `none` when nothing is left to extract. -/
def getline (delim : Char) (stream : List Char) : Option (List Char × List Char) :=
  if stream = [] then none
  else
    some (stream.takeWhile (fun c => decide (c ≠ delim)),
      (stream.dropWhile (fun c => decide (c ≠ delim))).drop 1)

/-- The trimming of `extractColumnNames` and `blockify`: the word without the characters of
`" \t\n\r\f\v"` (those of `isSpaceC`) at its two ends, empty when it has no other
character. -/
def trimWord (word : List Char) : List Char :=
  ((word.dropWhile isSpaceC).reverse.dropWhile isSpaceC).reverse

/-- The loop `while (getline(s, word, ','))` of `Table::extractColumnNames`: the trimmed words
of the header line in order.  Every call that succeeds consumes at least one character, so
the length of the line bounds the number of calls. -/
def headerLoop : Nat → List Char → List String
  | 0, _ => []
  | fuel + 1, stream =>
    match getline ',' stream with
    | none => []
    | some (word, rest) => String.mk (trimWord word) :: headerLoop fuel rest

/-- The trimmed words that `Table::extractColumnNames` sees in the header line. -/
def headerWords (firstLine : String) : List String :=
  headerLoop firstLine.length firstLine.data

/-- The column names of a header line with the comma-separated fields `fields`: the fields
with the white space around them trimmed; a last field without any character (nothing
follows the final comma) is not a name. -/
def specHeaderNames (fields : List (List Char)) : List String :=
  (if fields.getLast? = some [] then fields.dropLast else fields).map
    (fun f => String.mk (trimWord f))

/-- `Table::writeRow(row, fout)`: the values separated by `", "`, then `endl`. -/
def writeRowText (row : List String) : List Char :=
  List.intercalate [',', ' '] (row.map String.data) ++ ['\n']

/-- The loop `while (getline(fin, line))` over the content of a file: its lines.  Every call
that succeeds consumes at least one character, so the length of the content bounds the
number of calls. -/
def linesLoop : Nat → List Char → List String
  | 0, _ => []
  | fuel + 1, stream =>
    match getline '\n' stream with
    | none => []
    | some (line, rest) => String.mk line :: linesLoop fuel rest

/-- The lines of a file with the content `content`. -/
def fileLines (content : List Char) : List String := linesLoop content.length content

/-- The `for` loop over the columns of one data line in `Table::blockify`: the values stored
in the page buffer, whether all `columnCount` columns were read, and the rest of the line.  A
column is missing when `getline` fails; a word that is empty after trimming counts as 0; the
loop ends when `stoi` throws. -/
def parseColumns : Nat → List Char → List Int × Bool × List Char
  | 0, stream => ([], true, stream)
  | n + 1, stream =>
    match getline ',' stream with
    | none => ([], false, stream)
    | some (word, rest) =>
      if trimWord word = [] then
        let r := parseColumns n rest
        (0 :: r.1, r.2)
      else
        match stoi (String.mk (trimWord word)) with
        | none => ([], false, rest)
        | some v =>
          let r := parseColumns n rest
          (v :: r.1, r.2)

/-- One data line as `Table::blockify` reads it: the values it stores in the page buffer.  The
line counts as a row exactly when these are `columnCount` values: a line with a missing column
or an invalid integer ends the list early, and a line with further text other than white
space after the last column yields one value more. -/
def parseLine (columnCount : Nat) (line : String) : List Int :=
  let r := parseColumns columnCount line.data
  if r.2.1 then
    match getline '\n' r.2.2 with
    | some (remainingWord, _) => if remainingWord.all isSpaceC then r.1 else r.1 ++ [0]
    | none => r.1
  else r.1

/-- The source file that a file content denotes for `Table::load`: the trimmed words of the
first line, and the values of every further line read with as many columns as the first
line has words. -/
def parseSource (content : List Char) : SourceFile :=
  match fileLines content with
  | [] => { header := [], lines := [] }
  | firstLine :: rest =>
    { header := headerWords firstLine
      lines := rest.map (parseLine (headerWords firstLine).length) }

/-- The loop of `Table::makePermanent` that writes at most `rowCount` rows read by the cursor
and stops at the first empty row: the text written and the state after the reads. -/
def exportRows : Nat → Cursor → State → List Char × State
  | 0, _, s => ([], s)
  | n + 1, cursor, s =>
    let r := cursor.getNext s
    if r.1 = [] then ([], r.2.2)
    else
      let rest := exportRows n r.2.1 r.2.2
      (writeRowText (r.1.map (fun v => toString v)) ++ rest.1, rest.2)

/-- `Table::makePermanent`: the content written to `../data/<tableName>.csv` (the header, then
the rows read by a cursor) and the state afterwards, in which the file holds this content,
the table object in the catalogue has the new source file name, and a temporary source file
is deleted. -/
def Table.makePermanent (t : Table) (s : State) : List Char × State :=
  let newSourceFile := "../data/" ++ t.tableName ++ ".csv"
  let tempFileExists := containsSub "../data/temp/".data t.sourceFileName.data
  let oldSourceFile := t.sourceFileName
  let r := exportRows t.rowCount.toNat (Cursor.create s t.tableName 0).1
    (Cursor.create s t.tableName 0).2
  let content := writeRowText t.columns ++ r.1
  let written := { r.2 with sources := setFile r.2.sources newSourceFile (some (parseSource content)) }
  let s1 := insertTable written { t with sourceFileName := newSourceFile }
  (content,
    if tempFileExists = true ∧ oldSourceFile ≠ newSourceFile then
      { s1 with sources := setFile s1.sources oldSourceFile none }
    else s1)

/-- A column name that a header line carries unchanged: not empty, without comma and line
break, neither starting nor ending with white space. -/
def plainName (n : String) : Bool :=
  decide (n ≠ "") && !n.data.contains ',' && !n.data.contains '\n' &&
    !n.data.head?.any isSpaceC && !n.data.getLast?.any isSpaceC

/-- Two one-row relations with unusual column names: `P` with the columns `A` and the empty
name, `Q` with a column whose name holds a line break. -/
def stateOddNames : State :=
  { tables := fun n =>
      if n = "P" then
        some { tableName := "P", sourceFileName := "../data/temp/P.csv", columns := ["A", ""],
               columnCount := 2, rowCount := 1, blockCount := 1, maxRowsPerBlock := 4096000,
               rowsPerBlockCount := [1], multiColumnIndexData := [] }
      else if n = "Q" then
        some { tableName := "Q", sourceFileName := "../data/temp/Q.csv", columns := ["A\nB"],
               columnCount := 1, rowCount := 1, blockCount := 1, maxRowsPerBlock := 8192000,
               rowsPerBlockCount := [1], multiColumnIndexData := [] }
      else none
    pages := []
    files := fun n =>
      if n = "../data/temp/P_Page0" then some [[1, 2]]
      else if n = "../data/temp/Q_Page0" then some [[1]] else none
    sources := fun _ => none }

/-! ## Further example states and commands -/

/-- A relation `T(A,B)` with the rows `(1,2),(2,1)` on one page, nothing resident. -/
def stateSelfJoin : State :=
  { tables := fun n =>
      if n = "T" then
        some { tableName := "T", sourceFileName := "../data/T.csv", columns := ["A", "B"],
               columnCount := 2, rowCount := 2, blockCount := 1, maxRowsPerBlock := 4096000,
               rowsPerBlockCount := [2], multiColumnIndexData := [] }
      else none
    pages := []
    files := fun n => if n = "../data/temp/T_Page0" then some [[1, 2], [2, 1]] else none
    sources := fun _ => none }

/-- `R <- JOIN T, T ON A B`. -/
def queryJoinSelf : ParsedQuery :=
  { joinResultRelationName := "R", joinFirstRelationName := "T", joinSecondRelationName := "T",
    joinFirstColumnName := "A", joinSecondColumnName := "B" }

/-- `R <- JOIN E, E ON EID DID` (scenario S3, relation `E` joined with itself). -/
def queryJoinSelfS3 : ParsedQuery :=
  { joinResultRelationName := "R", joinFirstRelationName := "E", joinSecondRelationName := "E",
    joinFirstColumnName := "EID", joinSecondColumnName := "DID" }

/-- Two relations `A(x)` = `1` and `A_Page1(x)` = `2`, one page each, nothing resident. -/
def statePrefixNames : State :=
  { tables := fun n =>
      if n = "A" then
        some { tableName := "A", sourceFileName := "../data/A.csv", columns := ["x"],
               columnCount := 1, rowCount := 1, blockCount := 1, maxRowsPerBlock := 8192000,
               rowsPerBlockCount := [1], multiColumnIndexData := [] }
      else if n = "A_Page1" then
        some { tableName := "A_Page1", sourceFileName := "../data/A_Page1.csv", columns := ["x"],
               columnCount := 1, rowCount := 1, blockCount := 1, maxRowsPerBlock := 8192000,
               rowsPerBlockCount := [1], multiColumnIndexData := [] }
      else none
    pages := []
    files := fun n =>
      if n = "../data/temp/A_Page0" then some [[1]]
      else if n = "../data/temp/A_Page1_Page0" then some [[2]] else none
    sources := fun _ => none }

/-- The state `statePrefixNames` after page 0 of `A_Page1` and page 0 of `A` were fetched. -/
def statePrefixResident : State :=
  (getPage (getPage statePrefixNames "A_Page1" 0).2 "A" 0).2

/-- `SORT E BY DID IN DESC, EID IN ASC` on scenario S3. -/
def querySortS3 : ParsedQuery :=
  { sortRelationName := "E", sortColumns := ["DID", "EID"],
    sortingStrategies := [SortingStrategy.DESC, SortingStrategy.ASC] }

/-- `DELETE FROM T WHERE col >= 0`. -/
def queryDeleteAll : ParsedQuery :=
  { tableName := "T", selectionFirstColumnName := "col",
    selectionBinaryOperator := BinaryOperator.GEQ, selectionIntLiteral := 0 }

/-- `R <- ORDER BY col ASC ON T`. -/
def queryOrderT : ParsedQuery :=
  { orderByResultRelationName := "R", orderByColumn := "col", orderByRelationName := "T",
    orderByStrategy := SortingStrategy.ASC }

/-- `Q <- ORDER BY col ASC ON R`. -/
def queryOrderR : ParsedQuery :=
  { orderByResultRelationName := "Q", orderByColumn := "col", orderByRelationName := "R",
    orderByStrategy := SortingStrategy.ASC }

/-- A relation `R(col)` without rows and without blocks, as `executeORDERBY` registers it for
a source whose pages hold no row. -/
def stateNoBlocks : State :=
  { tables := fun n =>
      if n = "R" then
        some { tableName := "R", sourceFileName := "../data/temp/R.csv", columns := ["col"],
               columnCount := 1, rowCount := 0, blockCount := 0, maxRowsPerBlock := 8192000,
               rowsPerBlockCount := [], multiColumnIndexData := [] }
      else none
    pages := []
    files := fun _ => none
    sources := fun n =>
      if n = "../data/temp/R.csv" then some { header := ["col"], lines := [] } else none }

/-! ## The parser of GROUP BY (`executors/groupby.cpp`) -/

/-- `token.find(c)`: the position of the first `c`, `none` for `string::npos`. -/
def findChar (c : Char) (token : String) : Option Nat :=
  if token.data.indexOf c < token.data.length then some (token.data.indexOf c) else none

/-- `token.substr(pos, len)`. -/
def substr (token : String) (pos len : Nat) : String :=
  String.mk ((token.data.drop pos).take len)

/-- The assignment `parsedQuery.havingValue = stoi(...)` of an `int` to a `std::string`: the
overload `operator=(char)` is the one that applies, so the string becomes the one character
whose code is the low eight bits of the value. -/
def assignIntToString (v : Int) : String :=
  String.singleton (Char.ofNat (v % 256).toNat)

/-- `syntacticParseGROUPBY`: `none` when it prints a syntax error and returns false. -/
def syntacticParseGROUPBY (tokenizedQuery : List String) (pq : ParsedQuery) :
    Option ParsedQuery :=
  if tokenizedQuery.length ≠ 13 ∨ tokenizedQuery.getD 1 "" ≠ "<-" ∨
      tokenizedQuery.getD 2 "" ≠ "GROUP" ∨ tokenizedQuery.getD 3 "" ≠ "BY" ∨
      tokenizedQuery.getD 5 "" ≠ "FROM" ∨ tokenizedQuery.getD 7 "" ≠ "HAVING" ∨
      tokenizedQuery.getD 11 "" ≠ "RETURN" then none
  else
    let havingToken := tokenizedQuery.getD 8 ""
    match findChar '(' havingToken, findChar ')' havingToken with
    | some openParen, some closeParen =>
      if closeParen ≤ openParen + 1 then none
      else
        match stoi (tokenizedQuery.getD 10 "") with
        | none => none
        | some v =>
          let returnToken := tokenizedQuery.getD 12 ""
          match findChar '(' returnToken, findChar ')' returnToken with
          | some openParen2, some closeParen2 =>
            if closeParen2 ≤ openParen2 + 1 then none
            else
              some { pq with
                resultTableName := tokenizedQuery.getD 0 ""
                groupByColumn := tokenizedQuery.getD 4 ""
                tableName := tokenizedQuery.getD 6 ""
                havingFunction := substr havingToken 0 openParen
                havingAttribute := substr havingToken (openParen + 1) (closeParen - openParen - 1)
                havingOperator := tokenizedQuery.getD 9 ""
                havingValue := assignIntToString v
                returnFunction := substr returnToken 0 openParen2
                returnAttribute :=
                  substr returnToken (openParen2 + 1) (closeParen2 - openParen2 - 1) }
          | _, _ => none
    | _, _ => none

/-- The tokens of `R <- GROUP BY DID FROM EMP HAVING AVG(SAL) > 20 RETURN MAX(SAL)`. -/
def tokensGroupS5 : List String :=
  ["R", "<-", "GROUP", "BY", "DID", "FROM", "EMP", "HAVING", "AVG(SAL)", ">", "20", "RETURN",
    "MAX(SAL)"]

/-- The tokens of `R <- GROUP BY DID FROM EMP HAVING AVG(SAL) > 50000 RETURN MAX(SAL)`. -/
def tokensGroupLarge : List String :=
  ["R", "<-", "GROUP", "BY", "DID", "FROM", "EMP", "HAVING", "AVG(SAL)", ">", "50000", "RETURN",
    "MAX(SAL)"]

/-- The tokens of `R <- GROUP BY DID FROM EMP HAVING AVG(SAL) > 53 RETURN MAX(SAL)`. -/
def tokensGroupDigit : List String :=
  ["R", "<-", "GROUP", "BY", "DID", "FROM", "EMP", "HAVING", "AVG(SAL)", ">", "53", "RETURN",
    "MAX(SAL)"]


/-! ## Comparators and the merge of runs (`executors/sort.cpp`) -/

/-- A comparator "a before b" is a strict weak ordering: irreflexive, transitive, and with a
transitive incomparability relation. -/
def StrictWeakOrder (lt : Row → Row → Bool) : Prop :=
  (∀ a, lt a a = false) ∧
  (∀ a b c, lt a b = true → lt b c = true → lt a c = true) ∧
  (∀ a b c, lt a b = false → lt b a = false → lt b c = false → lt c b = false →
    lt a c = false ∧ lt c a = false)

/-- Neither row is before the other. -/
def incomparable (lt : Row → Row → Bool) (a b : Row) : Bool := !lt a b && !lt b a

/-- `MergeElementSort::operator>`: `compareRows(other.row, this->row, tablePtr)`; an element
is a row with the index of its run. -/
def MergeElementSort.gt (pq : ParsedQuery) (table : Table) (this other : Row × Nat) : Bool :=
  compareRows pq table other.1 this.1

/-- `mergeMultipleRuns(runs, table)` of `sort.cpp`: the loops of `mergeMultipleRunsOrderBy`
with `compareRows` as the comparator. -/
def mergeMultipleRuns (pq : ParsedQuery) (table : Table) (fuel : Nat) (runs : List (List Row)) :
    List Row :=
  mergeMultipleRunsOrderBy (compareRows pq table) fuel runs

/-- The value of sort column number `i` in a row: `row[table->getColumnIndex(sortColumns[i])]`. -/
def sortValue (pq : ParsedQuery) (table : Table) (i : Nat) (row : Row) : Int :=
  subscript row (table.getColumnIndex (pq.sortColumns.getD i ""))

/-- `SORT E BY DID IN DESC, EID IN ASC` run on rows of `E`: the table object of scenario S3. -/
def tableE : Table :=
  { tableName := "E", sourceFileName := "../data/E.csv", columns := ["EID", "DID"],
    columnCount := 2, rowCount := 3, blockCount := 1, maxRowsPerBlock := 4096000,
    rowsPerBlockCount := [3], multiColumnIndexData := [] }


/-! ## Index lookups against the linear scan -/

/-- The rows a linear scan of `rows` selects for `row[ci] op v`: the reference the index path
of `executeSEARCH` is compared with. -/
def linearScanRows (rows : List Row) (ci : Nat) (op : BinaryOperator) (v : Int) : List Row :=
  rows.filter (fun row => evaluateBinOp (row.getD ci 0) v op)

/-- The indices of `t` are kept like `std::map`s over the rows of `pages`: every index is in
ascending key order, the index of a column has an entry for the value of the column in every
row, and only columns of the table have an index. -/
def KeyedOn (t : Table) (pages : List (List Row)) : Prop :=
  (∀ c idx, t.multiColumnIndexData.lookup c = some idx → idx.Pairwise (fun a b => a.1 < b.1)) ∧
  (∀ ci, ci < t.columnCount → ∀ idx,
    t.multiColumnIndexData.lookup (t.columns.getD ci "") = some idx →
    ∀ row ∈ pages.flatten, ∃ e ∈ idx, e.1 = row.getD ci 0) ∧
  (∀ c, c ∉ t.columns → t.multiColumnIndexData.lookup c = none)

/-- The invariant of the indexed tables of the reachable states: a table that has indices has
distinct column names, consistent and non-empty pages, and indices that are sound and keyed on
these pages. -/
def IndexedInv (s : State) : Prop :=
  ∀ name t, s.tables name = some t → t.multiColumnIndexData ≠ [] →
    t.columnCount = t.columns.length ∧ 0 < t.columnCount ∧ t.columns.Nodup ∧
    ∃ pages, Held s name pages ∧ (∀ p ∈ pages, p ≠ []) ∧ SoundOn t pages ∧ KeyedOn t pages

/-- `Y <- SEARCH FROM T WHERE B >= 5`. -/
def querySearchB : ParsedQuery :=
  { selectionResultRelationName := "Y", selectionRelationName := "T",
    selectionFirstColumnName := "B", selectionBinaryOperator := BinaryOperator.GEQ,
    selectionIntLiteral := 5, selectType := SelectType.INT_LITERAL }


/-- Scenario S2 after `LOAD T` and `INSERT INTO T ( A = 5, B = 6, C = 7 )`. -/
def stateS2Inserted : State := executeINSERT queryInsertS2 (executeLOAD queryLoadT stateS2)

/-! # Theorems -/

/-! ## Page names -/


theorem digitVal_digitChar (d : Nat) (h : d < 10) : digitVal (Nat.digitChar d) = d := by
  interval_cases d <;> rfl

theorem digitChar_ne_e (d : Nat) (h : d < 10) : Nat.digitChar d ≠ 'e' := by
  interval_cases d <;> decide

theorem toDigitsCore_mem (fuel : Nat) : ∀ (n : Nat) (ds : List Char) (c : Char),
    c ∈ Nat.toDigitsCore 10 fuel n ds → c ∈ ds ∨ c ≠ 'e' := by
  induction fuel with
  | zero => intro n ds c h; left; simpa [Nat.toDigitsCore] using h
  | succ f ih =>
    intro n ds c h
    simp only [Nat.toDigitsCore] at h
    split at h
    · rcases List.mem_cons.1 h with h | h
      · right; rw [h]; exact digitChar_ne_e _ (Nat.mod_lt _ (by decide))
      · left; exact h
    · rcases ih _ _ _ h with h | h
      · rcases List.mem_cons.1 h with h | h
        · right; rw [h]; exact digitChar_ne_e _ (Nat.mod_lt _ (by decide))
        · left; exact h
      · right; exact h

theorem toDigitsCore_val (fuel : Nat) : ∀ (n : Nat) (ds : List Char), n < fuel →
    (Nat.toDigitsCore 10 fuel n ds).foldl (fun a c => 10 * a + digitVal c) 0
      = ds.foldl (fun a c => 10 * a + digitVal c) n := by
  induction fuel with
  | zero => intro n ds h; omega
  | succ f ih =>
    intro n ds h
    simp only [Nat.toDigitsCore]
    split
    · rename_i h0
      have : n < 10 := by
        by_contra hc
        have : 1 ≤ n / 10 := Nat.div_pos (by omega) (by decide)
        omega
      simp only [List.foldl, Nat.mod_eq_of_lt this, digitVal_digitChar _ this, Nat.mul_zero,
        Nat.zero_add]
    · rename_i h0
      have hlt : n / 10 < f := by
        have : n / 10 < n := Nat.div_lt_self (by by_contra hc; simp at hc; simp [hc] at h0) (by decide)
        omega
      rw [ih _ _ hlt]
      simp only [List.foldl, digitVal_digitChar _ (Nat.mod_lt n (by decide : 0 < 10))]
      congr 1
      omega

theorem toDigits_injective (a b : Nat) (h : Nat.toDigits 10 a = Nat.toDigits 10 b) : a = b := by
  have ha := toDigitsCore_val (a + 1) a [] (by omega)
  have hb := toDigitsCore_val (b + 1) b [] (by omega)
  simp only [List.foldl] at ha hb
  unfold Nat.toDigits at h
  rw [h] at ha
  omega

theorem toDigits_no_e (n : Nat) : 'e' ∉ Nat.toDigits 10 n := by
  intro h
  rcases toDigitsCore_mem _ _ _ _ h with h | h
  · simp at h
  · exact h rfl

theorem toString_natCast_data (n : Nat) : (toString (n : Int)).data = Nat.toDigits 10 n := by
  rfl

theorem append_page_cancel (l1 l2 d1 d2 : List Char) (h1 : 'e' ∉ d1) (h2 : 'e' ∉ d2)
    (h : l1 ++ ['_', 'P', 'a', 'g', 'e'] ++ d1 = l2 ++ ['_', 'P', 'a', 'g', 'e'] ++ d2) :
    l1 = l2 ∧ d1 = d2 := by
  have key : ∀ (x y e1 e2 : List Char), 'e' ∉ e1 →
      x ++ ['_', 'P', 'a', 'g', 'e'] ++ e1 = y ++ ['_', 'P', 'a', 'g', 'e'] ++ e2 →
      ∀ a', y ++ ['_', 'P', 'a', 'g', 'e'] = x ++ ['_', 'P', 'a', 'g', 'e'] ++ a' → e1 = a' ++ e2 → a' = [] := by
    intro x y e1 e2 he1 _ a' hb hd
    by_contra hne
    have hlast : (y ++ ['_', 'P', 'a', 'g', 'e']).getLast? = some 'e' := by
      simp [List.getLast?_append]
    rw [hb, List.getLast?_append_of_ne_nil _ hne] at hlast
    have : 'e' ∈ a' := List.mem_of_getLast?_eq_some hlast
    exact he1 (by rw [hd]; exact List.mem_append_left _ this)
  rcases List.append_eq_append_iff.1 h with ⟨a', hb, hd⟩ | ⟨c', ha, hd⟩
  · have := key l1 l2 d1 d2 h1 h a' hb hd
    subst this
    simp at hb hd
    exact ⟨hb.symm, hd⟩
  · have := key l2 l1 d2 d1 h2 h.symm c' ha hd
    subst this
    simp at ha hd
    exact ⟨ha, hd.symm⟩

/-- Page names determine the table name and the (non-negative) page index. -/
theorem pageNameOf_injective (t1 t2 : String) (i j : Nat)
    (h : pageNameOf t1 (i : Int) = pageNameOf t2 (j : Int)) : t1 = t2 ∧ i = j := by
  have hd := congrArg String.data h
  simp only [pageNameOf, String.data_append, toString_natCast_data] at hd
  have hd' : ("../data/temp/".data ++ t1.data) ++ ['_', 'P', 'a', 'g', 'e'] ++ Nat.toDigits 10 i
      = ("../data/temp/".data ++ t2.data) ++ ['_', 'P', 'a', 'g', 'e'] ++ Nat.toDigits 10 j := by
    simpa using hd
  obtain ⟨hl, hdig⟩ := append_page_cancel _ _ _ _ (toDigits_no_e i) (toDigits_no_e j) hd'
  refine ⟨?_, toDigits_injective _ _ hdig⟩
  have := List.append_cancel_left hl
  exact String.ext this

theorem pageNameOf_ne_empty (t : String) (i : Int) : pageNameOf t i ≠ "" := by
  intro h
  have hd := congrArg String.data h
  simp [pageNameOf, String.data_append] at hd

/-! ## Reading pages back -/

theorem readRow_append (r : Row) (rest : List Int) : readRow r.length (r ++ rest) = some (r, rest) := by
  induction r with
  | nil => simp [readRow]
  | cons a r ih => simp [readRow, ih]

theorem readRows_flatten (cc : Nat) (rows : List Row) (extra : List Int)
    (hw : ∀ r ∈ rows, r.length = cc) :
    readRows cc rows.length (rows.flatten ++ extra) = (rows, true) := by
  induction rows with
  | nil => simp [readRows]
  | cons r rows ih =>
    have hr : r.length = cc := hw r (List.mem_cons_self _ _)
    have ih' := ih (fun x hx => hw x (List.mem_cons_of_mem _ hx))
    simp only [List.length_cons, readRows, List.flatten_cons, List.append_assoc]
    rw [← hr, readRow_append]
    simp only
    rw [hr, ih']

theorem Page.load_congr (s s' : State) (tn : String) (pi : Int) (ht : s'.tables = s.tables)
    (hf : s'.files (pageNameOf tn pi) = s.files (pageNameOf tn pi)) :
    Page.load s' tn pi = Page.load s tn pi := by
  unfold Page.load
  rw [ht, hf]

theorem Page.load_valid (s : State) (tn : String) (pi : Int)
    (h : (Page.load s tn pi).pageIndex ≠ -1) :
    (Page.load s tn pi).pageName = pageNameOf tn pi ∧ (Page.load s tn pi).pageIndex = pi
      ∧ 0 ≤ pi ∧ ∃ t, s.tables tn = some t ∧ pi < (t.blockCount : Int) := by
  unfold Page.load at h ⊢
  cases ht : s.tables tn with
  | none => simp [ht, Page.empty] at h
  | some t =>
    simp only [ht] at h ⊢
    by_cases h1 : pi < 0 ∨ pi ≥ (t.blockCount : Int)
    · simp [h1, Page.empty] at h
    · have h0 : 0 ≤ pi := by omega
      simp only [h1, if_false] at h ⊢
      by_cases h2 : pi < (t.rowsPerBlockCount.length : Int)
      · simp only [h2, if_true] at h ⊢
        by_cases h3 : t.rowsPerBlockCount.getD pi.toNat 0 = 0
        · simp only [h3, if_true]
          exact ⟨trivial, trivial, h0, t, rfl, by omega⟩
        · simp only [h3, if_false] at h ⊢
          cases hf : s.files (pageNameOf tn pi) with
          | none => simp [hf, Page.empty] at h
          | some lines =>
            simp only [hf] at h ⊢
            by_cases h4 : (readRows t.columnCount (t.rowsPerBlockCount.getD pi.toNat 0) lines.flatten).2 = true
            · simp only [h4, if_true]
              exact ⟨trivial, trivial, h0, t, rfl, by omega⟩
            · rw [if_neg h4] at h
              exact absurd rfl h
      · simp [h2, Page.empty] at h

/-- Loading a page whose file starts with the token stream of `rows`. -/
theorem Page.load_of_file (s : State) (name : String) (i : Nat) (t : Table) (rows : List Row)
    (lines : List (List Int)) (extra : List Int)
    (ht : s.tables name = some t) (hi : i < t.blockCount) (hi2 : i < t.rowsPerBlockCount.length)
    (hlen : t.rowsPerBlockCount.getD i 0 = rows.length)
    (hw : ∀ r ∈ rows, r.length = t.columnCount)
    (hf : s.files (pageNameOf name i) = some lines) (hl : lines.flatten = rows.flatten ++ extra) :
    (Page.load s name i).rows = rows ∧ (Page.load s name i).pageIndex = i := by
  unfold Page.load
  simp only [ht]
  have h1 : ¬ ((i : Int) < 0 ∨ (i : Int) ≥ (t.blockCount : Int)) := by omega
  have h2 : (i : Int) < (t.rowsPerBlockCount.length : Int) := by omega
  simp only [h1, h2, if_false, if_true, Int.toNat_ofNat, hlen]
  split
  · rename_i h0
    have : rows = [] := List.length_eq_zero.1 h0
    simp [this]
  · simp only [hf, hl, readRows_flatten _ rows extra hw, if_true, and_self]

/-! ## The buffer manager keeps what a page holds -/

theorem getPage_hit (s : State) (tn : String) (pi : Int) (found : Page)
    (h : s.pages.find? (fun p => decide (p.pageName = pageNameOf tn pi)) = some found) :
    getPage s tn pi = (found, { s with pages := s.pages.eraseP (fun p => decide (p.pageName = pageNameOf tn pi)) ++ [found] }) := by
  simp only [getPage, h]

theorem getPage_fail (s : State) (tn : String) (pi : Int)
    (h : s.pages.find? (fun p => decide (p.pageName = pageNameOf tn pi)) = none)
    (hl : (Page.load s tn pi).pageIndex = -1) : getPage s tn pi = (Page.empty, s) := by
  simp only [getPage, h, hl, if_true]

theorem getPage_evict (s : State) (tn : String) (pi : Int) (ev : Page) (rest : List Page)
    (h : s.pages.find? (fun p => decide (p.pageName = pageNameOf tn pi)) = none)
    (hl : (Page.load s tn pi).pageIndex ≠ -1) (hp : s.pages = ev :: rest)
    (hfull : s.pages.length ≥ BLOCK_COUNT) :
    getPage s tn pi = (Page.load s tn pi,
      { s with files := ev.writePage s.files, pages := rest ++ [Page.load s tn pi] }) := by
  simp only [getPage, h, hl, if_false, hfull, if_true]
  rw [hp]

theorem getPage_room (s : State) (tn : String) (pi : Int)
    (h : s.pages.find? (fun p => decide (p.pageName = pageNameOf tn pi)) = none)
    (hl : (Page.load s tn pi).pageIndex ≠ -1) (hroom : ¬ s.pages.length ≥ BLOCK_COUNT) :
    getPage s tn pi = (Page.load s tn pi, { s with pages := s.pages ++ [Page.load s tn pi] }) := by
  simp only [getPage, h, hl, if_false, hroom]

/-- The four ways a `getPage` call can go. -/
theorem getPage_cases (s : State) (tn : String) (pi : Int) :
    (∃ found, s.pages.find? (fun p => decide (p.pageName = pageNameOf tn pi)) = some found ∧
      getPage s tn pi = (found, { s with pages := s.pages.eraseP (fun p => decide (p.pageName = pageNameOf tn pi)) ++ [found] })) ∨
    (s.pages.find? (fun p => decide (p.pageName = pageNameOf tn pi)) = none ∧
      (Page.load s tn pi).pageIndex = -1 ∧ getPage s tn pi = (Page.empty, s)) ∨
    (∃ ev rest, s.pages.find? (fun p => decide (p.pageName = pageNameOf tn pi)) = none ∧
      (Page.load s tn pi).pageIndex ≠ -1 ∧ s.pages = ev :: rest ∧ s.pages.length ≥ BLOCK_COUNT ∧
      getPage s tn pi = (Page.load s tn pi,
        { s with files := ev.writePage s.files, pages := rest ++ [Page.load s tn pi] })) ∨
    (s.pages.find? (fun p => decide (p.pageName = pageNameOf tn pi)) = none ∧
      (Page.load s tn pi).pageIndex ≠ -1 ∧ ¬ s.pages.length ≥ BLOCK_COUNT ∧
      getPage s tn pi = (Page.load s tn pi, { s with pages := s.pages ++ [Page.load s tn pi] })) := by
  cases hf : s.pages.find? (fun p => decide (p.pageName = pageNameOf tn pi)) with
  | some found => exact Or.inl ⟨found, rfl, getPage_hit s tn pi found hf⟩
  | none =>
    by_cases hl : (Page.load s tn pi).pageIndex = -1
    · exact Or.inr (Or.inl ⟨rfl, hl, getPage_fail s tn pi hf hl⟩)
    · by_cases hfull : s.pages.length ≥ BLOCK_COUNT
      · cases hp : s.pages with
        | nil => rw [hp] at hfull; simp [BLOCK_COUNT] at hfull
        | cons ev rest =>
          exact Or.inr (Or.inr (Or.inl ⟨ev, rest, rfl, hl, rfl, by rw [← hp]; exact hfull,
            getPage_evict s tn pi ev rest hf hl hp hfull⟩))
      · exact Or.inr (Or.inr (Or.inr ⟨rfl, hl, hfull, getPage_room s tn pi hf hl hfull⟩))

theorem getPage_fst (s : State) (tn : String) (pi : Int) : (getPage s tn pi).1 = viewPage s tn pi := by
  unfold viewPage
  rcases getPage_cases s tn pi with ⟨found, hf, h⟩ | ⟨hf, hl, h⟩ | ⟨ev, rest, hf, hl, _, _, h⟩ | ⟨hf, hl, _, h⟩
  · rw [h, hf]
  · rw [h, hf]; simp [hl]
  · rw [h, hf]; simp [hl]
  · rw [h, hf]; simp [hl]

theorem getPage_tables (s : State) (tn : String) (pi : Int) : (getPage s tn pi).2.tables = s.tables := by
  rcases getPage_cases s tn pi with ⟨found, hf, h⟩ | ⟨hf, hl, h⟩ | ⟨ev, rest, hf, hl, _, _, h⟩ | ⟨hf, hl, _, h⟩ <;>
    rw [h]

theorem getPage_sources (s : State) (tn : String) (pi : Int) :
    (getPage s tn pi).2.sources = s.sources := by
  rcases getPage_cases s tn pi with ⟨found, hf, h⟩ | ⟨hf, hl, h⟩ | ⟨ev, rest, hf, hl, _, _, h⟩ | ⟨hf, hl, _, h⟩ <;>
    rw [h]

theorem find?_name_none_iff (l : List Page) (n : String) :
    l.find? (fun p => decide (p.pageName = n)) = none ↔ n ∉ l.map Page.pageName := by
  simp only [List.find?_eq_none, decide_eq_true_eq, List.mem_map, not_exists, not_and]

theorem find?_name_some (l : List Page) (n : String) (p : Page)
    (h : l.find? (fun p => decide (p.pageName = n)) = some p) : p.pageName = n ∧ p ∈ l := by
  have h1 := List.find?_some h
  have h2 := List.mem_of_find?_eq_some h
  exact ⟨by simpa using h1, h2⟩

theorem writePage_other (ev : Page) (files : String → Option (List (List Int))) (n : String)
    (h : ev.pageName ≠ n) : ev.writePage files n = files n := by
  unfold Page.writePage
  split
  · rfl
  · simp only [setFile]
    rw [if_neg (fun e => h e.symm)]

theorem writePage_self (ev : Page) (files : String → Option (List (List Int)))
    (h1 : ev.pageName ≠ "") (h2 : 0 ≤ ev.pageIndex) :
    ev.writePage files ev.pageName = some ev.rows := by
  unfold Page.writePage
  rw [if_neg (by intro h; rcases h with h | h; exact h1 h; omega)]
  simp [setFile]

theorem getPage_mem (s : State) (tn : String) (pi : Int) (p : Page)
    (hp : p ∈ (getPage s tn pi).2.pages) :
    p ∈ s.pages ∨ (p = Page.load s tn pi ∧ (Page.load s tn pi).pageIndex ≠ -1) := by
  rcases getPage_cases s tn pi with ⟨found, hf, h⟩ | ⟨hf, hl, h⟩ | ⟨ev, rest, hf, hl, hpp, _, h⟩ | ⟨hf, hl, _, h⟩
  · rw [h] at hp
    simp only [List.mem_append, List.mem_singleton] at hp
    rcases hp with hp | hp
    · exact Or.inl ((List.eraseP_sublist _).subset hp)
    · rw [hp]; exact Or.inl (find?_name_some _ _ _ hf).2
  · rw [h] at hp; exact Or.inl hp
  · rw [h] at hp
    simp only [List.mem_append, List.mem_singleton] at hp
    rcases hp with hp | hp
    · rw [hpp]; exact Or.inl (List.mem_cons_of_mem _ hp)
    · exact Or.inr ⟨hp, hl⟩
  · rw [h] at hp
    simp only [List.mem_append, List.mem_singleton] at hp
    rcases hp with hp | hp
    · exact Or.inl hp
    · exact Or.inr ⟨hp, hl⟩

/-- The files after a `getPage` call: unchanged, or the evicted resident page written back. -/
theorem getPage_files (s : State) (tn : String) (pi : Int) :
    (getPage s tn pi).2.files = s.files ∨
      ∃ ev, ev ∈ s.pages ∧ (getPage s tn pi).2.files = ev.writePage s.files := by
  rcases getPage_cases s tn pi with ⟨found, hf, h⟩ | ⟨hf, hl, h⟩ | ⟨ev, rest, hf, hl, hpp, _, h⟩ | ⟨hf, hl, _, h⟩
  · rw [h]; exact Or.inl rfl
  · rw [h]; exact Or.inl rfl
  · rw [h]; exact Or.inr ⟨ev, by rw [hpp]; exact List.mem_cons_self _ _, rfl⟩
  · rw [h]; exact Or.inl rfl

theorem Held.getD_mem {pages : List (List Row)} {i : Nat} (hi : i < pages.length) :
    pages.getD i [] ∈ pages := by
  rw [List.getD_eq_getElem _ _ hi]
  exact List.getElem_mem _

/-- Loading page `i` of a table after its file was rewritten with rows of the right shape. -/
theorem Page.load_rows (s : State) (name : String) (i : Nat) (t : Table)
    (pages : List (List Row)) (lines : List (List Int)) (extra : List Int)
    (ht : s.tables name = some t) (hbc : t.blockCount = pages.length)
    (hrpb : t.rowsPerBlockCount = pages.map List.length)
    (hw : ∀ p ∈ pages, ∀ r ∈ p, r.length = t.columnCount) (hi : i < pages.length)
    (hf : s.files (pageNameOf name i) = some lines)
    (hl : lines.flatten = (pages.getD i []).flatten ++ extra) :
    (Page.load s name i).rows = pages.getD i [] ∧ (Page.load s name i).pageIndex = i := by
  have hi' : i < (pages.map List.length).length := by simpa using hi
  apply Page.load_of_file s name i t _ lines extra ht (by omega) (by rw [hrpb]; exact hi') _ _ hf hl
  · rw [hrpb]
    simp [List.getD_eq_getElem?_getD, List.getElem?_map, List.getElem?_eq_getElem hi]
  · intro r hr
    exact hw _ (Held.getD_mem hi) r hr

/-- A `getPage` call for any page keeps a consistent table consistent. -/
theorem Held_getPage (s : State) (tn : String) (pi : Int) (name : String)
    (pages : List (List Row)) (h : Held s name pages) :
    Held (getPage s tn pi).2 name pages := by
  obtain ⟨t, ht, htn, hbc, hrpb, hw, hd, hc⟩ := h
  have ht' : (getPage s tn pi).2.tables name = some t := by rw [getPage_tables]; exact ht
  refine ⟨t, ht', htn, hbc, hrpb, hw, ?_, ?_⟩
  · intro i hi
    rcases getPage_files s tn pi with hf | ⟨ev, hev, hf⟩
    · rw [Page.load_congr s _ name i (getPage_tables s tn pi) (by rw [hf])]
      exact hd i hi
    · by_cases hn : ev.pageName = pageNameOf name (i : Int)
      · obtain ⟨_, hrows, hidx⟩ := hc ev hev i hn
        have hfile : (getPage s tn pi).2.files (pageNameOf name i) = some ev.rows := by
          rw [hf, ← hn]
          apply writePage_self
          · rw [hn]; exact pageNameOf_ne_empty _ _
          · rw [hidx]; omega
        exact Page.load_rows _ name i t pages ev.rows [] ht' hbc hrpb hw hi hfile
          (by rw [hrows]; simp)
      · rw [Page.load_congr s _ name i (getPage_tables s tn pi)
          (by rw [hf]; exact writePage_other ev s.files _ hn)]
        exact hd i hi
  · intro p hpm j hj
    rcases getPage_mem s tn pi p hpm with h1 | ⟨h1, h2⟩
    · exact hc p h1 j hj
    · obtain ⟨hLn, _, hpi, t', ht2, hlt⟩ := Page.load_valid s tn pi h2
      rw [h1, hLn] at hj
      have hpi' : pi = ((pi.toNat : Nat) : Int) := (Int.toNat_of_nonneg hpi).symm
      rw [hpi'] at hj
      obtain ⟨e1, e2⟩ := pageNameOf_injective _ _ _ _ hj
      have epi : pi = (j : Int) := by rw [hpi', e2]
      subst e1
      subst epi
      rw [ht] at ht2
      cases ht2
      have hj' : j < pages.length := by omega
      rw [h1]
      exact ⟨hj', hd j hj'⟩

/-- On a consistent table `getPage` returns the page asked for. -/
theorem Held.getPage_rows {s : State} {name : String} {pages : List (List Row)}
    (h : Held s name pages) (i : Nat) (hi : i < pages.length) :
    (getPage s name (i : Int)).1.rows = pages.getD i [] ∧
      (getPage s name (i : Int)).1.pageIndex = (i : Int) := by
  obtain ⟨t, ht, htn, hbc, hrpb, hw, hd, hc⟩ := h
  rw [getPage_fst]
  unfold viewPage
  cases hf : s.pages.find? (fun p => decide (p.pageName = pageNameOf name (i : Int))) with
  | some found =>
    obtain ⟨h1, h2⟩ := find?_name_some _ _ _ hf
    exact (hc found h2 i h1).2
  | none =>
    simp only
    obtain ⟨h1, h2⟩ := hd i hi
    rw [if_neg (by rw [h2]; omega)]
    exact ⟨h1, h2⟩

/-! ## Forward scans -/

theorem Page.getRow_lt (p : Page) (j : Nat) (h : j < p.rows.length) :
    p.getRow (j : Int) = p.rows.getD j [] := by
  unfold Page.getRow
  simp only [Int.toNat_ofNat]
  rw [if_pos ⟨by omega, h⟩]

theorem Page.getRow_ge (p : Page) (j : Int) (h : (p.rows.length : Int) ≤ j) : p.getRow j = [] := by
  unfold Page.getRow
  split
  · rename_i h'
    have := h'.2
    omega
  · rfl

theorem getNext_inside (s : State) (c : Cursor) (j : Nat) (hj : c.pagePointer = (j : Int))
    (hlt : j < c.page.rows.length) (hrow : c.page.rows.getD j [] ≠ []) :
    c.getNext s = (c.page.rows.getD j [], { c with pagePointer := (j : Int) + 1 }, s) := by
  unfold Cursor.getNext
  simp only [hj, Page.getRow_lt c.page j hlt, hrow, if_false]

theorem getNext_exhausted (s : State) (c : Cursor) (h : Exhausted s c) :
    c.getNext s = ([], { c with pagePointer := c.pagePointer + 1 }, s) := by
  obtain ⟨t, ht, hlast, h0, hlen⟩ := h
  unfold Cursor.getNext
  simp only [Page.getRow_ge c.page c.pagePointer hlen, if_true, ht, Table.getNextPage]
  rw [if_neg hlast]
  simp only
  rw [if_neg (by intro hc; have := hc.1; omega)]

theorem getNextN_exhausted (s : State) (k : Nat) : ∀ c : Cursor, Exhausted s c →
    (getNextN k c s).1 = List.replicate k [] := by
  induction k with
  | zero => intro c _; rfl
  | succ k ih =>
    intro c h
    simp only [getNextN, getNext_exhausted s c h, List.replicate_succ]
    congr 1
    apply ih
    obtain ⟨t, ht, hlast, h0, hlen⟩ := h
    exact ⟨t, ht, hlast, by simp only; omega, by simp only; omega⟩

theorem getNextPage_advance (s : State) (c : Cursor) (t : Table) (name : String) (i : Nat)
    (ht : s.tables name = some t) (hname : c.tableName = name) (hidx : c.pageIndex = (i : Int))
    (hi : i + 1 < t.blockCount) :
    t.getNextPage c s =
      ({ c with
          page := (getPage s name ((i : Int) + 1)).1, pageIndex := (i : Int) + 1, pagePointer := 0 },
        (getPage s name ((i : Int) + 1)).2) := by
  unfold Table.getNextPage
  rw [if_pos (by rw [hidx]; omega)]
  unfold Cursor.nextPage
  rw [hname, ht]
  simp only [hidx]
  rw [if_pos ⟨by omega, by omega⟩]

theorem getNext_cross (s : State) (c : Cursor) (t : Table) (name : String) (i : Nat)
    (ht : s.tables name = some t) (hname : c.tableName = name) (hidx : c.pageIndex = (i : Int))
    (hi : i + 1 < t.blockCount)
    (hlen : (c.page.rows.length : Int) ≤ c.pagePointer)
    (hvalid : (getPage s name ((i : Int) + 1)).1.pageIndex ≠ -1) :
    c.getNext s = ((getPage s name ((i : Int) + 1)).1.getRow 0,
      { c with
          page := (getPage s name ((i : Int) + 1)).1, pageIndex := (i : Int) + 1, pagePointer := 1 },
      (getPage s name ((i : Int) + 1)).2) := by
  subst hname
  have hadv := getNextPage_advance s { c with pagePointer := c.pagePointer + 1 } t c.tableName i ht
    rfl hidx hi
  unfold Cursor.getNext
  simp only [Page.getRow_ge c.page c.pagePointer hlen, if_true, ht, hadv]
  rw [if_pos ⟨trivial, hvalid⟩]
  rfl

theorem remainingRows_inside (pages : List (List Row)) (i j : Nat)
    (hj : j < (pages.getD i []).length) :
    remainingRows pages i j = (pages.getD i []).getD j [] :: remainingRows pages i (j + 1) := by
  unfold remainingRows
  rw [List.drop_eq_getElem_cons hj, List.getD_eq_getElem _ _ hj]
  rfl

theorem remainingRows_cross (pages : List (List Row)) (i : Nat) (hi : i + 1 < pages.length)
    (hne : pages.getD (i + 1) [] ≠ []) :
    remainingRows pages i (pages.getD i []).length
      = (pages.getD (i + 1) []).getD 0 [] :: remainingRows pages (i + 1) 1 := by
  unfold remainingRows
  rw [List.drop_length, List.nil_append, List.drop_eq_getElem_cons hi, List.flatten_cons]
  rw [List.getD_eq_getElem _ _ hi] at hne ⊢
  cases hp : pages[i + 1] with
  | nil => exact absurd hp hne
  | cons r rs => simp

theorem remainingRows_end (pages : List (List Row)) (i : Nat) (hi : i + 1 = pages.length) :
    remainingRows pages i (pages.getD i []).length = [] := by
  unfold remainingRows
  rw [List.drop_length, List.nil_append, hi, List.drop_length]
  rfl

theorem Held_setSources (s : State) (X : Sources) (name : String) (pages : List (List Row))
    (h : Held s name pages) : Held { s with sources := X } name pages := h

/-- One `getNext` call of a cursor standing inside a consistent table with non-empty pages:
either nothing remains and the cursor is exhausted, or the call returns the next remaining
row and leaves the cursor standing before the rest. -/
theorem getNext_step (s : State) (c : Cursor) (name : String) (pages : List (List Row))
    (i j : Nat) (hh : Held s name pages) (hc : CursorAt c name pages i j)
    (hne : ∀ p ∈ pages, p ≠ []) (hrow : ∀ p ∈ pages, ∀ r ∈ p, r ≠ []) :
    (remainingRows pages i j = [] ∧ Exhausted s c) ∨
    ∃ row rest i' j', remainingRows pages i j = row :: rest ∧ row ≠ [] ∧
      (c.getNext s).1 = row ∧ CursorAt (c.getNext s).2.1 name pages i' j' ∧
      remainingRows pages i' j' = rest ∧ (c.getNext s).2.2.tables = s.tables ∧
      (c.getNext s).2.2.sources = s.sources ∧
      (∀ n pg, Held s n pg → Held (c.getNext s).2.2 n pg) := by
  obtain ⟨hname, hidx, hrows, hptr, hi, hj⟩ := hc
  have hh0 := hh
  obtain ⟨t, ht, htn, hbc, hrpb, hw, hp, hcp⟩ := hh
  by_cases hjlt : j < (pages.getD i []).length
  · right
    have hrj : (pages.getD i []).getD j [] ≠ [] := by
      apply hrow _ (Held.getD_mem hi)
      rw [List.getD_eq_getElem _ _ hjlt]
      exact List.getElem_mem _
    have hstep := getNext_inside s c j hptr (by rw [hrows]; exact hjlt) (by rw [hrows]; exact hrj)
    rw [hrows] at hstep
    refine ⟨_, _, i, j + 1, remainingRows_inside pages i j hjlt, hrj, by rw [hstep], ?_, rfl,
      by rw [hstep], by rw [hstep], by rw [hstep]; exact fun _ _ h => h⟩
    rw [hstep]
    exact ⟨hname, hidx, hrows, by push_cast; rfl, hi, hjlt⟩
  · have hjeq : j = (pages.getD i []).length := by omega
    subst hjeq
    by_cases hlast : i + 1 = pages.length
    · left
      refine ⟨remainingRows_end pages i hlast, t, by rw [hname]; exact ht,
        by rw [hidx, hbc]; omega, by rw [hptr]; omega, ?_⟩
      rw [hptr, hrows]
    · right
      have hi1 : i + 1 < pages.length := by omega
      have hne1 : pages.getD (i + 1) [] ≠ [] := hne _ (Held.getD_mem hi1)
      have hview := hh0.getPage_rows (i + 1) hi1
      have hcast : ((i + 1 : Nat) : Int) = (i : Int) + 1 := by push_cast; rfl
      rw [hcast] at hview
      have hstep := getNext_cross s c t name i ht hname hidx (by rw [hbc]; exact hi1)
        (by rw [hptr, hrows]) (by rw [hview.2]; omega)
      have hlen1 : 0 < (pages.getD (i + 1) []).length := List.length_pos.2 hne1
      have hrow0 : (getPage s name ((i : Int) + 1)).1.getRow 0 = (pages.getD (i + 1) []).getD 0 [] := by
        have := Page.getRow_lt (getPage s name ((i : Int) + 1)).1 0 (by rw [hview.1]; exact hlen1)
        rw [hview.1] at this
        exact this
      have hr0 : (pages.getD (i + 1) []).getD 0 [] ≠ [] := by
        apply hrow _ (Held.getD_mem hi1)
        rw [List.getD_eq_getElem _ _ hlen1]
        exact List.getElem_mem _
      refine ⟨_, _, i + 1, 1, remainingRows_cross pages i hi1 hne1, hr0,
        by rw [hstep]; exact hrow0, ?_, rfl, by rw [hstep]; exact getPage_tables _ _ _,
        by rw [hstep]; exact getPage_sources _ _ _,
        by rw [hstep]; exact fun n pg h => Held_getPage s name _ n pg h⟩
      rw [hstep]
      exact ⟨hname, by push_cast; rfl, hview.1, rfl, hi1, hlen1⟩

/-- Scan from a position inside the table: the remaining rows, then the empty row for ever. -/
theorem getNextN_from (name : String) (pages : List (List Row))
    (hne : ∀ p ∈ pages, p ≠ []) (hrow : ∀ p ∈ pages, ∀ r ∈ p, r ≠ []) (rem : List Row) :
    ∀ (i j : Nat) (s : State) (c : Cursor), remainingRows pages i j = rem →
      Held s name pages → CursorAt c name pages i j →
      ∀ k, (getNextN (rem.length + k) c s).1 = rem ++ List.replicate k [] := by
  induction rem with
  | nil =>
    intro i j s c hrem hh hc k
    rcases getNext_step s c name pages i j hh hc hne hrow with ⟨_, hex⟩ | ⟨row, rest, i', j', h1, _⟩
    · simp only [List.length_nil, Nat.zero_add, List.nil_append]
      exact getNextN_exhausted s k c hex
    · rw [hrem] at h1; cases h1
  | cons r rem ih =>
    intro i j s c hrem hh hc k
    rcases getNext_step s c name pages i j hh hc hne hrow with ⟨h0, _⟩ |
      ⟨row, rest, i', j', h1, _, h3, h4, h5, _, _, h8⟩
    · rw [hrem] at h0; cases h0
    · rw [hrem] at h1
      cases h1
      simp only [List.length_cons, Nat.add_right_comm _ 1 k, getNextN, List.cons_append, h3]
      congr 1
      exact ih i' j' _ _ h5 (h8 name pages hh) h4 k

/-- The scan loop from a position inside the table folds its body over the remaining rows. -/
theorem cursorLoop_from {σ : Type} (body : σ → Sources → Row → σ × Sources) (name : String)
    (pages : List (List Row)) (hne : ∀ p ∈ pages, p ≠ []) (hrow : ∀ p ∈ pages, ∀ r ∈ p, r ≠ [])
    (rem : List Row) :
    ∀ (i j : Nat) (s : State) (c : Cursor) (acc : σ) (fuel : Nat), remainingRows pages i j = rem →
      Held s name pages → CursorAt c name pages i j → rem.length < fuel →
      ∃ c' s', cursorLoop body fuel acc c s
          = some ((rem.foldl (fun p r => body p.1 p.2 r) (acc, s.sources)).1, c', s') ∧
        s'.sources = (rem.foldl (fun p r => body p.1 p.2 r) (acc, s.sources)).2 ∧
        s'.tables = s.tables ∧ (∀ n pg, Held s n pg → Held s' n pg) := by
  induction rem with
  | nil =>
    intro i j s c acc fuel hrem hh hc hfuel
    rcases getNext_step s c name pages i j hh hc hne hrow with ⟨_, hex⟩ | ⟨row, rest, i', j', h1, _⟩
    · cases fuel with
      | zero => simp at hfuel
      | succ f =>
        refine ⟨{ c with pagePointer := c.pagePointer + 1 }, s, ?_, rfl, rfl, fun _ _ h => h⟩
        simp only [cursorLoop, getNext_exhausted s c hex, if_true, List.foldl_nil]
    · rw [hrem] at h1; cases h1
  | cons r rem ih =>
    intro i j s c acc fuel hrem hh hc hfuel
    rcases getNext_step s c name pages i j hh hc hne hrow with ⟨h0, _⟩ |
      ⟨row, rest, i', j', h1, h2, h3, h4, h5, h6, h7, h8⟩
    · rw [hrem] at h0; cases h0
    · rw [hrem] at h1
      cases h1
      cases fuel with
      | zero => simp at hfuel
      | succ f =>
        simp only [List.length_cons] at hfuel
        obtain ⟨c', s', e1, e2, e3, e4⟩ := ih i' j'
          { (c.getNext s).2.2 with sources := (body acc (c.getNext s).2.2.sources r).2 }
          (c.getNext s).2.1 (body acc (c.getNext s).2.2.sources r).1 f h5
          (Held_setSources _ _ name pages (h8 name pages hh)) h4 (by omega)
        simp only [h7] at e1 e2
        refine ⟨c', s', ?_, ?_, ?_, ?_⟩
        · simp only [cursorLoop, h3, h2, if_false, List.foldl_cons, h7]
          exact e1
        · rw [e2]
          simp only [List.foldl_cons]
        · rw [e3]; exact h6
        · intro n pg h
          exact e4 n pg (Held_setSources _ _ n pg (h8 n pg h))

/-- A fresh cursor on a consistent non-empty table stands before its first row. -/
theorem create_cursorAt (s : State) (name : String) (pages : List (List Row))
    (hh : Held s name pages) (hpos : 0 < pages.length) :
    CursorAt (Cursor.create s name 0).1 name pages 0 0 := by
  have hview := hh.getPage_rows 0 hpos
  simp only [Nat.cast_zero] at hview
  exact ⟨rfl, rfl, hview.1, rfl, hpos, Nat.zero_le _⟩

/-- A fresh cursor on a consistent table without pages is exhausted. -/
theorem create_exhausted (s : State) (name : String) (hh : Held s name []) :
    Cursor.create s name 0
        = ({ page := Page.empty, pagePointer := 0, tableName := name, pageIndex := 0 }, s) ∧
      Exhausted s (Cursor.create s name 0).1 := by
  obtain ⟨t, ht, htn, hbc, hrpb, hw, hp, hc⟩ := hh
  have hfind : s.pages.find? (fun p => decide (p.pageName = pageNameOf name 0)) = none := by
    rw [find?_name_none_iff]
    intro hmem
    obtain ⟨p, hp1, hp2⟩ := List.mem_map.1 hmem
    have := (hc p hp1 0 hp2).1
    simp at this
  have hload : (Page.load s name 0).pageIndex = -1 := by
    unfold Page.load
    rw [ht]
    simp only
    rw [if_pos (Or.inr (by rw [hbc]; simp))]
    rfl
  have hcr : Cursor.create s name 0
      = ({ page := Page.empty, pagePointer := 0, tableName := name, pageIndex := 0 }, s) := by
    unfold Cursor.create
    rw [getPage_fail s name 0 hfind hload]
  refine ⟨hcr, ?_⟩
  rw [hcr]
  exact ⟨t, ht, by simp only; rw [hbc]; simp, by simp, by simp [Page.empty]⟩

theorem remainingRows_zero (pages : List (List Row)) (h : 0 < pages.length) :
    remainingRows pages 0 0 = pages.flatten := by
  unfold remainingRows
  cases pages with
  | nil => simp at h
  | cons p ps => simp

theorem create_tables (s : State) (name : String) (i : Int) :
    (Cursor.create s name i).2.tables = s.tables := getPage_tables s name i

theorem create_sources (s : State) (name : String) (i : Int) :
    (Cursor.create s name i).2.sources = s.sources := getPage_sources s name i

/-- The scan loop of an executor over a consistent table with non-empty pages folds its body
over all rows of the table in page order. -/
theorem cursorLoop_table {σ : Type} (body : σ → Sources → Row → σ × Sources) (s : State)
    (name : String) (pages : List (List Row)) (hh : Held s name pages)
    (hne : ∀ p ∈ pages, p ≠ []) (hrow : ∀ p ∈ pages, ∀ r ∈ p, r ≠ []) (acc : σ) (fuel : Nat)
    (hfuel : pages.flatten.length < fuel) :
    ∃ c' s', cursorLoop body fuel acc (Cursor.create s name 0).1 (Cursor.create s name 0).2
        = some ((pages.flatten.foldl (fun p r => body p.1 p.2 r) (acc, s.sources)).1, c', s') ∧
      s'.sources = (pages.flatten.foldl (fun p r => body p.1 p.2 r) (acc, s.sources)).2 ∧
      s'.tables = s.tables ∧ (∀ n pg, Held s n pg → Held s' n pg) := by
  by_cases hlen : pages.length = 0
  · have hnil : pages = [] := List.length_eq_zero.1 hlen
    subst hnil
    obtain ⟨hcr, hex⟩ := create_exhausted s name hh
    cases fuel with
    | zero => simp at hfuel
    | succ f =>
      rw [hcr] at hex ⊢
      refine ⟨{ page := Page.empty, pagePointer := 0 + 1, tableName := name, pageIndex := 0 },
        s, ?_, rfl, rfl, fun _ _ h => h⟩
      simp only [cursorLoop, getNext_exhausted s _ hex, if_true, List.flatten_nil, List.foldl_nil]
  · have hpos : 0 < pages.length := Nat.pos_of_ne_zero hlen
    obtain ⟨c', s', e1, e2, e3, e4⟩ := cursorLoop_from body name pages hne hrow pages.flatten 0 0
      (Cursor.create s name 0).2 (Cursor.create s name 0).1 acc fuel
      (remainingRows_zero pages hpos) (Held_getPage s name 0 name pages hh)
      (create_cursorAt s name pages hh hpos) hfuel
    rw [create_sources] at e1 e2
    refine ⟨c', s', e1, e2, by rw [e3, create_tables], ?_⟩
    intro n pg h
    exact e4 n pg (Held_getPage s name 0 n pg h)

/-- C2: on a registered table whose pages are consistent (page `i` readable and holding its
`rowsPerBlockCount[i] ≥ 1` non-empty rows), successive `Cursor::getNext` calls on the cursor
of `Table::getCursor` return the rows of page 0, page 1, ... in order, each once, and from
then on the empty row; with `blockCount = 0` every call returns the empty row. -/
theorem cursor_getNext_scan (s : State) (name : String) (pages : List (List Row)) (t : Table)
    (ht : s.tables name = some t) (hh : Held s name pages)
    (hne : ∀ p ∈ pages, p ≠ []) (hrow : ∀ p ∈ pages, ∀ r ∈ p, r ≠ []) (k : Nat) :
    (getNextN (pages.flatten.length + k) (t.getCursor s).1 (t.getCursor s).2).1
      = pages.flatten ++ List.replicate k [] := by
  have htn : t.tableName = name := by
    obtain ⟨t', ht', htn, _⟩ := hh
    rw [ht] at ht'
    cases ht'
    exact htn
  unfold Table.getCursor
  rw [htn]
  by_cases hlen : pages.length = 0
  · have hnil : pages = [] := List.length_eq_zero.1 hlen
    subst hnil
    obtain ⟨hcr, hex⟩ := create_exhausted s name hh
    simp only [List.flatten_nil, List.length_nil, Nat.zero_add, List.nil_append]
    rw [hcr] at hex ⊢
    exact getNextN_exhausted s k _ hex
  · have hpos : 0 < pages.length := Nat.pos_of_ne_zero hlen
    exact getNextN_from name pages hne hrow pages.flatten 0 0 _ _ (remainingRows_zero pages hpos)
      (Held_getPage s name 0 name pages hh) (create_cursorAt s name pages hh hpos) k

theorem exampleState_held : Held exampleState "T" [[[1, 2], [3, 4]], [[5, 6]]] := by
  refine ⟨exampleTable, rfl, rfl, rfl, rfl, by decide, ?_, ?_⟩
  · intro i hi
    have : i = 0 ∨ i = 1 := by simp at hi; omega
    rcases this with h | h <;> subst h <;> decide
  · intro p hp j hj
    simp only [exampleState, List.mem_cons, List.mem_singleton, List.not_mem_nil, or_false] at hp
    rcases hp with hp | hp
    · subst hp
      have := pageNameOf_injective "T" "T" 0 j (by rw [← hj]; decide)
      rw [← this.2]
      decide
    · subst hp
      have := pageNameOf_injective "U" "T" 0 j (by rw [← hj]; decide)
      exact absurd this.1 (by decide)

theorem cursor_getNext_scan_witness :
    (getNextN (3 + 2) (exampleTable.getCursor exampleState).1
      (exampleTable.getCursor exampleState).2).1 = [[1, 2], [3, 4], [5, 6], [], []] :=
  cursor_getNext_scan exampleState "T" [[[1, 2], [3, 4]], [[5, 6]]] exampleTable rfl
    exampleState_held (by decide) (by decide) 2

/-! ## SEARCH against the linear scan (scenario S2) -/

set_option maxRecDepth 100000 in
/-- C1 (fails on the code): in scenario S2, after `LOAD T` the one page of `T` holds
`(1,2,3),(4,5,6),(7,8,9),(1,20,30)`, of which `(1,2,3)` and `(1,20,30)` have `A = 1`; the index
of `A` built by `executeLOAD` keeps one location per value, and
`Y <- SEARCH FROM T WHERE A == 1` emits the single row `(1,20,30)` and registers `Y` with
one row.  The full-scan path of the same function, taken when `T` has no index, emits both
rows. -/
theorem executeSEARCH_S2_drops_duplicate_key :
    (viewPage stateS2Loaded "T" 0).rows = [[1, 2, 3], [4, 5, 6], [7, 8, 9], [1, 20, 30]] ∧
    ((viewPage stateS2Loaded "T" 0).rows.filter (fun r => decide (r.getD 0 0 = 1)))
      = [[1, 2, 3], [1, 20, 30]] ∧
    (stateS2Loaded.tables "T").map (fun t => t.multiColumnIndexData.lookup "A")
      = some (some [(1, 0, 3), (4, 0, 1), (7, 0, 2)]) ∧
    (executeSEARCH 10 querySearchS2 stateS2Loaded).map
        (fun s => (emittedRows s "Y", (s.tables "Y").map Table.rowCount,
          (Page.load s "Y" 0).rows))
      = some (some [[1, 20, 30]], some 1, [[1, 20, 30]]) ∧
    (executeSEARCH 10 querySearchS2 stateS2Unindexed).map (fun s => emittedRows s "Y")
      = some (some [[1, 2, 3], [1, 20, 30]]) := by
  refine ⟨?_, ?_, ?_, ?_, ?_⟩ <;> decide

/-! ## `Table::blockify` -/

theorem BufferManager.writePage_files (s : State) (name : String) (i : Nat) (rows : List Row)
    (rc : Int) :
    (BufferManager.writePage s name (i : Int) rows rc).files
      = setFile s.files (pageNameOf name (i : Int)) (some rows) := by
  unfold BufferManager.writePage Page.writePage Page.ofRows
  simp only
  rw [if_neg (by
    intro h
    rcases h with h | h
    · exact pageNameOf_ne_empty _ _ h
    · omega)]

theorem take_set_self {α : Type} (l : List α) (k : Nat) (a : α) :
    (l.set k a).take k = l.take k := by
  rw [List.set_take, List.set_eq_of_length_le (List.length_take_le _ _)]

theorem blockifyLine_inv (t0 : Table) (s0 : State) (done : List Row) (v : BlockifyVars)
    (l : List Int) (h : BlockifyInv t0 s0 done v) :
    BlockifyInv t0 s0 (if l.length = t0.columnCount then done ++ [l] else done)
      (blockifyLine v l) := by
  obtain ⟨pagesW, hdone, hfull, hlen, hwid, hk, htab, htables, hpages, hsources, hfiles, hother⟩ := h
  have hcc : v.table.columnCount = t0.columnCount := by rw [htab]
  have hmax : v.table.maxRowsPerBlock = t0.maxRowsPerBlock := by rw [htab]
  have hkl : v.pageRowCounter < v.rowsInPage.length := by omega
  have holdw : (v.rowsInPage.getD v.pageRowCounter []).length = t0.columnCount := by
    apply hwid
    rw [List.getD_eq_getElem _ _ hkl]
    exact List.getElem_mem _
  -- the buffer after copying the parsed values
  have hbufw : ∀ r ∈ v.rowsInPage.set v.pageRowCounter
      (l.take (min l.length v.table.columnCount)
        ++ (v.rowsInPage.getD v.pageRowCounter []).drop (min l.length v.table.columnCount)),
      r.length = t0.columnCount := by
    intro r hr
    rcases List.mem_or_eq_of_mem_set hr with hr | hr
    · exact hwid r hr
    · rw [hr, List.length_append, List.length_take, List.length_drop, holdw, hcc]
      omega
  unfold blockifyLine
  by_cases hv : l.length = t0.columnCount
  · simp only [hv, hcc, if_true, Nat.min_self]
    have hbuf : l.take t0.columnCount ++ (v.rowsInPage.getD v.pageRowCounter []).drop t0.columnCount = l := by
      rw [List.take_of_length_le (by omega), List.drop_of_length_le (by omega), List.append_nil]
    rw [hbuf]
    have hbufw' : ∀ r ∈ v.rowsInPage.set v.pageRowCounter l, r.length = t0.columnCount := by
      have := hbufw
      simp only [hv, hcc, Nat.min_self, hbuf] at this
      exact this
    have htake : (v.rowsInPage.set v.pageRowCounter l).take (v.pageRowCounter + 1)
        = v.rowsInPage.take v.pageRowCounter ++ [l] := by
      rw [List.take_succ, take_set_self]
      simp [List.getElem?_set, hkl]
    by_cases hflush : v.pageRowCounter + 1 = t0.maxRowsPerBlock
    · simp only [hmax, hflush, if_true]
      have hall : v.rowsInPage.set v.pageRowCounter l = v.rowsInPage.take v.pageRowCounter ++ [l] := by
        rw [← htake, hflush, List.take_of_length_le (by rw [List.length_set]; omega)]
      refine ⟨pagesW ++ [v.rowsInPage.set v.pageRowCounter l], ?_, ?_, ?_, hbufw',
        (by show 0 < t0.maxRowsPerBlock; omega), ?_, htables, hpages, hsources, ?_, ?_⟩
      · rw [hdone, hall]; simp
      · intro p hp
        rcases List.mem_append.1 hp with hp | hp
        · exact hfull p hp
        · simp only [List.mem_singleton] at hp
          rw [hp, List.length_set, hlen]
      · rw [List.length_set, hlen]
      · rw [htab]
        simp only [List.length_append, List.length_singleton, List.map_append, List.map_cons,
          List.map_nil, List.length_set, hlen, hflush, Nat.cast_add, Nat.cast_one]
      · intro i hi
        simp only [List.length_append, List.length_singleton] at hi
        have hname : v.table.tableName = t0.tableName := by rw [htab]
        have hbc : v.table.blockCount = pagesW.length := by rw [htab]
        simp only [hname, hbc]
        rw [BufferManager.writePage_files]
        by_cases hil : i < pagesW.length
        · obtain ⟨lines, extra, h1, h2⟩ := hfiles i hil
          refine ⟨lines, extra, ?_, ?_⟩
          · simp only [setFile]
            rw [if_neg]
            · exact h1
            · intro e
              have := (pageNameOf_injective _ _ _ _ e).2
              omega
          · rw [List.getD_eq_getElem _ _ (by simp; omega), List.getElem_append_left hil]
            rw [List.getD_eq_getElem _ _ hil] at h2
            exact h2
        · have hie : i = pagesW.length := by omega
          subst hie
          refine ⟨v.rowsInPage.set v.pageRowCounter l, [], ?_, ?_⟩
          · simp [setFile]
          · simp [List.getD_eq_getElem?_getD]
      · intro n hn
        have hname : v.table.tableName = t0.tableName := by rw [htab]
        simp only [hname]
        rw [BufferManager.writePage_files]
        simp only [setFile]
        rw [if_neg (hn _)]
        exact hother n hn
    · simp only [hmax, hflush, if_false]
      refine ⟨pagesW, ?_, hfull, by rw [List.length_set, hlen], hbufw',
        (by show v.pageRowCounter + 1 < t0.maxRowsPerBlock; omega), ?_,
        htables, hpages, hsources, hfiles, hother⟩
      · rw [htake, hdone]; simp
      · rw [htab]; simp
  · simp only [hv, hcc, if_false]
    refine ⟨pagesW, ?_, hfull, by rw [List.length_set, hlen], ?_, hk, htab, htables, hpages,
      hsources, hfiles, hother⟩
    · rw [take_set_self]; exact hdone
    · have := hbufw
      simp only [hcc] at this
      exact this

theorem blockify_fold_inv (t0 : Table) (s0 : State) (lines : List (List Int)) :
    ∀ (done : List Row) (v : BlockifyVars), BlockifyInv t0 s0 done v →
      BlockifyInv t0 s0 (done ++ lines.filter (fun l => decide (l.length = t0.columnCount)))
        (lines.foldl blockifyLine v) := by
  induction lines with
  | nil => intro done v h; simpa using h
  | cons l ls ih =>
    intro done v h
    have hstep := blockifyLine_inv t0 s0 done v l h
    have := ih _ _ hstep
    simp only [List.foldl_cons]
    by_cases hv : l.length = t0.columnCount
    · simp only [hv, if_true] at this
      simp only [List.filter_cons, hv, decide_True, if_true]
      rw [List.append_assoc, List.singleton_append] at this
      exact this
    · simp only [hv, if_false] at this
      simp only [List.filter_cons, hv, decide_False]
      exact this

/-- The last step of `Table::blockify`: a final partial page is written from the buffer. -/
theorem blockify_finish (t0 : Table) (s0 : State) (done : List Row) (v : BlockifyVars)
    (h : BlockifyInv t0 s0 done v) :
    ∃ pagesR : List (List Row),
      pagesR.flatten = done ∧
      (∀ p ∈ pagesR, p ≠ []) ∧ (∀ p ∈ pagesR, p.length ≤ t0.maxRowsPerBlock) ∧
      (if v.pageRowCounter > 0 then
          { v.table with blockCount := v.table.blockCount + 1,
                         rowsPerBlockCount := v.table.rowsPerBlockCount ++ [v.pageRowCounter] }
        else v.table)
        = { t0 with rowCount := (pagesR.flatten.length : Int), blockCount := pagesR.length,
                    rowsPerBlockCount := pagesR.map List.length } ∧
      (∀ i, i < pagesR.length → ∃ lines extra,
        (if v.pageRowCounter > 0 then
            BufferManager.writePage v.state v.table.tableName (v.table.blockCount : Int)
              v.rowsInPage (v.pageRowCounter : Int)
          else v.state).files (pageNameOf t0.tableName (i : Int)) = some lines ∧
        lines.flatten = (pagesR.getD i []).flatten ++ extra) ∧
      (∀ n, (∀ i : Nat, n ≠ pageNameOf t0.tableName (i : Int)) →
        (if v.pageRowCounter > 0 then
            BufferManager.writePage v.state v.table.tableName (v.table.blockCount : Int)
              v.rowsInPage (v.pageRowCounter : Int)
          else v.state).files n = s0.files n) := by
  obtain ⟨pagesW, hdone, hfull, hlen, hwid, hk, htab, htables, hpages, hsources, hfiles, hother⟩ := h
  by_cases hpos : v.pageRowCounter > 0
  · simp only [hpos, if_true]
    have hname : v.table.tableName = t0.tableName := by rw [htab]
    have hbc : v.table.blockCount = pagesW.length := by rw [htab]
    refine ⟨pagesW ++ [v.rowsInPage.take v.pageRowCounter], ?_, ?_, ?_, ?_, ?_, ?_⟩
    · rw [hdone]; simp
    · intro p hp
      rcases List.mem_append.1 hp with hp | hp
      · intro hnil
        have := hfull p hp
        rw [hnil] at this
        simp at this
        omega
      · simp only [List.mem_singleton] at hp
        intro hnil
        rw [hp] at hnil
        have := congrArg List.length hnil
        simp only [List.length_take, List.length_nil] at this
        omega
    · intro p hp
      rcases List.mem_append.1 hp with hp | hp
      · exact Nat.le_of_eq (hfull p hp)
      · simp only [List.mem_singleton] at hp
        rw [hp, List.length_take]
        omega
    · rw [htab, hdone]
      simp only [List.length_append, List.length_singleton, List.map_append, List.map_cons,
        List.map_nil, List.length_take, List.flatten_append, List.flatten_cons, List.flatten_nil,
        List.append_nil, Nat.min_eq_left (Nat.le_of_lt (by omega :
          v.pageRowCounter < v.rowsInPage.length))]
    · intro i hi
      simp only [List.length_append, List.length_singleton] at hi
      rw [hname, hbc, BufferManager.writePage_files]
      by_cases hil : i < pagesW.length
      · obtain ⟨lines, extra, h1, h2⟩ := hfiles i hil
        refine ⟨lines, extra, ?_, ?_⟩
        · simp only [setFile]
          rw [if_neg]
          · exact h1
          · intro e
            have := (pageNameOf_injective _ _ _ _ e).2
            omega
        · rw [List.getD_eq_getElem _ _ (by simp; omega), List.getElem_append_left hil]
          rw [List.getD_eq_getElem _ _ hil] at h2
          exact h2
      · have hie : i = pagesW.length := by omega
        subst hie
        refine ⟨v.rowsInPage, (v.rowsInPage.drop v.pageRowCounter).flatten, ?_, ?_⟩
        · simp only [setFile, if_true]
        · simp only [List.getD_eq_getElem?_getD, List.getElem?_concat_length, Option.getD_some]
          rw [← List.flatten_append, List.take_append_drop]
    · intro n hn
      rw [hname, hbc, BufferManager.writePage_files]
      simp only [setFile]
      rw [if_neg (hn _)]
      exact hother n hn
  · simp only [hpos, if_false]
    have hk0 : v.pageRowCounter = 0 := by omega
    rw [hk0] at hdone
    simp only [List.take_zero, List.append_nil] at hdone
    refine ⟨pagesW, hdone.symm, ?_, ?_, ?_, hfiles, hother⟩
    · intro p hp hnil
      have := hfull p hp
      rw [hnil] at this
      simp at this
      omega
    · intro p hp
      exact Nat.le_of_eq (hfull p hp)
    · rw [htab, hdone]

theorem BufferManager.writePage_frame (s : State) (name : String) (i : Int) (rows : List Row)
    (rc : Int) :
    (BufferManager.writePage s name i rows rc).tables = s.tables ∧
      (BufferManager.writePage s name i rows rc).pages = s.pages ∧
      (BufferManager.writePage s name i rows rc).sources = s.sources := ⟨rfl, rfl, rfl⟩

/-- What `Table::blockify` does to a table with at least one column and a source file: the
valid lines (those with `columnCount` values) are cut into non-empty pages of at most
`maxRowsPerBlock` rows; the metadata describes exactly these pages; the file of page `i`
starts with the rows of page `i`; nothing else changes. -/
theorem blockify_spec (t : Table) (s : State) (file : SourceFile)
    (hsrc : s.sources t.sourceFileName = some file) (hcc : 0 < t.columnCount)
    (hm : 0 < t.maxRowsPerBlock) :
    ∃ pagesR : List (List Row),
      pagesR.flatten = file.lines.filter (fun l => decide (l.length = t.columnCount)) ∧
      (∀ p ∈ pagesR, p ≠ []) ∧ (∀ p ∈ pagesR, p.length ≤ t.maxRowsPerBlock) ∧
      (t.blockify s).1 = true ∧
      (t.blockify s).2.1 = { t with rowCount := (pagesR.flatten.length : Int),
                                    blockCount := pagesR.length,
                                    rowsPerBlockCount := pagesR.map List.length } ∧
      (t.blockify s).2.2.tables = s.tables ∧ (t.blockify s).2.2.pages = s.pages ∧
      (t.blockify s).2.2.sources = s.sources ∧
      (∀ i, i < pagesR.length → ∃ lines extra,
        (t.blockify s).2.2.files (pageNameOf t.tableName (i : Int)) = some lines ∧
        lines.flatten = (pagesR.getD i []).flatten ++ extra) ∧
      (∀ n, (∀ i : Nat, n ≠ pageNameOf t.tableName (i : Int)) →
        (t.blockify s).2.2.files n = s.files n) := by
  have hinit : BlockifyInv { t with rowCount := 0, blockCount := 0, rowsPerBlockCount := [] } s []
      (blockifyStart t s) := by
    refine ⟨[], by simp [blockifyStart], by simp, by simp [blockifyStart], ?_, hm,
      by simp [blockifyStart], rfl, rfl, rfl, by simp, fun _ _ => rfl⟩
    intro r hr
    rw [List.eq_of_mem_replicate hr]
    simp
  have hfold := blockify_fold_inv _ s file.lines [] _ hinit
  simp only [List.nil_append] at hfold
  have hframe := hfold
  obtain ⟨_, _, _, _, _, _, _, htables, hpages, hsources, _, _⟩ := hframe
  obtain ⟨pagesR, h1, h2, h3, h4, h5, h6⟩ := blockify_finish _ s _ _ hfold
  have hb : t.blockify s =
      (true,
        (if (file.lines.foldl blockifyLine (blockifyStart t s)).pageRowCounter > 0 then
          { (file.lines.foldl blockifyLine (blockifyStart t s)).table with
            blockCount := (file.lines.foldl blockifyLine (blockifyStart t s)).table.blockCount + 1
            rowsPerBlockCount :=
              (file.lines.foldl blockifyLine (blockifyStart t s)).table.rowsPerBlockCount
                ++ [(file.lines.foldl blockifyLine (blockifyStart t s)).pageRowCounter] }
        else (file.lines.foldl blockifyLine (blockifyStart t s)).table),
        (if (file.lines.foldl blockifyLine (blockifyStart t s)).pageRowCounter > 0 then
          BufferManager.writePage (file.lines.foldl blockifyLine (blockifyStart t s)).state
            (file.lines.foldl blockifyLine (blockifyStart t s)).table.tableName
            ((file.lines.foldl blockifyLine (blockifyStart t s)).table.blockCount : Int)
            (file.lines.foldl blockifyLine (blockifyStart t s)).rowsInPage
            ((file.lines.foldl blockifyLine (blockifyStart t s)).pageRowCounter : Int)
        else (file.lines.foldl blockifyLine (blockifyStart t s)).state)) := by
    unfold Table.blockify
    simp only [hsrc]
    rw [if_neg (by omega), if_neg (by omega)]
    split <;> rfl
  rw [hb]
  refine ⟨pagesR, h1, h2, h3, rfl, h4, ?_, ?_, ?_, h5, h6⟩
  · simp only
    split
    · exact htables
    · exact htables
  · simp only
    split
    · exact hpages
    · exact hpages
  · simp only
    split
    · exact hsources
    · exact hsources

/-! ## Result relations: `writeRow`, `blockify`, `insertTable` -/

theorem Table.create_source_ne (name : String) (cols : List String) :
    (Table.create name cols).sourceFileName ≠ "" := by
  intro h
  have hd := congrArg String.data h
  simp [Table.create, String.data_append] at hd

/-- Appending the rows `g r`, `r ∈ L`, with `writeRow` appends them to the lines of the
source file of the table. -/
theorem writeRow_foldl {α : Type} (t : Table) (hne : t.sourceFileName ≠ "") (g : α → Row)
    (L : List α) (src : Sources) (hd : List String) (l0 : List (List Int))
    (h : src t.sourceFileName = some { header := hd, lines := l0 }) :
    (L.foldl (fun x r => t.writeRow x (g r)) src) t.sourceFileName
      = some { header := hd, lines := l0 ++ L.map g } := by
  induction L generalizing src l0 with
  | nil => simpa using h
  | cons a L ih =>
    rw [List.foldl_cons]
    have h1 : (t.writeRow src (g a)) t.sourceFileName
        = some { header := hd, lines := l0 ++ [g a] } := by
      simp [Table.writeRow, hne, setFile, h]
    rw [ih _ _ h1]
    simp

/-- A relation whose source file holds only lines of the right width is stored, after
`blockify` and `insertTable`, as non-empty pages that hold exactly these lines in order. -/
theorem blockify_stored (t : Table) (s : State) (file : SourceFile)
    (hsrc : s.sources t.sourceFileName = some file) (hcc : 0 < t.columnCount)
    (hm : 0 < t.maxRowsPerBlock) (hw : ∀ l ∈ file.lines, l.length = t.columnCount) :
    ∃ pagesR : List (List Row),
      pagesR.flatten = file.lines ∧ (∀ p ∈ pagesR, p ≠ []) ∧
      (∀ p ∈ pagesR, p.length ≤ t.maxRowsPerBlock) ∧
      (t.blockify s).1 = true ∧
      (t.blockify s).2.1 = { t with rowCount := (pagesR.flatten.length : Int),
                                    blockCount := pagesR.length,
                                    rowsPerBlockCount := pagesR.map List.length } ∧
      (t.blockify s).2.2.tables = s.tables ∧ (t.blockify s).2.2.pages = s.pages ∧
      Stored (insertTable (t.blockify s).2.2 (t.blockify s).2.1) t.tableName pagesR := by
  obtain ⟨pagesR, h1, h2, h3, h4, h5, h6, h7, _, h9, _⟩ := blockify_spec t s file hsrc hcc hm
  have hall : file.lines.filter (fun l => decide (l.length = t.columnCount)) = file.lines := by
    rw [List.filter_eq_self]
    intro l hl
    simpa using hw l hl
  rw [hall] at h1
  refine ⟨pagesR, h1, h2, h3, h4, h5, h6, h7, ?_⟩
  have hname : (t.blockify s).2.1.tableName = t.tableName := by rw [h5]
  have htab : (insertTable (t.blockify s).2.2 (t.blockify s).2.1).tables t.tableName
      = some (t.blockify s).2.1 := by
    simp [insertTable, hname]
  have hwid : ∀ p ∈ pagesR, ∀ r ∈ p, r.length = (t.blockify s).2.1.columnCount := by
    intro p hp r hr
    rw [h5]
    apply hw
    rw [← h1]
    exact List.mem_flatten.2 ⟨p, hp, hr⟩
  refine ⟨(t.blockify s).2.1, htab, hname, by rw [h5], by rw [h5], hwid, ?_⟩
  intro i hi
  obtain ⟨lines, extra, hf, hl⟩ := h9 i hi
  exact Page.load_rows _ t.tableName i _ pagesR lines extra htab (by rw [h5]) (by rw [h5]) hwid hi
    hf hl

/-! ## JOIN -/

theorem lookup_hashInsert (h : HashTable) (k key : Int) (row : Row) :
    ((hashInsert h key row).lookup k).getD []
      = (h.lookup k).getD [] ++ (if key = k then [row] else []) := by
  induction h with
  | nil =>
    by_cases hk : key = k
    · subst hk
      simp [hashInsert, List.lookup]
    · have e1 : (k == key) = false := by simpa using fun e : k = key => hk e.symm
      simp [hashInsert, List.lookup, hk, e1]
  | cons a rest ih =>
    obtain ⟨k0, rows⟩ := a
    unfold hashInsert
    by_cases h0 : k0 = key
    · subst h0
      by_cases hk : k = k0
      · subst hk
        simp [List.lookup]
      · have hk2 : ¬ k0 = k := fun e => hk e.symm
        have e1 : (k == k0) = false := by simpa using hk
        simp [List.lookup, e1, hk2]
    · by_cases hk : k = k0
      · subst hk
        have : ¬ key = k := fun e => h0 e.symm
        simp [List.lookup, h0, this]
      · simp only [if_neg h0]
        have e1 : (k == k0) = false := by simpa using hk
        simp only [List.lookup, e1]
        exact ih

/-- After the build loop the bucket of key `k` holds the rows with key `k`, in scan order. -/
theorem lookup_build (key : Row → Int) (rows : List Row) (h0 : HashTable) (k : Int) :
    ((rows.foldl (fun h r => hashInsert h (key r) r) h0).lookup k).getD []
      = (h0.lookup k).getD [] ++ rows.filter (fun r => decide (key r = k)) := by
  induction rows generalizing h0 with
  | nil => simp
  | cons r rows ih =>
    rw [List.foldl_cons, ih, lookup_hashInsert]
    by_cases hk : key r = k
    · simp [hk]
    · simp [hk]

theorem joinBuild_foldl (idx : Int) (rows : List Row) (h0 : HashTable) (src : Sources) :
    rows.foldl (fun p r => joinBuildBody idx p.1 p.2 r) (h0, src)
      = (rows.foldl (fun h r => hashInsert h (subscript r idx) r) h0, src) := by
  induction rows generalizing h0 with
  | nil => rfl
  | cons r rows ih =>
    rw [List.foldl_cons, List.foldl_cons]
    exact ih _

theorem joinProbeBody_eq (H : HashTable) (idx : Int) (first : Bool) (tR : Table) (u : Unit)
    (src : Sources) (row : Row) :
    joinProbeBody H idx first tR u src row
      = ((), ((H.lookup (subscript row idx)).getD []).foldl
          (fun x rs => tR.writeRow x (if first then rs ++ row else row ++ rs)) src) := by
  unfold joinProbeBody
  cases H.lookup (subscript row idx) <;> rfl

/-- The probe loop appends, for each probed row in scan order, one line per row of its bucket. -/
theorem joinProbe_foldl (H : HashTable) (idx : Int) (first : Bool) (tR : Table)
    (hne : tR.sourceFileName ≠ "") (rows : List Row) (src : Sources) (hd : List String)
    (l0 : List (List Int)) (h : src tR.sourceFileName = some { header := hd, lines := l0 }) :
    (rows.foldl (fun p r => joinProbeBody H idx first tR p.1 p.2 r) ((), src)).2 tR.sourceFileName
      = some { header := hd, lines := l0 ++ rows.flatMap (fun rl =>
          ((H.lookup (subscript rl idx)).getD []).map
            (fun rs => if first then rs ++ rl else rl ++ rs)) } := by
  induction rows generalizing src l0 with
  | nil => simpa using h
  | cons r rows ih =>
    rw [List.foldl_cons, joinProbeBody_eq]
    have h1 := writeRow_foldl tR hne (fun rs => if first then rs ++ r else r ++ rs)
      ((H.lookup (subscript r idx)).getD []) src hd l0 h
    rw [ih _ _ h1]
    simp [List.flatMap_cons, List.append_assoc]

theorem filterMap_singleton {β γ : Type} (q : β → Bool) (g : β → γ) (bs : List β) :
    bs.flatMap (fun b => if q b then [g b] else []) = (bs.filter q).map g := by
  induction bs with
  | nil => rfl
  | cons b bs ih =>
    rw [List.flatMap_cons, ih]
    by_cases hq : q b = true
    · simp [hq]
    · simp [hq]

/-- Swapping the two loops of a nested-loop join permutes its output. -/
theorem flatMap_filter_swap {α β γ : Type} (p : α → β → Bool) (f : α → β → γ) (as : List α)
    (bs : List β) :
    (bs.flatMap (fun b => (as.filter (fun a => p a b)).map (fun a => f a b))).Perm
      (as.flatMap (fun a => (bs.filter (fun b => p a b)).map (fun b => f a b))) := by
  induction as with
  | nil => simp
  | cons a as ih =>
    have hfun : (fun b => ((a :: as).filter (fun a => p a b)).map (fun a => f a b))
        = fun b => (if p a b then [f a b] else [])
            ++ (as.filter (fun a => p a b)).map (fun a => f a b) := by
      funext b
      by_cases hq : p a b = true
      · simp [hq]
      · simp [hq]
    rw [hfun, List.flatMap_cons]
    refine (List.flatMap_append_perm bs _ _).symm.trans ?_
    rw [filterMap_singleton (fun b => p a b) (fun b => f a b) bs]
    exact List.Perm.append_left _ ih

theorem computeMaxRowsPerBlock_pos (n : Nat) : 0 < computeMaxRowsPerBlock n := by
  unfold computeMaxRowsPerBlock
  simp only
  split
  · decide
  · omega

/-- The two scan loops of `executeJOIN`: with the rows of `nS` as build side and the rows of
`nL` as probe side, the source file of the result relation receives, for each probe row in
scan order, one line per build row with the same key. -/
theorem join_engine (s : State) (fuel : Nat) (nS nL : String) (pagesS pagesL : List (List Row))
    (iS iL : Int) (first : Bool) (tR : Table) (hsrc : tR.sourceFileName ≠ "")
    (hS : Held s nS pagesS) (hL : Held s nL pagesL)
    (hneS : ∀ p ∈ pagesS, p ≠ []) (hrowS : ∀ p ∈ pagesS, ∀ r ∈ p, r ≠ [])
    (hneL : ∀ p ∈ pagesL, p ≠ []) (hrowL : ∀ p ∈ pagesL, ∀ r ∈ p, r ≠ [])
    (hfS : pagesS.flatten.length < fuel) (hfL : pagesL.flatten.length < fuel) :
    ∃ built probed,
      cursorLoop (joinBuildBody iS) fuel [] (Cursor.create s nS 0).1 (Cursor.create s nS 0).2
        = some built ∧
      cursorLoop (joinProbeBody built.1 iL first tR) fuel ()
          (Cursor.create (tR.createFile built.2.2) nL 0).1
          (Cursor.create (tR.createFile built.2.2) nL 0).2 = some probed ∧
      probed.2.2.tables = s.tables ∧
      probed.2.2.sources tR.sourceFileName = some
        { header := tR.columns
          lines := pagesL.flatten.flatMap (fun rl =>
            (pagesS.flatten.filter (fun rs => decide (subscript rs iS = subscript rl iL))).map
              (fun rs => if first then rs ++ rl else rl ++ rs)) } := by
  obtain ⟨c1, s1, e1, _, ht1, hH1⟩ :=
    cursorLoop_table (joinBuildBody iS) s nS pagesS hS hneS hrowS [] fuel hfS
  rw [joinBuild_foldl] at e1
  have hL1 : Held (tR.createFile s1) nL pagesL := Held_setSources s1 _ nL pagesL (hH1 _ _ hL)
  obtain ⟨c2, s2, e2, hs2, ht2, _⟩ :=
    cursorLoop_table (joinProbeBody (pagesS.flatten.foldl
      (fun h r => hashInsert h (subscript r iS) r) []) iL first tR) (tR.createFile s1) nL pagesL
      hL1 hneL hrowL () fuel hfL
  refine ⟨_, ((), c2, s2), e1, e2, ?_, ?_⟩
  · show s2.tables = s.tables
    rw [ht2]
    exact ht1
  · show s2.sources tR.sourceFileName = _
    rw [hs2]
    have h0 : (tR.createFile s1).sources tR.sourceFileName
        = some { header := tR.columns, lines := [] } := by
      simp [Table.createFile, setFile]
    rw [joinProbe_foldl _ iL first tR hsrc pagesL.flatten _ tR.columns [] h0]
    simp [lookup_build (fun r => subscript r iS)]

theorem Held_of_stored (s : State) (name : String) (pages : List (List Row))
    (h : Stored s name pages) (hp : s.pages = []) : Held s name pages := by
  obtain ⟨t, h1, h2, h3, h4, h5, h6⟩ := h
  refine ⟨t, h1, h2, h3, h4, h5, h6, ?_⟩
  intro p hpm
  rw [hp] at hpm
  cases hpm

theorem Held.table_eq {s : State} {name : String} {pages : List (List Row)} {t : Table}
    (h : Held s name pages) (ht : s.tables name = some t) :
    t.tableName = name ∧ (∀ p ∈ pages, ∀ r ∈ p, r.length = t.columnCount) := by
  obtain ⟨t0, h1, h2, _, _, h5, _⟩ := h
  rw [ht] at h1
  cases h1
  exact ⟨h2, h5⟩

/-- Hash join of two distinct relations whose pages are consistent and non-empty (the
pages a cursor scan reads in full).  With enough fuel for the two scans, `executeJOIN` ends normally and registers a
result relation whose columns are `columns(S1) ++ columns(S2)` and whose stored rows are, as a
multiset, the rows `r1 ++ r2` with `r1` a row of `S1`, `r2` a row of `S2` and
`r1[c1] = r2[c2]`, whichever relation is the build side. -/
theorem executeJOIN_distinct (s : State) (pq : ParsedQuery) (table1 table2 : Table)
    (pages1 pages2 : List (List Row)) (fuel : Nat)
    (hdist : pq.joinFirstRelationName ≠ pq.joinSecondRelationName)
    (ht1 : s.tables pq.joinFirstRelationName = some table1)
    (ht2 : s.tables pq.joinSecondRelationName = some table2)
    (h1 : Held s pq.joinFirstRelationName pages1) (h2 : Held s pq.joinSecondRelationName pages2)
    (hne1 : ∀ p ∈ pages1, p ≠ []) (hne2 : ∀ p ∈ pages2, p ≠ [])
    (hcc1 : table1.columnCount = table1.columns.length)
    (hcc2 : table2.columnCount = table2.columns.length)
    (hc1 : pq.joinFirstColumnName ∈ table1.columns)
    (hc2 : pq.joinSecondColumnName ∈ table2.columns)
    (hf1 : pages1.flatten.length < fuel) (hf2 : pages2.flatten.length < fuel) :
    ∃ s' tableR pagesR, executeJOIN fuel pq s = Outcome.done s' ∧
      s'.tables pq.joinResultRelationName = some tableR ∧
      tableR.columns = table1.columns ++ table2.columns ∧
      tableR.rowCount = (pagesR.flatten.length : Int) ∧
      Stored s' pq.joinResultRelationName pagesR ∧
      pagesR.flatten.Perm (joinRows pages1.flatten pages2.flatten
        (table1.getColumnIndex pq.joinFirstColumnName)
        (table2.getColumnIndex pq.joinSecondColumnName)) := by
  obtain ⟨hn1, hw1⟩ := h1.table_eq ht1
  obtain ⟨hn2, hw2⟩ := h2.table_eq ht2
  have hpos1 : 0 < table1.columns.length := List.length_pos_of_mem hc1
  have hpos2 : 0 < table2.columns.length := List.length_pos_of_mem hc2
  have hrow1 : ∀ p ∈ pages1, ∀ r ∈ p, r ≠ [] := by
    intro p hp r hr e
    have := hw1 p hp r hr
    rw [e] at this
    simp at this
    omega
  have hrow2 : ∀ p ∈ pages2, ∀ r ∈ p, r ≠ [] := by
    intro p hp r hr e
    have := hw2 p hp r hr
    rw [e] at this
    simp at this
    omega
  have hsrc := Table.create_source_ne pq.joinResultRelationName (table1.columns ++ table2.columns)
  have hRcc : (Table.create pq.joinResultRelationName (table1.columns ++ table2.columns)).columnCount
      = table1.columnCount + table2.columnCount := by
    simp [Table.create, hcc1, hcc2]
  have hRpos : 0 < (Table.create pq.joinResultRelationName
      (table1.columns ++ table2.columns)).columnCount := by omega
  have hRm : 0 < (Table.create pq.joinResultRelationName
      (table1.columns ++ table2.columns)).maxRowsPerBlock := by
    have hl : (table1.columns ++ table2.columns).length > 0 ∧ BLOCK_SIZE > 0 := by
      refine ⟨?_, by decide⟩
      simp
      omega
    simp only [Table.create, if_pos hl]
    exact computeMaxRowsPerBlock_pos _
  have hRname : (Table.create pq.joinResultRelationName
      (table1.columns ++ table2.columns)).tableName = pq.joinResultRelationName := rfl
  have hdec : decide (pq.joinFirstRelationName = pq.joinSecondRelationName) = false := by
    simpa using hdist
  by_cases hle : table1.rowCount ≤ table2.rowCount
  · have hgt : ¬ table1.rowCount > table2.rowCount := by omega
    obtain ⟨built, probed, e1, e2, hpt, hps⟩ := join_engine s fuel pq.joinFirstRelationName
      pq.joinSecondRelationName pages1 pages2 (table1.getColumnIndex pq.joinFirstColumnName)
      (table2.getColumnIndex pq.joinSecondColumnName) true _ hsrc h1 h2 hne1 hrow1 hne2 hrow2
      hf1 hf2
    obtain ⟨pagesR, hflat, _, _, hb1, hb2, _, _, hst⟩ := blockify_stored _ probed.2.2 _ hps hRpos
      hRm (by
        intro l hl
        simp only [List.mem_flatMap, List.mem_map, List.mem_filter] at hl
        obtain ⟨rl, hrl, rs, ⟨hrs, _⟩, rfl⟩ := hl
        obtain ⟨p2, hp2, hr2⟩ := List.mem_flatten.1 hrl
        obtain ⟨p1, hp1, hr1⟩ := List.mem_flatten.1 hrs
        rw [hRcc]
        simp [hw1 p1 hp1 rs hr1, hw2 p2 hp2 rl hr2])
    refine ⟨insertTable
      ((Table.create pq.joinResultRelationName (table1.columns ++ table2.columns)).blockify
        probed.2.2).2.2
      ((Table.create pq.joinResultRelationName (table1.columns ++ table2.columns)).blockify
        probed.2.2).2.1,
      ((Table.create pq.joinResultRelationName (table1.columns ++ table2.columns)).blockify
        probed.2.2).2.1, pagesR, ?_, ?_, ?_, ?_, hst, ?_⟩
    · unfold executeJOIN
      simp only [ht1, ht2, hle, hgt, hdec, if_true, if_false, decide_True, decide_False,
        Bool.or_false, Bool.false_eq_true, Table.getCursor, hn1, hn2, e1, e2, hb1]
    · have hbn : ((Table.create pq.joinResultRelationName
          (table1.columns ++ table2.columns)).blockify probed.2.2).2.1.tableName
          = pq.joinResultRelationName := by rw [hb2]; rfl
      simp [insertTable, hbn]
    · rw [hb2]
      rfl
    · rw [hb2]
    · rw [hflat]
      simp only [if_true]
      exact flatMap_filter_swap
        (fun r1 r2 => decide (subscript r1 (table1.getColumnIndex pq.joinFirstColumnName)
          = subscript r2 (table2.getColumnIndex pq.joinSecondColumnName)))
        (fun r1 r2 => r1 ++ r2) pages1.flatten pages2.flatten
  · have hgt : table1.rowCount > table2.rowCount := by omega
    obtain ⟨built, probed, e1, e2, hpt, hps⟩ := join_engine s fuel pq.joinSecondRelationName
      pq.joinFirstRelationName pages2 pages1 (table2.getColumnIndex pq.joinSecondColumnName)
      (table1.getColumnIndex pq.joinFirstColumnName) false _ hsrc h2 h1 hne2 hrow2 hne1 hrow1
      hf2 hf1
    obtain ⟨pagesR, hflat, _, _, hb1, hb2, _, _, hst⟩ := blockify_stored _ probed.2.2 _ hps hRpos
      hRm (by
        intro l hl
        simp only [List.mem_flatMap, List.mem_map, List.mem_filter] at hl
        obtain ⟨rl, hrl, rs, ⟨hrs, _⟩, rfl⟩ := hl
        obtain ⟨p1, hp1, hr1⟩ := List.mem_flatten.1 hrl
        obtain ⟨p2, hp2, hr2⟩ := List.mem_flatten.1 hrs
        rw [hRcc]
        simp [hw1 p1 hp1 rl hr1, hw2 p2 hp2 rs hr2])
    refine ⟨insertTable
      ((Table.create pq.joinResultRelationName (table1.columns ++ table2.columns)).blockify
        probed.2.2).2.2
      ((Table.create pq.joinResultRelationName (table1.columns ++ table2.columns)).blockify
        probed.2.2).2.1,
      ((Table.create pq.joinResultRelationName (table1.columns ++ table2.columns)).blockify
        probed.2.2).2.1, pagesR, ?_, ?_, ?_, ?_, hst, ?_⟩
    · unfold executeJOIN
      simp only [ht1, ht2, hle, hgt, hdec, if_true, if_false, decide_True, decide_False,
        Bool.or_false, Bool.false_eq_true, Table.getCursor, hn1, hn2, e1, e2, hb1]
    · have hbn : ((Table.create pq.joinResultRelationName
          (table1.columns ++ table2.columns)).blockify probed.2.2).2.1.tableName
          = pq.joinResultRelationName := by rw [hb2]; rfl
      simp [insertTable, hbn]
    · rw [hb2]
      rfl
    · rw [hb2]
    · rw [hflat]
      simp only [joinRows, Bool.false_eq_true, if_false]
      apply List.Perm.of_eq
      simp only [eq_comm]

set_option maxRecDepth 100000 in
theorem stateS3_held_E : Held stateS3 "E" [[[1, 10], [2, 10], [3, 20]]] := by
  apply Held_of_stored _ _ _ _ rfl
  refine ⟨_, rfl, rfl, rfl, rfl, by decide, ?_⟩
  intro i hi
  have h0 : i = 0 := by simpa using hi
  subst h0
  decide

set_option maxRecDepth 100000 in
theorem stateS3_held_D : Held stateS3 "D" [[[10, 100], [20, 200]]] := by
  apply Held_of_stored _ _ _ _ rfl
  refine ⟨_, rfl, rfl, rfl, rfl, by decide, ?_⟩
  intro i hi
  have h0 : i = 0 := by simpa using hi
  subst h0
  decide

/-- Scenario S3 instance of `executeJOIN_distinct`: `R <- JOIN E, D ON DID DID`. -/
theorem executeJOIN_distinct_witness :
    ∃ s' tableR pagesR, executeJOIN 10 queryJoinS3 stateS3 = Outcome.done s' ∧
      s'.tables "R" = some tableR ∧
      tableR.columns = ["EID", "DID"] ++ ["DID", "NAME_TAG"] ∧
      tableR.rowCount = (pagesR.flatten.length : Int) ∧
      Stored s' "R" pagesR ∧
      pagesR.flatten.Perm (joinRows [[1, 10], [2, 10], [3, 20]] [[10, 100], [20, 200]] 1 0) :=
  executeJOIN_distinct stateS3 queryJoinS3 _ _ [[[1, 10], [2, 10], [3, 20]]]
    [[[10, 100], [20, 200]]] 10 (by decide) rfl rfl stateS3_held_E stateS3_held_D (by decide)
    (by decide) rfl rfl (by decide) (by decide) (by decide) (by decide)

set_option maxRecDepth 100000 in
/-- Scenario S3 evaluated: the stored rows of `R` after `R <- JOIN E, D ON DID DID`. -/
theorem executeJOIN_S3_rows :
    (executeJOIN 10 queryJoinS3 stateS3).state.bind (fun s => storedRows s "R")
      = some [[1, 10, 10, 100], [2, 10, 10, 100], [3, 20, 20, 200]] := by
  decide

set_option maxRecDepth 100000 in
/-- C3 (evaluation): `A` holds the rows `(1,10),(2,20)` on pages 0 and 2, its page 1 is
empty, as `DELETE` leaves a page whose rows all matched; `B` holds
`(10,100),(20,200),(30,300)`.  The join on `Y` has the rows `(1,10,10,100)` and
`(2,20,20,200)`; `R <- JOIN A, B ON Y Y` ends normally and stores the single row
`(1,10,10,100)`: `Cursor::getNext` returns the empty row at the empty page, which ends the
scan of `A` before its last row. -/
theorem executeJOIN_stops_at_empty_page :
    storedRows stateGap "A" = some [[1, 10], [2, 20]] ∧
    storedRows stateGap "B" = some [[10, 100], [20, 200], [30, 300]] ∧
    (executeJOIN 10 queryJoinGap stateGap).state.bind (fun s => storedRows s "R")
      = some [[1, 10, 10, 100]] ∧
    joinRows [[1, 10], [2, 20]] [[10, 100], [20, 200], [30, 300]] 1 0
      = [[1, 10, 10, 100], [2, 20, 20, 200]] ∧
    ¬ List.Perm [[1, 10, 10, 100]]
      (joinRows [[1, 10], [2, 20]] [[10, 100], [20, 200], [30, 300]] 1 0) := by
  refine ⟨?_, ?_, ?_, ?_, ?_⟩ <;> decide

/-! ## GROUP BY and its aggregates -/

set_option maxRecDepth 100000 in
/-- C4 (fails on the code): `EMP(DID, SAL)` holds `(1,-3),(1,-1)`, so the one group `DID = 1`
has the HAVING values `[-3,-1]`, whose average is `-2 < 0`, and
`R <- GROUP BY DID FROM EMP HAVING AVG(SAL) < 0 RETURN MAX(SAL)` has to emit `(1,-1)`.
`executeGROUPBY` computes the average `9223372036854775806`, rejects the group and stores
no row.  On scenario S5 it stores the single row `(2,60)` under the schema `(DID, MAXSAL)`. -/
theorem executeGROUPBY_negative_average :
    storedRows stateNegative "EMP" = some [[1, -3], [1, -1]] ∧
    specAggregate "AVG" [-3, -1] = -2 ∧
    evaluateCondition (specAggregate "AVG" [-3, -1]) "<" 0 = true ∧
    toSigned 32 (specAggregate "MAX" [-3, -1]) = -1 ∧
    applyAggregate "AVG" [-3, -1] = 9223372036854775806 ∧
    (executeGROUPBY 10 queryGroupNegative stateNegative).state.bind
        (fun s => storedRows s "R") = some [] ∧
    (executeGROUPBY 10 queryGroupS5 stateS5).state.bind
        (fun s => (s.tables "R").map (fun t => (t.columns, t.rowCount))) =
      some (["DID", "MAXSAL"], 1) ∧
    (executeGROUPBY 10 queryGroupS5 stateS5).state.bind (fun s => storedRows s "R")
      = some [[2, 60]] := by
  refine ⟨?_, ?_, ?_, ?_, ?_, ?_, ?_, ?_⟩ <;> decide

/-- C5 (fails on the code): for the values `-3, -1` the sum is `-4` and the signed quotient is
`-2`; `applyAggregate("AVG", ...)` returns `9223372036854775806 = (2^64 - 4) / 2`, the
quotient of the unsigned division, which is positive although the sum is negative.  For
`-1, -1, -1` it returns `6148914691236517204` instead of `-1`. -/
theorem applyAggregate_AVG_unsigned_division :
    specAggregate "AVG" [-3, -1] = -2 ∧
    applyAggregate "AVG" [-3, -1] = 9223372036854775806 ∧
    applyAggregate "AVG" [-3, -1] = (2 ^ 64 - 4) / 2 ∧
    specAggregate "AVG" [-1, -1, -1] = -1 ∧
    applyAggregate "AVG" [-1, -1, -1] = 6148914691236517204 ∧
    applyAggregate "AVG" [10, 30] = 20 ∧ applyAggregate "SUM" [-3, -1] = -4 := by
  refine ⟨?_, ?_, ?_, ?_, ?_, ?_, ?_⟩ <;> decide

/-! ## SORT -/

set_option maxRecDepth 100000 in
/-- C6 (fails on the code): in scenario S4 the table `T` holds `5,3,8,1,9,2,7,4,6` on one page.
`SORT T BY col IN ASC` forms one run page and then computes the run of page `i` as
`i / (numBlocks / blocksPerRun)` with `numBlocks = 1` and `blocksPerRun = BLOCK_COUNT = 2`: a
division by zero.  A table with the rows `3,1,2` on three pages forms two run pages, more than
the one pass of the executor merges, and stays as it was, unsorted; a table with the rows
`2,1,3` on two pages is left with no page at all. -/
theorem executeSORT_S4_divides_by_zero :
    storedRows stateS4 "T" = some [[5], [3], [8], [1], [9], [2], [7], [4], [6]] ∧
    (stateS4.tables "T").map (fun t => t.blockCount / BLOCK_COUNT) = some 0 ∧
    (executeSORT 100 querySortS4 stateS4).isUndefined = true ∧
    (executeSORT 100 querySortS4 stateThreePages).state.bind (fun s => storedRows s "T")
      = some [[3], [1], [2]] ∧
    storedRows stateTwoPages "T" = some [[2], [1], [3]] ∧
    (executeSORT 100 querySortS4 stateTwoPages).state.bind (fun s => storedRows s "T")
      = some [] := by
  refine ⟨?_, ?_, ?_, ?_, ?_, ?_⟩ <;> decide

/-! ## Sorting and merging by a key -/

theorem insertSorted_perm (lt : Row → Row → Bool) (x : Row) (l : List Row) :
    (insertSorted lt x l).Perm (x :: l) := by
  induction l with
  | nil => exact List.Perm.refl _
  | cons y ys ih =>
    unfold insertSorted
    split
    · exact (List.Perm.cons y ih).trans (List.Perm.swap x y ys)
    · exact List.Perm.refl _

theorem insertSorted_sorted (lt : Row → Row → Bool) (k : Row → Int)
    (hlt : ∀ a b, lt a b = decide (k a < k b)) (x : Row) (l : List Row)
    (h : l.Pairwise (fun a b => k a ≤ k b)) :
    (insertSorted lt x l).Pairwise (fun a b => k a ≤ k b) := by
  induction l with
  | nil => simp [insertSorted]
  | cons y ys ih =>
    unfold insertSorted
    rw [List.pairwise_cons] at h
    split
    · rename_i hyx
      rw [hlt] at hyx
      have hyx2 : k y < k x := by simpa using hyx
      rw [List.pairwise_cons]
      refine ⟨?_, ih h.2⟩
      intro z hz
      rcases List.mem_cons.1 ((insertSorted_perm lt x ys).mem_iff.1 hz) with h1 | h1
      · rw [h1]
        omega
      · exact h.1 z h1
    · rename_i hyx
      rw [hlt] at hyx
      have hyx2 : k x ≤ k y := by simpa using hyx
      rw [List.pairwise_cons]
      refine ⟨?_, List.pairwise_cons.2 h⟩
      intro z hz
      rcases List.mem_cons.1 hz with h1 | h1
      · subst h1; exact hyx2
      · have := h.1 z h1
        omega

theorem stdSort_perm (lt : Row → Row → Bool) (l : List Row) : (stdSort lt l).Perm l := by
  induction l with
  | nil => exact List.Perm.refl _
  | cons x xs ih =>
    show (insertSorted lt x (stdSort lt xs)).Perm (x :: xs)
    exact (insertSorted_perm lt x _).trans (List.Perm.cons x ih)

theorem stdSort_sorted (lt : Row → Row → Bool) (k : Row → Int)
    (hlt : ∀ a b, lt a b = decide (k a < k b)) (l : List Row) :
    (stdSort lt l).Pairwise (fun a b => k a ≤ k b) := by
  induction l with
  | nil => exact List.Pairwise.nil
  | cons x xs ih =>
    show (insertSorted lt x (stdSort lt xs)).Pairwise _
    exact insertSorted_sorted lt k hlt x _ ih

theorem bestRun_none (lt : Row → Row → Bool) (runs : List (List Row)) (i : Nat)
    (best : Option (Nat × Row)) (h : bestRun lt runs i best = none) :
    best = none ∧ ∀ run ∈ runs, run = [] := by
  induction runs generalizing i best with
  | nil => exact ⟨by simpa [bestRun] using h, by simp⟩
  | cons run rest ih =>
    cases run with
    | nil =>
      rw [bestRun] at h
      obtain ⟨h1, h2⟩ := ih _ _ h
      exact ⟨h1, by simpa using h2⟩
    | cons c t =>
      cases best with
      | none =>
        rw [bestRun] at h
        exact absurd (ih _ _ h).1 (by simp)
      | some b =>
        rw [bestRun] at h
        split at h
        · exact absurd (ih _ _ h).1 (by simp)
        · exact absurd (ih _ _ h).1 (by simp)

/-- The selection loop of the merge returns the head of a run no other head is before. -/
theorem bestRun_some (lt : Row → Row → Bool) (k : Row → Int)
    (hlt : ∀ a b, lt a b = decide (k a < k b)) (runs : List (List Row)) (i : Nat)
    (best : Option (Nat × Row)) (j : Nat) (row : Row)
    (h : bestRun lt runs i best = some (j, row)) :
    (∀ b, best = some b → k row ≤ k b.2) ∧
    (∀ run ∈ runs, ∀ c t, run = c :: t → k row ≤ k c) ∧
    (best = some (j, row) ∨
      ∃ A rest B, runs = A ++ (row :: rest) :: B ∧ j = i + A.length) := by
  induction runs generalizing i best with
  | nil =>
    rw [bestRun] at h
    subst h
    exact ⟨by intro b hb; cases hb; exact le_refl _, by simp, Or.inl rfl⟩
  | cons run rest ih =>
    cases run with
    | nil =>
      rw [bestRun] at h
      obtain ⟨h1, h2, h3⟩ := ih _ _ h
      refine ⟨h1, ?_, ?_⟩
      · intro run hrun c t e
        rcases List.mem_cons.1 hrun with hr | hr
        · rw [hr] at e; cases e
        · exact h2 run hr c t e
      · rcases h3 with h3 | ⟨A, r, B, e, hj⟩
        · exact Or.inl h3
        · exact Or.inr ⟨[] :: A, r, B, by rw [e]; rfl, by simp [hj]; omega⟩
    | cons c t =>
      have key : ∀ b', bestRun lt rest (i + 1) (some b') = some (j, row) →
          (b' = (i, c) ∨ best = some b') → (∀ b, best = some b → k row ≤ k b.2 → True) →
          k row ≤ k b'.2 ∧ (∀ run ∈ rest, ∀ c t, run = c :: t → k row ≤ k c) ∧
          (some b' = some (j, row) ∨
            ∃ A r B, rest = A ++ (row :: r) :: B ∧ j = i + 1 + A.length) := by
        intro b' hb' _ _
        obtain ⟨h1, h2, h3⟩ := ih _ _ hb'
        exact ⟨h1 b' rfl, h2, h3⟩
      have later : (∃ A r B, rest = A ++ (row :: r) :: B ∧ j = i + 1 + A.length) →
          ∃ A r B, (c :: t) :: rest = A ++ (row :: r) :: B ∧ j = i + A.length := by
        rintro ⟨A, r, B, e, hj⟩
        exact ⟨(c :: t) :: A, r, B, by rw [e]; rfl, by simp [hj]; omega⟩
      cases best with
      | none =>
        rw [bestRun] at h
        obtain ⟨h1, h2, h3⟩ := key (i, c) h (Or.inl rfl) (fun _ _ _ => trivial)
        refine ⟨(by intro b hb; cases hb), ?_, ?_⟩
        · intro run hrun c' t' e
          rcases List.mem_cons.1 hrun with hr | hr
          · rw [hr] at e; cases e; exact h1
          · exact h2 run hr c' t' e
        · rcases h3 with h3 | h3
          · cases h3
            exact Or.inr ⟨[], t, rest, rfl, by simp⟩
          · exact Or.inr (later h3)
      | some b =>
        rw [bestRun] at h
        split at h
        · rename_i hcb
          rw [hlt] at hcb
          have hcb2 : k c < k b.2 := by simpa using hcb
          obtain ⟨h1, h2, h3⟩ := key (i, c) h (Or.inl rfl) (fun _ _ _ => trivial)
          have h1c : k row ≤ k c := h1
          refine ⟨(by intro b0 hb; cases hb; omega), ?_, ?_⟩
          · intro run hrun c' t' e
            rcases List.mem_cons.1 hrun with hr | hr
            · rw [hr] at e; cases e; exact h1
            · exact h2 run hr c' t' e
          · rcases h3 with h3 | h3
            · cases h3
              exact Or.inr ⟨[], t, rest, rfl, by simp⟩
            · exact Or.inr (later h3)
        · rename_i hcb
          rw [hlt] at hcb
          have hcb2 : k b.2 ≤ k c := by simpa using hcb
          obtain ⟨h1, h2, h3⟩ := key b h (Or.inr rfl) (fun _ _ _ => trivial)
          refine ⟨(by intro b0 hb; cases hb; exact h1), ?_, ?_⟩
          · intro run hrun c' t' e
            rcases List.mem_cons.1 hrun with hr | hr
            · rw [hr] at e; cases e; omega
            · exact h2 run hr c' t' e
          · rcases h3 with h3 | h3
            · exact Or.inl h3
            · exact Or.inr (later h3)

theorem modify_append_cons {α : Type} (f : α → α) (A : List α) (x : α) (B : List α) :
    List.modify f A.length (A ++ x :: B) = A ++ f x :: B := by
  induction A with
  | nil => simp
  | cons a A ih => simp [ih]

/-- Merging sorted runs yields a sorted permutation of their rows. -/
theorem mergeMultipleRunsOrderBy_spec (lt : Row → Row → Bool) (k : Row → Int)
    (hlt : ∀ a b, lt a b = decide (k a < k b)) (fuel : Nat) (runs : List (List Row))
    (hfuel : (runs.map List.length).sum ≤ fuel)
    (hs : ∀ run ∈ runs, run.Pairwise (fun a b => k a ≤ k b)) :
    (mergeMultipleRunsOrderBy lt fuel runs).Perm runs.flatten ∧
    (mergeMultipleRunsOrderBy lt fuel runs).Pairwise (fun a b => k a ≤ k b) := by
  induction fuel generalizing runs with
  | zero =>
    have hnil : runs.flatten = [] := by
      apply List.eq_nil_of_length_eq_zero
      rw [List.length_flatten]
      omega
    rw [hnil]
    exact ⟨List.Perm.refl _, List.Pairwise.nil⟩
  | succ fuel ih =>
    rw [mergeMultipleRunsOrderBy]
    cases hb : bestRun lt runs 0 none with
    | none =>
      have hall := (bestRun_none lt runs 0 none hb).2
      have hnil : runs.flatten = [] := by
        rw [List.flatten_eq_nil_iff]
        exact hall
      rw [hnil]
      exact ⟨List.Perm.refl _, List.Pairwise.nil⟩
    | some b =>
      obtain ⟨j, row⟩ := b
      obtain ⟨_, hmin, hpos⟩ := bestRun_some lt k hlt runs 0 none j row hb
      rcases hpos with hpos | ⟨A, rest, B, e, hj⟩
      · cases hpos
      · have hj2 : j = A.length := by omega
        subst hj2
        subst e
        simp only
        rw [modify_append_cons]
        have hsum : ((A ++ rest :: B).map List.length).sum ≤ fuel := by
          simp only [List.map_append, List.map_cons, List.sum_append, List.sum_cons,
            List.length_cons, List.tail_cons] at hfuel ⊢
          omega
        have hs2 : ∀ run ∈ A ++ rest :: B, run.Pairwise (fun a b => k a ≤ k b) := by
          intro run hrun
          rcases List.mem_append.1 hrun with h1 | h1
          · exact hs run (List.mem_append_left _ h1)
          · rcases List.mem_cons.1 h1 with h2 | h2
            · subst h2
              exact (List.pairwise_cons.1 (hs (row :: run) (by simp))).2
            · exact hs run (List.mem_append_right _ (List.mem_cons_of_mem _ h2))
        obtain ⟨ihp, ihs⟩ := ih (A ++ rest :: B) hsum hs2
        simp only [List.tail_cons]
        constructor
        · refine (List.Perm.cons row ihp).trans ?_
          simp only [List.flatten_append, List.flatten_cons]
          exact (@List.perm_middle _ row A.flatten (rest ++ B.flatten)).symm
        · rw [List.pairwise_cons]
          refine ⟨?_, ihs⟩
          intro x hx
          have hx2 : x ∈ (A ++ (row :: rest) :: B).flatten := by
            have := ihp.mem_iff.1 hx
            simp only [List.flatten_append, List.flatten_cons, List.mem_append,
              List.mem_cons] at this ⊢
            tauto
          obtain ⟨run, hrun, hxr⟩ := List.mem_flatten.1 hx2
          cases run with
          | nil => cases hxr
          | cons c t =>
            have hc := hmin _ hrun c t rfl
            rcases List.mem_cons.1 hxr with h1 | h1
            · subst h1; exact hc
            · have := (List.pairwise_cons.1 (hs _ hrun)).1 x h1
              omega

/-! ## Cutting into pages and merge passes -/

theorem chunksOf_flatten {α : Type} (n : Nat) (hn : 0 < n) (fuel : Nat) (l : List α)
    (hf : l.length ≤ fuel) : (chunksOf n fuel l).flatten = l := by
  induction fuel generalizing l with
  | zero =>
    have : l = [] := List.eq_nil_of_length_eq_zero (by omega)
    subst this
    rfl
  | succ fuel ih =>
    cases l with
    | nil => rfl
    | cons x rest =>
      rw [chunksOf, List.flatten_cons, ih]
      · exact List.take_append_drop n (x :: rest)
      · rw [List.length_drop]
        simp only [List.length_cons] at hf ⊢
        omega

theorem chunksOf_chunk {α : Type} (n : Nat) (hn : 0 < n) (fuel : Nat) (l : List α) :
    ∀ c ∈ chunksOf n fuel l, c ≠ [] ∧ c.length ≤ n := by
  induction fuel generalizing l with
  | zero => intro c hc; cases hc
  | succ fuel ih =>
    cases l with
    | nil => intro c hc; cases hc
    | cons x rest =>
      intro c hc
      rw [chunksOf] at hc
      rcases List.mem_cons.1 hc with h | h
      · subst h
        constructor
        · cases n with
          | zero => omega
          | succ m => simp
        · rw [List.length_take]
          omega
      · exact ih _ c h

theorem chunksOf_length_le {α : Type} (n : Nat) (hn : 0 < n) (fuel : Nat) (l : List α) :
    (chunksOf n fuel l).length ≤ l.length := by
  induction fuel generalizing l with
  | zero => simp [chunksOf]
  | succ fuel ih =>
    cases l with
    | nil => simp [chunksOf]
    | cons x rest =>
      rw [chunksOf, List.length_cons]
      have := ih ((x :: rest).drop n)
      rw [List.length_drop] at this
      simp only [List.length_cons] at this ⊢
      omega

theorem chunksOf_length_lt {α : Type} (n : Nat) (hn : 2 ≤ n) (fuel : Nat) (l : List α)
    (hl : 2 ≤ l.length) : (chunksOf n fuel l).length < l.length := by
  cases fuel with
  | zero => simp [chunksOf]; omega
  | succ fuel =>
    cases l with
    | nil => simp at hl
    | cons x rest =>
      rw [chunksOf, List.length_cons]
      have := chunksOf_length_le n (by omega) fuel ((x :: rest).drop n)
      rw [List.length_drop] at this
      simp only [List.length_cons] at this hl ⊢
      omega

theorem chunksOf_ne_nil {α : Type} (n fuel : Nat) (l : List α) (hl : l ≠ []) (hf : 0 < fuel) :
    chunksOf n fuel l ≠ [] := by
  cases fuel with
  | zero => omega
  | succ fuel =>
    cases l with
    | nil => exact absurd rfl hl
    | cons x rest => simp [chunksOf]

theorem chunksOf_length_lists {α : Type} (n : Nat) (hn : 0 < n) (fuel : Nat) (l : List α)
    (hf : l.length ≤ fuel) : ((chunksOf n fuel l).map List.length).sum = l.length := by
  have h := congrArg List.length (chunksOf_flatten n hn fuel l hf)
  rw [List.length_flatten] at h
  exact h

theorem flatten_map_perm {α β : Type} (f : α → List β) (g : α → List β) (L : List α)
    (h : ∀ c ∈ L, (f c).Perm (g c)) : (L.map f).flatten.Perm (L.map g).flatten := by
  induction L with
  | nil => exact List.Perm.refl _
  | cons c L ih =>
    simp only [List.map_cons, List.flatten_cons]
    exact List.Perm.append (h c (List.mem_cons_self _ _))
      (ih (fun c hc => h c (List.mem_cons_of_mem _ hc)))

/-- One merge pass keeps the rows and leaves sorted runs. -/
theorem mergePass_spec (lt : Row → Row → Bool) (k : Row → Int)
    (hlt : ∀ a b, lt a b = decide (k a < k b)) (runs : List (List Row))
    (hs : ∀ run ∈ runs, run.Pairwise (fun a b => k a ≤ k b)) :
    (mergePass lt runs).flatten.Perm runs.flatten ∧
    (∀ run ∈ mergePass lt runs, run.Pairwise (fun a b => k a ≤ k b)) ∧
    (mergePass lt runs).length = (chunksOf 9 runs.length runs).length := by
  have hmem : ∀ c ∈ chunksOf 9 runs.length runs, ∀ run ∈ c, run ∈ runs := by
    intro c hc run hrun
    have h := chunksOf_flatten 9 (by decide) runs.length runs (le_refl _)
    rw [← h]
    exact List.mem_flatten.2 ⟨c, hc, hrun⟩
  have hspec : ∀ c ∈ chunksOf 9 runs.length runs,
      (mergeMultipleRunsOrderBy lt (c.map List.length).sum c).Perm c.flatten ∧
      (mergeMultipleRunsOrderBy lt (c.map List.length).sum c).Pairwise (fun a b => k a ≤ k b) :=
    fun c hc => mergeMultipleRunsOrderBy_spec lt k hlt _ c (le_refl _)
      (fun run hrun => hs run (hmem c hc run hrun))
  refine ⟨?_, ?_, by simp [mergePass]⟩
  · have h1 := flatten_map_perm
      (fun c => mergeMultipleRunsOrderBy lt (c.map List.length).sum c) List.flatten
      (chunksOf 9 runs.length runs) (fun c hc => (hspec c hc).1)
    have h2 : ((chunksOf 9 runs.length runs).map List.flatten).flatten = runs.flatten := by
      have h := chunksOf_flatten 9 (by decide) runs.length runs (le_refl _)
      conv_rhs => rw [← h]
      rw [List.flatten_flatten]
    rw [h2] at h1
    exact h1
  · intro run hrun
    simp only [mergePass, List.mem_map] at hrun
    obtain ⟨c, hc, rfl⟩ := hrun
    exact (hspec c hc).2

/-- Phase 2 of `executeORDERBY` ends with at most one run, which is sorted and holds the rows
of all runs. -/
theorem mergeRuns_spec (lt : Row → Row → Bool) (k : Row → Int)
    (hlt : ∀ a b, lt a b = decide (k a < k b)) (fuel : Nat) (runs : List (List Row))
    (hf : runs.length ≤ fuel + 1) (hne : runs ≠ [])
    (hs : ∀ run ∈ runs, run.Pairwise (fun a b => k a ≤ k b)) :
    ∃ sortedData, mergeRuns lt fuel runs = [sortedData] ∧ sortedData.Perm runs.flatten ∧
      sortedData.Pairwise (fun a b => k a ≤ k b) := by
  induction fuel generalizing runs with
  | zero =>
    cases runs with
    | nil => exact absurd rfl hne
    | cons r rest =>
      have : rest = [] := List.eq_nil_of_length_eq_zero (by simpa using hf)
      subst this
      exact ⟨r, rfl, by simp, hs r (by simp)⟩
  | succ fuel ih =>
    rw [mergeRuns]
    by_cases h1 : runs.length > 1
    · rw [if_pos h1]
      obtain ⟨hp, hs2, hl⟩ := mergePass_spec lt k hlt runs hs
      have hlt2 := chunksOf_length_lt 9 (by decide) runs.length runs (by omega)
      have hne2 : mergePass lt runs ≠ [] := by
        intro e
        have h0 := congrArg List.length e
        rw [hl] at h0
        exact chunksOf_ne_nil 9 runs.length runs hne (by omega)
          (List.eq_nil_of_length_eq_zero h0)
      obtain ⟨d, hd, hdp, hds⟩ := ih (mergePass lt runs) (by rw [hl]; omega) hne2 hs2
      exact ⟨d, hd, hdp.trans hp, hds⟩
    · rw [if_neg h1]
      cases runs with
      | nil => exact absurd rfl hne
      | cons r rest =>
        have : rest = [] := List.eq_nil_of_length_eq_zero (by
          simp only [List.length_cons] at h1
          omega)
        subst this
        exact ⟨r, rfl, by simp, hs r (by simp)⟩

/-! ## What reading through the buffer pool leaves unchanged -/

theorem ReadsOf.refl (name : String) (s : State) : ReadsOf name s s :=
  ⟨rfl, rfl, fun _ _ h => h, fun _ _ h => h⟩

theorem ReadsOf.trans {name : String} {s1 s2 s3 : State} (h12 : ReadsOf name s1 s2)
    (h23 : ReadsOf name s2 s3) : ReadsOf name s1 s3 :=
  ⟨h23.1.trans h12.1, h23.2.1.trans h12.2.1, fun n pg h => h23.2.2.1 n pg (h12.2.2.1 n pg h),
    fun o ho h => h23.2.2.2 o ho (h12.2.2.2 o ho h)⟩

theorem getPage_fresh (s : State) (tn : String) (pi : Int) (other : String) (ho : other ≠ tn)
    (hf : Fresh s other) : Fresh (getPage s tn pi).2 other := by
  intro p hp j e
  rcases getPage_mem s tn pi p hp with h | ⟨h, hv⟩
  · exact hf p h j e
  · obtain ⟨hname, _, _, _⟩ := Page.load_valid s tn pi hv
    rw [h, hname] at e
    have hpi : pi = ((pi.toNat : Nat) : Int) := by
      have := (Page.load_valid s tn pi hv).2.2.1
      omega
    rw [hpi] at e
    exact ho (pageNameOf_injective tn other pi.toNat j e).1.symm

theorem getPage_readsOf (s : State) (tn : String) (pi : Int) : ReadsOf tn s (getPage s tn pi).2 :=
  ⟨getPage_tables s tn pi, getPage_sources s tn pi, fun n pg h => Held_getPage s tn pi n pg h,
    fun o ho h => getPage_fresh s tn pi o ho h⟩

theorem getNext_readsOf (s : State) (c : Cursor) :
    ReadsOf c.tableName s (c.getNext s).2.2 ∧ (c.getNext s).2.1.tableName = c.tableName := by
  unfold Cursor.getNext
  simp only
  split
  · cases ht : s.tables c.tableName with
    | none => exact ⟨ReadsOf.refl _ _, rfl⟩
    | some table =>
      simp only
      have hnp : ReadsOf c.tableName s
          (table.getNextPage { c with pagePointer := c.pagePointer + 1 } s).2 ∧
          (table.getNextPage { c with pagePointer := c.pagePointer + 1 } s).1.tableName
            = c.tableName := by
        unfold Table.getNextPage
        split
        · unfold Cursor.nextPage
          simp only [ht]
          split
          · exact ⟨getPage_readsOf s c.tableName _, rfl⟩
          · exact ⟨ReadsOf.refl _ _, rfl⟩
        · exact ⟨ReadsOf.refl _ _, rfl⟩
      split
      · exact ⟨hnp.1, hnp.2⟩
      · exact ⟨hnp.1, hnp.2⟩
  · exact ⟨ReadsOf.refl _ _, rfl⟩

theorem getNextN_inside (m : Nat) : ∀ (j : Nat) (c : Cursor) (s : State),
    c.pagePointer = (j : Int) → j + m ≤ c.page.rows.length → (∀ r ∈ c.page.rows, r ≠ []) →
    (getNextN m c s).1 = (c.page.rows.drop j).take m ∧ (getNextN m c s).2.2 = s := by
  induction m with
  | zero => intro j c s _ _ _; exact ⟨by simp [getNextN], rfl⟩
  | succ m ih =>
    intro j c s hj hle hrow
    have hlt : j < c.page.rows.length := by omega
    have hmem : c.page.rows.getD j [] ∈ c.page.rows := by
      rw [List.getD_eq_getElem _ _ hlt]
      exact List.getElem_mem _
    have hstep := getNext_inside s c j hj hlt (hrow _ hmem)
    rw [getNextN]
    simp only [hstep]
    obtain ⟨h1, h2⟩ := ih (j + 1) { c with pagePointer := (j : Int) + 1 } s (by simp)
      (by simp only; omega) hrow
    refine ⟨?_, h2⟩
    rw [h1]
    simp only
    rw [List.getD_eq_getElem _ _ hlt, List.drop_eq_getElem_cons hlt, List.take_succ_cons]

/-- Reading block `i` of a consistent table returns the rows of page `i` and fetches that
page. -/
theorem readBlockOrderBy_held (s : State) (name : String) (pages : List (List Row)) (t : Table)
    (ht : s.tables name = some t) (hh : Held s name pages) (i : Nat) (hi : i < pages.length)
    (hrow : ∀ p ∈ pages, ∀ r ∈ p, r ≠ []) :
    readBlockOrderBy t i s = (pages.getD i [], (getPage s name (i : Int)).2) := by
  have hview := hh.getPage_rows i hi
  obtain ⟨t0, ht0, htn, hbc, hrpb, _⟩ := hh
  rw [ht] at ht0
  cases ht0
  unfold readBlockOrderBy Cursor.create
  simp only [htn]
  have hcount : t.rowsPerBlockCount.getD i 0 = (pages.getD i []).length := by
    rw [hrpb]
    simp [List.getD_eq_getElem?_getD, List.getElem?_map, List.getElem?_eq_getElem hi]
  rw [hcount]
  have hrows : ∀ r ∈ (getPage s name (i : Int)).1.rows, r ≠ [] := by
    rw [hview.1]
    exact hrow _ (Held.getD_mem hi)
  obtain ⟨h1, h2⟩ := getNextN_inside (pages.getD i []).length 0
    { page := (getPage s name (i : Int)).1, pagePointer := 0, tableName := name,
      pageIndex := (i : Int) } (getPage s name (i : Int)).2 rfl
    (by simp only [hview.1]; omega) hrows
  rw [Prod.ext_iff]
  refine ⟨?_, h2⟩
  simp only
  rw [h1]
  simp only [hview.1, List.drop_zero, List.take_length]

/-! ## The run formation of ORDER BY -/

theorem ReadsOf.table {name : String} {s1 s2 : State} (h : ReadsOf name s1 s2) (n : String) :
    s2.tables n = s1.tables n := by rw [h.1]

/-- Reading `n` blocks from block `start` on appends the rows of these pages. -/
theorem readBlocks_fold (name : String) (pages : List (List Row)) (t : Table)
    (hrow : ∀ p ∈ pages, ∀ r ∈ p, r ≠ []) (start n : Nat) (hle : start + n ≤ pages.length)
    (acc : List Row) (s0 : State) (hh0 : Held s0 name pages) (ht0 : s0.tables name = some t) :
    ∃ s1, (List.range n).foldl
        (fun (p : List Row × State) k =>
          let blockData := readBlockOrderBy t (start + k) p.2
          (p.1 ++ blockData.1, blockData.2))
        (acc, s0) = (acc ++ ((pages.drop start).take n).flatten, s1) ∧ ReadsOf name s0 s1 := by
  induction n with
  | zero => exact ⟨s0, by simp, ReadsOf.refl _ _⟩
  | succ n ih =>
    obtain ⟨s1, h1, hr1⟩ := ih (by omega)
    rw [List.range_succ, List.foldl_append, h1]
    simp only [List.foldl_cons, List.foldl_nil]
    have hh1 := hr1.2.2.1 name pages hh0
    have ht1 : s1.tables name = some t := by rw [hr1.table]; exact ht0
    have hi : start + n < pages.length := by omega
    rw [readBlockOrderBy_held s1 name pages t ht1 hh1 (start + n) hi hrow]
    refine ⟨(getPage s1 name ((start + n : Nat) : Int)).2, ?_,
      hr1.trans (getPage_readsOf s1 name _)⟩
    simp only
    congr 1
    rw [List.append_assoc]
    congr 1
    have hlen : n < (pages.drop start).length := by rw [List.length_drop]; omega
    rw [List.take_succ, List.getElem?_eq_getElem hlen]
    simp only [Option.toList_some, List.flatten_append, List.flatten_cons, List.flatten_nil,
      List.append_nil]
    congr 1
    rw [List.getElem_drop, List.getD_eq_getElem _ _ hi]

/-- One iteration of the run loop of `executeORDERBY` appends the sorted rows of the next ten
pages as a run. -/
theorem orderByRun_held (pq : ParsedQuery) (name : String) (pages : List (List Row)) (t : Table)
    (hrow : ∀ p ∈ pages, ∀ r ∈ p, r ≠ []) (start : Nat) (hlt : start < pages.length)
    (acc : List (List Row)) (s0 : State) (hh0 : Held s0 name pages)
    (ht0 : s0.tables name = some t) :
    ∃ s1, orderByRun pq t pages.length (acc, s0) start
        = (acc ++ [stdSort (compareRowsOrderBy pq t) ((pages.drop start).take 10).flatten], s1) ∧
      ReadsOf name s0 s1 := by
  unfold orderByRun
  simp only
  have hcount : min (start + 10 - 1) (pages.length - 1) + 1 - start
      = min 10 (pages.length - start) := by omega
  rw [hcount]
  obtain ⟨s1, h1, hr1⟩ := readBlocks_fold name pages t hrow start (min 10 (pages.length - start))
    (by omega) [] s0 hh0 ht0
  rw [h1]
  refine ⟨s1, ?_, hr1⟩
  simp only [List.nil_append]
  have htake : (pages.drop start).take (min 10 (pages.length - start))
      = (pages.drop start).take 10 := by
    rw [← List.length_drop, List.take_eq_take]
    simp
  rw [htake]

theorem orderBy_runs_fold (pq : ParsedQuery) (name : String) (pages : List (List Row))
    (t : Table) (hrow : ∀ p ∈ pages, ∀ r ∈ p, r ≠ []) (s0 : State) (hh0 : Held s0 name pages)
    (ht0 : s0.tables name = some t) (m : Nat) (hm : m * 10 < pages.length + 10) :
    ∃ s1, ((List.range m).map (fun k => k * 10)).foldl (orderByRun pq t pages.length) ([], s0)
        = ((List.range m).map (fun k =>
            stdSort (compareRowsOrderBy pq t) ((pages.drop (k * 10)).take 10).flatten), s1) ∧
      ReadsOf name s0 s1 := by
  induction m with
  | zero => exact ⟨s0, rfl, ReadsOf.refl _ _⟩
  | succ m ih =>
    obtain ⟨s1, h1, hr1⟩ := ih (by omega)
    rw [List.range_succ, List.map_append, List.foldl_append, h1]
    simp only [List.map_cons, List.map_nil, List.foldl_cons, List.foldl_nil]
    obtain ⟨s2, h2, hr2⟩ := orderByRun_held pq name pages t hrow (m * 10) (by omega)
      ((List.range m).map (fun k =>
        stdSort (compareRowsOrderBy pq t) ((pages.drop (k * 10)).take 10).flatten)) s1
      (hr1.2.2.1 name pages hh0) (by rw [hr1.table]; exact ht0)
    rw [h2]
    exact ⟨s2, by simp [List.range_succ], hr1.trans hr2⟩

theorem flatten_range_chunks {α : Type} (l : List α) (n m : Nat) :
    ((List.range m).map (fun k => (l.drop (k * n)).take n)).flatten = l.take (m * n) := by
  induction m with
  | zero => simp
  | succ m ih =>
    rw [List.range_succ, List.map_append, List.flatten_append, ih]
    simp only [List.map_cons, List.map_nil, List.flatten_cons, List.flatten_nil, List.append_nil]
    rw [Nat.succ_mul, List.take_add]

/-- The runs of `executeORDERBY` hold the rows of all pages. -/
theorem orderBy_runs_perm (lt : Row → Row → Bool) (pages : List (List Row)) (m : Nat)
    (hm : pages.length ≤ m * 10) :
    ((List.range m).map (fun k => stdSort lt ((pages.drop (k * 10)).take 10).flatten)).flatten.Perm
      pages.flatten := by
  have h1 := flatten_map_perm
    (fun k => stdSort lt ((pages.drop (k * 10)).take 10).flatten)
    (fun k => ((pages.drop (k * 10)).take 10).flatten) (List.range m)
    (fun k _ => stdSort_perm lt _)
  refine h1.trans (List.Perm.of_eq ?_)
  have h2 := flatten_range_chunks pages 10 m
  rw [List.take_of_length_le hm] at h2
  conv_rhs => rw [← h2]
  rw [List.flatten_flatten, List.map_map]
  rfl

/-! ## ORDER BY -/

theorem Page.load_same (s s' : State) (n : String) (pi : Int) (ht : s'.tables n = s.tables n)
    (hf : s'.files (pageNameOf n pi) = s.files (pageNameOf n pi)) :
    Page.load s' n pi = Page.load s n pi := by
  unfold Page.load
  rw [ht, hf]

/-- Consistency of a table depends on its catalogue entry, its page files and the pool only. -/
theorem Held_of_same (s s' : State) (n : String) (pg : List (List Row)) (h : Held s n pg)
    (ht : s'.tables n = s.tables n) (hp : s'.pages = s.pages)
    (hf : ∀ i : Nat, s'.files (pageNameOf n (i : Int)) = s.files (pageNameOf n (i : Int))) :
    Held s' n pg := by
  obtain ⟨t, h1, h2, h3, h4, h5, h6, h7⟩ := h
  refine ⟨t, by rw [ht]; exact h1, h2, h3, h4, h5, ?_, by rw [hp]; exact h7⟩
  intro i hi
  rw [Page.load_same s s' n i ht (hf i)]
  exact h6 i hi

/-- The page-writing loop stores page `i` in the file of page `start + i` and touches no
other file. -/
theorem writePages_enumFrom (R : String) (P : List (List Row)) :
    ∀ (start : Nat) (files : String → Option (List (List Int))),
      (∀ i, i < P.length →
        ((P.enumFrom start).foldl
          (fun fs pg => (Page.ofRows R (pg.1 : Int) pg.2 (pg.2.length : Int)).writePage fs)
          files) (pageNameOf R ((start + i : Nat) : Int)) = some (P.getD i [])) ∧
      (∀ n, (∀ i, i < P.length → n ≠ pageNameOf R ((start + i : Nat) : Int)) →
        ((P.enumFrom start).foldl
          (fun fs pg => (Page.ofRows R (pg.1 : Int) pg.2 (pg.2.length : Int)).writePage fs)
          files) n = files n) := by
  induction P with
  | nil =>
    intro start files
    exact ⟨fun i hi => absurd hi (by simp), fun n _ => rfl⟩
  | cons p P ih =>
    intro start files
    simp only [List.enumFrom_cons, List.foldl_cons]
    obtain ⟨ih1, ih2⟩ := ih (start + 1)
      ((Page.ofRows R (start : Int) p (p.length : Int)).writePage files)
    constructor
    · intro i hi
      cases i with
      | zero =>
        rw [ih2]
        · have := writePage_self (Page.ofRows R (start : Int) p (p.length : Int)) files
            (pageNameOf_ne_empty R _) (by simp [Page.ofRows])
          simpa [Page.ofRows] using this
        · intro i _ e
          have := (pageNameOf_injective R R (start + 0) (start + 1 + i) e).2
          omega
      | succ i =>
        have := ih1 i (by simpa using hi)
        have e : start + 1 + i = start + (i + 1) := by omega
        rw [e] at this
        rw [this]
        simp
    · intro n hn
      rw [ih2]
      · apply writePage_other
        have := hn 0 (by simp)
        simpa [Page.ofRows] using fun e => this e.symm
      · intro i hi
        have := hn (i + 1) (by simpa using hi)
        have e : start + 1 + i = start + (i + 1) := by omega
        rw [e]
        exact this

/-- A full scan of a consistent table with non-empty pages returns its rows in page order and
from then on the empty row. -/
theorem getNextN_table (s : State) (name : String) (pages : List (List Row)) (t : Table)
    (ht : s.tables name = some t) (hh : Held s name pages)
    (hne : ∀ p ∈ pages, p ≠ []) (hrow : ∀ p ∈ pages, ∀ r ∈ p, r ≠ []) (k : Nat) :
    (getNextN (pages.flatten.length + k) (t.getCursor s).1 (t.getCursor s).2).1
      = pages.flatten ++ List.replicate k [] := by
  have htn : t.tableName = name := (hh.table_eq ht).1
  unfold Table.getCursor
  rw [htn]
  by_cases hlen : pages.length = 0
  · have hnil : pages = [] := List.length_eq_zero.1 hlen
    subst hnil
    obtain ⟨hcr, hex⟩ := create_exhausted s name hh
    simp only [List.flatten_nil, List.length_nil, Nat.zero_add, List.nil_append]
    rw [hcr] at hex ⊢
    exact getNextN_exhausted s k _ hex
  · have hpos : 0 < pages.length := Nat.pos_of_ne_zero hlen
    exact getNextN_from name pages hne hrow pages.flatten 0 0 _ _ (remainingRows_zero pages hpos)
      (Held_getPage s name 0 name pages hh) (create_cursorAt s name pages hh hpos) k

theorem compareRowsOrderBy_key (pq : ParsedQuery) (t : Table) (a b : Row) :
    compareRowsOrderBy pq t a b = decide
      ((if pq.orderByStrategy = SortingStrategy.ASC then
          subscript a (t.getColumnIndex pq.orderByColumn)
        else -subscript a (t.getColumnIndex pq.orderByColumn))
      < (if pq.orderByStrategy = SortingStrategy.ASC then
          subscript b (t.getColumnIndex pq.orderByColumn)
        else -subscript b (t.getColumnIndex pq.orderByColumn))) := by
  unfold compareRowsOrderBy
  simp only
  by_cases h : pq.orderByStrategy = SortingStrategy.ASC
  · simp only [h, if_true]
  · simp only [h, if_false]
    apply decide_eq_decide.2
    omega

/-- C7: for a consistent source relation `S` with at least one page, a column of `S` and a
result name `R ≠ S`, `executeORDERBY` ends normally and registers `R` with the columns of
`S`; the rows stored in the pages of `R` are sorted on the column (non-decreasing for ASC,
non-increasing otherwise) and a permutation of the rows of `S`; `R.rowCount` is the sum of
`R.rowsPerBlockCount` and `R.blockCount` its length; the catalogue entry and the pages of `S`
are unchanged.  When no page under a page name of `R` is resident beforehand, a full cursor
scan of `R` returns exactly these stored rows in order. -/
theorem executeORDERBY_sorted (s : State) (pq : ParsedQuery) (sourceTable : Table)
    (pages : List (List Row))
    (hts : s.tables pq.orderByRelationName = some sourceTable)
    (hh : Held s pq.orderByRelationName pages) (hpos : pages ≠ [])
    (hcc : sourceTable.columnCount = sourceTable.columns.length)
    (hcol : pq.orderByColumn ∈ sourceTable.columns)
    (hRS : pq.orderByResultRelationName ≠ pq.orderByRelationName) :
    ∃ s' tableR pagesR, executeORDERBY pq s = Outcome.done s' ∧
      s'.tables pq.orderByResultRelationName = some tableR ∧
      tableR.columns = sourceTable.columns ∧
      Stored s' pq.orderByResultRelationName pagesR ∧
      (Fresh s pq.orderByResultRelationName →
        Held s' pq.orderByResultRelationName pagesR ∧
        (getNextN pagesR.flatten.length (tableR.getCursor s').1 (tableR.getCursor s').2).1
          = pagesR.flatten) ∧
      pagesR.flatten.Perm pages.flatten ∧
      pagesR.flatten.Pairwise (fun a b =>
        if pq.orderByStrategy = SortingStrategy.ASC then
          subscript a (sourceTable.getColumnIndex pq.orderByColumn)
            ≤ subscript b (sourceTable.getColumnIndex pq.orderByColumn)
        else subscript b (sourceTable.getColumnIndex pq.orderByColumn)
            ≤ subscript a (sourceTable.getColumnIndex pq.orderByColumn)) ∧
      tableR.rowCount = ((tableR.rowsPerBlockCount.sum : Nat) : Int) ∧
      tableR.blockCount = tableR.rowsPerBlockCount.length ∧
      s'.tables pq.orderByRelationName = some sourceTable ∧
      Held s' pq.orderByRelationName pages := by
  obtain ⟨hn, hw⟩ := hh.table_eq hts
  have hbc : sourceTable.blockCount = pages.length := by
    obtain ⟨t0, h1, _, h3, _⟩ := hh
    rw [hts] at h1
    cases h1
    exact h3
  have hcpos : 0 < sourceTable.columns.length := List.length_pos_of_mem hcol
  have hrow : ∀ p ∈ pages, ∀ r ∈ p, r ≠ [] := by
    intro p hp r hr e
    have := hw p hp r hr
    rw [e] at this
    simp at this
    omega
  have hlen : 0 < pages.length := List.length_pos.2 hpos
  -- phase 1
  obtain ⟨s1, hfold, hr1⟩ := orderBy_runs_fold pq pq.orderByRelationName pages sourceTable hrow s
    hh hts ((pages.length + 9) / 10) (by omega)
  have hruns_ne : (List.range ((pages.length + 9) / 10)).map (fun k =>
      stdSort (compareRowsOrderBy pq sourceTable) ((pages.drop (k * 10)).take 10).flatten)
      ≠ [] := by
    intro e
    have := congrArg List.length e
    simp only [List.length_map, List.length_range, List.length_nil] at this
    omega
  have hkey := compareRowsOrderBy_key pq sourceTable
  have hsorted : ∀ run ∈ (List.range ((pages.length + 9) / 10)).map (fun k =>
      stdSort (compareRowsOrderBy pq sourceTable) ((pages.drop (k * 10)).take 10).flatten),
      run.Pairwise (fun a b =>
        (if pq.orderByStrategy = SortingStrategy.ASC then
            subscript a (sourceTable.getColumnIndex pq.orderByColumn)
          else -subscript a (sourceTable.getColumnIndex pq.orderByColumn))
        ≤ (if pq.orderByStrategy = SortingStrategy.ASC then
            subscript b (sourceTable.getColumnIndex pq.orderByColumn)
          else -subscript b (sourceTable.getColumnIndex pq.orderByColumn))) := by
    intro run hrun
    obtain ⟨k, _, rfl⟩ := List.mem_map.1 hrun
    exact stdSort_sorted _ _ hkey _
  -- phase 2
  obtain ⟨sortedData, hmerge, hperm, hsd⟩ := mergeRuns_spec (compareRowsOrderBy pq sourceTable) _
    hkey _ _ (Nat.le_succ _) hruns_ne hsorted
  have hperm2 : sortedData.Perm pages.flatten :=
    hperm.trans (orderBy_runs_perm _ pages _ (by omega))
  -- the result table
  obtain ⟨RT, hRT⟩ : ∃ RT, RT = Table.create pq.orderByResultRelationName sourceTable.columns :=
    ⟨_, rfl⟩
  have hRTn : RT.tableName = pq.orderByResultRelationName := by rw [hRT]; rfl
  have hRTc : RT.columns = sourceTable.columns := by rw [hRT]; rfl
  have hRTcc : RT.columnCount = sourceTable.columns.length := by rw [hRT]; rfl
  have hM : 0 < RT.maxRowsPerBlock := by
    have hl : sourceTable.columns.length > 0 ∧ BLOCK_SIZE > 0 := ⟨hcpos, by decide⟩
    rw [hRT]
    simp only [Table.create, if_pos hl]
    exact computeMaxRowsPerBlock_pos _
  obtain ⟨P, hP⟩ : ∃ P, P = chunksOf RT.maxRowsPerBlock sortedData.length sortedData := ⟨_, rfl⟩
  obtain ⟨T1, hT1⟩ : ∃ T1, T1 = { RT with rowCount := (sortedData.length : Int)
                                          rowsPerBlockCount := P.map List.length
                                          blockCount := P.length } := ⟨_, rfl⟩
  have hT1n : T1.tableName = pq.orderByResultRelationName := by rw [hT1]; exact hRTn
  have hT1c : T1.columns = sourceTable.columns := by rw [hT1]; exact hRTc
  have hT1cc : T1.columnCount = sourceTable.columns.length := by rw [hT1]; exact hRTcc
  have hT1b : T1.blockCount = P.length := by rw [hT1]
  have hT1r : T1.rowsPerBlockCount = P.map List.length := by rw [hT1]
  have hT1rc : T1.rowCount = (sortedData.length : Int) := by rw [hT1]
  obtain ⟨sf, hsf⟩ : ∃ sf, sf = insertTable
      { RT.createFile s1 with files := writeResultPages pq.orderByResultRelationName P s1.files }
      T1 := ⟨_, rfl⟩
  have hsfR : sf.tables pq.orderByResultRelationName = some T1 := by
    rw [hsf]
    simp [insertTable, hT1n]
  have hsfS : sf.tables pq.orderByRelationName = s1.tables pq.orderByRelationName := by
    rw [hsf]
    simp only [insertTable, hT1n, Table.createFile]
    rw [if_neg (fun e => hRS e.symm)]
  have hsfp : sf.pages = s1.pages := by rw [hsf]; rfl
  have hsff : sf.files = writeResultPages pq.orderByResultRelationName P s1.files := by
    rw [hsf]; rfl
  have heval : executeORDERBY pq s = Outcome.done sf := by
    rw [hsf, hT1, hP, hRT]
    unfold executeORDERBY
    simp only [hts, hbc, hfold, hmerge]
    rw [if_neg (by
      intro h
      have h1 := h.1
      rw [hRT] at hM
      omega)]
    rfl
  have hflat : P.flatten = sortedData := by
    rw [hP]
    exact chunksOf_flatten _ hM sortedData.length sortedData (le_refl _)
  have hchunk : ∀ c ∈ P, c ≠ [] ∧ c.length ≤ RT.maxRowsPerBlock := by
    rw [hP]
    exact chunksOf_chunk RT.maxRowsPerBlock hM sortedData.length sortedData
  have hfiles := writePages_enumFrom pq.orderByResultRelationName P 0 s1.files
  have hwidth : ∀ p ∈ P, ∀ r ∈ p, r.length = T1.columnCount := by
    intro p hp r hr
    have hr2 : r ∈ sortedData := by
      rw [← hflat]
      exact List.mem_flatten.2 ⟨p, hp, hr⟩
    obtain ⟨p0, hp0, hrp⟩ := List.mem_flatten.1 (hperm2.mem_iff.1 hr2)
    rw [hT1cc, ← hcc]
    exact hw p0 hp0 r hrp
  have hstoredR : Stored sf pq.orderByResultRelationName P := by
    refine ⟨T1, hsfR, hT1n, hT1b, hT1r, hwidth, ?_⟩
    intro i hi
    have hf := hfiles.1 i hi
    simp only [Nat.zero_add] at hf
    exact Page.load_rows sf _ i T1 P _ [] hsfR hT1b hT1r hwidth hi
      (by rw [hsff]; exact hf) (by simp)
  have hheldR : Fresh s pq.orderByResultRelationName →
      Held sf pq.orderByResultRelationName P := by
    intro hfresh
    obtain ⟨t, h1, h2, h3, h4, h5, h6⟩ := hstoredR
    refine ⟨t, h1, h2, h3, h4, h5, h6, ?_⟩
    intro p hp j e
    rw [hsfp] at hp
    exact absurd e (hr1.2.2.2 _ hRS hfresh p hp j)
  have hheldS : Held sf pq.orderByRelationName pages := by
    apply Held_of_same s1 sf _ _ (hr1.2.2.1 _ _ hh) hsfS hsfp
    intro i
    rw [hsff]
    apply hfiles.2
    intro j _ e
    exact hRS (pageNameOf_injective _ _ i (0 + j) e).1.symm
  refine ⟨sf, T1, P, heval, hsfR, hT1c, hstoredR, ?_, ?_, ?_, ?_, ?_, ?_, hheldS⟩
  · intro hfresh
    refine ⟨hheldR hfresh, ?_⟩
    have hscan := getNextN_table sf _ P T1 hsfR (hheldR hfresh) (fun p hp => (hchunk p hp).1)
      (fun p hp r hr e => by
        have := hwidth p hp r hr
        rw [e, hT1cc] at this
        simp at this
        omega) 0
    simpa using hscan
  · rw [hflat]
    exact hperm2
  · rw [hflat]
    refine hsd.imp ?_
    intro a b hab
    by_cases h : pq.orderByStrategy = SortingStrategy.ASC
    · simpa [h] using hab
    · simp only [h, if_false] at hab ⊢
      omega
  · rw [hT1rc, hT1r, hP, chunksOf_length_lists _ hM _ _ (le_refl _)]
  · rw [hT1b, hT1r, List.length_map]
  · rw [hsfS, hr1.table]
    exact hts

/-- Scenario S3 instance of `executeORDERBY_sorted`: `R <- ORDER BY DID DESC ON E`. -/
theorem executeORDERBY_sorted_witness :
    ∃ s' tableR pagesR, executeORDERBY queryOrderS3 stateS3 = Outcome.done s' ∧
      s'.tables "R" = some tableR ∧ tableR.columns = ["EID", "DID"] ∧
      Stored s' "R" pagesR ∧ pagesR.flatten.Perm [[1, 10], [2, 10], [3, 20]] ∧
      tableR.rowCount = ((tableR.rowsPerBlockCount.sum : Nat) : Int) ∧
      Held s' "E" [[[1, 10], [2, 10], [3, 20]]] := by
  obtain ⟨s', tR, pR, h1, h2, h3, h4, _, h6, _, h8, _, _, h11⟩ :=
    executeORDERBY_sorted stateS3 queryOrderS3 _ [[[1, 10], [2, 10], [3, 20]]] rfl stateS3_held_E
      (by decide) rfl (by decide) (by decide)
  exact ⟨s', tR, pR, h1, h2, h3, h4, h6, h8, h11⟩

set_option maxRecDepth 100000 in
/-- Scenario S3 evaluated: the stored rows of `R` after `R <- ORDER BY DID DESC ON E`, and the
rows of `E`. -/
theorem executeORDERBY_S3_rows :
    (executeORDERBY queryOrderS3 stateS3).state.bind (fun s => storedRows s "R")
      = some [[3, 20], [1, 10], [2, 10]] ∧
    (executeORDERBY queryOrderS3 stateS3).state.bind (fun s => storedRows s "E")
      = some [[1, 10], [2, 10], [3, 20]] := by
  refine ⟨?_, ?_⟩ <;> decide

/-! ## INSERT: the row, the index maps, the pool -/

theorem findColumn_mem (c : String) (l : List String) (k : Nat) (h : c ∈ l) :
    ∃ i, findColumn c l k = ((k + i : Nat) : Int) ∧ i < l.length ∧ l.getD i "" = c := by
  induction l generalizing k with
  | nil => cases h
  | cons x xs ih =>
    unfold findColumn
    by_cases hx : x = c
    · rw [if_pos hx]
      exact ⟨0, by simp, by simp, by simpa using hx⟩
    · rw [if_neg hx]
      have hmem : c ∈ xs := by
        rcases List.mem_cons.1 h with h1 | h1
        · exact absurd h1.symm hx
        · exact h1
      obtain ⟨i, h1, h2, h3⟩ := ih (k + 1) hmem
      exact ⟨i + 1, by rw [h1]; congr 1; omega, by simpa using h2, by simpa using h3⟩

/-- A column of the table has an index in `[0, columnCount)`, and the column at that index is
the column itself. -/
theorem getColumnIndex_mem (t : Table) (hcc : t.columnCount = t.columns.length) (c : String)
    (h : c ∈ t.columns) :
    ∃ i : Nat, t.getColumnIndex c = (i : Int) ∧ i < t.columnCount ∧ t.columns.getD i "" = c := by
  unfold Table.getColumnIndex
  rw [hcc, List.take_length]
  obtain ⟨i, h1, h2, h3⟩ := findColumn_mem c t.columns 0 h
  exact ⟨i, by simpa using h1, by omega, h3⟩

theorem getColumnIndex_inj (t : Table) (hcc : t.columnCount = t.columns.length) (c c' : String)
    (h : c ∈ t.columns) (h' : c' ∈ t.columns) (e : t.getColumnIndex c = t.getColumnIndex c') :
    c = c' := by
  obtain ⟨i, h1, _, h3⟩ := getColumnIndex_mem t hcc c h
  obtain ⟨j, h4, _, h6⟩ := getColumnIndex_mem t hcc c' h'
  rw [h1, h4] at e
  have : i = j := by omega
  subst this
  rw [← h3, ← h6]

/-- The row built from the assignments: every assignment to an existing column is carried
out, and a position no assignment names keeps its value. -/
theorem insertRowValues_spec (t : Table) (hcc : t.columnCount = t.columns.length)
    (assignments : List (String × Int)) (row0 : Row) (hlen : row0.length = t.columnCount)
    (hcols : ∀ pair ∈ assignments, pair.1 ∈ t.columns)
    (hdist : assignments.Pairwise (fun p q => p.1 ≠ q.1)) :
    ∃ row, insertRowValues t assignments row0 = some row ∧ row.length = t.columnCount ∧
      (∀ pair ∈ assignments, subscript row (t.getColumnIndex pair.1) = pair.2) ∧
      (∀ k : Nat, (∀ pair ∈ assignments, t.getColumnIndex pair.1 ≠ (k : Int)) →
        row.getD k 0 = row0.getD k 0) := by
  induction assignments generalizing row0 with
  | nil => exact ⟨row0, rfl, hlen, by simp, fun _ _ => rfl⟩
  | cons p rest ih =>
    obtain ⟨i, hi, hilt, _⟩ := getColumnIndex_mem t hcc p.1 (hcols p (List.mem_cons_self _ _))
    rw [List.pairwise_cons] at hdist
    obtain ⟨row, h1, h2, h3, h4⟩ := ih (row0.set i p.2) (by simpa using hlen)
      (fun q hq => hcols q (List.mem_cons_of_mem _ hq)) hdist.2
    refine ⟨row, ?_, h2, ?_, ?_⟩
    · rw [insertRowValues]
      simp only [hi]
      rw [if_neg (by omega)]
      simpa using h1
    · intro q hq
      rcases List.mem_cons.1 hq with hq | hq
      · subst hq
        have hk := h4 i (by
          intro q hq e
          rw [← hi] at e
          exact hdist.1 q hq (getColumnIndex_inj t hcc _ _
            (hcols _ (List.mem_cons_self _ _)) (hcols q (List.mem_cons_of_mem _ hq)) e.symm))
        rw [hi]
        unfold subscript
        simp only [Int.toNat_ofNat]
        rw [hk]
        simp [List.getD_eq_getElem?_getD, List.getElem?_set, show i < row0.length by omega]
      · exact h3 q hq
    · intro k hk
      rw [h4 k (fun q hq => hk q (List.mem_cons_of_mem _ hq))]
      have hne : i ≠ k := by
        intro e
        subst e
        exact hk p (List.mem_cons_self _ _) hi
      simp [List.getD_eq_getElem?_getD, List.getElem?_set, hne]

theorem IndexMap.lookup_assign_self (m : IndexMap) (k : Int) (loc : RowLocation) :
    (m.assign k loc).lookup k = some loc := by
  induction m with
  | nil => simp [IndexMap.assign, List.lookup]
  | cons e rest ih =>
    obtain ⟨k', loc'⟩ := e
    unfold IndexMap.assign
    by_cases h1 : k < k'
    · simp [h1, List.lookup]
    · by_cases h2 : k = k'
      · simp [h1, h2, List.lookup]
      · have e1 : (k == k') = false := by simpa using h2
        simp only [if_neg h1, if_neg h2, List.lookup, e1]
        exact ih

theorem IndexMap.lookup_assign_other (m : IndexMap) (k key : Int) (loc : RowLocation)
    (h : key ≠ k) : (m.assign k loc).lookup key = m.lookup key := by
  induction m with
  | nil =>
    have e1 : (key == k) = false := by simpa using h
    simp [IndexMap.assign, List.lookup, e1]
  | cons e rest ih =>
    obtain ⟨k', loc'⟩ := e
    unfold IndexMap.assign
    have e1 : (key == k) = false := by simpa using h
    by_cases h1 : k < k'
    · simp only [if_pos h1]
      rw [List.lookup, e1]
    · by_cases h2 : k = k'
      · subst h2
        simp only [if_neg h1, if_true, List.lookup, e1]
      · simp only [if_neg h1, if_neg h2]
        by_cases h3 : key = k'
        · subst h3
          simp [List.lookup]
        · have e3 : (key == k') = false := by simpa using h3
          simp only [List.lookup, e3]
          exact ih

theorem lookup_setColumnIndex_self (idx : List (String × IndexMap)) (c : String) (m : IndexMap) :
    (setColumnIndex idx c m).lookup c = some m := by
  induction idx with
  | nil => simp [setColumnIndex, List.lookup]
  | cons e rest ih =>
    obtain ⟨c', m'⟩ := e
    unfold setColumnIndex
    by_cases h : c' = c
    · simp [h, List.lookup]
    · have e1 : (c == c') = false := by simpa using fun e : c = c' => h e.symm
      simp only [if_neg h, List.lookup, e1]
      exact ih

theorem lookup_setColumnIndex_other (idx : List (String × IndexMap)) (c name : String)
    (m : IndexMap) (h : name ≠ c) (hsome : idx.lookup c ≠ none) :
    (setColumnIndex idx c m).lookup name = idx.lookup name := by
  induction idx with
  | nil => exact absurd rfl hsome
  | cons e rest ih =>
    obtain ⟨c', m'⟩ := e
    unfold setColumnIndex
    have e0 : (name == c) = false := by simpa using h
    by_cases h1 : c' = c
    · subst h1
      simp only [if_true, List.lookup, e0]
    · simp only [if_neg h1]
      have e1 : (c == c') = false := by simpa using fun e : c = c' => h1 e.symm
      have hsome2 : rest.lookup c ≠ none := by
        simpa only [List.lookup, e1] using hsome
      by_cases h2 : name = c'
      · subst h2
        simp [List.lookup]
      · have e2 : (name == c') = false := by simpa using h2
        simp only [List.lookup, e2]
        exact ih hsome2

theorem getD_ne_of_nodup (l : List String) (h : l.Nodup) (i j : Nat) (hi : i < l.length)
    (hj : j < l.length) (hij : i ≠ j) : l.getD i "" ≠ l.getD j "" := by
  rw [List.getD_eq_getElem _ _ hi, List.getD_eq_getElem _ _ hj]
  intro e
  exact hij ((h.getElem_inj_iff).1 e)

/-- The index loop of `executeINSERT` on a table with distinct column names: the index of
column `k`, if there is one, receives the entry `row[k] ↦ location` and nothing else; no
index is added. -/
theorem insertIndexUpdate_spec (t : Table) (row : Row) (loc : RowLocation)
    (hcc : t.columnCount = t.columns.length) (hnd : t.columns.Nodup) :
    (∀ k, k < t.columnCount → ∀ m, t.multiColumnIndexData.lookup (t.columns.getD k "") = some m →
      (insertIndexUpdate t row loc).lookup (t.columns.getD k "")
        = some (m.assign (row.getD k 0) loc)) ∧
    (∀ name, t.multiColumnIndexData.lookup name = none →
      (insertIndexUpdate t row loc).lookup name = none) ∧
    (∀ name, name ∉ t.columns →
      (insertIndexUpdate t row loc).lookup name = t.multiColumnIndexData.lookup name) := by
  have key : ∀ n, n ≤ t.columnCount →
      (∀ name, (∀ k, k < n → t.columns.getD k "" ≠ name) →
        ((List.range n).foldl
          (fun indexData colIdx =>
            match indexData.lookup (t.columns.getD colIdx "") with
            | some index =>
              setColumnIndex indexData (t.columns.getD colIdx "")
                (index.assign (row.getD colIdx 0) loc)
            | none => indexData)
          t.multiColumnIndexData).lookup name = t.multiColumnIndexData.lookup name) ∧
      (∀ k, k < n → ∀ m, t.multiColumnIndexData.lookup (t.columns.getD k "") = some m →
        ((List.range n).foldl
          (fun indexData colIdx =>
            match indexData.lookup (t.columns.getD colIdx "") with
            | some index =>
              setColumnIndex indexData (t.columns.getD colIdx "")
                (index.assign (row.getD colIdx 0) loc)
            | none => indexData)
          t.multiColumnIndexData).lookup (t.columns.getD k "")
          = some (m.assign (row.getD k 0) loc)) ∧
      (∀ name, t.multiColumnIndexData.lookup name = none →
        ((List.range n).foldl
          (fun indexData colIdx =>
            match indexData.lookup (t.columns.getD colIdx "") with
            | some index =>
              setColumnIndex indexData (t.columns.getD colIdx "")
                (index.assign (row.getD colIdx 0) loc)
            | none => indexData)
          t.multiColumnIndexData).lookup name = none) := by
    intro n
    induction n with
    | zero => intro _; exact ⟨fun _ _ => rfl, fun k hk => absurd hk (by omega), fun _ h => h⟩
    | succ n ih =>
      intro hn
      obtain ⟨ih1, ih2, ih3⟩ := ih (by omega)
      rw [List.range_succ, List.foldl_append]
      simp only [List.foldl_cons, List.foldl_nil]
      have hself := ih1 (t.columns.getD n "")
        (fun k hk => getD_ne_of_nodup t.columns hnd k n (by omega) (by omega) (by omega))
      cases hm : t.multiColumnIndexData.lookup (t.columns.getD n "") with
      | none =>
        rw [hm] at hself
        simp only [hself]
        refine ⟨fun name h => ih1 name (fun k hk => h k (by omega)), ?_, ih3⟩
        intro k hk m hkm
        by_cases hkn : k = n
        · subst hkn
          rw [hm] at hkm
          cases hkm
        · exact ih2 k (by omega) m hkm
      | some m0 =>
        rw [hm] at hself
        simp only [hself]
        have hsome : ((List.range n).foldl
            (fun indexData colIdx =>
              match indexData.lookup (t.columns.getD colIdx "") with
              | some index =>
                setColumnIndex indexData (t.columns.getD colIdx "")
                  (index.assign (row.getD colIdx 0) loc)
              | none => indexData)
            t.multiColumnIndexData).lookup (t.columns.getD n "") ≠ none := by
          rw [hself]
          simp
        refine ⟨?_, ?_, ?_⟩
        · intro name h
          rw [lookup_setColumnIndex_other _ _ _ _ (fun e => h n (by omega) e.symm) hsome]
          exact ih1 name (fun k hk => h k (by omega))
        · intro k hk m hkm
          by_cases hkn : k = n
          · subst hkn
            rw [hm] at hkm
            cases hkm
            exact lookup_setColumnIndex_self _ _ _
          · rw [lookup_setColumnIndex_other _ _ _ _
              (getD_ne_of_nodup t.columns hnd k n (by omega) (by omega) hkn) hsome]
            exact ih2 k (by omega) m hkm
        · intro name h
          have hne : name ≠ t.columns.getD n "" := by
            intro e
            rw [e, hm] at h
            cases h
          rw [lookup_setColumnIndex_other _ _ _ _ hne hsome]
          exact ih3 name h
  obtain ⟨h1, h2, h3⟩ := key t.columnCount (le_refl _)
  refine ⟨h2, h3, ?_⟩
  intro name hname
  apply h1
  intro k hk e
  apply hname
  rw [← e, List.getD_eq_getElem _ _ (by omega)]
  exact List.getElem_mem _

theorem clearPoolForTable_fresh (s : State) (name : String) :
    Fresh (clearPoolForTable s name) name := by
  intro p hp j e
  simp only [clearPoolForTable, List.mem_filter] at hp
  have h2 := hp.2
  rw [e] at h2
  have hpre : ("../data/temp/" ++ name ++ "_Page").data.isPrefixOf
      (pageNameOf name (j : Int)).data = true := by
    rw [List.isPrefixOf_iff_prefix]
    unfold pageNameOf
    rw [String.data_append]
    exact List.prefix_append _ _
  rw [hpre] at h2
  simp at h2

/-- A page loads the same when the catalogue entry agrees on what the load reads: the range of
pages, the row count of the page, the column count, and the page file. -/
theorem Page.load_metadata (s s' : State) (name : String) (i : Nat) (t t' : Table)
    (ht : s.tables name = some t) (ht' : s'.tables name = some t')
    (hcc : t'.columnCount = t.columnCount) (hb : i < t.blockCount) (hb' : i < t'.blockCount)
    (hl : i < t.rowsPerBlockCount.length) (hl' : i < t'.rowsPerBlockCount.length)
    (hr : t'.rowsPerBlockCount.getD i 0 = t.rowsPerBlockCount.getD i 0)
    (hf : s'.files (pageNameOf name (i : Int)) = s.files (pageNameOf name (i : Int))) :
    Page.load s' name (i : Int) = Page.load s name (i : Int) := by
  unfold Page.load
  simp only [ht, ht', Int.toNat_ofNat, hcc, hr, hf]
  have h1 : ¬ ((i : Int) < 0 ∨ (i : Int) ≥ (t.blockCount : Int)) := by omega
  have h1' : ¬ ((i : Int) < 0 ∨ (i : Int) ≥ (t'.blockCount : Int)) := by omega
  have h2 : (i : Int) < (t.rowsPerBlockCount.length : Int) := by omega
  have h2' : (i : Int) < (t'.rowsPerBlockCount.length : Int) := by omega
  simp only [h1, h1', h2, h2', if_true, if_false]

theorem Page.getRow_range (p : Page) (hrow : ∀ r ∈ p.rows, r ≠ []) :
    ((List.range p.rows.length).map (fun (i : Nat) => p.getRow (i : Int))).filter
      (fun existingRow => decide (existingRow ≠ [])) = p.rows := by
  have h1 : (List.range p.rows.length).map (fun (i : Nat) => p.getRow (i : Int)) = p.rows := by
    apply List.ext_getElem
    · simp
    · intro n h1 h2
      simp only [List.getElem_map, List.getElem_range]
      rw [Page.getRow_lt p n h2, List.getD_eq_getElem _ _ h2]
  rw [h1, List.filter_eq_self]
  intro r hr
  simpa using hrow r hr

/-! ## INSERT on a consistent table -/

/-- The end of `executeINSERT`: after page `i0` has been written with `newRows`, and with the
metadata `table1` of the new page list `pages1`, the table is consistent with `pages1`. -/
theorem finishInsert_held (mid : State) (table table1 : Table) (name : String)
    (pages pages1 : List (List Row)) (row : Row) (loc : RowLocation) (i0 : Nat)
    (newRows : List Row) (cnt : Int)
    (hmid : Held mid name pages) (ht : mid.tables name = some table)
    (hname : table1.tableName = name) (hcc : table1.columnCount = table.columnCount)
    (hb1 : table1.blockCount = pages1.length)
    (hr1 : table1.rowsPerBlockCount = pages1.map List.length)
    (hi0 : i0 < pages1.length) (hnew : pages1.getD i0 [] = newRows)
    (hold : ∀ i, i < pages1.length → i ≠ i0 → i < pages.length ∧ pages1.getD i [] = pages.getD i [])
    (hwn : ∀ r ∈ newRows, r.length = table.columnCount) :
    Held (finishInsert table1 row loc (BufferManager.writePage mid name (i0 : Int) newRows cnt))
      name pages1 ∧
    (finishInsert table1 row loc (BufferManager.writePage mid name (i0 : Int) newRows cnt)).tables
      name = some { table1 with
        rowCount := table1.rowCount + 1
        multiColumnIndexData := insertIndexUpdate table1 row loc } := by
  obtain ⟨hn, hw⟩ := hmid.table_eq ht
  obtain ⟨t0, h1, _, hbc, hrpb, _, hd, _⟩ := hmid
  rw [ht] at h1
  cases h1
  have htab : (finishInsert table1 row loc
      (BufferManager.writePage mid name (i0 : Int) newRows cnt)).tables name
      = some { table1 with
        rowCount := table1.rowCount + 1
        multiColumnIndexData := insertIndexUpdate table1 row loc } := by
    simp [finishInsert, clearPoolForTable, insertTable, hname]
  have hfiles : (finishInsert table1 row loc
      (BufferManager.writePage mid name (i0 : Int) newRows cnt)).files
      = (Page.ofRows name (i0 : Int) newRows cnt).writePage mid.files := rfl
  have hwidth : ∀ p ∈ pages1, ∀ r ∈ p, r.length = table1.columnCount := by
    intro p hp r hr
    obtain ⟨i, hi, rfl⟩ := List.getElem_of_mem hp
    rw [hcc]
    by_cases h : i = i0
    · subst h
      apply hwn
      rw [← hnew, List.getD_eq_getElem _ _ hi]
      exact hr
    · obtain ⟨h2, h3⟩ := hold i hi h
      rw [List.getD_eq_getElem _ _ hi, List.getD_eq_getElem _ _ h2] at h3
      rw [h3] at hr
      exact hw _ (List.getElem_mem _) r hr
  refine ⟨⟨_, htab, hname, hb1, hr1, hwidth, ?_, ?_⟩, htab⟩
  · intro i hi
    by_cases h : i = i0
    · subst h
      refine Page.load_rows _ name i _ pages1 newRows [] htab hb1 hr1 hwidth hi ?_ (by rw [hnew]; simp)
      rw [hfiles]
      have := writePage_self (Page.ofRows name (i : Int) newRows cnt) mid.files
        (pageNameOf_ne_empty name _) (by simp [Page.ofRows])
      simpa [Page.ofRows] using this
    · obtain ⟨h2, h3⟩ := hold i hi h
      have hlen1 : i < (pages1.map List.length).length := by simpa using hi
      have hlen : i < (pages.map List.length).length := by simpa using h2
      rw [Page.load_metadata mid _ name i table _ ht htab hcc (by omega) (by simp only; omega)
        (by rw [hrpb]; exact hlen) (by simp only; rw [hr1]; exact hlen1) ?_ ?_]
      · rw [h3]
        exact hd i h2
      · simp only
        rw [hr1, hrpb]
        simp only [List.getD_eq_getElem?_getD, List.getElem?_map, List.getElem?_eq_getElem hi,
          List.getElem?_eq_getElem h2, Option.map_some', Option.getD_some]
        rw [List.getD_eq_getElem _ _ hi, List.getD_eq_getElem _ _ h2] at h3
        rw [h3]
      · rw [hfiles]
        apply writePage_other
        simp only [Page.ofRows]
        intro e
        exact h (pageNameOf_injective name name i0 i e).2.symm
  · intro p hp j e
    have hfr := clearPoolForTable_fresh
      (insertTable (BufferManager.writePage mid name (i0 : Int) newRows cnt)
        { table1 with
          rowCount := table1.rowCount + 1
          multiColumnIndexData := insertIndexUpdate table1 row loc }) name
    have hp2 : p ∈ (clearPoolForTable
      (insertTable (BufferManager.writePage mid name (i0 : Int) newRows cnt)
        { table1 with
          rowCount := table1.rowCount + 1
          multiColumnIndexData := insertIndexUpdate table1 row loc }) name).pages := by
      simpa [finishInsert, hname] using hp
    exact absurd e (hfr p hp2 j)

theorem pagesAfterInsert_nil (m : Nat) (row : Row) : pagesAfterInsert m [] row = [[row]] := by
  simp [pagesAfterInsert]

theorem pagesAfterInsert_short (m : Nat) (init : List (List Row)) (last : List Row) (row : Row)
    (h : last.length < m) :
    pagesAfterInsert m (init ++ [last]) row = init ++ [last ++ [row]] := by
  simp [pagesAfterInsert, h]

theorem pagesAfterInsert_full (m : Nat) (init : List (List Row)) (last : List Row) (row : Row)
    (h : ¬ last.length < m) :
    pagesAfterInsert m (init ++ [last]) row = init ++ [last] ++ [[row]] := by
  simp [pagesAfterInsert, h]

/-- `executeINSERT` on a consistent table, once the row to insert is built: the row is stored
at the location of the specification, and the table is consistent with the new pages. -/
theorem executeINSERT_held_row (s : State) (pq : ParsedQuery) (table : Table)
    (pages : List (List Row)) (row : Row)
    (hts : s.tables pq.tableName = some table) (hh : Held s pq.tableName pages)
    (hpos : 0 < table.columnCount)
    (hrow : insertRowValues table pq.insertColumnsAndValues
      (List.replicate table.columnCount 0) = some row)
    (hlen : row.length = table.columnCount) :
    Held (executeINSERT pq s) pq.tableName (pagesAfterInsert table.maxRowsPerBlock pages row) ∧
      (executeINSERT pq s).tables pq.tableName = some { table with
        rowCount := table.rowCount + 1
        blockCount := (pagesAfterInsert table.maxRowsPerBlock pages row).length
        rowsPerBlockCount := (pagesAfterInsert table.maxRowsPerBlock pages row).map List.length
        multiColumnIndexData := insertIndexUpdate table row (insertLocation table) } := by
  obtain ⟨htn, hw⟩ := hh.table_eq hts
  have hbc : table.blockCount = pages.length := by
    obtain ⟨t0, h1, _, h3, _⟩ := hh
    rw [hts] at h1
    cases h1
    exact h3
  have hrpb : table.rowsPerBlockCount = pages.map List.length := by
    obtain ⟨t0, h1, _, _, h4, _⟩ := hh
    rw [hts] at h1
    cases h1
    exact h4
  have hwrow : ∀ r ∈ [row], r.length = table.columnCount := by
    intro r hr
    rw [List.mem_singleton.1 hr]
    exact hlen
  by_cases hp : pages = []
  · subst hp
    have hb0 : ¬ table.blockCount > 0 := by simp [hbc]
    have hloc : insertLocation table = (0, 0) := by
      simp [insertLocation, hbc]
    have hfin := finishInsert_held s table
      { table with blockCount := 1, rowsPerBlockCount := table.rowsPerBlockCount ++ [1] }
      pq.tableName [] [[row]] row (0, 0) 0 [row] 1 hh hts htn rfl rfl (by rw [hrpb]; rfl)
      (by simp) rfl (fun i hi hne => absurd hi (by simp; omega)) hwrow
    have heval : executeINSERT pq s = finishInsert
        { table with blockCount := 1, rowsPerBlockCount := table.rowsPerBlockCount ++ [1] }
        row (0, 0) (BufferManager.writePage s pq.tableName ((0 : Nat) : Int) [row] 1) := by
      unfold executeINSERT
      simp only [hts, hrow]
      rw [if_neg hb0, htn]
      rfl
    rw [heval, pagesAfterInsert_nil, hloc]
    refine ⟨hfin.1, ?_⟩
    rw [hfin.2]
    congr 1
    simp [hrpb]
    rfl
  · obtain ⟨init, last, rfl⟩ : ∃ init last, pages = init ++ [last] :=
      ⟨pages.dropLast, pages.getLast hp, (List.dropLast_append_getLast hp).symm⟩
    have hb1 : table.blockCount > 0 := by simp [hbc]
    have hlastidx : table.blockCount - 1 = init.length := by simp [hbc]
    have hin : ¬ init.length ≥ table.rowsPerBlockCount.length := by simp [hrpb]
    have hrows : table.rowsPerBlockCount.getD init.length 0 = last.length := by
      simp [hrpb, List.getD_eq_getElem?_getD]
    by_cases hshort : last.length < table.maxRowsPerBlock
    · have hloc : insertLocation table = ((init.length : Int), (last.length : Int)) := by
        unfold insertLocation
        rw [if_pos ⟨hb1, by rw [hlastidx, hrows]; exact hshort⟩, hlastidx, hrows]
      have hview := hh.getPage_rows init.length (by simp)
      have hview1 : (getPage s pq.tableName (init.length : Int)).1.rows = last := by
        rw [hview.1]
        simp [List.getD_eq_getElem?_getD]
      have hread : ((List.range last.length).map
          (fun (i : Nat) => (getPage s pq.tableName (init.length : Int)).1.getRow (i : Int))).filter
          (fun existingRow => decide (existingRow ≠ [])) = last := by
        have := Page.getRow_range (getPage s pq.tableName (init.length : Int)).1 (by
          rw [hview1]
          intro r hr e
          have := hw last (by simp) r hr
          rw [e] at this
          simp at this
          omega)
        rw [hview1] at this
        exact this
      have hfin := finishInsert_held (getPage s pq.tableName (init.length : Int)).2 table
        { table with
          rowsPerBlockCount := table.rowsPerBlockCount.set init.length (last.length + 1) }
        pq.tableName (init ++ [last]) (init ++ [last ++ [row]]) row
        ((init.length : Int), (last.length : Int)) init.length (last ++ [row])
        ((last.length + 1 : Nat) : Int) (Held_getPage s _ _ _ _ hh)
        (by rw [getPage_tables]; exact hts) htn rfl (by simp [hbc])
        (by simp [hrpb, List.set_append_right]) (by simp)
        (by simp [List.getD_eq_getElem?_getD])
        (fun i hi hne => by
          have hi2 : i < init.length := by
            simp at hi
            omega
          refine ⟨by simp; omega, ?_⟩
          simp [List.getD_eq_getElem?_getD, List.getElem?_append_left hi2])
        (by
          intro r hr
          rcases List.mem_append.1 hr with h | h
          · exact hw last (by simp) r h
          · exact hwrow r h)
      have heval : executeINSERT pq s = finishInsert
          { table with
            rowsPerBlockCount := table.rowsPerBlockCount.set init.length (last.length + 1) }
          row ((init.length : Int), (last.length : Int))
          (BufferManager.writePage (getPage s pq.tableName (init.length : Int)).2 pq.tableName
            (init.length : Int) (last ++ [row]) ((last.length + 1 : Nat) : Int)) := by
        unfold executeINSERT
        simp only [hts, hrow]
        rw [if_pos hb1]
        simp only [hlastidx]
        rw [if_neg hin]
        simp only [hrows]
        rw [if_pos hshort, htn]
        simp only [hread]
        rw [if_neg (by simp)]
      rw [heval, pagesAfterInsert_short _ _ _ _ hshort, hloc]
      refine ⟨hfin.1, ?_⟩
      rw [hfin.2]
      congr 1
      simp [hrpb, hbc, List.set_append_right]
      rfl
    · have hloc : insertLocation table = ((table.blockCount : Int), 0) := by
        unfold insertLocation
        rw [if_neg (by
          rintro ⟨_, h⟩
          rw [hlastidx, hrows] at h
          exact hshort h)]
      have hfin := finishInsert_held s table
        { table with
          blockCount := table.blockCount + 1
          rowsPerBlockCount := table.rowsPerBlockCount ++ [1] }
        pq.tableName (init ++ [last]) (init ++ [last] ++ [[row]]) row
        ((table.blockCount : Int), 0) table.blockCount [row] 1 hh hts htn rfl
        (by simp [hbc]) (by simp [hrpb]) (by simp [hbc])
        (by
          rw [hbc, List.getD_eq_getElem?_getD, List.getElem?_append_right (le_refl _)]
          simp)
        (fun i hi hne => by
          have hi2 : i < (init ++ [last]).length := by
            simp at hi
            simp [hbc] at hne
            simp
            omega
          refine ⟨hi2, ?_⟩
          simp only [List.getD_eq_getElem?_getD]
          rw [List.getElem?_append_left hi2])
        hwrow
      have heval : executeINSERT pq s = finishInsert
          { table with
            blockCount := table.blockCount + 1
            rowsPerBlockCount := table.rowsPerBlockCount ++ [1] }
          row ((table.blockCount : Int), 0)
          (BufferManager.writePage s pq.tableName (table.blockCount : Int) [row] 1) := by
        unfold executeINSERT
        simp only [hts, hrow]
        rw [if_pos hb1]
        simp only [hlastidx]
        rw [if_neg hin]
        simp only [hrows]
        rw [if_neg hshort, htn]
      rw [heval, pagesAfterInsert_full _ _ _ _ hshort, hloc]
      refine ⟨hfin.1, ?_⟩
      rw [hfin.2]
      congr 1
      simp [hrpb, hbc]
      rfl

/-- `executeINSERT` on a consistent table with valid assignments: the row is built, stored
at the location of the specification, and the table is consistent with the new pages. -/
theorem executeINSERT_held (s : State) (pq : ParsedQuery) (table : Table)
    (pages : List (List Row))
    (hts : s.tables pq.tableName = some table) (hh : Held s pq.tableName pages)
    (hcc : table.columnCount = table.columns.length) (hpos : 0 < table.columnCount)
    (hcols : ∀ pair ∈ pq.insertColumnsAndValues, pair.1 ∈ table.columns)
    (hdist : pq.insertColumnsAndValues.Pairwise (fun p q => p.1 ≠ q.1)) :
    ∃ row, insertRowValues table pq.insertColumnsAndValues
        (List.replicate table.columnCount 0) = some row ∧
      row.length = table.columnCount ∧
      (∀ pair ∈ pq.insertColumnsAndValues,
        subscript row (table.getColumnIndex pair.1) = pair.2) ∧
      (∀ k : Nat, (∀ pair ∈ pq.insertColumnsAndValues, table.getColumnIndex pair.1 ≠ (k : Int)) →
        row.getD k 0 = 0) ∧
      Held (executeINSERT pq s) pq.tableName (pagesAfterInsert table.maxRowsPerBlock pages row) ∧
      (executeINSERT pq s).tables pq.tableName = some { table with
        rowCount := table.rowCount + 1
        blockCount := (pagesAfterInsert table.maxRowsPerBlock pages row).length
        rowsPerBlockCount := (pagesAfterInsert table.maxRowsPerBlock pages row).map List.length
        multiColumnIndexData := insertIndexUpdate table row (insertLocation table) } := by
  obtain ⟨row, hrow, hlen, hA, hB⟩ := insertRowValues_spec table hcc pq.insertColumnsAndValues
    (List.replicate table.columnCount 0) (by simp) hcols hdist
  refine ⟨row, hrow, hlen, hA, ?_, executeINSERT_held_row s pq table pages row hts hh hpos hrow hlen⟩
  intro k hk
  rw [hB k hk]
  simp [List.getD_eq_getElem?_getD, List.getElem?_replicate]
  split <;> rfl

/-! ## INSERT: the claims -/

theorem getD_append_length {α : Type} (A : List α) (x d : α) :
    (A ++ [x]).getD A.length d = x := by
  rw [List.getD_eq_getElem?_getD, List.getElem?_append_right (le_refl _)]
  simp

theorem pagesAfterInsert_cases (m : Nat) (pages : List (List Row)) (row : Row) :
    (pagesAfterInsert m pages row = pages ++ [[row]] ∧
      (pages = [] ∨ ∃ init last, pages = init ++ [last] ∧ ¬ last.length < m)) ∨
    ∃ init last, pages = init ++ [last] ∧ last.length < m ∧
      pagesAfterInsert m pages row = init ++ [last ++ [row]] := by
  by_cases hp : pages = []
  · subst hp
    exact Or.inl ⟨by simp [pagesAfterInsert], Or.inl rfl⟩
  · obtain ⟨init, last, rfl⟩ : ∃ init last, pages = init ++ [last] :=
      ⟨pages.dropLast, pages.getLast hp, (List.dropLast_append_getLast hp).symm⟩
    by_cases h : last.length < m
    · exact Or.inr ⟨init, last, rfl, h, pagesAfterInsert_short m init last row h⟩
    · exact Or.inl ⟨pagesAfterInsert_full m init last row h, Or.inr ⟨init, last, rfl, h⟩⟩

theorem pagesAfterInsert_flatten (m : Nat) (pages : List (List Row)) (row : Row) :
    (pagesAfterInsert m pages row).flatten = pages.flatten ++ [row] := by
  rcases pagesAfterInsert_cases m pages row with ⟨h, _⟩ | ⟨init, last, rfl, _, h⟩
  · rw [h]; simp
  · rw [h]; simp

theorem pagesAfterInsert_ne_nil (m : Nat) (pages : List (List Row)) (row : Row)
    (hne : ∀ p ∈ pages, p ≠ []) : ∀ p ∈ pagesAfterInsert m pages row, p ≠ [] := by
  rcases pagesAfterInsert_cases m pages row with ⟨h, _⟩ | ⟨init, last, rfl, _, h⟩
  · rw [h]
    intro p hp
    rcases List.mem_append.1 hp with h1 | h1
    · exact hne p h1
    · rw [List.mem_singleton.1 h1]; simp
  · rw [h]
    intro p hp
    rcases List.mem_append.1 hp with h1 | h1
    · exact hne p (List.mem_append_left _ h1)
    · rw [List.mem_singleton.1 h1]; simp

/-- C8: on a table with consistent, non-empty pages and an assignment list of distinct
existing columns, `executeINSERT` builds the row with the assigned value in each mentioned
column and 0 in every other column; afterwards a full scan of the table returns the previous
rows in their order, then the new row, then the empty row; `rowCount` has grown by 1. -/
theorem executeINSERT_appends_row (s : State) (pq : ParsedQuery) (table : Table)
    (pages : List (List Row))
    (hts : s.tables pq.tableName = some table) (hh : Held s pq.tableName pages)
    (hne : ∀ p ∈ pages, p ≠ [])
    (hcc : table.columnCount = table.columns.length) (hpos : 0 < table.columnCount)
    (hcols : ∀ pair ∈ pq.insertColumnsAndValues, pair.1 ∈ table.columns)
    (hdist : pq.insertColumnsAndValues.Pairwise (fun p q => p.1 ≠ q.1)) (k : Nat) :
    ∃ row table1, row.length = table.columnCount ∧
      (∀ pair ∈ pq.insertColumnsAndValues,
        subscript row (table.getColumnIndex pair.1) = pair.2) ∧
      (∀ i : Nat, (∀ pair ∈ pq.insertColumnsAndValues, table.getColumnIndex pair.1 ≠ (i : Int)) →
        row.getD i 0 = 0) ∧
      (executeINSERT pq s).tables pq.tableName = some table1 ∧
      table1.rowCount = table.rowCount + 1 ∧
      (getNextN (pages.flatten.length + 1 + k) (table1.getCursor (executeINSERT pq s)).1
        (table1.getCursor (executeINSERT pq s)).2).1
        = pages.flatten ++ [row] ++ List.replicate k [] := by
  obtain ⟨row, _, hlen, hA, hB, hheld, htab⟩ :=
    executeINSERT_held s pq table pages hts hh hcc hpos hcols hdist
  refine ⟨row, _, hlen, hA, hB, htab, rfl, ?_⟩
  have hw := (hheld.table_eq htab).2
  have hscan := getNextN_table (executeINSERT pq s) pq.tableName _ _ htab hheld
    (pagesAfterInsert_ne_nil _ pages row hne)
    (fun p hp r hr e => by
      have := hw p hp r hr
      rw [e] at this
      simp at this
      omega) k
  rw [pagesAfterInsert_flatten] at hscan
  simpa using hscan

/-- C9: on a consistent table with valid assignments, `executeINSERT` stores the new row at
the location of the specification, `(blockCount-1, rowsPerBlockCount[blockCount-1])` when
the last page holds fewer than `maxRowsPerBlock` rows and `(blockCount, 0)` on a new page
otherwise, as the last row of that page, and it preserves the metadata invariants
`rowCount = Σ rowsPerBlockCount`, `rowsPerBlockCount.size() = blockCount` and
`rowsPerBlockCount[i] ≤ maxRowsPerBlock`. -/
theorem executeINSERT_location (s : State) (pq : ParsedQuery) (table : Table)
    (pages : List (List Row))
    (hts : s.tables pq.tableName = some table) (hh : Held s pq.tableName pages)
    (hcc : table.columnCount = table.columns.length) (hpos : 0 < table.columnCount)
    (hcols : ∀ pair ∈ pq.insertColumnsAndValues, pair.1 ∈ table.columns)
    (hdist : pq.insertColumnsAndValues.Pairwise (fun p q => p.1 ≠ q.1))
    (hmax : 0 < table.maxRowsPerBlock) (hmeta : MetadataOk table) :
    ∃ row table1 pages1,
      insertRowValues table pq.insertColumnsAndValues (List.replicate table.columnCount 0)
        = some row ∧
      (executeINSERT pq s).tables pq.tableName = some table1 ∧
      Held (executeINSERT pq s) pq.tableName pages1 ∧
      pages1.flatten = pages.flatten ++ [row] ∧
      (pages1.getD (insertLocation table).1.toNat []).getD (insertLocation table).2.toNat [] = row ∧
      (pages1.getD (insertLocation table).1.toNat []).length = (insertLocation table).2.toNat + 1 ∧
      pages1.length = (insertLocation table).1.toNat + 1 ∧
      MetadataOk table1 := by
  obtain ⟨row, hrow, hlen, _, _, hheld, htab⟩ :=
    executeINSERT_held s pq table pages hts hh hcc hpos hcols hdist
  have hbc : table.blockCount = pages.length := by
    obtain ⟨t0, h1, _, h3, _⟩ := hh
    rw [hts] at h1
    cases h1
    exact h3
  have hrpb : table.rowsPerBlockCount = pages.map List.length := by
    obtain ⟨t0, h1, _, _, h4, _⟩ := hh
    rw [hts] at h1
    cases h1
    exact h4
  obtain ⟨hm1, _, hm3⟩ := hmeta
  refine ⟨row, _, pagesAfterInsert table.maxRowsPerBlock pages row, hrow, htab, hheld,
    pagesAfterInsert_flatten _ _ _, ?_⟩
  have hsum : ((pagesAfterInsert table.maxRowsPerBlock pages row).map List.length).sum
      = (pages.map List.length).sum + 1 := by
    rw [← List.length_flatten, pagesAfterInsert_flatten, ← List.length_flatten]
    simp
  have hmetaR : ∀ (h : ∀ n ∈ (pagesAfterInsert table.maxRowsPerBlock pages row).map List.length,
      n ≤ table.maxRowsPerBlock), MetadataOk { table with
        rowCount := table.rowCount + 1
        blockCount := (pagesAfterInsert table.maxRowsPerBlock pages row).length
        rowsPerBlockCount := (pagesAfterInsert table.maxRowsPerBlock pages row).map List.length
        multiColumnIndexData := insertIndexUpdate table row (insertLocation table) } := by
    intro h
    refine ⟨?_, by simp, h⟩
    show table.rowCount + 1 = _
    rw [hsum, hm1, hrpb]
    simp
  rcases pagesAfterInsert_cases table.maxRowsPerBlock pages row with
    ⟨h, hc⟩ | ⟨init, last, rfl, hshort, h⟩
  · have hloc : insertLocation table = ((pages.length : Int), 0) := by
      unfold insertLocation
      rw [if_neg, hbc]
      rintro ⟨h1, h2⟩
      rcases hc with hc | ⟨init, last, rfl, hfull⟩
      · subst hc
        simp [hbc] at h1
      · apply hfull
        rw [hrpb, hbc] at h2
        simpa [List.getD_eq_getElem?_getD] using h2
    rw [h, hloc]
    simp only [Int.toNat_ofNat, Int.toNat_zero]
    refine ⟨?_, ?_, by simp, ?_⟩
    · rw [getD_append_length]
      rfl
    · rw [getD_append_length]
      rfl
    · rw [← h]
      apply hmetaR
      rw [h]
      intro n hn
      simp only [List.map_append, List.map_cons, List.map_nil, List.mem_append,
        List.mem_singleton, List.length_singleton] at hn
      rcases hn with hn | hn
      · exact hm3 n (by rw [hrpb]; exact hn)
      · omega
  · have hloc : insertLocation table = ((init.length : Int), (last.length : Int)) := by
      have hl : table.blockCount - 1 = init.length := by simp [hbc]
      have hr : table.rowsPerBlockCount.getD init.length 0 = last.length := by
        simp [hrpb, List.getD_eq_getElem?_getD]
      unfold insertLocation
      rw [if_pos ⟨by simp [hbc], by rw [hl, hr]; exact hshort⟩, hl, hr]
    rw [h, hloc]
    simp only [Int.toNat_ofNat]
    refine ⟨?_, ?_, by simp, ?_⟩
    · rw [getD_append_length, getD_append_length]
    · rw [getD_append_length]
      simp
    · rw [← h]
      apply hmetaR
      rw [h]
      intro n hn
      simp only [List.map_append, List.map_cons, List.map_nil, List.mem_append,
        List.mem_singleton, List.length_append, List.length_singleton] at hn
      rcases hn with hn | hn
      · exact hm3 n (by rw [hrpb]; simp; exact Or.inl (by simpa using hn))
      · omega

/-- C10: on a consistent table with distinct column names and valid assignments, after
`executeINSERT` has stored the row `r` at location `L`, the index of every indexed column
`col` maps `r[col]` to `L` and agrees with the old index on every other key; a column
without an index has none afterwards, and index maps under other names are unchanged. -/
theorem executeINSERT_index_frame (s : State) (pq : ParsedQuery) (table : Table)
    (pages : List (List Row))
    (hts : s.tables pq.tableName = some table) (hh : Held s pq.tableName pages)
    (hcc : table.columnCount = table.columns.length) (hpos : 0 < table.columnCount)
    (hcols : ∀ pair ∈ pq.insertColumnsAndValues, pair.1 ∈ table.columns)
    (hdist : pq.insertColumnsAndValues.Pairwise (fun p q => p.1 ≠ q.1))
    (hnd : table.columns.Nodup) :
    ∃ row table1,
      insertRowValues table pq.insertColumnsAndValues (List.replicate table.columnCount 0)
        = some row ∧
      (executeINSERT pq s).tables pq.tableName = some table1 ∧
      (∀ i, i < table.columnCount → ∀ m,
        table.multiColumnIndexData.lookup (table.columns.getD i "") = some m →
        ∃ m1, table1.multiColumnIndexData.lookup (table.columns.getD i "") = some m1 ∧
          m1.lookup (row.getD i 0) = some (insertLocation table) ∧
          ∀ key, key ≠ row.getD i 0 → m1.lookup key = m.lookup key) ∧
      (∀ name, table.multiColumnIndexData.lookup name = none →
        table1.multiColumnIndexData.lookup name = none) ∧
      (∀ name, name ∉ table.columns →
        table1.multiColumnIndexData.lookup name = table.multiColumnIndexData.lookup name) := by
  obtain ⟨row, hrow, _, _, _, _, htab⟩ :=
    executeINSERT_held s pq table pages hts hh hcc hpos hcols hdist
  obtain ⟨h1, h2, h3⟩ := insertIndexUpdate_spec table row (insertLocation table) hcc hnd
  refine ⟨row, _, hrow, htab, ?_, h2, h3⟩
  intro i hi m hm
  exact ⟨_, h1 i hi m hm, IndexMap.lookup_assign_self _ _ _,
    fun key hkey => IndexMap.lookup_assign_other _ _ _ _ hkey⟩

set_option maxRecDepth 100000 in
theorem stateS6_held : Held stateS6 "T" [[[1, 10], [2, 20]]] := by
  refine ⟨_, rfl, rfl, rfl, rfl, by decide, ?_, ?_⟩
  · intro i hi
    have h0 : i = 0 := by simpa using hi
    subst h0
    decide
  · intro p hp j hj
    simp only [stateS6, List.mem_singleton] at hp
    subst hp
    have := pageNameOf_injective "T" "T" 0 j (by rw [← hj]; decide)
    rw [← this.2]
    decide

/-- Scenario S6 instance of `executeINSERT_appends_row`: `INSERT INTO T ( A = 3, B = 30 )`. -/
theorem executeINSERT_appends_row_witness :
    ∃ row table1, row.length = 2 ∧
      (∀ pair ∈ [("A", (3 : Int)), ("B", 30)],
        subscript row (Table.getColumnIndex
          { tableName := "T", sourceFileName := "../data/T.csv", columns := ["A", "B"],
            columnCount := 2, rowCount := 2, blockCount := 1, maxRowsPerBlock := 4096000,
            rowsPerBlockCount := [2],
            multiColumnIndexData :=
              [("A", [(1, (0, 0)), (2, (0, 1))]), ("B", [(10, (0, 0)), (20, (0, 1))])] }
          pair.1) = pair.2) ∧
      (executeINSERT queryInsertS6 stateS6).tables "T" = some table1 ∧
      table1.rowCount = 2 + 1 ∧
      (getNextN (2 + 1 + 1) (table1.getCursor (executeINSERT queryInsertS6 stateS6)).1
        (table1.getCursor (executeINSERT queryInsertS6 stateS6)).2).1
        = [[1, 10], [2, 20]] ++ [row] ++ [[]] := by
  obtain ⟨row, t1, h1, h2, _, h4, h5, h6⟩ :=
    executeINSERT_appends_row stateS6 queryInsertS6 _ [[[1, 10], [2, 20]]] rfl stateS6_held
      (by decide) rfl (by decide) (by decide) (by decide) 1
  exact ⟨row, t1, h1, h2, h4, h5, h6⟩

/-- Scenario S6 instance of `executeINSERT_location`. -/
theorem executeINSERT_location_witness :
    ∃ row table1 pages1,
      (executeINSERT queryInsertS6 stateS6).tables "T" = some table1 ∧
      Held (executeINSERT queryInsertS6 stateS6) "T" pages1 ∧
      pages1.flatten = [[1, 10], [2, 20]] ++ [row] ∧ MetadataOk table1 := by
  obtain ⟨row, t1, p1, _, h2, h3, h4, _, _, _, h8⟩ :=
    executeINSERT_location stateS6 queryInsertS6 _ [[[1, 10], [2, 20]]] rfl stateS6_held
      rfl (by decide) (by decide) (by decide) (by decide)
      ⟨by decide, by decide, by decide⟩
  exact ⟨row, t1, p1, h2, h3, h4, h8⟩

/-- Scenario S6 instance of `executeINSERT_index_frame`. -/
theorem executeINSERT_index_frame_witness :
    ∃ (row : Row) (table1 : Table),
      (executeINSERT queryInsertS6 stateS6).tables "T" = some table1 ∧
      (∀ i, i < 2 → ∀ m,
        List.lookup (["A", "B"].getD i "")
          [("A", [((1 : Int), ((0 : Int), (0 : Int))), (2, (0, 1))]),
            ("B", [(10, (0, 0)), (20, (0, 1))])] = some m →
        ∃ m1, table1.multiColumnIndexData.lookup (["A", "B"].getD i "") = some m1 ∧
          m1.lookup (row.getD i 0) = some (0, 2) ∧
          ∀ key, key ≠ row.getD i 0 → m1.lookup key = m.lookup key) := by
  obtain ⟨row, t1, _, h2, h3, _, _⟩ :=
    executeINSERT_index_frame stateS6 queryInsertS6 _ [[[1, 10], [2, 20]]] rfl stateS6_held
      rfl (by decide) (by decide) (by decide) (by decide)
  exact ⟨row, t1, h2, h3⟩

set_option maxRecDepth 100000 in
/-- Scenario S6 evaluated: after `INSERT INTO T ( A = 3, B = 30 )` the table holds
`(1,10),(2,20),(3,30)`, `rowCount = 3`, and both indices map the new keys to location
`(0,2)`; `INSERT INTO T ( B = 30 )` stores `(0,30)`. -/
theorem executeINSERT_S6 :
    storedRows (executeINSERT queryInsertS6 stateS6) "T" = some [[1, 10], [2, 20], [3, 30]] ∧
    ((executeINSERT queryInsertS6 stateS6).tables "T").map
        (fun t => (t.rowCount, t.blockCount, t.rowsPerBlockCount)) = some (3, 1, [3]) ∧
    ((executeINSERT queryInsertS6 stateS6).tables "T").map
        (fun t => t.multiColumnIndexData.lookup "A")
      = some (some [(1, (0, 0)), (2, (0, 1)), (3, (0, 2))]) ∧
    ((executeINSERT queryInsertS6 stateS6).tables "T").map
        (fun t => t.multiColumnIndexData.lookup "B")
      = some (some [(10, (0, 0)), (20, (0, 1)), (30, (0, 2))]) ∧
    storedRows (executeINSERT queryInsertB stateS6) "T" = some [[1, 10], [2, 20], [0, 30]] := by
  refine ⟨?_, ?_, ?_, ?_, ?_⟩ <;> decide

/-! ## The buffer pool invariant (I3) -/

theorem eraseP_name_not_mem (l : List Page) (n : String) (h : (l.map Page.pageName).Nodup) :
    n ∉ (l.eraseP (fun p => decide (p.pageName = n))).map Page.pageName := by
  induction l with
  | nil => simp
  | cons a l ih =>
    simp only [List.map_cons, List.nodup_cons] at h
    by_cases ha : a.pageName = n
    · rw [List.eraseP_cons_of_pos (by simpa using ha), ← ha]
      exact h.1
    · rw [List.eraseP_cons_of_neg (by simpa using ha)]
      simp only [List.map_cons, List.mem_cons, not_or]
      exact ⟨fun e => ha e.symm, ih h.2⟩

theorem PoolInv.of_sublist {s s' : State} (h : PoolInv s) (hsub : s'.pages.Sublist s.pages) :
    PoolInv s' :=
  ⟨le_trans hsub.length_le h.1, h.2.sublist (hsub.map _)⟩

theorem names_nodup_append (l : List Page) (p : Page) (h : (l.map Page.pageName).Nodup)
    (hp : p.pageName ∉ l.map Page.pageName) : ((l ++ [p]).map Page.pageName).Nodup := by
  rw [List.map_append, List.nodup_append]
  refine ⟨h, by simp, ?_⟩
  intro a ha hb
  simp only [List.map_cons, List.map_nil, List.mem_singleton] at hb
  rw [hb] at ha
  exact hp ha

/-- A hit of `getPage` permutes the pool; a miss appends a page of a new name, after the
front page is dropped from a full pool. -/
theorem getPage_poolInv (s : State) (tn : String) (pi : Int) (h : PoolInv s) :
    PoolInv (getPage s tn pi).2 := by
  obtain ⟨hlen, hnd⟩ := h
  rcases getPage_cases s tn pi with ⟨found, hf, hg⟩ | ⟨hf, hl, hg⟩ | ⟨ev, rest, hf, hl, hp, hfull, hg⟩ |
      ⟨hf, hl, hroom, hg⟩
  · rw [hg]
    obtain ⟨hname, hmem⟩ := find?_name_some _ _ _ hf
    have hlt : (s.pages.eraseP (fun p => decide (p.pageName = pageNameOf tn pi))).length
        = s.pages.length - 1 := by
      rw [List.length_eraseP]
      have : s.pages.any (fun p => decide (p.pageName = pageNameOf tn pi)) = true := by
        rw [List.any_eq_true]
        exact ⟨found, hmem, by simpa using hname⟩
      rw [if_pos this]
    have hpos : 0 < s.pages.length := List.length_pos_of_mem hmem
    refine ⟨?_, ?_⟩
    · simp only [List.length_append, List.length_singleton, hlt]
      omega
    · apply names_nodup_append
      · exact hnd.sublist ((List.eraseP_sublist _).map _)
      · rw [hname]
        exact eraseP_name_not_mem _ _ hnd
  · rw [hg]
    exact ⟨hlen, hnd⟩
  · rw [hg]
    have hname := (Page.load_valid s tn pi hl).1
    rw [hp] at hlen hnd
    refine ⟨?_, ?_⟩
    · simp only [List.length_append, List.length_cons, List.length_nil] at hlen ⊢
      omega
    · apply names_nodup_append
      · simp only [List.map_cons, List.nodup_cons] at hnd
        exact hnd.2
      · rw [hname]
        have := (find?_name_none_iff _ _).1 hf
        rw [hp] at this
        simp only [List.map_cons, List.mem_cons, not_or] at this
        exact this.2
  · rw [hg]
    have hname := (Page.load_valid s tn pi hl).1
    refine ⟨?_, ?_⟩
    · simp only [List.length_append, List.length_singleton]
      omega
    · apply names_nodup_append _ _ hnd
      rw [hname]
      exact (find?_name_none_iff _ _).1 hf

theorem insertIntoPool_poolInv (s : State) (page : Page) (h : PoolInv s) :
    PoolInv (insertIntoPool s page) := by
  obtain ⟨hlen, hnd⟩ := h
  have h1 : (s.pages.eraseP (fun p => decide (p.pageName = page.pageName))).length ≤ BLOCK_COUNT :=
    le_trans (List.eraseP_sublist _).length_le hlen
  have h2 := eraseP_name_not_mem s.pages page.pageName hnd
  have h3 : ((s.pages.eraseP (fun p => decide (p.pageName = page.pageName))).map
      Page.pageName).Nodup := hnd.sublist ((List.eraseP_sublist _).map _)
  unfold insertIntoPool
  simp only
  split
  · refine ⟨?_, ?_⟩
    · simp only [List.length_append, List.length_singleton, List.length_drop]
      have : 0 < BLOCK_COUNT := by decide
      omega
    · apply names_nodup_append
      · exact h3.sublist ((List.drop_sublist _ _).map _)
      · intro hm
        exact h2 (((List.drop_sublist 1 _).map _).subset hm)
  · rename_i hroom
    refine ⟨?_, names_nodup_append _ _ h3 h2⟩
    simp only [List.length_append, List.length_singleton]
    omega

/-- Every call keeps the pool invariant. -/
theorem PoolCall.run_poolInv (s : State) (call : PoolCall) (h : PoolInv s) :
    PoolInv (call.run s) := by
  cases call with
  | getPage tn pi => exact getPage_poolInv s tn pi h
  | insertIntoPool page => exact insertIntoPool_poolInv s page h
  | deletePage tn pi =>
    apply h.of_sublist
    exact List.filter_sublist _
  | deleteTablePages tn =>
    apply h.of_sublist
    unfold PoolCall.run BufferManager.deleteTablePages
    simp only
    split <;> exact List.filter_sublist _
  | clearPoolForTable tn =>
    apply h.of_sublist
    exact List.filter_sublist _

theorem PoolCall.foldl_poolInv (calls : List PoolCall) :
    ∀ s : State, PoolInv s → PoolInv (calls.foldl PoolCall.run s) := by
  induction calls with
  | nil => intro s h; exact h
  | cons c cs ih =>
    intro s h
    rw [List.foldl_cons]
    exact ih _ (PoolCall.run_poolInv s c h)

/-- C18: after any sequence of `getPage`, `insertIntoPool`, `deletePage`, `deleteTablePages`
and `clearPoolForTable` calls on a buffer manager whose pool is empty at the start (whatever
the catalogue and the files are), the pool holds at most `BLOCK_COUNT` pages and no two
resident pages have the same page name. -/
theorem pool_bounded_distinct (s0 : State) (calls : List PoolCall) (h0 : s0.pages = []) :
    (calls.foldl PoolCall.run s0).pages.length ≤ BLOCK_COUNT ∧
      ((calls.foldl PoolCall.run s0).pages.map Page.pageName).Nodup := by
  apply PoolCall.foldl_poolInv calls s0
  unfold PoolInv
  rw [h0]
  exact ⟨by simp, by simp⟩

theorem pool_bounded_distinct_witness :
    stateThreePages.pages = [] ∧
      ([PoolCall.getPage "T" 0, PoolCall.getPage "T" 1, PoolCall.insertIntoPool Page.empty,
          PoolCall.getPage "T" 2, PoolCall.deletePage "T" 1].foldl PoolCall.run
            stateThreePages).pages.length ≤ BLOCK_COUNT ∧
      (([PoolCall.getPage "T" 0, PoolCall.getPage "T" 1, PoolCall.insertIntoPool Page.empty,
          PoolCall.getPage "T" 2, PoolCall.deletePage "T" 1].foldl PoolCall.run
            stateThreePages).pages.map Page.pageName).Nodup :=
  ⟨rfl, pool_bounded_distinct stateThreePages _ rfl⟩

/-! ## `getPage` on a page that cannot be loaded -/

theorem readRow_none (n : Nat) : ∀ toks : List Int, toks.length < n → readRow n toks = none := by
  induction n with
  | zero => intro toks h; omega
  | succ n ih =>
    intro toks h
    cases toks with
    | nil => rfl
    | cons t toks =>
      simp only [List.length_cons] at h
      simp only [readRow, ih toks (by omega)]

theorem readRow_length (n : Nat) : ∀ (toks : List Int) (r : Row) (rest : List Int),
    readRow n toks = some (r, rest) → toks.length = n + rest.length := by
  induction n with
  | zero =>
    intro toks r rest h
    simp only [readRow, Option.some.injEq, Prod.mk.injEq] at h
    rw [h.2]
    omega
  | succ n ih =>
    intro toks r rest h
    cases toks with
    | nil => simp [readRow] at h
    | cons t toks =>
      simp only [readRow] at h
      cases hr : readRow n toks with
      | none => simp [hr] at h
      | some x =>
        obtain ⟨r1, rest1⟩ := x
        simp only [hr, Option.some.injEq, Prod.mk.injEq] at h
        have := ih toks r1 rest1 hr
        rw [← h.2]
        simp only [List.length_cons]
        omega

/-- A token stream with fewer than `n * columnCount` integers does not hold `n` rows. -/
theorem readRows_short (cc n : Nat) : ∀ toks : List Int, toks.length < n * cc →
    (readRows cc n toks).2 = false := by
  induction n with
  | zero => intro toks h; omega
  | succ n ih =>
    intro toks h
    simp only [readRows]
    cases hr : readRow cc toks with
    | none => rfl
    | some x =>
      obtain ⟨r, rest⟩ := x
      have hlen := readRow_length cc toks r rest hr
      simp only
      apply ih
      have : (n + 1) * cc = n * cc + cc := by ring
      omega

theorem inPool_false_iff (s : State) (n : String) :
    inPool s n = false ↔ s.pages.find? (fun p => decide (p.pageName = n)) = none := by
  unfold inPool
  rw [List.find?_eq_none, ← Bool.not_eq_true, List.any_eq_true]
  constructor
  · intro h p hp hd
    exact h ⟨p, hp, hd⟩
  · intro h ⟨p, hp, hd⟩
    exact h p hp hd

/-- C20 (amended): when the requested page is not resident and its load fails because the
table is not in the catalogue, `pageIndex` is outside `[0, blockCount)` or has no entry in
`rowsPerBlockCount`, or the catalogue gives the page at least one row and its file is missing
or holds fewer integers than its rows need, `getPage` returns the sentinel page (page index
-1, empty page name, no rows) and leaves the whole state, the pool included, as it was. -/
theorem getPage_load_failure (s : State) (tableName : String) (pageIndex : Int)
    (hres : inPool s (pageNameOf tableName pageIndex) = false)
    (hfail : s.tables tableName = none ∨
      ∃ t, s.tables tableName = some t ∧
        (pageIndex < 0 ∨ pageIndex ≥ (t.blockCount : Int) ∨
          pageIndex ≥ (t.rowsPerBlockCount.length : Int) ∨
          (0 < t.rowsPerBlockCount.getD pageIndex.toNat 0 ∧
            (s.files (pageNameOf tableName pageIndex) = none ∨
              ∃ lines, s.files (pageNameOf tableName pageIndex) = some lines ∧
                lines.flatten.length < t.rowsPerBlockCount.getD pageIndex.toNat 0 * t.columnCount)))) :
    getPage s tableName pageIndex = (Page.empty, s) ∧
      Page.empty.pageIndex = -1 ∧ Page.empty.pageName = "" ∧ Page.empty.rows = [] := by
  refine ⟨?_, rfl, rfl, rfl⟩
  apply getPage_fail _ _ _ ((inPool_false_iff _ _).1 hres)
  unfold Page.load
  rcases hfail with hnone | ⟨t, ht, hcase⟩
  · rw [hnone]
    rfl
  · rw [ht]
    simp only
    by_cases hrange : pageIndex < 0 ∨ pageIndex ≥ (t.blockCount : Int)
    · rw [if_pos hrange]
      rfl
    · rw [if_neg hrange]
      by_cases hent : pageIndex < (t.rowsPerBlockCount.length : Int)
      · rw [if_pos hent]
        rcases hcase with h | h | h | ⟨hpos, hfile⟩
        · exact absurd (Or.inl h) hrange
        · exact absurd (Or.inr h) hrange
        · omega
        · rw [if_neg (by omega)]
          rcases hfile with hf | ⟨lines, hf, hshort⟩
          · rw [hf]
            rfl
          · rw [hf]
            simp only
            rw [readRows_short _ _ _ hshort]
            rfl
      · rw [if_neg hent]
        rfl

theorem getPage_load_failure_witness :
    inPool exampleState (pageNameOf "T" 5) = false ∧
      getPage exampleState "T" 5 = (Page.empty, exampleState) ∧
      Page.empty.pageIndex = -1 ∧ Page.empty.pageName = "" ∧ Page.empty.rows = [] :=
  ⟨by decide, getPage_load_failure exampleState "T" 5 (by decide)
    (Or.inr ⟨exampleTable, by decide, Or.inr (Or.inl (by decide))⟩)⟩

set_option maxRecDepth 100000 in
/-- C20 (as stated, refuted): page 0 of `Z` is not resident and has no page file, yet `getPage`
does not return the sentinel page: the catalogue gives the page no row, so the page is built
without its file being opened, returned under its own name and index, and appended to the
pool. -/
theorem getPage_empty_page_without_file :
    inPool stateEmptyPage (pageNameOf "Z" 0) = false ∧
      stateEmptyPage.files (pageNameOf "Z" 0) = none ∧
      (getPage stateEmptyPage "Z" 0).1 ≠ Page.empty ∧
      (getPage stateEmptyPage "Z" 0).1.pageIndex = 0 ∧
      (getPage stateEmptyPage "Z" 0).1.pageName = "../data/temp/Z_Page0" ∧
      (getPage stateEmptyPage "Z" 0).1.rows = [] ∧
      stateEmptyPage.pages = [] ∧
      (getPage stateEmptyPage "Z" 0).2.pages = [(getPage stateEmptyPage "Z" 0).1] := by
  decide

/-! ## The pool is least-recently-used -/

theorem accessAge_snoc_self (log : List String) (n : String) : accessAge (log ++ [n]) n = 0 := by
  simp [accessAge]

theorem accessAge_snoc_ne (log : List String) (n m : String) (h : m ≠ n) :
    accessAge (log ++ [n]) m = accessAge log m + 1 := by
  unfold accessAge
  rw [List.reverse_append, List.reverse_singleton, List.singleton_append,
    List.indexOf_cons_ne _ (Ne.symm h)]

theorem eraseP_eq_filter_of_nodup (l : List Page) (n : String)
    (h : (l.map Page.pageName).Nodup) :
    l.eraseP (fun p => decide (p.pageName = n)) = l.filter (fun p => decide (p.pageName ≠ n)) := by
  induction l with
  | nil => rfl
  | cons a l ih =>
    simp only [List.map_cons, List.nodup_cons] at h
    by_cases ha : a.pageName = n
    · rw [List.eraseP_cons_of_pos (by simpa using ha), List.filter_cons_of_neg (by simpa using ha)]
      symm
      rw [List.filter_eq_self]
      intro p hp
      have : p.pageName ≠ n := by
        intro e
        apply h.1
        rw [ha, ← e]
        exact List.mem_map_of_mem _ hp
      simpa using this
    · rw [List.eraseP_cons_of_neg (by simpa using ha), List.filter_cons_of_pos (by simpa using ha),
        ih h.2]

theorem find?_of_mem_nodup (l : List Page) (n : String) (found : Page)
    (h : (l.map Page.pageName).Nodup) (hmem : found ∈ l) (hname : found.pageName = n) :
    l.find? (fun p => decide (p.pageName = n)) = some found := by
  induction l with
  | nil => simp at hmem
  | cons a l ih =>
    simp only [List.map_cons, List.nodup_cons] at h
    rcases List.mem_cons.1 hmem with e | hin
    · rw [← e, List.find?_cons_of_pos _ (by simpa using hname)]
    · have ha : a.pageName ≠ n := by
        intro e
        apply h.1
        rw [e, ← hname]
        exact List.mem_map_of_mem _ hin
      rw [List.find?_cons_of_neg _ (by simpa using ha)]
      exact ih h.2 hin

/-- An access leaves a sublist of the former pool, without the accessed name, followed by the
accessed page. -/
theorem access_shape (s : State) (call : PoolCall) (name : String)
    (hacc : call.accessed s = some name) (hinv : PoolInv s) :
    ∃ rest pg, (call.run s).pages = rest ++ [pg] ∧ rest.Sublist s.pages ∧ pg.pageName = name ∧
      ∀ p ∈ rest, p.pageName ≠ name := by
  obtain ⟨hlen, hnd⟩ := hinv
  cases call with
  | getPage tn pi =>
    simp only [PoolCall.accessed] at hacc
    split at hacc
    · rename_i hok
      simp only [Option.some.injEq] at hacc
      subst hacc
      simp only [PoolCall.run]
      rcases getPage_cases s tn pi with ⟨found, hf, hg⟩ | ⟨hf, hl, hg⟩ |
          ⟨ev, rest, hf, hl, hp, hfull, hg⟩ | ⟨hf, hl, hroom, hg⟩
      · rw [hg]
        refine ⟨_, found, rfl, List.eraseP_sublist _, (find?_name_some _ _ _ hf).1, ?_⟩
        intro p hp e
        exact eraseP_name_not_mem _ _ hnd (e ▸ List.mem_map_of_mem _ hp)
      · exfalso
        rcases hok with h | h
        · rw [(inPool_false_iff _ _).2 hf] at h
          exact Bool.false_ne_true h
        · exact h hl
      · rw [hg]
        refine ⟨rest, _, rfl, ?_, (Page.load_valid s tn pi hl).1, ?_⟩
        · rw [hp]
          exact List.sublist_cons_self _ _
        · intro p hpr e
          have := (find?_name_none_iff _ _).1 hf
          apply this
          rw [hp, ← e]
          exact List.mem_map_of_mem _ (List.mem_cons_of_mem _ hpr)
      · rw [hg]
        refine ⟨s.pages, _, rfl, List.Sublist.refl _, (Page.load_valid s tn pi hl).1, ?_⟩
        intro p hpr e
        apply (find?_name_none_iff _ _).1 hf
        rw [← e]
        exact List.mem_map_of_mem _ hpr
    · simp at hacc
  | insertIntoPool page =>
    simp only [PoolCall.accessed, Option.some.injEq] at hacc
    subst hacc
    have h2 := eraseP_name_not_mem s.pages page.pageName hnd
    simp only [PoolCall.run, insertIntoPool]
    split
    · refine ⟨_, page, rfl, (List.drop_sublist _ _).trans (List.eraseP_sublist _), rfl, ?_⟩
      intro p hp e
      have hm := List.mem_map_of_mem Page.pageName ((List.drop_sublist 1 _).subset hp)
      rw [e] at hm
      exact h2 hm
    · refine ⟨_, page, rfl, List.eraseP_sublist _, rfl, ?_⟩
      intro p hp e
      have hm := List.mem_map_of_mem Page.pageName hp
      rw [e] at hm
      exact h2 hm
  | deletePage tn pi => simp [PoolCall.accessed] at hacc
  | deleteTablePages tn => simp [PoolCall.accessed] at hacc
  | clearPoolForTable tn => simp [PoolCall.accessed] at hacc

/-- One access keeps the deque ordered by most recent access, oldest first. -/
theorem access_order (s : State) (call : PoolCall) (name : String) (log : List String)
    (hacc : call.accessed s = some name) (hinv : PoolInv s)
    (hord : s.pages.Pairwise (fun p q => accessAge log q.pageName < accessAge log p.pageName))
    (hmem : ∀ p ∈ s.pages, p.pageName ∈ log) :
    (call.run s).pages.Pairwise (fun p q =>
        accessAge (log ++ [name]) q.pageName < accessAge (log ++ [name]) p.pageName) ∧
      ∀ p ∈ (call.run s).pages, p.pageName ∈ log ++ [name] := by
  obtain ⟨rest, pg, hpages, hsub, hname, hne⟩ := access_shape s call name hacc hinv
  rw [hpages]
  refine ⟨?_, ?_⟩
  · rw [List.pairwise_append]
    refine ⟨?_, List.pairwise_singleton _ _, ?_⟩
    · apply List.Pairwise.imp_of_mem _ (hord.sublist hsub)
      intro a b ha hb hab
      rw [accessAge_snoc_ne _ _ _ (hne a ha), accessAge_snoc_ne _ _ _ (hne b hb)]
      omega
    · intro a ha b hb
      rw [List.mem_singleton] at hb
      rw [hb, hname, accessAge_snoc_self, accessAge_snoc_ne _ _ _ (hne a ha)]
      omega
  · intro p hp
    rcases List.mem_append.1 hp with h | h
    · exact List.mem_append_left _ (hmem p (hsub.subset h))
    · rw [List.mem_singleton] at h
      rw [h, hname]
      simp

theorem runAccesses_order : ∀ (calls : List PoolCall) (s : State) (log0 log : List String)
    (s' : State), runAccesses s calls = some (log, s') → PoolInv s →
    s.pages.Pairwise (fun p q => accessAge log0 q.pageName < accessAge log0 p.pageName) →
    (∀ p ∈ s.pages, p.pageName ∈ log0) →
    PoolInv s' ∧
      s'.pages.Pairwise (fun p q =>
        accessAge (log0 ++ log) q.pageName < accessAge (log0 ++ log) p.pageName) ∧
      ∀ p ∈ s'.pages, p.pageName ∈ log0 ++ log := by
  intro calls
  induction calls with
  | nil =>
    intro s log0 log s' hrun hinv hord hmem
    simp only [runAccesses, Option.some.injEq, Prod.mk.injEq] at hrun
    rw [← hrun.1, ← hrun.2, List.append_nil]
    exact ⟨hinv, hord, hmem⟩
  | cons c cs ih =>
    intro s log0 log s' hrun hinv hord hmem
    simp only [runAccesses] at hrun
    cases hacc : c.accessed s with
    | none => simp [hacc] at hrun
    | some name =>
      simp only [hacc] at hrun
      cases hrest : runAccesses (c.run s) cs with
      | none => simp [hrest] at hrun
      | some r =>
        simp only [hrest, Option.some.injEq, Prod.mk.injEq] at hrun
        obtain ⟨h1, h2⟩ := access_order s c name log0 hacc hinv hord hmem
        have := ih (c.run s) (log0 ++ [name]) r.1 r.2 hrest (PoolCall.run_poolInv s c hinv) h1 h2
        rw [← hrun.1, ← hrun.2]
        simpa [List.append_assoc] using this

theorem runAccesses_state : ∀ (calls : List PoolCall) (s : State) (r : List String × State),
    runAccesses s calls = some r → r.2 = calls.foldl PoolCall.run s := by
  intro calls
  induction calls with
  | nil =>
    intro s r h
    simp only [runAccesses, Option.some.injEq] at h
    rw [← h]
    rfl
  | cons c cs ih =>
    intro s r h
    simp only [runAccesses] at h
    cases hacc : c.accessed s with
    | none => simp [hacc] at h
    | some name =>
      simp only [hacc] at h
      cases hrest : runAccesses (c.run s) cs with
      | none => simp [hrest] at h
      | some r1 =>
        simp only [hrest, Option.some.injEq] at h
        rw [← h, List.foldl_cons]
        exact ih _ r1 hrest

/-- C19: the pool is strictly LRU.  After any sequence of `insertIntoPool` calls and
successful `getPage` calls on a pool that is empty at the start, with `log` the page names
accessed (oldest first): the deque is ordered by most recent access, oldest first (every
resident page was accessed, and a page nearer the tail has the more recent last access); a
`getPage` hit returns the resident page and leaves the other pages in their order with the
hit page moved to the tail; a miss on a full pool drops the front page, which is the resident
page whose last access is the oldest, and appends the loaded page. -/
theorem pool_strict_lru (s0 : State) (calls : List PoolCall) (log : List String)
    (h0 : s0.pages = []) (hrun : (runAccesses s0 calls).map Prod.fst = some log) :
    (calls.foldl PoolCall.run s0).pages.Pairwise
        (fun p q => accessAge log q.pageName < accessAge log p.pageName) ∧
      (∀ p ∈ (calls.foldl PoolCall.run s0).pages, p.pageName ∈ log) ∧
      (∀ (tn : String) (pi : Int) (found : Page), found ∈ (calls.foldl PoolCall.run s0).pages →
        found.pageName = pageNameOf tn pi →
        getPage (calls.foldl PoolCall.run s0) tn pi
          = (found, { calls.foldl PoolCall.run s0 with
              pages := (calls.foldl PoolCall.run s0).pages.filter
                (fun p => decide (p.pageName ≠ pageNameOf tn pi)) ++ [found] })) ∧
      (∀ (tn : String) (pi : Int), inPool (calls.foldl PoolCall.run s0) (pageNameOf tn pi) = false →
        (Page.load (calls.foldl PoolCall.run s0) tn pi).pageIndex ≠ -1 →
        (calls.foldl PoolCall.run s0).pages.length = BLOCK_COUNT →
        ∃ oldest rest, (calls.foldl PoolCall.run s0).pages = oldest :: rest ∧
          (∀ q ∈ rest, accessAge log q.pageName < accessAge log oldest.pageName) ∧
          (getPage (calls.foldl PoolCall.run s0) tn pi).1
            = Page.load (calls.foldl PoolCall.run s0) tn pi ∧
          (getPage (calls.foldl PoolCall.run s0) tn pi).2.pages
            = rest ++ [Page.load (calls.foldl PoolCall.run s0) tn pi]) := by
  cases hr : runAccesses s0 calls with
  | none => simp [hr] at hrun
  | some r =>
    simp only [hr, Option.map_some', Option.some.injEq] at hrun
    have hstate := runAccesses_state calls s0 r hr
    have hinv0 : PoolInv s0 := by
      unfold PoolInv
      rw [h0]
      exact ⟨by simp, by simp⟩
    have hmain := runAccesses_order calls s0 [] r.1 r.2 hr hinv0 (by rw [h0]; exact List.Pairwise.nil)
      (by rw [h0]; simp)
    rw [List.nil_append, hrun, hstate] at hmain
    obtain ⟨hinv, hord, hmem⟩ := hmain
    refine ⟨hord, hmem, ?_, ?_⟩
    · intro tn pi found hfound hname
      rw [getPage_hit _ tn pi found (find?_of_mem_nodup _ _ _ hinv.2 hfound hname),
        eraseP_eq_filter_of_nodup _ _ hinv.2]
    · intro tn pi hres hload hfull
      have hfind := (inPool_false_iff _ _).1 hres
      cases hp : (calls.foldl PoolCall.run s0).pages with
      | nil =>
        rw [hp] at hfull
        exact absurd hfull (by decide)
      | cons oldest rest =>
        refine ⟨oldest, rest, rfl, ?_, ?_, ?_⟩
        · rw [hp, List.pairwise_cons] at hord
          exact hord.1
        · rw [getPage_evict _ tn pi oldest rest hfind hload hp (by omega)]
        · rw [getPage_evict _ tn pi oldest rest hfind hload hp (by omega)]

set_option maxRecDepth 100000 in
theorem pool_strict_lru_witness :
    stateThreePages.pages = [] ∧
      (runAccesses stateThreePages [PoolCall.getPage "T" 0, PoolCall.getPage "T" 1,
        PoolCall.getPage "T" 0, PoolCall.getPage "T" 2]).map Prod.fst
        = some ["../data/temp/T_Page0", "../data/temp/T_Page1", "../data/temp/T_Page0",
            "../data/temp/T_Page2"] ∧
      ([PoolCall.getPage "T" 0, PoolCall.getPage "T" 1, PoolCall.getPage "T" 0,
        PoolCall.getPage "T" 2].foldl PoolCall.run stateThreePages).pages.Pairwise
        (fun p q =>
          accessAge ["../data/temp/T_Page0", "../data/temp/T_Page1", "../data/temp/T_Page0",
              "../data/temp/T_Page2"] q.pageName
            < accessAge ["../data/temp/T_Page0", "../data/temp/T_Page1", "../data/temp/T_Page0",
              "../data/temp/T_Page2"] p.pageName) :=
  ⟨rfl, by decide,
    (pool_strict_lru stateThreePages [PoolCall.getPage "T" 0, PoolCall.getPage "T" 1,
      PoolCall.getPage "T" 0, PoolCall.getPage "T" 2] _ rfl (by decide)).1⟩

/-! ## Page counts of `Table::blockify` -/

theorem map_length_of_forall {α : Type} (L : List (List α)) (m : Nat)
    (h : ∀ p ∈ L, p.length = m) : L.map List.length = List.replicate L.length m := by
  induction L with
  | nil => rfl
  | cons a L ih =>
    rw [List.map_cons, List.length_cons, List.replicate_succ, h a (List.mem_cons_self _ _),
      ih (fun p hp => h p (List.mem_cons_of_mem _ hp))]

theorem blockify_unfold (t : Table) (s : State) (file : SourceFile)
    (hsrc : s.sources t.sourceFileName = some file) (hcc : 0 < t.columnCount)
    (hm : 0 < t.maxRowsPerBlock) :
    t.blockify s =
      (true,
        (if (file.lines.foldl blockifyLine (blockifyStart t s)).pageRowCounter > 0 then
          { (file.lines.foldl blockifyLine (blockifyStart t s)).table with
            blockCount := (file.lines.foldl blockifyLine (blockifyStart t s)).table.blockCount + 1
            rowsPerBlockCount :=
              (file.lines.foldl blockifyLine (blockifyStart t s)).table.rowsPerBlockCount
                ++ [(file.lines.foldl blockifyLine (blockifyStart t s)).pageRowCounter] }
        else (file.lines.foldl blockifyLine (blockifyStart t s)).table),
        (if (file.lines.foldl blockifyLine (blockifyStart t s)).pageRowCounter > 0 then
          BufferManager.writePage (file.lines.foldl blockifyLine (blockifyStart t s)).state
            (file.lines.foldl blockifyLine (blockifyStart t s)).table.tableName
            ((file.lines.foldl blockifyLine (blockifyStart t s)).table.blockCount : Int)
            (file.lines.foldl blockifyLine (blockifyStart t s)).rowsInPage
            ((file.lines.foldl blockifyLine (blockifyStart t s)).pageRowCounter : Int)
        else (file.lines.foldl blockifyLine (blockifyStart t s)).state)) := by
  unfold Table.blockify
  simp only [hsrc]
  rw [if_neg (by omega), if_neg (by omega)]
  split <;> rfl

theorem blockify_loop_inv (t : Table) (s : State) (lines : List (List Int))
    (hm : 0 < t.maxRowsPerBlock) :
    BlockifyInv { t with rowCount := 0, blockCount := 0, rowsPerBlockCount := [] } s
      (lines.filter (fun l => decide (l.length = t.columnCount)))
      (lines.foldl blockifyLine (blockifyStart t s)) := by
  have hinit : BlockifyInv { t with rowCount := 0, blockCount := 0, rowsPerBlockCount := [] } s []
      (blockifyStart t s) := by
    refine ⟨[], by simp [blockifyStart], by simp, by simp [blockifyStart], ?_, hm,
      by simp [blockifyStart], rfl, rfl, rfl, by simp, fun _ _ => rfl⟩
    intro r hr
    rw [List.eq_of_mem_replicate hr]
    simp
  have hfold := blockify_fold_inv _ s lines [] _ hinit
  simpa only [List.nil_append] using hfold

/-- The shape of the result of `Table::blockify` on `n` valid lines with
`maxRowsPerBlock = m`: `n / m` full pages and, when `n % m > 0`, one more page counted with
`n % m` rows, whose file is written from the whole page buffer of `m` rows. -/
theorem blockify_shape (t : Table) (s : State) (file : SourceFile)
    (hsrc : s.sources t.sourceFileName = some file) (hcc : 0 < t.columnCount)
    (hm : 0 < t.maxRowsPerBlock) :
    ∃ (q r : Nat) (buf : List Row), r < t.maxRowsPerBlock ∧
      (file.lines.filter (fun l => decide (l.length = t.columnCount))).length
        = t.maxRowsPerBlock * q + r ∧
      buf.length = t.maxRowsPerBlock ∧
      (t.blockify s).1 = true ∧
      (t.blockify s).2.1 = { t with
        rowCount := ((file.lines.filter (fun l => decide (l.length = t.columnCount))).length : Int)
        blockCount := q + (if r > 0 then 1 else 0)
        rowsPerBlockCount := List.replicate q t.maxRowsPerBlock ++ (if r > 0 then [r] else []) } ∧
      (r > 0 → (t.blockify s).2.2.files (pageNameOf t.tableName (q : Int)) = some buf) := by
  obtain ⟨pagesW, hdone, hfull, hbuf, _, hlt, htab, _, _, _, _, _⟩ := blockify_loop_inv t s file.lines hm
  obtain ⟨V, hV⟩ : ∃ V, V = file.lines.foldl blockifyLine (blockifyStart t s) := ⟨_, rfl⟩
  rw [← hV] at hdone hbuf hlt htab
  simp only at hfull hbuf hlt
  have hlen : (file.lines.filter (fun l => decide (l.length = t.columnCount))).length
      = t.maxRowsPerBlock * pagesW.length + V.pageRowCounter := by
    rw [hdone, List.length_append, List.length_flatten, map_length_of_forall _ _ hfull,
      List.sum_replicate, List.length_take, hbuf, smul_eq_mul, Nat.mul_comm]
    congr 1
    omega
  refine ⟨pagesW.length, V.pageRowCounter, V.rowsInPage, hlt, hlen, hbuf, ?_, ?_, ?_⟩
  · rw [blockify_unfold t s file hsrc hcc hm]
  · rw [blockify_unfold t s file hsrc hcc hm, ← hV]
    simp only
    rw [htab, hlen, map_length_of_forall _ _ hfull]
    split
    · simp
    · simp
  · intro hr
    rw [blockify_unfold t s file hsrc hcc hm, ← hV]
    simp only
    rw [if_pos hr, BufferManager.writePage_files, htab]
    simp [setFile]

theorem ceil_div_eq (m q r : Nat) (hm : 0 < m) (hr : r < m) :
    (m * q + r + m - 1) / m = q + (if r > 0 then 1 else 0) := by
  split
  · rename_i h
    apply Nat.div_eq_of_lt_le
    · rw [Nat.add_mul, Nat.one_mul, Nat.mul_comm q m]
      omega
    · rw [Nat.succ_mul, Nat.add_mul, Nat.one_mul, Nat.mul_comm q m]
      omega
  · rename_i h
    apply Nat.div_eq_of_lt_le
    · rw [Nat.add_zero, Nat.mul_comm q m]
      omega
    · rw [Nat.add_zero, Nat.succ_mul, Nat.mul_comm q m]
      omega

theorem getD_replicate_append {α : Type} (q i : Nat) (a d : α) (l : List α) (h : i < q) :
    (List.replicate q a ++ l).getD i d = a := by
  rw [List.getD_eq_getElem _ _ (by simp; omega), List.getElem_append_left (by simpa using h)]
  simp

theorem getD_replicate_append_length {α : Type} (q : Nat) (a b d : α) :
    (List.replicate q a ++ [b]).getD q d = b := by
  rw [List.getD_eq_getElem _ _ (by simp), List.getElem_append_right (by simp)]
  simp

/-- C14: `Table::blockify` on a source file with `n` valid data lines (lines with
`columnCount` values), for a table with at least one column and `maxRowsPerBlock = m ≥ 1`,
returns true and leaves `rowCount = n`, `blockCount = ⌈n / m⌉`, `rowsPerBlockCount` with
exactly `blockCount` entries, every entry but the last equal to `m`, the last entry in
`[1, m]`, and `rowCount` equal to the sum of `rowsPerBlockCount`; with no valid data line,
`rowCount = 0` and `blockCount = 0`. -/
theorem blockify_metadata (t : Table) (s : State) (file : SourceFile)
    (hsrc : s.sources t.sourceFileName = some file) (hcc : 0 < t.columnCount)
    (hm : 1 ≤ t.maxRowsPerBlock) :
    (t.blockify s).1 = true ∧
      (t.blockify s).2.1.rowCount
        = ((file.lines.filter (fun l => decide (l.length = t.columnCount))).length : Int) ∧
      (t.blockify s).2.1.blockCount
        = ((file.lines.filter (fun l => decide (l.length = t.columnCount))).length
            + t.maxRowsPerBlock - 1) / t.maxRowsPerBlock ∧
      (t.blockify s).2.1.rowsPerBlockCount.length = (t.blockify s).2.1.blockCount ∧
      (∀ i, i + 1 < (t.blockify s).2.1.blockCount →
        (t.blockify s).2.1.rowsPerBlockCount.getD i 0 = t.maxRowsPerBlock) ∧
      (0 < (t.blockify s).2.1.blockCount →
        1 ≤ (t.blockify s).2.1.rowsPerBlockCount.getD ((t.blockify s).2.1.blockCount - 1) 0 ∧
        (t.blockify s).2.1.rowsPerBlockCount.getD ((t.blockify s).2.1.blockCount - 1) 0
          ≤ t.maxRowsPerBlock) ∧
      (t.blockify s).2.1.rowCount = (((t.blockify s).2.1.rowsPerBlockCount.sum : Nat) : Int) ∧
      ((file.lines.filter (fun l => decide (l.length = t.columnCount))).length = 0 →
        (t.blockify s).2.1.rowCount = 0 ∧ (t.blockify s).2.1.blockCount = 0) := by
  obtain ⟨q, r, buf, hr, hn, _, hok, htab, _⟩ := blockify_shape t s file hsrc hcc hm
  obtain ⟨n, hndef⟩ : ∃ n, n = (file.lines.filter (fun l => decide (l.length = t.columnCount))).length :=
    ⟨_, rfl⟩
  rw [← hndef] at hn htab ⊢
  rw [htab]
  simp only
  refine ⟨hok, trivial, ?_, ?_, ?_, ?_, ?_, ?_⟩
  · rw [hn, ceil_div_eq _ _ _ hm hr]
  · split <;> simp
  · intro i hi
    apply getD_replicate_append
    split at hi <;> omega
  · intro hpos
    by_cases h0 : r > 0
    · simp only [if_pos h0, Nat.add_sub_cancel, getD_replicate_append_length]
      omega
    · simp only [if_neg h0, Nat.add_zero, List.append_nil] at hpos ⊢
      rw [← List.append_nil (List.replicate q t.maxRowsPerBlock),
        getD_replicate_append q (q - 1) _ _ _ (by omega)]
      omega
  · rw [hn]
    split
    · simp [List.sum_replicate, Nat.mul_comm]
    · rename_i h0
      have : r = 0 := by omega
      simp [List.sum_replicate, Nat.mul_comm, this]
  · intro h0
    rw [h0] at hn
    have hq : q = 0 := by
      rcases Nat.eq_zero_or_pos q with h | h
      · exact h
      · have : t.maxRowsPerBlock * 1 ≤ t.maxRowsPerBlock * q := Nat.mul_le_mul_left _ h
        omega
    have hr0 : r = 0 := by
      rw [hq] at hn
      omega
    rw [h0, hq, hr0]
    simp

theorem blockify_metadata_witness :
    stateS2.sources tableS2.sourceFileName
        = some { header := ["A", "B", "C"],
                 lines := [[1, 2, 3], [4, 5, 6], [7, 8, 9], [1, 20, 30]] } ∧
      0 < tableS2.columnCount ∧ 1 ≤ tableS2.maxRowsPerBlock ∧
      (tableS2.blockify stateS2).1 = true ∧ (tableS2.blockify stateS2).2.1.rowCount = 4 ∧
      (tableS2.blockify stateS2).2.1.blockCount = 1 :=
  ⟨by decide, by decide, by decide,
    (blockify_metadata tableS2 stateS2
      { header := ["A", "B", "C"], lines := [[1, 2, 3], [4, 5, 6], [7, 8, 9], [1, 20, 30]] }
      (by decide) (by decide) (by decide)).1,
    (blockify_metadata tableS2 stateS2
      { header := ["A", "B", "C"], lines := [[1, 2, 3], [4, 5, 6], [7, 8, 9], [1, 20, 30]] }
      (by decide) (by decide) (by decide)).2.1,
    (blockify_metadata tableS2 stateS2
      { header := ["A", "B", "C"], lines := [[1, 2, 3], [4, 5, 6], [7, 8, 9], [1, 20, 30]] }
      (by decide) (by decide) (by decide)).2.2.1⟩

/-- C15 (evaluation at scenario S2): `LOAD T` of the CSV with four data rows counts one page
of four rows (`rowsPerBlockCount = [4]`), but the file written for page 0 holds the whole
page buffer, 2730666 rows: the page built by `Page::Page(tableName, pageIndex, rows, rowCount)`
takes the size of the row vector for its row count and `Page::writePage` writes every row
of the vector. -/
theorem blockify_S2_partial_page_file :
    ((Table.new "T").load stateS2).2.1.rowsPerBlockCount = [4] ∧
      ((Table.new "T").load stateS2).2.1.blockCount = 1 ∧
      ((Table.new "T").load stateS2).2.1.columnCount = 3 ∧
      ∃ rows, ((Table.new "T").load stateS2).2.2.files "../data/temp/T_Page0" = some rows ∧
        rows.length = 2730666 := by
  have hload : (Table.new "T").load stateS2 = tableS2.blockify stateS2 := rfl
  obtain ⟨q, r, buf, hr, hn, hbuf, _, htab, hfile⟩ := blockify_shape tableS2 stateS2
    { header := ["A", "B", "C"], lines := [[1, 2, 3], [4, 5, 6], [7, 8, 9], [1, 20, 30]] }
    (by decide) (by decide) (by decide)
  have hm : tableS2.maxRowsPerBlock = 2730666 := by decide
  have hn4 : (List.filter (fun l => decide (l.length = tableS2.columnCount))
      ({ header := ["A", "B", "C"], lines := [[1, 2, 3], [4, 5, 6], [7, 8, 9], [1, 20, 30]] } :
        SourceFile).lines).length = 4 := by decide
  rw [hn4, hm] at hn
  rw [hm] at hr hbuf
  have hq : q = 0 := by omega
  have hr4 : r = 4 := by omega
  subst hq
  subst hr4
  rw [hload, htab]
  refine ⟨by simp, by simp, by decide, buf, ?_, hbuf⟩
  have := hfile (by decide)
  rw [← this]
  rfl

/-! ## UPDATE and DELETE on tables of three pages -/

set_option maxRecDepth 100000 in
/-- C11 (evaluation): `UPDATE T WHERE col >= 0 SET col = 9` on the table with the rows `3,1,2`
on three pages.  Every row satisfies the condition, yet page 0 still holds `3` afterwards:
the page was rewritten on disk while its old copy stayed in the pool, and the fetch of page 2
evicted that copy from the full pool (`BLOCK_COUNT = 2`) and wrote it back over the new file.
On the two-page table with the rows `2,1,3` the same command sets every row to `9`. -/
theorem executeUPDATE_three_pages_reverts_page :
    storedRows stateThreePages "T" = some [[3], [1], [2]] ∧
      storedRows (executeUPDATE queryUpdateAll stateThreePages) "T" = some [[3], [9], [9]] ∧
      fullScan 10 (executeUPDATE queryUpdateAll stateThreePages) "T" = some [[3], [9], [9]] ∧
      (executeUPDATE queryUpdateAll stateThreePages).pages = [] ∧
      tableCounts (executeUPDATE queryUpdateAll stateThreePages) "T" = some (3, 3, [1, 1, 1]) ∧
      storedRows (executeUPDATE queryUpdateAll stateTwoPages) "T" = some [[9], [9], [9]] := by
  decide

set_option maxRecDepth 100000 in
/-- C12 (evaluation): `DELETE FROM T WHERE col == 1` on the table with the rows `1,2` on page 0,
`3` on page 1 and `4` on page 2.  The metadata is as the claim says (`rowCount = 3`,
`rowsPerBlockCount = [1,1,1]`, three pages), but page 0 holds the deleted row `1` and has lost
the row `2`: its file was rewritten with `2`, then overwritten with the old rows `1,2` when
the fetch of page 2 evicted the stale copy of page 0, and only the first row is read back.
On the two-page table with the rows `2,1` and `3` the same command leaves `2` and `3`. -/
theorem executeDELETE_three_pages_keeps_deleted_row :
    storedRows stateFourRows "T" = some [[1], [2], [3], [4]] ∧
      (executeDELETE queryDeleteOne stateFourRows).state.bind (fun s => storedRows s "T")
        = some [[1], [3], [4]] ∧
      (executeDELETE queryDeleteOne stateFourRows).state.bind (fun s => tableCounts s "T")
        = some (3, 3, [1, 1, 1]) ∧
      (executeDELETE queryDeleteOne stateFourRows).state.bind
          (fun s => s.files "../data/temp/T_Page0") = some [[1], [2]] ∧
      (executeDELETE queryDeleteOne stateTwoPages).state.bind (fun s => storedRows s "T")
        = some [[2], [3]] := by
  decide

set_option maxRecDepth 100000 in
/-- C13 (evaluation): `DELETE FROM T WHERE col == 1` on the table with the rows `3,1,2` on three
pages of one row each.  Page 1 stays with `rowsPerBlockCount[1] = 0`, `rowCount = 2`, and the
pages hold `3` and `2`; the scan of a fresh cursor gets the empty row from `getNext` right
after `3` and ends with one row: `getNext` moves to the next page only once per call. -/
theorem executeDELETE_scan_stops_at_empty_page :
    (executeDELETE queryDeleteOne stateThreePages).state.bind (fun s => tableCounts s "T")
        = some (2, 3, [1, 0, 1]) ∧
      (executeDELETE queryDeleteOne stateThreePages).state.bind (fun s => storedRows s "T")
        = some [[3], [2]] ∧
      (executeDELETE queryDeleteOne stateThreePages).state.bind (fun s => fullScan 10 s "T")
        = some [[3]] ∧
      (executeDELETE queryDeleteOne stateThreePages).state.bind (fun s => scanRows 2 s "T")
        = some [[3], []] := by
  decide

/-! ## Index maps built by repeated assignment -/

theorem IndexMap.mem_assign (m : IndexMap) (k : Int) (loc : RowLocation) (e : Int × RowLocation)
    (h : e ∈ m.assign k loc) : e = (k, loc) ∨ e ∈ m := by
  induction m with
  | nil =>
    simp only [IndexMap.assign, List.mem_singleton] at h
    exact Or.inl h
  | cons a m ih =>
    obtain ⟨k', loc'⟩ := a
    simp only [IndexMap.assign] at h
    split at h
    · rcases List.mem_cons.1 h with h | h
      · exact Or.inl h
      · exact Or.inr h
    · split at h
      · rcases List.mem_cons.1 h with h | h
        · exact Or.inl h
        · exact Or.inr (List.mem_cons_of_mem _ h)
      · rcases List.mem_cons.1 h with h | h
        · exact Or.inr (h ▸ List.mem_cons_self _ _)
        · rcases ih h with h | h
          · exact Or.inl h
          · exact Or.inr (List.mem_cons_of_mem _ h)

theorem mem_foldl_assign (E : List (Int × RowLocation)) :
    ∀ (m0 : IndexMap) (e : Int × RowLocation),
      e ∈ E.foldl (fun m x => IndexMap.assign m x.1 x.2) m0 → e ∈ E ∨ e ∈ m0 := by
  induction E with
  | nil => intro m0 e h; exact Or.inr h
  | cons a E ih =>
    intro m0 e h
    rw [List.foldl_cons] at h
    rcases ih _ _ h with h | h
    · exact Or.inl (List.mem_cons_of_mem _ h)
    · rcases IndexMap.mem_assign _ _ _ _ h with h | h
      · exact Or.inl (h ▸ List.mem_cons_self _ _)
      · exact Or.inr h

theorem mem_of_lookup {α β : Type} [BEq α] [LawfulBEq α] (l : List (α × β)) (k : α) (v : β)
    (h : l.lookup k = some v) : (k, v) ∈ l := by
  induction l with
  | nil => simp at h
  | cons a l ih =>
    obtain ⟨k', v'⟩ := a
    by_cases hk : k = k'
    · subst hk
      simp only [List.lookup_cons, beq_self_eq_true, Option.some.injEq] at h
      rw [h]
      exact List.mem_cons_self _ _
    · have e1 : (k == k') = false := by simpa using hk
      simp only [List.lookup_cons, e1] at h
      exact List.mem_cons_of_mem _ (ih h)

/-- The map built by assigning the entries of `E` in order maps `v` to the location of the
last entry of `E` with key `v`. -/
theorem lookup_foldl_assign (E : List (Int × RowLocation)) (v : Int) (loc : RowLocation) :
    (E.foldl (fun m x => IndexMap.assign m x.1 x.2) []).lookup v = some loc ↔
      ∃ E1 E2, E = E1 ++ (v, loc) :: E2 ∧ ∀ e ∈ E2, e.1 ≠ v := by
  induction E using List.reverseRecOn with
  | nil =>
    simp only [List.foldl_nil, List.lookup_nil]
    constructor
    · intro h; cases h
    · rintro ⟨E1, E2, h, _⟩
      exact absurd h (by simp)
  | append_singleton E a ih =>
    rw [List.foldl_append, List.foldl_cons, List.foldl_nil]
    by_cases hk : a.1 = v
    · rw [hk, IndexMap.lookup_assign_self]
      constructor
      · intro h
        simp only [Option.some.injEq] at h
        refine ⟨E, [], ?_, by simp⟩
        rw [← h, ← hk]
      · rintro ⟨E1, E2, h, hnone⟩
        rcases List.eq_nil_or_concat E2 with h2 | ⟨E2', b, h2⟩
        · subst h2
          have := List.append_inj_right' h (by simp)
          simp only [List.cons.injEq, and_true] at this
          rw [this]
        · exfalso
          subst h2
          rw [List.concat_eq_append, ← List.cons_append, ← List.append_assoc] at h
          have := List.append_inj_right' h (by simp)
          simp only [List.cons.injEq, and_true] at this
          apply hnone b (by simp)
          rw [← this, hk]
    · rw [IndexMap.lookup_assign_other _ _ _ _ (fun e => hk e.symm), ih]
      constructor
      · rintro ⟨E1, E2, h, hnone⟩
        refine ⟨E1, E2 ++ [a], by rw [h]; simp, ?_⟩
        intro e he
        rcases List.mem_append.1 he with h1 | h1
        · exact hnone e h1
        · rw [List.mem_singleton.1 h1]
          exact hk
      · rintro ⟨E1, E2, h, hnone⟩
        rcases List.eq_nil_or_concat E2 with h2 | ⟨E2', b, h2⟩
        · exfalso
          subst h2
          have := List.append_inj_right' h (by simp)
          simp only [List.cons.injEq, and_true] at this
          apply hk
          rw [this]
        · subst h2
          rw [List.concat_eq_append, ← List.cons_append, ← List.append_assoc] at h
          have h1 := List.append_inj_left' h (by simp)
          refine ⟨E1, E2', h1, ?_⟩
          intro e he
          exact hnone e (by simp [he])

/-! ## The entries of a column in page-then-row order -/

theorem mem_indexEntries (ci : Nat) (pages : List (List Row)) (e : Int × RowLocation) :
    e ∈ indexEntries ci pages ↔
      ∃ p r : Nat, p < pages.length ∧ r < (pages.getD p []).length ∧
        e = ((rowAt pages p r).getD ci 0, ((p : Int), (r : Int))) := by
  unfold indexEntries pageEntries
  simp only [List.mem_flatMap, List.mem_range, List.mem_map]
  constructor
  · rintro ⟨p, hp, r, hr, he⟩
    exact ⟨p, r, hp, hr, he.symm⟩
  · rintro ⟨p, r, hp, hr, he⟩
    exact ⟨p, hp, r, hr, he.symm⟩

/-- The locations of the entries increase strictly in page-then-row order. -/
theorem indexEntries_pairwise (ci : Nat) (pages : List (List Row)) :
    (indexEntries ci pages).Pairwise
      (fun a b => a.2.1 < b.2.1 ∨ (a.2.1 = b.2.1 ∧ a.2.2 < b.2.2)) := by
  unfold indexEntries pageEntries
  rw [List.flatMap, List.pairwise_flatten]
  refine ⟨?_, ?_⟩
  · intro l hl
    obtain ⟨p, _, rfl⟩ := List.mem_map.1 hl
    rw [List.pairwise_map]
    apply List.Pairwise.imp _ (List.pairwise_lt_range _)
    intro a b hab
    right
    exact ⟨rfl, by simpa using hab⟩
  · rw [List.pairwise_map]
    apply List.Pairwise.imp _ (List.pairwise_lt_range _)
    intro p q hpq x hx y hy
    obtain ⟨r, _, rfl⟩ := List.mem_map.1 hx
    obtain ⟨r', _, rfl⟩ := List.mem_map.1 hy
    left
    simpa using hpq

/-- In a list of entries with strictly increasing locations, the last entry with key `v` is
the entry with key `v` whose location no other entry with key `v` exceeds. -/
theorem last_entry_iff (E : List (Int × RowLocation)) (v : Int) (loc : RowLocation)
    (hpw : E.Pairwise (fun a b => a.2.1 < b.2.1 ∨ (a.2.1 = b.2.1 ∧ a.2.2 < b.2.2))) :
    (∃ E1 E2, E = E1 ++ (v, loc) :: E2 ∧ ∀ e ∈ E2, e.1 ≠ v) ↔
      (v, loc) ∈ E ∧ ∀ e ∈ E, e.1 = v →
        e.2.1 < loc.1 ∨ (e.2.1 = loc.1 ∧ e.2.2 ≤ loc.2) := by
  constructor
  · rintro ⟨E1, E2, hE, hnone⟩
    subst hE
    refine ⟨by simp, ?_⟩
    intro e he hv
    rw [List.pairwise_append] at hpw
    rcases List.mem_append.1 he with h | h
    · rcases hpw.2.2 e h (v, loc) (List.mem_cons_self _ _) with h1 | h1
      · exact Or.inl h1
      · exact Or.inr ⟨h1.1, le_of_lt h1.2⟩
    · rcases List.mem_cons.1 h with h | h
      · rw [h]
        exact Or.inr ⟨rfl, le_refl _⟩
      · exact absurd hv (hnone e h)
  · rintro ⟨hmem, hmax⟩
    obtain ⟨E1, E2, hE⟩ := List.append_of_mem hmem
    refine ⟨E1, E2, hE, ?_⟩
    intro e he hv
    rw [hE, List.pairwise_append, List.pairwise_cons] at hpw
    have h1 := hpw.2.1.1 e he
    have h2 := hmax e (by rw [hE]; simp [he]) hv
    simp only at h1
    omega

/-! ## Work on one table leaves the other tables alone -/

theorem Frame.same (name : String) (s : State) : Frame name s s :=
  ⟨fun _ _ => rfl, fun _ _ _ h => h, fun _ h => h, fun _ _ h => h⟩

theorem Frame.comp {name : String} {s1 s2 s3 : State} (h12 : Frame name s1 s2)
    (h23 : Frame name s2 s3) : Frame name s1 s3 := by
  refine ⟨?_, ?_, ?_, ?_⟩
  · intro other ho
    rw [h23.1 other ho, h12.1 other ho]
  · intro other ho pg h
    exact h23.2.1 other ho pg (h12.2.1 other ho pg h)
  · intro n hn
    exact h23.2.2.1 n (h12.2.2.1 n hn)
  · intro n hn hf
    have h2 : s2.tables n = none := by
      by_contra hc
      exact h23.2.2.1 n hc hn
    exact h23.2.2.2 n hn (h12.2.2.2 n h2 hf)

/-- Page fetches for a registered table are work on that table alone. -/
theorem Frame.of_readsOf {name : String} {s1 s2 : State} (h : ReadsOf name s1 s2)
    (hreg : s1.tables name ≠ none) : Frame name s1 s2 := by
  refine ⟨fun other _ => by rw [h.1], fun other _ pg hh => h.2.2.1 other pg hh, ?_, ?_⟩
  · intro n hn
    rw [h.1]
    exact hn
  · intro n hn hf
    by_cases e : n = name
    · rw [h.1, e] at hn
      exact absurd hn hreg
    · exact h.2.2.2 n e hf

theorem Held_insertTable_other (s : State) (t : Table) (other : String) (pg : List (List Row))
    (ho : other ≠ t.tableName) (h : Held s other pg) : Held (insertTable s t) other pg := by
  apply Held_of_same s _ other pg h
  · simp [insertTable, ho]
  · rfl
  · intro i
    rfl

theorem Frame.of_insertTable (s : State) (t : Table) : Frame t.tableName s (insertTable s t) := by
  refine ⟨?_, ?_, ?_, ?_⟩
  · intro other ho
    simp [insertTable, ho]
  · intro other ho pg h
    exact Held_insertTable_other s t other pg ho h
  · intro n hn
    simp only [insertTable]
    split
    · simp
    · exact hn
  · intro n _ hf
    exact hf

theorem Frame.of_writePage (s : State) (name : String) (i : Nat) (rows : List Row) (rc : Int) :
    Frame name s (BufferManager.writePage s name (i : Int) rows rc) := by
  refine ⟨fun _ _ => rfl, ?_, fun _ h => h, fun _ _ h => h⟩
  intro other ho pg h
  apply Held_of_same s (BufferManager.writePage s name (i : Int) rows rc) other pg h rfl rfl
  intro j
  rw [BufferManager.writePage_files]
  simp only [setFile]
  rw [if_neg]
  intro e
  exact ho (pageNameOf_injective _ _ _ _ e).1

theorem Held_of_sublist (s s' : State) (n : String) (pg : List (List Row)) (h : Held s n pg)
    (ht : s'.tables = s.tables) (hp : s'.pages.Sublist s.pages) (hf : s'.files = s.files) :
    Held s' n pg := by
  obtain ⟨t, h1, h2, h3, h4, h5, h6, h7⟩ := h
  refine ⟨t, by rw [ht]; exact h1, h2, h3, h4, h5, ?_, ?_⟩
  · intro i hi
    have : Page.load s' n (i : Int) = Page.load s n (i : Int) :=
      Page.load_same s s' n _ (by rw [ht]) (by rw [hf])
    rw [this]
    exact h6 i hi
  · intro p hp' j hj
    exact h7 p (hp.subset hp') j hj

theorem Frame.of_clearPool (s : State) (name cleared : String) :
    Frame name s (clearPoolForTable s cleared) := by
  refine ⟨fun _ _ => rfl, ?_, fun _ h => h, ?_⟩
  · intro other _ pg h
    exact Held_of_sublist s _ other pg h rfl (List.filter_sublist _) rfl
  · intro n _ hf p hp j
    exact hf p ((List.filter_sublist _).subset hp) j

/-- Replacing the indices of the registered table leaves the table consistent. -/
theorem Held_setIndex (s : State) (name : String) (t : Table) (pg : List (List Row))
    (M : List (String × IndexMap)) (ht : s.tables name = some t) (h : Held s name pg) :
    Held (insertTable s { t with multiColumnIndexData := M }) name pg := by
  obtain ⟨t0, h1, h2, h3, h4, h5, h6, h7⟩ := h
  rw [ht] at h1
  cases h1
  have hload : ∀ i : Nat, Page.load (insertTable s { t with multiColumnIndexData := M }) name (i : Int)
      = Page.load s name (i : Int) := by
    intro i
    unfold Page.load
    simp only [insertTable, h2, if_true, ht]
  refine ⟨{ t with multiColumnIndexData := M }, by simp [insertTable, h2], h2, h3, h4, h5, ?_, h7⟩
  intro i hi
  rw [hload]
  exact h6 i hi

/-! ## The index build of `executeLOAD` -/

/-- The row loop of the index build on a page whose rows all have column `ci`. -/
theorem indexPageRows_eq (ci : Nat) (page : Page) (pageIdx : Nat) (index : IndexMap)
    (hw : ∀ r ∈ page.rows, ci < r.length) :
    indexPageRows ci page pageIdx page.rows.length index
      = ((List.range page.rows.length).map (fun (r : Nat) =>
          ((page.rows.getD r []).getD ci 0, ((pageIdx : Int), (r : Int))))).foldl
            (fun m x => IndexMap.assign m x.1 x.2) index := by
  unfold indexPageRows
  rw [List.foldl_map]
  apply List.foldl_ext
  intro m r hr
  have hlt : r < page.rows.length := List.mem_range.1 hr
  have hrow := Page.getRow_lt page r hlt
  have hmem : page.rows.getD r [] ∈ page.rows := by
    rw [List.getD_eq_getElem _ _ hlt]
    exact List.getElem_mem _
  have hlen := hw _ hmem
  have hne : page.rows.getD r [] ≠ [] := by
    intro e
    rw [e] at hlen
    simp at hlen
  simp only [hrow]
  rw [if_pos ⟨hne, hlen⟩]

/-- The page loop of the index build for column `ci` of a consistent table: the index is the
map assigned from the entries of the pages read so far, in page-then-row order. -/
theorem indexColumnPages_fold (s : State) (name : String) (pages : List (List Row))
    (table : Table) (ci : Nat) (ht : s.tables name = some table) (hh : Held s name pages)
    (hci : ci < table.columnCount) :
    ∀ k, k ≤ pages.length → ∃ s', (List.range k).foldl (indexColumnPages table ci) ([], s)
        = (((List.range k).flatMap (pageEntries ci pages)).foldl
            (fun m x => IndexMap.assign m x.1 x.2) [], s') ∧ ReadsOf name s s' := by
  obtain ⟨htn, hw⟩ := hh.table_eq ht
  have hrpb : table.rowsPerBlockCount = pages.map List.length := by
    obtain ⟨t0, h1, _, _, h4, _⟩ := hh
    rw [ht] at h1
    cases h1
    exact h4
  intro k
  induction k with
  | zero =>
    intro _
    exact ⟨s, rfl, ReadsOf.refl _ _⟩
  | succ k ih =>
    intro hk
    obtain ⟨s1, hfold, hreads⟩ := ih (by omega)
    have hk' : k < pages.length := by omega
    have hh1 : Held s1 name pages := hreads.2.2.1 name pages hh
    have hrows := hh1.getPage_rows k hk'
    refine ⟨(getPage s1 name (k : Int)).2, ?_, hreads.trans (getPage_readsOf s1 name _)⟩
    rw [List.range_succ, List.foldl_append, hfold, List.flatMap_append, List.foldl_append]
    simp only [List.foldl_cons, List.foldl_nil, List.flatMap_cons, List.flatMap_nil,
      List.append_nil]
    unfold indexColumnPages
    rw [if_neg (by rw [hrpb, List.length_map]; omega)]
    simp only [htn]
    have hcount : table.rowsPerBlockCount.getD k 0 = (getPage s1 name (k : Int)).1.rows.length := by
      rw [hrpb, hrows.1, List.getD_eq_getElem?_getD, List.getElem?_map]
      simp [List.getD_eq_getElem?_getD]
      cases pages[k]? <;> rfl
    rw [hcount, indexPageRows_eq]
    · unfold pageEntries rowAt
      rw [hrows.1]
    · intro r hr
      rw [hrows.1] at hr
      rw [hw _ (Held.getD_mem hk') r hr]
      exact hci

theorem lookup_setColumnIndex_ne (idx : List (String × IndexMap)) (c name : String)
    (m : IndexMap) (h : name ≠ c) : (setColumnIndex idx c m).lookup name = idx.lookup name := by
  induction idx with
  | nil =>
    have e1 : (name == c) = false := by simpa using h
    simp [setColumnIndex, List.lookup, e1]
  | cons a rest ih =>
    obtain ⟨c', m'⟩ := a
    unfold setColumnIndex
    by_cases h0 : c' = c
    · subst h0
      have e1 : (name == c') = false := by simpa using h
      rw [if_pos rfl]
      simp only [List.lookup_cons, e1]
    · rw [if_neg h0]
      simp only [List.lookup_cons]
      cases (name == c')
      · exact ih
      · rfl

/-- One pass of the column loop of the index build on a consistent table. -/
theorem buildColumnIndex_step (s : State) (name : String) (pages : List (List Row)) (t : Table)
    (ci : Nat) (ht : s.tables name = some t) (hh : Held s name pages)
    (hci : ci < t.columnCount) :
    ∃ s', buildColumnIndex (t, s) ci
        = ({ t with multiColumnIndexData := (setColumnIndex t.multiColumnIndexData
              (t.columns.getD ci "")
              ((indexEntries ci pages).foldl (fun m x => IndexMap.assign m x.1 x.2) [])) }, s') ∧
      s'.tables name = some { t with multiColumnIndexData :=
        (setColumnIndex t.multiColumnIndexData (t.columns.getD ci "")
          ((indexEntries ci pages).foldl (fun m x => IndexMap.assign m x.1 x.2) [])) } ∧
      Held s' name pages ∧ Frame name s s' := by
  have hbc : t.blockCount = pages.length := by
    obtain ⟨t0, h1, _, h3, _⟩ := hh
    rw [ht] at h1
    cases h1
    exact h3
  obtain ⟨htn, _⟩ := hh.table_eq ht
  obtain ⟨s1, hfold, hreads⟩ := indexColumnPages_fold s name pages t ci ht hh hci pages.length
    (le_refl _)
  have ht1 : s1.tables name = some t := by rw [hreads.1]; exact ht
  have hh1 : Held s1 name pages := hreads.2.2.1 name pages hh
  obtain ⟨T, hT⟩ : ∃ T : Table, T = { t with multiColumnIndexData :=
      (setColumnIndex t.multiColumnIndexData (t.columns.getD ci "")
        ((indexEntries ci pages).foldl (fun m x => IndexMap.assign m x.1 x.2) [])) } := ⟨_, rfl⟩
  have hTn : T.tableName = name := by rw [hT]; exact htn
  refine ⟨insertTable s1 T, ?_, ?_, ?_, ?_⟩
  · have hfold' : (List.range t.blockCount).foldl (indexColumnPages t ci) ([], s)
        = ((indexEntries ci pages).foldl (fun m x => IndexMap.assign m x.1 x.2) [], s1) := by
      rw [hbc]
      exact hfold
    unfold buildColumnIndex
    simp only [hfold']
    rw [hT]
  · rw [← hT]
    simp [insertTable, hTn]
  · rw [hT]
    exact Held_setIndex s1 name t pages _ ht1 hh1
  · apply (Frame.of_readsOf hreads (by rw [ht]; simp)).comp
    have := Frame.of_insertTable s1 T
    rw [hTn] at this
    exact this

/-- The column loop of the index build on a consistent table with distinct column names:
after `k` columns the index of each of them is the map assigned from its entries in
page-then-row order, and no other name has an index. -/
theorem buildColumns_fold (s : State) (name : String) (pages : List (List Row)) (t : Table)
    (ht : s.tables name = some t) (hh : Held s name pages) (hnil : t.multiColumnIndexData = [])
    (hcc : t.columnCount = t.columns.length) (hnd : t.columns.Nodup) :
    ∀ k, k ≤ t.columnCount → ∃ M s', (List.range k).foldl buildColumnIndex (t, s)
        = ({ t with multiColumnIndexData := M }, s') ∧
      s'.tables name = some { t with multiColumnIndexData := M } ∧
      Held s' name pages ∧ Frame name s s' ∧
      (∀ j, j < k → M.lookup (t.columns.getD j "")
        = some ((indexEntries j pages).foldl (fun m x => IndexMap.assign m x.1 x.2) [])) ∧
      (∀ c, (∀ j, j < k → c ≠ t.columns.getD j "") → M.lookup c = none) := by
  intro k
  induction k with
  | zero =>
    intro _
    refine ⟨[], s, ?_, ?_, hh, Frame.same _ _, fun j hj => absurd hj (by omega), fun _ _ => rfl⟩
    · rw [← hnil]
      rfl
    · rw [← hnil]
      exact ht
  | succ k ih =>
    intro hk
    obtain ⟨M, s1, hfold, ht1, hh1, hfr1, hcols, hother⟩ := ih (by omega)
    obtain ⟨s2, hstep, ht2, hh2, hfr2⟩ := buildColumnIndex_step s1 name pages
      { t with multiColumnIndexData := M } k ht1 hh1 (by simpa using hk)
    refine ⟨_, s2, ?_, ht2, hh2, hfr1.comp hfr2, ?_, ?_⟩
    · rw [List.range_succ, List.foldl_append, hfold]
      simp only [List.foldl_cons, List.foldl_nil]
      rw [hstep]
    · intro j hj
      simp only
      by_cases hjk : j = k
      · rw [hjk, lookup_setColumnIndex_self]
      · rw [lookup_setColumnIndex_ne _ _ _ _
          (getD_ne_of_nodup t.columns hnd j k (by omega) (by omega) hjk)]
        exact hcols j (by omega)
    · intro c hc
      simp only
      rw [lookup_setColumnIndex_ne _ _ _ _ (hc k (by omega))]
      exact hother c (fun j hj => hc j (by omega))

/-- The index build of `executeLOAD` on a consistent table with distinct column names. -/
theorem buildAllIndices_spec (s : State) (name : String) (pages : List (List Row)) (table : Table)
    (ht : s.tables name = some table) (hh : Held s name pages)
    (hcc : table.columnCount = table.columns.length) (hnd : table.columns.Nodup) :
    ∃ M s', buildAllIndices table s = ({ table with multiColumnIndexData := M }, s') ∧
      s'.tables name = some { table with multiColumnIndexData := M } ∧
      Held s' name pages ∧ Frame name s s' ∧
      (∀ j, j < table.columnCount → M.lookup (table.columns.getD j "")
        = some ((indexEntries j pages).foldl (fun m x => IndexMap.assign m x.1 x.2) [])) ∧
      (∀ c, c ∉ table.columns → M.lookup c = none) := by
  obtain ⟨htn, _⟩ := hh.table_eq ht
  have hh0 : Held (insertTable s table.clearIndex) name pages :=
    Held_setIndex s name table pages [] ht hh
  have ht0 : (insertTable s table.clearIndex).tables name = some table.clearIndex := by
    simp [insertTable, Table.clearIndex, htn]
  have hfr0 : Frame name s (insertTable s table.clearIndex) := by
    have := Frame.of_insertTable s table.clearIndex
    rw [show table.clearIndex.tableName = name from htn] at this
    exact this
  obtain ⟨M, s', hfold, ht', hh', hfr, hcols, hother⟩ := buildColumns_fold
    (insertTable s table.clearIndex) name pages table.clearIndex ht0 hh0 rfl hcc hnd
    table.columnCount (le_refl _)
  by_cases hpos : table.columnCount > 0
  · refine ⟨M, s', ?_, ht', hh', hfr0.comp hfr, hcols, ?_⟩
    · unfold buildAllIndices
      simp only
      rw [if_pos (show table.clearIndex.columnCount > 0 from hpos)]
      exact hfold
    · intro c hc
      apply hother
      intro j hj e
      apply hc
      have e' : c = table.columns.getD j "" := e
      have hj' : j < table.columns.length := by rw [← hcc]; exact hj
      rw [e', List.getD_eq_getElem _ _ hj']
      exact List.getElem_mem _
  · refine ⟨[], insertTable s table.clearIndex, ?_, ht0, hh0, hfr0,
      fun j hj => absurd hj (by omega), fun _ _ => rfl⟩
    unfold buildAllIndices
    simp only
    rw [if_neg (show ¬ table.clearIndex.columnCount > 0 from hpos)]
    rfl

theorem lookup_foldl_assign_some (E : List (Int × RowLocation)) (v : Int) :
    (∃ loc, (E.foldl (fun m x => IndexMap.assign m x.1 x.2) []).lookup v = some loc) ↔
      ∃ e ∈ E, e.1 = v := by
  induction E using List.reverseRecOn with
  | nil => simp
  | append_singleton E a ih =>
    rw [List.foldl_append, List.foldl_cons, List.foldl_nil]
    by_cases hk : a.1 = v
    · rw [hk, IndexMap.lookup_assign_self]
      constructor
      · intro _
        exact ⟨a, by simp, hk⟩
      · intro _
        exact ⟨_, rfl⟩
    · rw [IndexMap.lookup_assign_other _ _ _ _ (fun e => hk e.symm), ih]
      constructor
      · rintro ⟨e, he, hv⟩
        exact ⟨e, by simp [he], hv⟩
      · rintro ⟨e, he, hv⟩
        rcases List.mem_append.1 he with h | h
        · exact ⟨e, h, hv⟩
        · rw [List.mem_singleton.1 h] at hv
          exact absurd hv hk

theorem mem_flatten_iff_rowAt (pages : List (List Row)) (row : Row) :
    row ∈ pages.flatten ↔
      ∃ p r : Nat, p < pages.length ∧ r < (pages.getD p []).length ∧ rowAt pages p r = row := by
  unfold rowAt
  constructor
  · intro h
    obtain ⟨pg, hpg, hrow⟩ := List.mem_flatten.1 h
    obtain ⟨p, hp, rfl⟩ := List.mem_iff_getElem.1 hpg
    obtain ⟨r, hr, rfl⟩ := List.mem_iff_getElem.1 hrow
    refine ⟨p, r, hp, ?_, ?_⟩
    · rw [List.getD_eq_getElem _ _ hp]
      exact hr
    · rw [List.getD_eq_getElem _ _ hp, List.getD_eq_getElem _ _ hr]
  · rintro ⟨p, r, hp, hr, rfl⟩
    apply List.mem_flatten.2
    refine ⟨pages.getD p [], Held.getD_mem hp, ?_⟩
    rw [List.getD_eq_getElem _ _ hr]
    exact List.getElem_mem _

/-- C17: after the index build of `executeLOAD` (`buildAllIndices`) on a registered table with
consistent pages and distinct column names, the table in the catalogue is the indexed table
and, for every column `ci`, the index of the column has an entry for a value `v` exactly when
some row holds `v` in that column, and it maps `v` to `(p, r)` exactly when row `r` of page
`p` holds `v` and no row at a later location, in page-then-row order, holds `v`. -/
theorem index_build_last_location (s : State) (name : String) (table : Table)
    (pages : List (List Row)) (ht : s.tables name = some table) (hh : Held s name pages)
    (hcc : table.columnCount = table.columns.length) (hnd : table.columns.Nodup)
    (ci : Nat) (hci : ci < table.columnCount) :
    ∃ idx, (buildAllIndices table s).1.multiColumnIndexData.lookup (table.columns.getD ci "")
        = some idx ∧
      (buildAllIndices table s).2.tables name = some (buildAllIndices table s).1 ∧
      (∀ v, (∃ loc, idx.lookup v = some loc) ↔ ∃ row ∈ pages.flatten, row.getD ci 0 = v) ∧
      (∀ v loc, idx.lookup v = some loc ↔
        ∃ p r : Nat, loc = ((p : Int), (r : Int)) ∧ p < pages.length ∧
          r < (pages.getD p []).length ∧ (rowAt pages p r).getD ci 0 = v ∧
          ∀ p' r' : Nat, p' < pages.length → r' < (pages.getD p' []).length →
            (rowAt pages p' r').getD ci 0 = v → p' < p ∨ (p' = p ∧ r' ≤ r)) := by
  obtain ⟨M, s', hbuild, ht', _, _, hcols, _⟩ := buildAllIndices_spec s name pages table ht hh hcc hnd
  rw [hbuild]
  refine ⟨_, hcols ci hci, ht', ?_, ?_⟩
  · intro v
    rw [lookup_foldl_assign_some]
    constructor
    · rintro ⟨e, he, hv⟩
      obtain ⟨p, r, hp, hr, rfl⟩ := (mem_indexEntries ci pages e).1 he
      exact ⟨rowAt pages p r, (mem_flatten_iff_rowAt pages _).2 ⟨p, r, hp, hr, rfl⟩, hv⟩
    · rintro ⟨row, hrow, hv⟩
      obtain ⟨p, r, hp, hr, rfl⟩ := (mem_flatten_iff_rowAt pages row).1 hrow
      exact ⟨_, (mem_indexEntries ci pages _).2 ⟨p, r, hp, hr, rfl⟩, hv⟩
  · intro v loc
    rw [lookup_foldl_assign, last_entry_iff _ _ _ (indexEntries_pairwise ci pages)]
    constructor
    · rintro ⟨hmem, hmax⟩
      obtain ⟨p, r, hp, hr, he⟩ := (mem_indexEntries ci pages _).1 hmem
      simp only [Prod.mk.injEq] at he
      refine ⟨p, r, he.2, hp, hr, he.1.symm, ?_⟩
      intro p' r' hp' hr' hv'
      have := hmax _ ((mem_indexEntries ci pages _).2 ⟨p', r', hp', hr', rfl⟩) hv'
      rw [he.2] at this
      simp only at this
      omega
    · rintro ⟨p, r, hloc, hp, hr, hv, hmax⟩
      refine ⟨(mem_indexEntries ci pages _).2 ⟨p, r, hp, hr, by rw [hv, hloc]⟩, ?_⟩
      intro e he hv'
      obtain ⟨p', r', hp', hr', rfl⟩ := (mem_indexEntries ci pages e).1 he
      have := hmax p' r' hp' hr' hv'
      rw [hloc]
      simp only
      omega

theorem index_build_last_location_witness :
    ∃ idx, (buildAllIndices exampleTable exampleState).1.multiColumnIndexData.lookup
          (exampleTable.columns.getD 0 "") = some idx ∧
      (buildAllIndices exampleTable exampleState).2.tables "T"
        = some (buildAllIndices exampleTable exampleState).1 ∧
      (∀ v, (∃ loc, idx.lookup v = some loc) ↔ ∃ row ∈ examplePages.flatten, row.getD 0 0 = v) ∧
      (∀ v loc, idx.lookup v = some loc ↔
        ∃ p r : Nat, loc = ((p : Int), (r : Int)) ∧ p < examplePages.length ∧
          r < (examplePages.getD p []).length ∧ (rowAt examplePages p r).getD 0 0 = v ∧
          ∀ p' r' : Nat, p' < examplePages.length → r' < (examplePages.getD p' []).length →
            (rowAt examplePages p' r').getD 0 0 = v → p' < p ∨ (p' = p ∧ r' ≤ r)) :=
  index_build_last_location exampleState "T" exampleTable examplePages rfl
    exampleState_held rfl (by decide) 0 (by decide)

/-! ## The invariant of the reachable states -/

/-- A step that works on table `name` alone keeps the invariant when it keeps it for `name`. -/
theorem ReachInv.step {s s' : State} (name : String) (hinv : ReachInv s)
    (hfr : Frame name s s')
    (h1 : ∀ t', s'.tables name = some t' → t'.tableName = name)
    (h2 : ∀ t', s'.tables name = some t' → t'.multiColumnIndexData ≠ [] →
      t'.columnCount = t'.columns.length ∧ 0 < t'.columnCount ∧ t'.columns.Nodup ∧
      ∃ pages, Held s' name pages ∧ SoundOn t' pages) : ReachInv s' := by
  obtain ⟨ha, hb, hc⟩ := hinv
  obtain ⟨f1, f2, f3, f4⟩ := hfr
  refine ⟨?_, ?_, ?_⟩
  · intro n t ht
    by_cases e : n = name
    · subst e
      exact h1 t ht
    · rw [f1 n e] at ht
      exact ha n t ht
  · intro n hn
    apply f4 n hn
    apply hb
    by_contra hc'
    exact f3 n hc' hn
  · intro n t ht hidx
    by_cases e : n = name
    · subst e
      exact h2 t ht hidx
    · rw [f1 n e] at ht
      obtain ⟨c1, c2, c3, pages, hh, hs⟩ := hc n t ht hidx
      exact ⟨c1, c2, c3, pages, f2 n e pages hh, hs⟩

theorem getPage_work (s : State) (name : String) (i : Int) (hreg : s.tables name ≠ none) :
    (getPage s name i).2.tables = s.tables ∧ Frame name s (getPage s name i).2 :=
  ⟨getPage_tables s name i, Frame.of_readsOf (getPage_readsOf s name i) hreg⟩

theorem updatePage_work (table : Table) (name : String) (w t c : Int) (op : BinaryOperator)
    (nv : Int) (acc : State × Nat) (pageIdx : Nat) (htn : table.tableName = name)
    (hreg : acc.1.tables name ≠ none) :
    (updatePage table w t c op nv acc pageIdx).1.tables = acc.1.tables ∧
      Frame name acc.1 (updatePage table w t c op nv acc pageIdx).1 := by
  obtain ⟨g1, g2⟩ := getPage_work acc.1 name (pageIdx : Int) hreg
  unfold updatePage
  simp only [htn]
  split
  · exact ⟨g1, g2⟩
  · split
    · exact ⟨g1, g2⟩
    · split
      · exact ⟨g1, g2.comp (Frame.of_writePage _ _ _ _ _)⟩
      · exact ⟨g1, g2⟩

theorem updatePages_work (table : Table) (name : String) (w t c : Int) (op : BinaryOperator)
    (nv : Int) (htn : table.tableName = name) (L : List Nat) :
    ∀ acc : State × Nat, acc.1.tables name ≠ none →
      (L.foldl (updatePage table w t c op nv) acc).1.tables = acc.1.tables ∧
        Frame name acc.1 (L.foldl (updatePage table w t c op nv) acc).1 := by
  induction L with
  | nil => intro acc _; exact ⟨rfl, Frame.same _ _⟩
  | cons i L ih =>
    intro acc hreg
    rw [List.foldl_cons]
    obtain ⟨u1, u2⟩ := updatePage_work table name w t c op nv acc i htn hreg
    obtain ⟨v1, v2⟩ := ih (updatePage table w t c op nv acc i) (by rw [u1]; exact hreg)
    exact ⟨by rw [v1, u1], u2.comp v2⟩

/-- `executeUPDATE` works on its table alone and leaves it without indices. -/
theorem executeUPDATE_frame (s : State) (pq : ParsedQuery)
    (hname : ∀ t, s.tables pq.tableName = some t → t.tableName = pq.tableName) :
    Frame pq.tableName s (executeUPDATE pq s) ∧
      ∀ t', (executeUPDATE pq s).tables pq.tableName = some t' →
        t'.tableName = pq.tableName ∧ t'.multiColumnIndexData = [] := by
  unfold executeUPDATE
  cases ht : s.tables pq.tableName with
  | none =>
    simp only
    refine ⟨Frame.same _ _, ?_⟩
    intro t' h
    rw [ht] at h
    cases h
  | some table0 =>
    have htn0 := hname table0 ht
    simp only
    obtain ⟨T, hT⟩ : ∃ T : Table, T = (if table0.multiColumnIndexData ≠ [] then table0.clearIndex
      else table0) := ⟨_, rfl⟩
    rw [← hT]
    have hTn : T.tableName = pq.tableName := by
      rw [hT]
      split
      · exact htn0
      · exact htn0
    have hTi : T.multiColumnIndexData = [] := by
      rw [hT]
      split
      · rfl
      · rename_i h
        simpa using h
    have hf0 : Frame pq.tableName s (insertTable s T) := by
      have := Frame.of_insertTable s T
      rw [hTn] at this
      exact this
    have ht0 : (insertTable s T).tables pq.tableName = some T := by
      simp [insertTable, hTn]
    have hfin : ∀ s1 : State, s1.tables = (insertTable s T).tables →
        ∀ t', s1.tables pq.tableName = some t' →
          t'.tableName = pq.tableName ∧ t'.multiColumnIndexData = [] := by
      intro s1 h1 t' h
      rw [h1, ht0] at h
      cases h
      exact ⟨hTn, hTi⟩
    cases stoi pq.renameToColumnName with
    | none => exact ⟨hf0, hfin _ rfl⟩
    | some newVal =>
      simp only
      split
      · exact ⟨hf0, hfin _ rfl⟩
      · obtain ⟨u1, u2⟩ := updatePages_work T pq.tableName
          (T.getColumnIndex pq.selectionFirstColumnName)
          (T.getColumnIndex pq.renameFromColumnName) pq.selectionIntLiteral
          pq.selectionBinaryOperator newVal hTn (List.range T.blockCount) (insertTable s T, 0)
          (by rw [ht0]; simp)
        split
        · rw [hTn]
          exact ⟨hf0.comp (u2.comp (Frame.of_clearPool _ _ _)), hfin _ u1⟩
        · exact ⟨hf0.comp u2, hfin _ u1⟩

theorem deletePageRows_work (table : Table) (name : String) (w v : Int) (op : BinaryOperator)
    (vars vars' : DeleteVars) (pageIdx : Nat) (htn : table.tableName = name)
    (hreg : vars.state.tables name ≠ none)
    (h : deletePageRows table w v op vars pageIdx = some vars') :
    vars'.state.tables = vars.state.tables ∧ Frame name vars.state vars'.state := by
  obtain ⟨g1, g2⟩ := getPage_work vars.state name (pageIdx : Int) hreg
  unfold deletePageRows at h
  simp only [htn] at h
  split at h
  · cases h
  · split at h
    · cases h
      exact ⟨g1, g2⟩
    · split at h
      · cases h
        exact ⟨g1, g2.comp (Frame.of_writePage _ _ _ _ _)⟩
      · cases h
        exact ⟨g1, g2⟩

theorem foldl_bind_none {α β : Type} (f : α → β → Option α) (L : List β) :
    L.foldl (fun acc i => acc.bind (fun v => f v i)) none = none := by
  induction L with
  | nil => rfl
  | cons i L ih => rw [List.foldl_cons]; exact ih

theorem deletePages_work (table : Table) (name : String) (w v : Int) (op : BinaryOperator)
    (htn : table.tableName = name) (L : List Nat) :
    ∀ vars vars' : DeleteVars, vars.state.tables name ≠ none →
      L.foldl (fun acc (pageIdx : Nat) => acc.bind (fun x =>
        deletePageRows table w v op x pageIdx)) (some vars) = some vars' →
      vars'.state.tables = vars.state.tables ∧ Frame name vars.state vars'.state := by
  induction L with
  | nil =>
    intro vars vars' _ h
    simp only [List.foldl_nil, Option.some.injEq] at h
    rw [← h]
    exact ⟨rfl, Frame.same _ _⟩
  | cons i L ih =>
    intro vars vars' hreg h
    rw [List.foldl_cons] at h
    simp only [Option.some_bind] at h
    cases h1 : deletePageRows table w v op vars i with
    | none =>
      rw [h1, foldl_bind_none] at h
      cases h
    | some v1 =>
      rw [h1] at h
      obtain ⟨u1, u2⟩ := deletePageRows_work table name w v op vars v1 i htn hreg h1
      obtain ⟨x1, x2⟩ := ih v1 vars' (by rw [u1]; exact hreg) h
      exact ⟨by rw [x1, u1], u2.comp x2⟩

/-- `executeDELETE` works on its table alone and leaves it without indices. -/
theorem executeDELETE_frame (s s' : State) (pq : ParsedQuery)
    (hname : ∀ t, s.tables pq.tableName = some t → t.tableName = pq.tableName)
    (hd : executeDELETE pq s = Outcome.done s') :
    Frame pq.tableName s s' ∧
      ∀ t', s'.tables pq.tableName = some t' →
        t'.tableName = pq.tableName ∧ t'.multiColumnIndexData = [] := by
  unfold executeDELETE at hd
  cases ht : s.tables pq.tableName with
  | none =>
    simp only [ht, Outcome.done.injEq] at hd
    rw [← hd]
    refine ⟨Frame.same _ _, ?_⟩
    intro t' h
    rw [ht] at h
    cases h
  | some table0 =>
    have htn0 := hname table0 ht
    simp only [ht] at hd
    obtain ⟨T, hT⟩ : ∃ T : Table, T = (if table0.multiColumnIndexData ≠ [] then table0.clearIndex
      else table0) := ⟨_, rfl⟩
    rw [← hT] at hd
    have hTn : T.tableName = pq.tableName := by
      rw [hT]
      split
      · exact htn0
      · exact htn0
    have hTi : T.multiColumnIndexData = [] := by
      rw [hT]
      split
      · rfl
      · rename_i h
        simpa using h
    have hf0 : Frame pq.tableName s (insertTable s T) := by
      have := Frame.of_insertTable s T
      rw [hTn] at this
      exact this
    have ht0 : (insertTable s T).tables pq.tableName = some T := by
      simp [insertTable, hTn]
    split at hd
    · simp only [Outcome.done.injEq] at hd
      rw [← hd]
      refine ⟨hf0, ?_⟩
      intro t' h
      rw [ht0] at h
      cases h
      exact ⟨hTn, hTi⟩
    · split at hd
      · cases hd
      · rename_i vars hfold
        obtain ⟨u1, u2⟩ := deletePages_work T pq.tableName _ _ _ hTn (List.range T.blockCount)
          _ vars (by rw [ht0]; simp) hfold
        split at hd
        · simp only [Outcome.done.injEq] at hd
          rw [← hd, hTn]
          refine ⟨?_, ?_⟩
          · apply hf0.comp (u2.comp _)
            apply Frame.comp _ (Frame.of_clearPool _ _ _)
            have := Frame.of_insertTable vars.state
              { T with rowCount := T.rowCount - (vars.totalRowsDeleted : Int)
                       rowsPerBlockCount := vars.newRowsPerBlockCount }
            rw [show ({ T with rowCount := T.rowCount - (vars.totalRowsDeleted : Int)
                               rowsPerBlockCount := vars.newRowsPerBlockCount } : Table).tableName
              = pq.tableName from hTn] at this
            exact this
          · intro t' h
            simp only [clearPoolForTable, insertTable, hTn, if_true, Option.some.injEq] at h
            rw [← h]
            exact ⟨rfl, hTi⟩
        · simp only [Outcome.done.injEq] at hd
          rw [← hd]
          refine ⟨hf0.comp u2, ?_⟩
          intro t' h
          rw [u1, ht0] at h
          cases h
          exact ⟨hTn, hTi⟩

/-! ## INSERT keeps the invariant -/

theorem insertRowValues_length (t : Table) (L : List (String × Int)) :
    ∀ row0 row : Row, insertRowValues t L row0 = some row → row.length = row0.length := by
  induction L with
  | nil =>
    intro row0 row h
    simp only [insertRowValues, Option.some.injEq] at h
    rw [h]
  | cons a L ih =>
    intro row0 row h
    simp only [insertRowValues] at h
    split at h
    · cases h
    · rw [ih _ _ h, List.length_set]

theorem insertIndexUpdate_nil (t : Table) (row : Row) (loc : RowLocation)
    (h : t.multiColumnIndexData = []) : insertIndexUpdate t row loc = [] := by
  unfold insertIndexUpdate
  rw [h]
  generalize List.range t.columnCount = L
  induction L with
  | nil => rfl
  | cons i L ih =>
    rw [List.foldl_cons]
    simp only [List.lookup_nil]
    exact ih

theorem finishInsert_frame (table1 : Table) (row : Row) (loc : RowLocation) (s1 : State) :
    Frame table1.tableName s1 (finishInsert table1 row loc s1) ∧
      (finishInsert table1 row loc s1).tables table1.tableName = some { table1 with
        rowCount := table1.rowCount + 1
        multiColumnIndexData := insertIndexUpdate table1 row loc } := by
  unfold finishInsert
  refine ⟨?_, ?_⟩
  · apply Frame.comp _ (Frame.of_clearPool _ _ _)
    exact Frame.of_insertTable s1 { table1 with
      rowCount := table1.rowCount + 1
      multiColumnIndexData := insertIndexUpdate table1 row loc }
  · simp [clearPoolForTable, insertTable]

/-- `executeINSERT` works on its table alone, keeps its name, and gives no index to a table
that has none. -/
theorem executeINSERT_frame (s : State) (pq : ParsedQuery)
    (hname : ∀ t, s.tables pq.tableName = some t → t.tableName = pq.tableName) :
    Frame pq.tableName s (executeINSERT pq s) ∧
      ∀ t', (executeINSERT pq s).tables pq.tableName = some t' →
        t'.tableName = pq.tableName ∧
        ∀ t, s.tables pq.tableName = some t → t.multiColumnIndexData = [] →
          t'.multiColumnIndexData = [] := by
  have hsame : ∀ s1 : State, s1.tables = s.tables →
      ∀ t', s1.tables pq.tableName = some t' →
        t'.tableName = pq.tableName ∧
        ∀ t, s.tables pq.tableName = some t → t.multiColumnIndexData = [] →
          t'.multiColumnIndexData = [] := by
    intro s1 h1 t' h
    rw [h1] at h
    refine ⟨hname t' h, ?_⟩
    intro t ht hnil
    rw [h] at ht
    cases ht
    exact hnil
  have hfin : ∀ (table table1 : Table) (row : Row) (loc : RowLocation) (s1 : State),
      s.tables pq.tableName = some table → table1.tableName = pq.tableName →
      table1.multiColumnIndexData = table.multiColumnIndexData →
      Frame pq.tableName s s1 →
      Frame pq.tableName s (finishInsert table1 row loc s1) ∧
      ∀ t', (finishInsert table1 row loc s1).tables pq.tableName = some t' →
        t'.tableName = pq.tableName ∧
        ∀ t, s.tables pq.tableName = some t → t.multiColumnIndexData = [] →
          t'.multiColumnIndexData = [] := by
    intro table table1 row loc s1 hts h1n h1i hfr
    obtain ⟨f1, f2⟩ := finishInsert_frame table1 row loc s1
    rw [h1n] at f1 f2
    refine ⟨hfr.comp f1, ?_⟩
    intro t' h
    rw [f2] at h
    cases h
    refine ⟨rfl, ?_⟩
    intro t ht hnil
    rw [hts] at ht
    cases ht
    exact insertIndexUpdate_nil _ _ _ (by rw [h1i]; exact hnil)
  suffices key : ∀ s1, s1 = executeINSERT pq s →
      Frame pq.tableName s s1 ∧
      ∀ t', s1.tables pq.tableName = some t' →
        t'.tableName = pq.tableName ∧
        ∀ t, s.tables pq.tableName = some t → t.multiColumnIndexData = [] →
          t'.multiColumnIndexData = [] from key _ rfl
  intro s1 hs1
  unfold executeINSERT at hs1
  rcases Option.eq_none_or_eq_some (s.tables pq.tableName) with hts | ⟨table, hts⟩
  · simp only [hts] at hs1
    rw [hs1]
    exact ⟨Frame.same _ _, hsame s rfl⟩
  · have htn := hname table hts
    simp only [hts] at hs1
    rcases Option.eq_none_or_eq_some (insertRowValues table pq.insertColumnsAndValues
      (List.replicate table.columnCount 0)) with hr | ⟨row, hr⟩
    · simp only [hr] at hs1
      rw [hs1]
      exact ⟨Frame.same _ _, hsame s rfl⟩
    · simp only [hr, htn] at hs1
      have hreg : s.tables pq.tableName ≠ none := by rw [hts]; simp
      obtain ⟨g1, g2⟩ := getPage_work s pq.tableName ((table.blockCount - 1 : Nat) : Int) hreg
      split at hs1
      · split at hs1
        · rw [hs1]
          exact ⟨Frame.same _ _, hsame s rfl⟩
        · split at hs1
          · split at hs1
            · rw [hs1]
              exact ⟨g2, hsame _ g1⟩
            · rw [hs1]
              exact hfin table _ row _ _ hts rfl rfl (g2.comp (Frame.of_writePage _ _ _ _ _))
          · rw [hs1]
            exact hfin table _ row _ _ hts rfl rfl (Frame.of_writePage _ _ _ _ _)
      · rw [hs1]
        exact hfin table _ row _ _ hts rfl rfl (Frame.of_writePage s pq.tableName 0 _ _)

/-- The rows of a table keep their locations when a row is inserted. -/
theorem rowAt_pagesAfterInsert (m : Nat) (pages : List (List Row)) (row : Row) (p r : Nat)
    (hp : p < pages.length) (hr : r < (pages.getD p []).length) :
    p < (pagesAfterInsert m pages row).length ∧
      r < ((pagesAfterInsert m pages row).getD p []).length ∧
      rowAt (pagesAfterInsert m pages row) p r = rowAt pages p r := by
  unfold rowAt
  rcases pagesAfterInsert_cases m pages row with ⟨h, _⟩ | ⟨init, last, hpg, _, h⟩
  · rw [h, List.getD_append _ _ _ _ hp]
    exact ⟨by simp; omega, hr, rfl⟩
  · rw [h]
    rw [hpg] at hp hr ⊢
    simp only [List.length_append, List.length_singleton] at hp ⊢
    by_cases hlt : p < init.length
    · rw [List.getD_append _ _ _ _ hlt] at hr ⊢
      rw [List.getD_append _ _ _ _ hlt]
      exact ⟨by omega, hr, rfl⟩
    · have hpe : p = init.length := by omega
      subst hpe
      rw [getD_append_length] at hr ⊢
      rw [getD_append_length]
      refine ⟨by omega, by simp; omega, ?_⟩
      rw [List.getD_append _ _ _ _ hr]

/-- The row inserted by `executeINSERT` stands at `insertLocation` in the new pages. -/
theorem insertLocation_rowAt (table : Table) (pages : List (List Row)) (row : Row)
    (hbc : table.blockCount = pages.length)
    (hrpb : table.rowsPerBlockCount = pages.map List.length) :
    ∃ p r : Nat, insertLocation table = ((p : Int), (r : Int)) ∧
      p < (pagesAfterInsert table.maxRowsPerBlock pages row).length ∧
      r < ((pagesAfterInsert table.maxRowsPerBlock pages row).getD p []).length ∧
      rowAt (pagesAfterInsert table.maxRowsPerBlock pages row) p r = row := by
  unfold rowAt
  rcases pagesAfterInsert_cases table.maxRowsPerBlock pages row with
    ⟨h, hpg⟩ | ⟨init, last, hpg, hshort, h⟩
  · have hloc : insertLocation table = ((pages.length : Int), ((0 : Nat) : Int)) := by
      unfold insertLocation
      rw [if_neg, hbc]
      · rfl
      · rintro ⟨hpos, hlt⟩
        rcases hpg with hnil | ⟨init, last, hpg, hfull⟩
        · rw [hbc, hnil] at hpos
          simp at hpos
        · apply hfull
          rw [hbc, hrpb, hpg] at hlt
          simpa [List.getD_eq_getElem?_getD] using hlt
    refine ⟨pages.length, 0, hloc, ?_, ?_, ?_⟩
    · rw [h]
      simp
    · rw [h, getD_append_length]
      simp
    · rw [h, getD_append_length]
      rfl
  · have hloc : insertLocation table = ((init.length : Int), (last.length : Int)) := by
      unfold insertLocation
      have h1 : table.blockCount - 1 = init.length := by rw [hbc, hpg]; simp
      have h2 : table.rowsPerBlockCount.getD init.length 0 = last.length := by
        rw [hrpb, hpg]
        simp [List.getD_eq_getElem?_getD]
      rw [h1, h2, if_pos ⟨by rw [hbc, hpg]; simp, hshort⟩]
    refine ⟨init.length, last.length, hloc, ?_, ?_, ?_⟩
    · rw [h]
      simp
    · rw [h, getD_append_length]
      simp
    · rw [h, getD_append_length, getD_append_length]

theorem Held.counts {s : State} {name : String} {pages : List (List Row)} {t : Table}
    (h : Held s name pages) (ht : s.tables name = some t) :
    t.blockCount = pages.length ∧ t.rowsPerBlockCount = pages.map List.length := by
  obtain ⟨t0, h1, _, h3, h4, _⟩ := h
  rw [ht] at h1
  cases h1
  exact ⟨h3, h4⟩

/-- `executeINSERT` on a consistent table with sound indices leaves the table consistent and
its indices sound. -/
theorem executeINSERT_sound (s : State) (pq : ParsedQuery) (table : Table)
    (pages : List (List Row)) (hts : s.tables pq.tableName = some table)
    (hh : Held s pq.tableName pages) (hcc : table.columnCount = table.columns.length)
    (hpos : 0 < table.columnCount) (hnd : table.columns.Nodup) (hs : SoundOn table pages) :
    ∃ t' pages', (executeINSERT pq s).tables pq.tableName = some t' ∧
      t'.columnCount = t'.columns.length ∧ 0 < t'.columnCount ∧ t'.columns.Nodup ∧
      Held (executeINSERT pq s) pq.tableName pages' ∧ SoundOn t' pages' := by
  rcases Option.eq_none_or_eq_some (insertRowValues table pq.insertColumnsAndValues
    (List.replicate table.columnCount 0)) with hr | ⟨row, hr⟩
  · have hsame : executeINSERT pq s = s := by
      unfold executeINSERT
      simp only [hts, hr]
    rw [hsame]
    exact ⟨table, pages, hts, hcc, hpos, hnd, hh, hs⟩
  · have hlen : row.length = table.columnCount := by
      rw [insertRowValues_length table _ _ _ hr, List.length_replicate]
    obtain ⟨hheld, htab⟩ := executeINSERT_held_row s pq table pages row hts hh hpos hr hlen
    obtain ⟨hbc, hrpb⟩ := hh.counts hts
    obtain ⟨hspec1, hspec2, hspec3⟩ := insertIndexUpdate_spec table row (insertLocation table) hcc hnd
    refine ⟨_, _, htab, hcc, hpos, hnd, hheld, ?_⟩
    have hmono : ∀ (c : String) (m : IndexMap), table.multiColumnIndexData.lookup c = some m →
        ∀ e ∈ m, ∃ ci p r : Nat, table.getColumnIndex c = (ci : Int) ∧ ci < table.columnCount ∧
          e.2 = ((p : Int), (r : Int)) ∧
          p < (pagesAfterInsert table.maxRowsPerBlock pages row).length ∧
          r < ((pagesAfterInsert table.maxRowsPerBlock pages row).getD p []).length ∧
          (rowAt (pagesAfterInsert table.maxRowsPerBlock pages row) p r).getD ci 0 = e.1 := by
      intro c m hm e he
      obtain ⟨ci, p, r, h1, h2, h3, h4, h5, h6⟩ := hs c m hm e he
      obtain ⟨m1, m2, m3⟩ := rowAt_pagesAfterInsert table.maxRowsPerBlock pages row p r h4 h5
      exact ⟨ci, p, r, h1, h2, h3, m1, m2, by rw [m3]; exact h6⟩
    intro c idx' hlk e he
    have hlk' : (insertIndexUpdate table row (insertLocation table)).lookup c = some idx' := hlk
    show ∃ ci p r : Nat, table.getColumnIndex c = (ci : Int) ∧ ci < table.columnCount ∧
      e.2 = ((p : Int), (r : Int)) ∧
      p < (pagesAfterInsert table.maxRowsPerBlock pages row).length ∧
      r < ((pagesAfterInsert table.maxRowsPerBlock pages row).getD p []).length ∧
      (rowAt (pagesAfterInsert table.maxRowsPerBlock pages row) p r).getD ci 0 = e.1
    by_cases hc : c ∈ table.columns
    · obtain ⟨k, hk1, hk2, hk3⟩ := getColumnIndex_mem table hcc c hc
      cases hold : table.multiColumnIndexData.lookup c with
      | none =>
        rw [hspec2 c hold] at hlk'
        cases hlk'
      | some m =>
        have := hspec1 k hk2 m (by rw [hk3]; exact hold)
        rw [hk3, hlk'] at this
        simp only [Option.some.injEq] at this
        rw [this] at he
        rcases IndexMap.mem_assign _ _ _ _ he with h | h
        · obtain ⟨p, r, l1, l2, l3, l4⟩ := insertLocation_rowAt table pages row hbc hrpb
          refine ⟨k, p, r, hk1, hk2, ?_, l2, l3, ?_⟩
          · rw [h]
            exact l1
          · rw [l4, h]
        · exact hmono c m hold e h
    · rw [hspec3 c hc] at hlk'
      exact hmono c idx' hlk' e he

/-- `executeINSERT` keeps the invariant of the reachable states. -/
theorem executeINSERT_inv (s : State) (pq : ParsedQuery) (hinv : ReachInv s) :
    ReachInv (executeINSERT pq s) := by
  obtain ⟨hfr, hn⟩ := executeINSERT_frame s pq (hinv.1 pq.tableName)
  apply ReachInv.step pq.tableName hinv hfr
  · intro t' ht'
    exact (hn t' ht').1
  · intro t' ht' hidx
    rcases Option.eq_none_or_eq_some (s.tables pq.tableName) with hts | ⟨table, hts⟩
    · exfalso
      have hsame : executeINSERT pq s = s := by
        unfold executeINSERT
        simp only [hts]
      rw [hsame, hts] at ht'
      cases ht'
    · by_cases hnil : table.multiColumnIndexData = []
      · exact absurd ((hn t' ht').2 table hts hnil) hidx
      · obtain ⟨c1, c2, c3, pages, hh, hs⟩ := hinv.2.2 pq.tableName table hts hnil
        obtain ⟨t1, pages', e1, e2, e3, e4, e5, e6⟩ :=
          executeINSERT_sound s pq table pages hts hh c1 c2 c3 hs
        rw [e1] at ht'
        cases ht'
        exact ⟨e2, e3, e4, pages', e5, e6⟩

/-! ## UPDATE and DELETE keep the invariant -/

theorem executeUPDATE_inv (s : State) (pq : ParsedQuery) (hinv : ReachInv s) :
    ReachInv (executeUPDATE pq s) := by
  obtain ⟨hfr, hn⟩ := executeUPDATE_frame s pq (hinv.1 pq.tableName)
  apply ReachInv.step pq.tableName hinv hfr
  · intro t' ht'
    exact (hn t' ht').1
  · intro t' ht' hidx
    exact absurd (hn t' ht').2 hidx

theorem executeDELETE_inv (s s' : State) (pq : ParsedQuery) (hinv : ReachInv s)
    (hd : executeDELETE pq s = Outcome.done s') : ReachInv s' := by
  obtain ⟨hfr, hn⟩ := executeDELETE_frame s s' pq (hinv.1 pq.tableName) hd
  apply ReachInv.step pq.tableName hinv hfr
  · intro t' ht'
    exact (hn t' ht').1
  · intro t' ht' hidx
    exact absurd (hn t' ht').2 hidx

/-! ## LOAD establishes the invariant for the new table -/

theorem extractLoop_nodup (header : List String) :
    ∀ cols : List String, (extractLoop header cols).1 = true → cols.Nodup →
      (extractLoop header cols).2.Nodup := by
  induction header with
  | nil => intro cols _ h; exact h
  | cons word rest ih =>
    intro cols hok hnd
    unfold extractLoop at hok ⊢
    split at hok
    · cases hok
    · split at hok
      · cases hok
      · rename_i h1 h2
        rw [if_neg h1, if_neg h2]
        apply ih _ hok
        rw [List.nodup_append]
        refine ⟨hnd, by simp, ?_⟩
        intro a ha hb
        rw [List.mem_singleton] at hb
        rw [hb] at ha
        apply h2
        simpa using ha

/-- A successful header extraction: distinct column names, at least one, and a positive
page capacity. -/
theorem extractColumnNames_ok (t : Table) (header : List String)
    (h : (t.extractColumnNames header).1 = true) :
    (t.extractColumnNames header).2.tableName = t.tableName ∧
      (t.extractColumnNames header).2.sourceFileName = t.sourceFileName ∧
      (t.extractColumnNames header).2.multiColumnIndexData = t.multiColumnIndexData ∧
      (t.extractColumnNames header).2.columnCount
        = (t.extractColumnNames header).2.columns.length ∧
      0 < (t.extractColumnNames header).2.columnCount ∧
      (t.extractColumnNames header).2.columns.Nodup ∧
      0 < (t.extractColumnNames header).2.maxRowsPerBlock := by
  unfold Table.extractColumnNames at h ⊢
  simp only at h ⊢
  split at h
  · cases h
  · rename_i hloop
    rw [if_neg hloop]
    have hloop' : (extractLoop header []).1 = true := by simpa using hloop
    split at h
    · cases h
    · rename_i hcc
      rw [if_neg hcc]
      have hb : BLOCK_SIZE > 0 := by decide
      rw [if_pos hb]
      refine ⟨rfl, rfl, rfl, rfl, Nat.pos_of_ne_zero hcc, extractLoop_nodup header [] hloop'
        List.nodup_nil, computeMaxRowsPerBlock_pos _⟩

/-- The pages `Table::blockify` writes for the valid lines of the source file: after
`insertTable`, catalogue and page files agree about them, and nothing but page files of the
table has changed. -/
theorem blockify_stored_valid (t : Table) (s : State) (file : SourceFile)
    (hsrc : s.sources t.sourceFileName = some file) (hcc : 0 < t.columnCount)
    (hm : 0 < t.maxRowsPerBlock) :
    ∃ pagesR : List (List Row),
      (t.blockify s).1 = true ∧
      (t.blockify s).2.1 = { t with rowCount := (pagesR.flatten.length : Int),
                                    blockCount := pagesR.length,
                                    rowsPerBlockCount := pagesR.map List.length } ∧
      (t.blockify s).2.2.tables = s.tables ∧ (t.blockify s).2.2.pages = s.pages ∧
      (∀ n, (∀ i : Nat, n ≠ pageNameOf t.tableName (i : Int)) →
        (t.blockify s).2.2.files n = s.files n) ∧
      Stored (insertTable (t.blockify s).2.2 (t.blockify s).2.1) t.tableName pagesR := by
  obtain ⟨pagesR, h1, _, _, h4, h5, h6, h7, _, h9, h10⟩ := blockify_spec t s file hsrc hcc hm
  refine ⟨pagesR, h4, h5, h6, h7, h10, ?_⟩
  have hname : (t.blockify s).2.1.tableName = t.tableName := by rw [h5]
  have htab : (insertTable (t.blockify s).2.2 (t.blockify s).2.1).tables t.tableName
      = some (t.blockify s).2.1 := by
    simp [insertTable, hname]
  have hwid : ∀ p ∈ pagesR, ∀ r ∈ p, r.length = (t.blockify s).2.1.columnCount := by
    intro p hp r hr
    rw [h5]
    have hmem : r ∈ file.lines.filter (fun l => decide (l.length = t.columnCount)) := by
      rw [← h1]
      exact List.mem_flatten.2 ⟨p, hp, hr⟩
    simpa using (List.mem_filter.1 hmem).2
  refine ⟨(t.blockify s).2.1, htab, hname, by rw [h5], by rw [h5], hwid, ?_⟩
  intro i hi
  obtain ⟨lines, extra, hf, hl⟩ := h9 i hi
  exact Page.load_rows _ t.tableName i _ pagesR lines extra htab (by rw [h5]) (by rw [h5]) hwid hi
    hf hl

theorem Held_of_stored_fresh (s : State) (name : String) (pages : List (List Row))
    (h : Stored s name pages) (hf : Fresh s name) : Held s name pages := by
  obtain ⟨t, h1, h2, h3, h4, h5, h6⟩ := h
  refine ⟨t, h1, h2, h3, h4, h5, h6, ?_⟩
  intro p hp j hj
  exact absurd hj (hf p hp j)

/-- The indices built from the entries of the pages are sound on these pages. -/
theorem soundOn_of_entries (t : Table) (pages : List (List Row))
    (hcc : t.columnCount = t.columns.length)
    (hcols : ∀ j, j < t.columnCount → t.multiColumnIndexData.lookup (t.columns.getD j "")
      = some ((indexEntries j pages).foldl (fun m x => IndexMap.assign m x.1 x.2) []))
    (hother : ∀ c, c ∉ t.columns → t.multiColumnIndexData.lookup c = none) :
    SoundOn t pages := by
  intro c idx hlk e he
  by_cases hc : c ∈ t.columns
  · obtain ⟨k, hk1, hk2, hk3⟩ := getColumnIndex_mem t hcc c hc
    have := hcols k hk2
    rw [hk3, hlk] at this
    simp only [Option.some.injEq] at this
    rw [this] at he
    rcases mem_foldl_assign _ _ _ he with h | h
    · obtain ⟨p, r, hp, hr, hpr⟩ := (mem_indexEntries k pages e).1 h
      refine ⟨k, p, r, hk1, hk2, ?_, hp, hr, ?_⟩
      · rw [hpr]
      · rw [hpr]
    · simp at h
  · rw [hother c hc] at hlk
    cases hlk

/-- `executeLOAD` of a relation that is not in the catalogue keeps the invariant of the
reachable states: the new table is consistent and its indices are sound. -/
theorem executeLOAD_inv (s : State) (pq : ParsedQuery) (hinv : ReachInv s)
    (hnew : s.tables pq.loadRelationName = none) : ReachInv (executeLOAD pq s) := by
  obtain ⟨N, hN⟩ : ∃ N, N = pq.loadRelationName := ⟨_, rfl⟩
  rw [← hN] at hnew
  have hexec0 : executeLOAD pq s = (if ((Table.new N).load s).1 then
      (buildAllIndices ((Table.new N).load s).2.1
        (insertTable ((Table.new N).load s).2.2 ((Table.new N).load s).2.1)).2
      else ((Table.new N).load s).2.2) := by
    rw [hN]
    rfl
  rcases Option.eq_none_or_eq_some (s.sources (Table.new N).sourceFileName) with hsrc | ⟨file, hsrc⟩
  · have hload : (Table.new N).load s = (false, Table.new N, s) := by
      unfold Table.load
      simp only [hsrc]
    rw [hexec0, hload]
    exact hinv
  · by_cases hex : ((Table.new N).extractColumnNames file.header).1 = true
    · obtain ⟨x1, x2, x3, x4, x5, x6, x7⟩ := extractColumnNames_ok (Table.new N) file.header hex
      obtain ⟨t1, ht1⟩ : ∃ t1, t1 = ((Table.new N).extractColumnNames file.header).2 := ⟨_, rfl⟩
      rw [← ht1] at x1 x2 x3 x4 x5 x6 x7
      have hname1 : t1.tableName = N := x1
      have hload : (Table.new N).load s = t1.blockify s := by
        unfold Table.load
        simp only [hsrc, hex, if_true]
        rw [ht1]
      obtain ⟨pagesR, b1, b2, b3, b4, b5, b6⟩ := blockify_stored_valid t1 s file
        (by rw [x2]; exact hsrc) x5 x7
      obtain ⟨tb, htb⟩ : ∃ tb, tb = (t1.blockify s).2.1 := ⟨_, rfl⟩
      obtain ⟨sb, hsb⟩ : ∃ sb, sb = (t1.blockify s).2.2 := ⟨_, rfl⟩
      rw [← htb] at b2 b6
      rw [← hsb] at b3 b4 b5 b6
      rw [hname1] at b5 b6
      have hexec : executeLOAD pq s = (buildAllIndices tb (insertTable sb tb)).2 := by
        rw [hexec0, hload, b1, if_pos rfl, htb, hsb]
      have htbn : tb.tableName = N := by rw [b2]; exact hname1
      have hfresh : Fresh (insertTable sb tb) N := by
        intro p hp j
        have hp' : p ∈ s.pages := by
          rw [← b4]
          exact hp
        exact hinv.2.1 N hnew p hp' j
      have hheld : Held (insertTable sb tb) N pagesR := Held_of_stored_fresh _ _ _ b6 hfresh
      have hfr1 : Frame N s sb := by
        refine ⟨fun other _ => by rw [b3], ?_, fun n hn => by rw [b3]; exact hn, ?_⟩
        · intro other ho pg h
          apply Held_of_same s sb other pg h (by rw [b3]) b4
          intro i
          apply b5
          intro j e
          exact ho (pageNameOf_injective _ _ _ _ e).1
        · intro n _ hf p hp j
          rw [b4] at hp
          exact hf p hp j
      have hfr2 : Frame N sb (insertTable sb tb) := by
        have := Frame.of_insertTable sb tb
        rw [htbn] at this
        exact this
      have htab : (insertTable sb tb).tables N = some tb := by
        simp [insertTable, htbn]
      have hcc : tb.columnCount = tb.columns.length := by rw [b2]; exact x4
      have hnd : tb.columns.Nodup := by rw [b2]; exact x6
      have hpos : 0 < tb.columnCount := by rw [b2]; exact x5
      obtain ⟨M, s', hbuild, ht', hh', hfr3, hcols, hother⟩ :=
        buildAllIndices_spec (insertTable sb tb) N pagesR tb htab hheld hcc hnd
      rw [hexec, hbuild]
      apply ReachInv.step N hinv (hfr1.comp (hfr2.comp hfr3))
      · intro t' h
        rw [ht'] at h
        cases h
        exact htbn
      · intro t' h _
        rw [ht'] at h
        cases h
        exact ⟨hcc, hpos, hnd, pagesR, hh', soundOn_of_entries _ pagesR hcc hcols hother⟩
    · have hload : (Table.new N).load s
          = (false, ((Table.new N).extractColumnNames file.header).2, s) := by
        unfold Table.load
        simp only [hsrc, hex]
        rfl
      rw [hexec0, hload]
      exact hinv

theorem ReachInv.init (s : State) (ht : ∀ n, s.tables n = none) (hp : s.pages = []) :
    ReachInv s := by
  refine ⟨?_, ?_, ?_⟩
  · intro n t h
    rw [ht n] at h
    cases h
  · intro n _ p hp'
    rw [hp] at hp'
    simp at hp'
  · intro n t h
    rw [ht n] at h
    cases h

theorem Reachable.inv {s : State} (h : Reachable s) : ReachInv s := by
  induction h with
  | init s ht hp => exact ReachInv.init s ht hp
  | load s pq _ hnew ih => exact executeLOAD_inv s pq ih hnew
  | insert s pq _ ih => exact executeINSERT_inv s pq ih
  | update s pq _ ih => exact executeUPDATE_inv s pq ih
  | delete s s' pq _ hd ih => exact executeDELETE_inv s s' pq ih hd

/-- C16: index soundness (I4) is an invariant of the mutating operators.  In every state
reached from an empty catalogue and an empty pool by `LOAD` (of relations not yet in the
catalogue), `INSERT`, `UPDATE` and `DELETE` commands, whenever the index of a column `c` of a
table maps a value `v` to a location `(p, r)`, row `r` of page `p` of the table, read
through the buffer manager, exists and holds `v` in column `c`. -/
theorem index_sound_reachable (s : State) (h : Reachable s) (name : String) :
    IndexSound s name := by
  obtain ⟨_, _, hc⟩ := h.inv
  intro t ht c idx hlk v loc hv
  have hidx : t.multiColumnIndexData ≠ [] := by
    intro e
    rw [e] at hlk
    simp at hlk
  obtain ⟨_, _, _, pages, hh, hs⟩ := hc name t ht hidx
  obtain ⟨ci, p, r, h1, h2, h3, h4, h5, h6⟩ := hs c idx hlk (v, loc) (mem_of_lookup _ _ _ hv)
  simp only at h3 h6
  have hrows := (hh.getPage_rows p h4).1
  have hlt : r < (getPage s name (p : Int)).1.rows.length := by
    rw [hrows]
    exact h5
  have hrow : (getPage s name loc.1).1.getRow loc.2 = rowAt pages p r := by
    rw [h3]
    simp only
    rw [Page.getRow_lt _ r hlt, hrows]
    rfl
  have hmem : rowAt pages p r ∈ pages.getD p [] := by
    unfold rowAt
    rw [List.getD_eq_getElem _ _ h5]
    exact List.getElem_mem _
  have hwid := (hh.table_eq ht).2 _ (Held.getD_mem h4) _ hmem
  refine ⟨ci, h1, ?_, ?_⟩
  · rw [hrow, hwid]
    exact h2
  · rw [hrow]
    exact h6

theorem index_sound_reachable_witness :
    Reachable (executeINSERT queryInsertS2 (executeLOAD queryLoadT stateS2)) ∧
      IndexSound (executeINSERT queryInsertS2 (executeLOAD queryLoadT stateS2)) "T" :=
  ⟨Reachable.insert _ _ (Reachable.load stateS2 queryLoadT
      (Reachable.init stateS2 (fun _ => rfl) rfl) rfl),
    index_sound_reachable _ (Reachable.insert _ _ (Reachable.load stateS2 queryLoadT
      (Reachable.init stateS2 (fun _ => rfl) rfl) rfl)) "T"⟩

/-! ## Page files that are shorter or longer than the catalogue says -/

/-- A token stream that holds the rows `rows` and then fewer than `cc` integers yields these
rows and the failure flag when more rows are asked for. -/
theorem readRows_partial (cc : Nat) (rows : List Row) (rest : List Int)
    (hw : ∀ r ∈ rows, r.length = cc) (hrest : rest.length < cc) :
    ∀ n, rows.length < n → readRows cc n (rows.flatten ++ rest) = (rows, false) := by
  induction rows with
  | nil =>
    intro n hn
    cases n with
    | zero => simp at hn
    | succ n =>
      simp only [List.flatten_nil, List.nil_append, readRows, readRow_none cc rest hrest]
  | cons r rows ih =>
    intro n hn
    cases n with
    | zero => simp at hn
    | succ n =>
      have hr : r.length = cc := hw r (List.mem_cons_self _ _)
      have ih' := ih (fun x hx => hw x (List.mem_cons_of_mem _ hx)) n
        (by simp only [List.length_cons] at hn; omega)
      simp only [readRows, List.flatten_cons, List.append_assoc]
      rw [← hr, readRow_append]
      simp only
      rw [hr, ih']

/-- C21 (amended): a page file that holds `k` complete rows (and fewer than `columnCount`
further integers) where the catalogue expects more than `k` rows is read as a failed page:
page index -1, `rowCount = k`, no rows (table name, page name and column count stay).  A page
file that starts with the expected `rowsPerBlockCount[i]` rows, whatever follows them, is
read as the page `i` holding exactly these rows. -/
theorem Page.load_short_or_long (s : State) (name : String) (i : Nat) (t : Table)
    (rows : List Row) (rest : List Int) (lines : List (List Int))
    (ht : s.tables name = some t) (hi : i < t.blockCount) (hi2 : i < t.rowsPerBlockCount.length)
    (hw : ∀ r ∈ rows, r.length = t.columnCount)
    (hf : s.files (pageNameOf name i) = some lines) (hl : lines.flatten = rows.flatten ++ rest) :
    (rows.length < t.rowsPerBlockCount.getD i 0 → rest.length < t.columnCount →
      Page.load s name i =
        { tableName := name, pageName := pageNameOf name i, columnCount := t.columnCount,
          rowCount := (rows.length : Int), rows := [], pageIndex := -1 }) ∧
    (rows.length = t.rowsPerBlockCount.getD i 0 →
      Page.load s name i =
        { tableName := name, pageName := pageNameOf name i, columnCount := t.columnCount,
          rowCount := (rows.length : Int), rows := rows, pageIndex := i }) := by
  have h1 : ¬ ((i : Int) < 0 ∨ (i : Int) ≥ (t.blockCount : Int)) := by omega
  have h2 : (i : Int) < (t.rowsPerBlockCount.length : Int) := by omega
  constructor
  · intro hk hrest
    have h0 : t.rowsPerBlockCount.getD i 0 ≠ 0 := by omega
    unfold Page.load
    simp only [ht, h1, h2, if_false, if_true, Int.toNat_ofNat, h0, hf, hl,
      readRows_partial t.columnCount rows rest hw hrest _ hk]
    simp
  · intro hk
    unfold Page.load
    simp only [ht, h1, h2, if_false, if_true, Int.toNat_ofNat, hf, hl]
    split
    · rename_i h0
      have hnil : rows = [] := List.length_eq_zero.1 (by omega)
      subst hnil
      simp
    · rw [← hk, readRows_flatten t.columnCount rows rest hw]
      simp

/-- Reads of `stateShortPage` and `stateLongPage`. -/
theorem Page.load_short_or_long_witness :
    Page.load stateShortPage "T" ((0 : Nat) : Int) =
        { tableName := "T", pageName := pageNameOf "T" ((0 : Nat) : Int), columnCount := 2,
          rowCount := 2, rows := [], pageIndex := -1 } ∧
      Page.load stateLongPage "T" ((0 : Nat) : Int) =
        { tableName := "T", pageName := pageNameOf "T" ((0 : Nat) : Int), columnCount := 2,
          rowCount := 1, rows := [[1, 2]], pageIndex := 0 } :=
  ⟨(Page.load_short_or_long stateShortPage "T" 0
      { tableName := "T", sourceFileName := "../data/T.csv", columns := ["A", "B"],
        columnCount := 2, rowCount := 3, blockCount := 1, maxRowsPerBlock := 4096000,
        rowsPerBlockCount := [3], multiColumnIndexData := [] }
      [[1, 2], [3, 4]] [5] [[1, 2], [3, 4], [5]] rfl (by decide) (by decide) (by decide) rfl
      rfl).1 (by decide) (by decide),
   (Page.load_short_or_long stateLongPage "T" 0
      { tableName := "T", sourceFileName := "../data/T.csv", columns := ["A", "B"],
        columnCount := 2, rowCount := 1, blockCount := 1, maxRowsPerBlock := 4096000,
        rowsPerBlockCount := [1], multiColumnIndexData := [] }
      [[1, 2]] [3, 4] [[1, 2], [3, 4]] rfl (by decide) (by decide) (by decide) rfl rfl).2
      (by decide)⟩

/-- C21 (counterexample): the page file of `stateShortPage` holds the two complete rows
`(1,2),(3,4)` where three are expected; the page read from it does not keep its page index and
holds no row. -/
theorem Page.load_short_page_dropped :
    (Page.load stateShortPage "T" 0).pageIndex = -1 ∧ (Page.load stateShortPage "T" 0).rows = [] ∧
      (Page.load stateShortPage "T" 0).rowCount = 2 := by
  decide

/-! ## `TableCatalogue::insertTable` on a registered name -/

/-- C22 (amended): `insertTable` replaces the catalogue entry of the table's name, whether or
not the name was registered: `getTable` for that name returns the inserted table, the entries
of all other names are unchanged, and so are pool, page files and source files. -/
theorem insertTable_replaces (s : State) (t : Table) :
    (insertTable s t).tables t.tableName = some t ∧
      (∀ n, n ≠ t.tableName → (insertTable s t).tables n = s.tables n) ∧
      (insertTable s t).pages = s.pages ∧ (insertTable s t).files = s.files ∧
      (insertTable s t).sources = s.sources := by
  refine ⟨?_, ?_, rfl, rfl, rfl⟩
  · simp [insertTable]
  · intro n hn
    simp [insertTable, hn]

/-- C22 (counterexample): `T` is registered in `exampleState` with three rows on two pages;
inserting an empty table object of the same name changes what the catalogue returns for
`T`. -/
theorem insertTable_registered_name_overwrites :
    exampleState.tables "T" = some exampleTable ∧
      (insertTable exampleState (Table.create "T" ["A", "B"])).tables "T"
        = some (Table.create "T" ["A", "B"]) ∧
      (insertTable exampleState (Table.create "T" ["A", "B"])).tables "T"
        ≠ exampleState.tables "T" := by
  decide

/-! ## `applyAggregate` on 32-bit values -/

theorem sum_bounds (values : List Int)
    (h32 : ∀ v ∈ values, -2147483648 ≤ v ∧ v ≤ 2147483647) :
    -2147483648 * (values.length : Int) ≤ values.sum ∧
      values.sum ≤ 2147483647 * (values.length : Int) := by
  induction values with
  | nil => simp
  | cons a l ih =>
    have ha := h32 a (List.mem_cons_self _ _)
    have ih' := ih (fun v hv => h32 v (List.mem_cons_of_mem _ hv))
    simp only [List.sum_cons, List.length_cons, Nat.cast_add, Nat.cast_one]
    constructor <;> omega

theorem toSigned_of_range (x : Int) (h1 : -9223372036854775808 ≤ x)
    (h2 : x < 9223372036854775808) : toSigned 64 x = x := by
  unfold toSigned
  simp only
  have hp : (2 : Int) ^ 64 = 18446744073709551616 := by norm_num
  have hq : (2 : Int) ^ (64 - 1) = 9223372036854775808 := by norm_num
  rw [hp, hq]
  split <;> omega

theorem foldl_max_spec (l : List Int) : ∀ a : Int,
    (l.foldl max a = a ∨ l.foldl max a ∈ l) ∧ a ≤ l.foldl max a ∧ ∀ v ∈ l, v ≤ l.foldl max a := by
  induction l with
  | nil => intro a; simp
  | cons b l ih =>
    intro a
    obtain ⟨h1, h2, h3⟩ := ih (max a b)
    simp only [List.foldl_cons, List.mem_cons]
    refine ⟨?_, le_trans (le_max_left a b) h2, ?_⟩
    · rcases h1 with h | h
      · rcases max_choice a b with e | e
        · left; rw [h, e]
        · right; left; rw [h, e]
      · right; right; exact h
    · intro v hv
      rcases hv with e | hv
      · rw [e]; exact le_trans (le_max_right a b) h2
      · exact h3 v hv

theorem foldl_min_spec (l : List Int) : ∀ a : Int,
    (l.foldl min a = a ∨ l.foldl min a ∈ l) ∧ l.foldl min a ≤ a ∧ ∀ v ∈ l, l.foldl min a ≤ v := by
  induction l with
  | nil => intro a; simp
  | cons b l ih =>
    intro a
    obtain ⟨h1, h2, h3⟩ := ih (min a b)
    simp only [List.foldl_cons, List.mem_cons]
    refine ⟨?_, le_trans h2 (min_le_left a b), ?_⟩
    · rcases h1 with h | h
      · rcases min_choice a b with e | e
        · left; rw [h, e]
        · right; left; rw [h, e]
      · right; right; exact h
    · intro v hv
      rcases hv with e | hv
      · rw [e]; exact le_trans h2 (min_le_right a b)
      · exact h3 v hv

/-- C28: on a non-empty list of 32-bit integers with fewer than 2^32 elements,
`applyAggregate` returns the length for COUNT, the exact sum for SUM (the 64-bit accumulator
does not wrap), a least element for MIN and a greatest element for MAX; COUNT of the empty
list is 0. -/
theorem applyAggregate_exact (values : List Int) (hne : values ≠ [])
    (h32 : ∀ v ∈ values, -2147483648 ≤ v ∧ v ≤ 2147483647)
    (hlen : values.length < 2 ^ 32) :
    applyAggregate "COUNT" values = (values.length : Int) ∧
      applyAggregate "SUM" values = values.sum ∧
      (applyAggregate "MIN" values ∈ values ∧ ∀ v ∈ values, applyAggregate "MIN" values ≤ v) ∧
      (applyAggregate "MAX" values ∈ values ∧ ∀ v ∈ values, v ≤ applyAggregate "MAX" values) ∧
      applyAggregate "COUNT" [] = 0 := by
  have hl : (values.length : Int) < 4294967296 := by
    have : values.length < 4294967296 := by simpa using hlen
    exact_mod_cast this
  obtain ⟨hs1, hs2⟩ := sum_bounds values h32
  refine ⟨?_, ?_, ?_, ?_, ?_⟩
  · unfold applyAggregate
    rw [if_neg hne, if_pos rfl]
  · unfold applyAggregate
    rw [if_neg hne, if_neg (by decide), if_pos rfl]
    apply toSigned_of_range <;> omega
  · have e : applyAggregate "MIN" values = values.foldl min (values.headD 0) := by
      unfold applyAggregate
      rw [if_neg hne, if_neg (by decide), if_neg (by decide), if_neg (by decide),
        if_neg (by decide), if_pos rfl]
    rw [e]
    cases values with
    | nil => exact absurd rfl hne
    | cons a l =>
      obtain ⟨h1, h2, h3⟩ := foldl_min_spec (a :: l) a
      simp only [List.headD_cons]
      refine ⟨?_, h3⟩
      rcases h1 with h | h
      · rw [h]; exact List.mem_cons_self _ _
      · exact h
  · have e : applyAggregate "MAX" values = values.foldl max (values.headD 0) := by
      unfold applyAggregate
      rw [if_neg hne, if_neg (by decide), if_neg (by decide), if_neg (by decide), if_pos rfl]
    rw [e]
    cases values with
    | nil => exact absurd rfl hne
    | cons a l =>
      obtain ⟨h1, h2, h3⟩ := foldl_max_spec (a :: l) a
      simp only [List.headD_cons]
      refine ⟨?_, h3⟩
      rcases h1 with h | h
      · rw [h]; exact List.mem_cons_self _ _
      · exact h
  · decide

/-- The aggregates of `[3, -7, 5]`. -/
theorem applyAggregate_exact_witness :
    applyAggregate "COUNT" [3, -7, 5] = 3 ∧ applyAggregate "SUM" [3, -7, 5] = 1 ∧
      applyAggregate "MIN" [3, -7, 5] = -7 ∧ applyAggregate "MAX" [3, -7, 5] = 5 :=
  have h := applyAggregate_exact [3, -7, 5] (by decide) (by decide) (by decide)
  ⟨h.1, h.2.1, by decide, by decide⟩

/-! ## `Table::renameColumn` -/

theorem lookup_eraseColumnIndex_self (idx : List (String × IndexMap)) (c : String) :
    (eraseColumnIndex idx c).lookup c = none := by
  induction idx with
  | nil => rfl
  | cons e rest ih =>
    obtain ⟨c', m'⟩ := e
    unfold eraseColumnIndex
    by_cases h : c' = c
    · rw [if_pos h]; exact ih
    · rw [if_neg h]
      have e1 : (c == c') = false := by simpa using fun e => h e.symm
      simp only [List.lookup, e1]
      exact ih

theorem lookup_eraseColumnIndex_ne (idx : List (String × IndexMap)) (c name : String)
    (h : name ≠ c) : (eraseColumnIndex idx c).lookup name = idx.lookup name := by
  induction idx with
  | nil => rfl
  | cons e rest ih =>
    obtain ⟨c', m'⟩ := e
    unfold eraseColumnIndex
    by_cases hc : c' = c
    · rw [if_pos hc]
      have e1 : (name == c') = false := by simpa [hc] using h
      simp only [List.lookup, e1]
      exact ih
    · rw [if_neg hc]
      by_cases hn : name = c'
      · have e1 : (name == c') = true := by simpa using hn
        simp only [List.lookup, e1]
      · have e1 : (name == c') = false := by simpa using hn
        simp only [List.lookup, e1]
        exact ih

/-- The loop of `getColumnIndex` stops at the first occurrence of the name. -/
theorem findColumn_first (c : String) (l : List String) (k : Nat) (h : c ∈ l) :
    ∃ i, findColumn c l k = ((k + i : Nat) : Int) ∧ i < l.length ∧ l.getD i "" = c ∧
      ∀ j, j < i → l.getD j "" ≠ c := by
  induction l generalizing k with
  | nil => cases h
  | cons x xs ih =>
    unfold findColumn
    by_cases hx : x = c
    · rw [if_pos hx]
      exact ⟨0, by simp, by simp, by simpa using hx, fun j hj => absurd hj (Nat.not_lt_zero j)⟩
    · rw [if_neg hx]
      have hmem : c ∈ xs := by
        rcases List.mem_cons.1 h with e | e
        · exact absurd e.symm hx
        · exact e
      obtain ⟨i, h1, h2, h3, h4⟩ := ih (k + 1) hmem
      refine ⟨i + 1, ?_, by simpa using h2, by simpa using h3, ?_⟩
      · rw [h1]; congr 1; omega
      · intro j hj
        cases j with
        | zero => simpa using hx
        | succ j => simpa using h4 j (by omega)

/-- C30: in a table in which `from` is a column and `to` is not, `renameColumn(from, to)`
puts `to` at the position of the first `from` and leaves every other position of the column
list alone; an index of `from` is then the index of `to`, with the same map, and `from` has
none; the indices of all other columns are unchanged (all indices, when `from` had none); and
name, source file, column count, row count and block metadata of the table are unchanged. -/
theorem renameColumn_spec (t : Table) (fromColumnName toColumnName : String)
    (hcc : t.columnCount = t.columns.length) (hfrom : fromColumnName ∈ t.columns)
    (hto : toColumnName ∉ t.columns) :
    (∃ i, i < t.columns.length ∧ t.columns.getD i "" = fromColumnName ∧
      (∀ j, j < i → t.columns.getD j "" ≠ fromColumnName) ∧
      (t.renameColumn fromColumnName toColumnName).columns = t.columns.set i toColumnName ∧
      (t.renameColumn fromColumnName toColumnName).columns.getD i "" = toColumnName ∧
      ∀ j, j ≠ i →
        (t.renameColumn fromColumnName toColumnName).columns.getD j "" = t.columns.getD j "") ∧
    (∀ m, t.multiColumnIndexData.lookup fromColumnName = some m →
      (t.renameColumn fromColumnName toColumnName).multiColumnIndexData.lookup toColumnName
          = some m ∧
        (t.renameColumn fromColumnName toColumnName).multiColumnIndexData.lookup fromColumnName
          = none) ∧
    (t.multiColumnIndexData.lookup fromColumnName = none →
      (t.renameColumn fromColumnName toColumnName).multiColumnIndexData
        = t.multiColumnIndexData) ∧
    (∀ c, c ≠ fromColumnName → c ≠ toColumnName →
      (t.renameColumn fromColumnName toColumnName).multiColumnIndexData.lookup c
        = t.multiColumnIndexData.lookup c) ∧
    (t.renameColumn fromColumnName toColumnName).tableName = t.tableName ∧
    (t.renameColumn fromColumnName toColumnName).sourceFileName = t.sourceFileName ∧
    (t.renameColumn fromColumnName toColumnName).columnCount = t.columnCount ∧
    (t.renameColumn fromColumnName toColumnName).rowCount = t.rowCount ∧
    (t.renameColumn fromColumnName toColumnName).blockCount = t.blockCount ∧
    (t.renameColumn fromColumnName toColumnName).maxRowsPerBlock = t.maxRowsPerBlock ∧
    (t.renameColumn fromColumnName toColumnName).rowsPerBlockCount = t.rowsPerBlockCount := by
  have hne : toColumnName ≠ fromColumnName := fun e => hto (e ▸ hfrom)
  obtain ⟨i, h1, h2, h3, h4⟩ := findColumn_first fromColumnName t.columns 0 hfrom
  have hfind : findColumn fromColumnName (t.columns.take t.columnCount) 0 = (i : Int) := by
    rw [hcc, List.take_length, h1]; simp
  have hpos : ¬ ((i : Int) < 0) := by omega
  have hR : t.renameColumn fromColumnName toColumnName =
      { t with
        multiColumnIndexData := renameIndex t.multiColumnIndexData fromColumnName toColumnName
        columns := t.columns.set i toColumnName } := by
    unfold Table.renameColumn
    simp only [hfind, hpos, if_false, Int.toNat_ofNat]
  rw [hR]
  refine ⟨⟨i, h2, h3, h4, rfl, ?_, ?_⟩, ?_, ?_, ?_, rfl, rfl, rfl, rfl, rfl, rfl, rfl⟩
  · simp [List.getD_eq_getElem?_getD, List.getElem?_set, h2]
  · intro j hj
    simp [List.getD_eq_getElem?_getD, List.getElem?_set, Ne.symm hj]
  · intro m hm
    simp only [renameIndex, hm]
    constructor
    · rw [lookup_eraseColumnIndex_ne _ _ _ hne, lookup_setColumnIndex_self]
    · exact lookup_eraseColumnIndex_self _ _
  · intro hnone
    simp only [renameIndex, hnone]
  · intro c hc1 hc2
    show (renameIndex t.multiColumnIndexData fromColumnName toColumnName).lookup c = _
    unfold renameIndex
    cases hl : t.multiColumnIndexData.lookup fromColumnName with
    | none => rfl
    | some m =>
      simp only
      rw [lookup_eraseColumnIndex_ne _ _ _ hc1, lookup_setColumnIndex_ne _ _ _ _ hc2]

/-- Renaming the indexed column `A` of `tableIndexedA` to `K`. -/
theorem renameColumn_spec_witness :
    (tableIndexedA.renameColumn "A" "K").columns = ["K", "B", "C"] ∧
      (tableIndexedA.renameColumn "A" "K").multiColumnIndexData.lookup "K"
        = some [(1, (0, 3)), (4, (0, 1)), (7, (0, 2))] ∧
      (tableIndexedA.renameColumn "A" "K").multiColumnIndexData.lookup "A" = none :=
  have h := (renameColumn_spec tableIndexedA "A" "K" (by decide) (by decide) (by decide)).2.1
    [(1, (0, 3)), (4, (0, 1)), (7, (0, 2))] (by decide)
  ⟨by decide, h.1, h.2⟩

/-! ## Range lookups of `executeSEARCH` in the index -/

/-- On a list along which `p` can only switch from true to false, the run of leading elements
that satisfy `p` holds all elements that satisfy `p`. -/
theorem takeWhile_eq_filter_of_pairwise {α : Type} (p : α → Bool) (l : List α)
    (h : l.Pairwise (fun a b => p b = true → p a = true)) : l.takeWhile p = l.filter p := by
  induction l with
  | nil => rfl
  | cons a l ih =>
    rw [List.pairwise_cons] at h
    by_cases hp : p a = true
    · rw [List.takeWhile_cons_of_pos hp, List.filter_cons_of_pos hp, ih h.2]
    · rw [List.takeWhile_cons_of_neg hp, List.filter_cons_of_neg hp]
      symm
      rw [List.filter_eq_nil_iff]
      intro b hb hpb
      exact hp (h.1 b hb hpb)

theorem dropWhile_eq_filter_of_pairwise {α : Type} (p : α → Bool) (l : List α)
    (h : l.Pairwise (fun a b => p b = true → p a = true)) :
    l.dropWhile p = l.filter (fun a => !p a) := by
  induction l with
  | nil => rfl
  | cons a l ih =>
    rw [List.pairwise_cons] at h
    by_cases hp : p a = true
    · rw [List.dropWhile_cons_of_pos hp, List.filter_cons_of_neg (by simp [hp]), ih h.2]
    · rw [List.dropWhile_cons_of_neg hp, List.filter_cons_of_pos (by simpa using hp)]
      congr 1
      symm
      rw [List.filter_eq_self]
      intro b hb
      have : ¬ p b = true := fun hpb => hp (h.1 b hb hpb)
      simpa using this

/-- `index[key] = location` keeps the keys of the map in strictly ascending order. -/
theorem IndexMap.assign_sorted (m : IndexMap) (k : Int) (loc : RowLocation)
    (h : m.Pairwise (fun a b => a.1 < b.1)) :
    (IndexMap.assign m k loc).Pairwise (fun a b => a.1 < b.1) := by
  induction m with
  | nil => simp [IndexMap.assign]
  | cons e rest ih =>
    obtain ⟨k', loc'⟩ := e
    rw [List.pairwise_cons] at h
    unfold IndexMap.assign
    by_cases h1 : k < k'
    · rw [if_pos h1, List.pairwise_cons]
      refine ⟨?_, List.pairwise_cons.2 h⟩
      intro b hb
      rcases List.mem_cons.1 hb with e | hb
      · rw [e]; exact h1
      · exact lt_trans h1 (h.1 b hb)
    · rw [if_neg h1]
      by_cases h2 : k = k'
      · rw [if_pos h2, List.pairwise_cons]
        exact ⟨fun b hb => by rw [h2]; exact h.1 b hb, h.2⟩
      · rw [if_neg h2, List.pairwise_cons]
        refine ⟨?_, ih h.2⟩
        intro b hb
        rcases LessSimpleRA.IndexMap.mem_assign rest k loc b hb with hb | hb
        · rw [hb]
          show k' < k
          omega
        · exact h.1 b hb

/-- Every index built by successive assignments, as LOAD and INSERT build them, is in
strictly ascending key order. -/
theorem foldl_assign_sorted (E : List (Int × RowLocation)) :
    (E.foldl (fun m e => IndexMap.assign m e.1 e.2) []).Pairwise (fun a b => a.1 < b.1) := by
  suffices key : ∀ m : IndexMap, m.Pairwise (fun a b => a.1 < b.1) →
      (E.foldl (fun m e => IndexMap.assign m e.1 e.2) m).Pairwise (fun a b => a.1 < b.1) from
    key [] List.Pairwise.nil
  induction E with
  | nil => intro m hm; exact hm
  | cons e E ih =>
    intro m hm
    exact ih _ (IndexMap.assign_sorted m e.1 e.2 hm)

/-- On an ascending index, the entries before `lower_bound(v)` / `upper_bound(v)` are those
with a key below / not above `v`, and the entries from there on are the others. -/
theorem index_range_entries (index : IndexMap) (v : Int)
    (hs : index.Pairwise (fun a b => a.1 < b.1)) :
    index.takeWhile (fun e => decide (e.1 < v)) = index.filter (fun e => decide (e.1 < v)) ∧
      index.takeWhile (fun e => decide (e.1 ≤ v)) = index.filter (fun e => decide (e.1 ≤ v)) ∧
      index.dropWhile (fun e => decide (e.1 ≤ v)) = index.filter (fun e => decide (e.1 > v)) ∧
      index.dropWhile (fun e => decide (e.1 < v)) = index.filter (fun e => decide (e.1 ≥ v)) := by
  have hlt : index.Pairwise
      (fun a b => (fun e : Int × RowLocation => decide (e.1 < v)) b = true →
        (fun e : Int × RowLocation => decide (e.1 < v)) a = true) := by
    refine hs.imp ?_
    intro a b hab hb
    simp only [decide_eq_true_eq] at hb ⊢
    omega
  have hle : index.Pairwise
      (fun a b => (fun e : Int × RowLocation => decide (e.1 ≤ v)) b = true →
        (fun e : Int × RowLocation => decide (e.1 ≤ v)) a = true) := by
    refine hs.imp ?_
    intro a b hab hb
    simp only [decide_eq_true_eq] at hb ⊢
    omega
  refine ⟨takeWhile_eq_filter_of_pairwise _ _ hlt, takeWhile_eq_filter_of_pairwise _ _ hle,
    ?_, ?_⟩
  · rw [dropWhile_eq_filter_of_pairwise _ _ hle]
    apply List.filter_congr
    intro e _
    by_cases hc : e.1 ≤ v
    · simp [hc]
    · simp [hc]; omega
  · rw [dropWhile_eq_filter_of_pairwise _ _ hlt]
    apply List.filter_congr
    intro e _
    by_cases hc : e.1 < v
    · simp [hc]
    · simp [hc]; omega

/-- C26: when `executeSEARCH` finds an index of the searched column (its keys in ascending
order, as `std::map` keeps them) and the operator is `<`, `<=`, `>` or `>=`, the locations it
fetches are those of the index entries whose key `k` satisfies `k op v`, in the order of the
index, i.e. in ascending key order; the index counts as used, so no full scan follows, and
nothing is fetched when the list is empty. -/
theorem executeSEARCH_range_locations (fuel : Nat) (pq : ParsedQuery) (s : State) (table : Table)
    (index : IndexMap)
    (ht : s.tables pq.selectionRelationName = some table)
    (hidx : table.multiColumnIndexData.lookup pq.selectionFirstColumnName = some index)
    (hlit : pq.selectType = SelectType.INT_LITERAL)
    (hs : index.Pairwise (fun a b => a.1 < b.1))
    (hop : pq.selectionBinaryOperator = BinaryOperator.LESS_THAN ∨
      pq.selectionBinaryOperator = BinaryOperator.LEQ ∨
      pq.selectionBinaryOperator = BinaryOperator.GREATER_THAN ∨
      pq.selectionBinaryOperator = BinaryOperator.GEQ) :
    ∃ entries : List (Int × RowLocation),
      (pq.selectionBinaryOperator = BinaryOperator.LESS_THAN →
        entries = index.filter (fun e => decide (e.1 < pq.selectionIntLiteral)) ∧
          entries = index.takeWhile (fun e => decide (e.1 < pq.selectionIntLiteral))) ∧
      (pq.selectionBinaryOperator = BinaryOperator.LEQ →
        entries = index.filter (fun e => decide (e.1 ≤ pq.selectionIntLiteral)) ∧
          entries = index.takeWhile (fun e => decide (e.1 ≤ pq.selectionIntLiteral))) ∧
      (pq.selectionBinaryOperator = BinaryOperator.GREATER_THAN →
        entries = index.filter (fun e => decide (e.1 > pq.selectionIntLiteral)) ∧
          entries = index.dropWhile (fun e => decide (e.1 ≤ pq.selectionIntLiteral))) ∧
      (pq.selectionBinaryOperator = BinaryOperator.GEQ →
        entries = index.filter (fun e => decide (e.1 ≥ pq.selectionIntLiteral)) ∧
          entries = index.dropWhile (fun e => decide (e.1 < pq.selectionIntLiteral))) ∧
      entries.Pairwise (fun a b => a.1 < b.1) ∧
      indexLookup index pq.selectionIntLiteral pq.selectionBinaryOperator
        = (entries.map Prod.snd, true) ∧
      executeSEARCH fuel pq s = some
        (finishResult (Table.create pq.selectionResultRelationName table.columns)
          (if entries.map Prod.snd ≠ [] then
            fetchRows (Table.create pq.selectionResultRelationName table.columns) table
              (entries.map Prod.snd) []
              ((Table.create pq.selectionResultRelationName table.columns).createFile s)
           else (Table.create pq.selectionResultRelationName table.columns).createFile s)) := by
  obtain ⟨h1, h2, h3, h4⟩ := index_range_entries index pq.selectionIntLiteral hs
  have hexec : ∀ locs : List RowLocation,
      indexLookup index pq.selectionIntLiteral pq.selectionBinaryOperator = (locs, true) →
      executeSEARCH fuel pq s = some
        (finishResult (Table.create pq.selectionResultRelationName table.columns)
          (if locs ≠ [] then
            fetchRows (Table.create pq.selectionResultRelationName table.columns) table locs []
              ((Table.create pq.selectionResultRelationName table.columns).createFile s)
           else (Table.create pq.selectionResultRelationName table.columns).createFile s)) := by
    intro locs hl
    have hix : table.isIndexed pq.selectionFirstColumnName = true := by
      simp [Table.isIndexed, hidx]
    unfold executeSEARCH
    simp only [ht, hix, hlit, hidx, hl, and_self, if_true, true_and]
    by_cases hne : locs = []
    · simp [hne]
    · simp [hne]
  have hfs : ∀ p : Int × RowLocation → Bool,
      (index.filter p).Pairwise (fun a b => a.1 < b.1) := fun p => hs.sublist (List.filter_sublist _)
  rcases hop with hop | hop | hop | hop
  · have hl : indexLookup index pq.selectionIntLiteral pq.selectionBinaryOperator
        = ((index.filter (fun e => decide (e.1 < pq.selectionIntLiteral))).map Prod.snd, true) := by
      rw [hop, ← h1]; rfl
    refine ⟨_, ?_, ?_, ?_, ?_, hfs _, hl, hexec _ hl⟩
    · intro _; exact ⟨rfl, h1.symm⟩
    · intro h; rw [hop] at h; cases h
    · intro h; rw [hop] at h; cases h
    · intro h; rw [hop] at h; cases h
  · have hl : indexLookup index pq.selectionIntLiteral pq.selectionBinaryOperator
        = ((index.filter (fun e => decide (e.1 ≤ pq.selectionIntLiteral))).map Prod.snd, true) := by
      rw [hop, ← h2]; rfl
    refine ⟨_, ?_, ?_, ?_, ?_, hfs _, hl, hexec _ hl⟩
    · intro h; rw [hop] at h; cases h
    · intro _; exact ⟨rfl, h2.symm⟩
    · intro h; rw [hop] at h; cases h
    · intro h; rw [hop] at h; cases h
  · have hl : indexLookup index pq.selectionIntLiteral pq.selectionBinaryOperator
        = ((index.filter (fun e => decide (e.1 > pq.selectionIntLiteral))).map Prod.snd, true) := by
      rw [hop, ← h3]; rfl
    refine ⟨_, ?_, ?_, ?_, ?_, hfs _, hl, hexec _ hl⟩
    · intro h; rw [hop] at h; cases h
    · intro h; rw [hop] at h; cases h
    · intro _; exact ⟨rfl, h3.symm⟩
    · intro h; rw [hop] at h; cases h
  · have hl : indexLookup index pq.selectionIntLiteral pq.selectionBinaryOperator
        = ((index.filter (fun e => decide (e.1 ≥ pq.selectionIntLiteral))).map Prod.snd, true) := by
      rw [hop, ← h4]; rfl
    refine ⟨_, ?_, ?_, ?_, ?_, hfs _, hl, hexec _ hl⟩
    · intro h; rw [hop] at h; cases h
    · intro h; rw [hop] at h; cases h
    · intro h; rw [hop] at h; cases h
    · intro _; exact ⟨rfl, h4.symm⟩

set_option maxRecDepth 100000 in
/-- Scenario S2 after `LOAD T`: `A >= 4` fetches the locations of the keys 4 and 7. -/
theorem executeSEARCH_range_locations_witness :
    ∃ entries : List (Int × RowLocation), entries = [(4, (0, 1)), (7, (0, 2))] ∧
      indexLookup [(1, (0, 3)), (4, (0, 1)), (7, (0, 2))] 4 BinaryOperator.GEQ
        = (entries.map Prod.snd, true) :=
  match executeSEARCH_range_locations 10 querySearchGeq stateS2Loaded tableS2Loaded
      [(1, (0, 3)), (4, (0, 1)), (7, (0, 2))] (by decide) (by decide) (by decide) (by decide)
      (by decide) with
  | ⟨entries, _, _, _, h4, _, hl, _⟩ => ⟨entries, (h4 rfl).1.trans (by decide), hl⟩

/-! ## The header line: `getline` on comma-separated fields -/

theorem takeWhile_ne_append (d : Char) (f rest : List Char) (h : d ∉ f) :
    (f ++ d :: rest).takeWhile (fun c => decide (c ≠ d)) = f ∧
      (f ++ d :: rest).dropWhile (fun c => decide (c ≠ d)) = d :: rest := by
  induction f with
  | nil => simp
  | cons a f ih =>
    have ha : a ≠ d := fun e => h (e ▸ List.mem_cons_self _ _)
    have ih' := ih (fun hm => h (List.mem_cons_of_mem _ hm))
    simp only [List.cons_append]
    rw [List.takeWhile_cons_of_pos (by simpa using ha),
      List.dropWhile_cons_of_pos (by simpa using ha), ih'.1, ih'.2]
    exact ⟨rfl, rfl⟩

theorem takeWhile_ne_self (d : Char) (f : List Char) (h : d ∉ f) :
    f.takeWhile (fun c => decide (c ≠ d)) = f ∧ f.dropWhile (fun c => decide (c ≠ d)) = [] := by
  induction f with
  | nil => simp
  | cons a f ih =>
    have ha : a ≠ d := fun e => h (e ▸ List.mem_cons_self _ _)
    have ih' := ih (fun hm => h (List.mem_cons_of_mem _ hm))
    rw [List.takeWhile_cons_of_pos (by simpa using ha),
      List.dropWhile_cons_of_pos (by simpa using ha), ih'.1, ih'.2]
    exact ⟨rfl, rfl⟩

/-- `getline` on a field that is followed by the delimiter. -/
theorem getline_field (d : Char) (f rest : List Char) (h : d ∉ f) :
    getline d (f ++ d :: rest) = some (f, rest) := by
  unfold getline
  rw [if_neg (by simp), (takeWhile_ne_append d f rest h).1, (takeWhile_ne_append d f rest h).2]
  rfl

/-- `getline` on the last field, when it has a character. -/
theorem getline_last (d : Char) (f : List Char) (h : d ∉ f) (hne : f ≠ []) :
    getline d f = some (f, []) := by
  unfold getline
  rw [if_neg hne, (takeWhile_ne_self d f h).1, (takeWhile_ne_self d f h).2]
  rfl

theorem intercalate_cons_cons (x y : List Char) (l : List (List Char)) :
    List.intercalate [','] (x :: y :: l) = x ++ ',' :: List.intercalate [','] (y :: l) := by
  simp [List.intercalate, List.intersperse]

theorem intercalate_singleton (x : List Char) : List.intercalate [','] [x] = x := by
  simp [List.intercalate, List.intersperse]

/-- Every line is the join, with commas, of its comma-separated fields. -/
theorem header_fields_exist (line : List Char) :
    ∃ fields : List (List Char), fields ≠ [] ∧ (∀ f ∈ fields, ',' ∉ f) ∧
      line = List.intercalate [','] fields := by
  induction line with
  | nil => exact ⟨[[]], by simp, by simp, by simp [List.intercalate, List.intersperse]⟩
  | cons c cs ih =>
    obtain ⟨fields, hne, hcomma, hjoin⟩ := ih
    cases fields with
    | nil => exact absurd rfl hne
    | cons f fs =>
      by_cases hc : c = ','
      · refine ⟨[] :: f :: fs, by simp, ?_, ?_⟩
        · intro g hg
          rcases List.mem_cons.1 hg with e | e
          · rw [e]; simp
          · exact hcomma g e
        · rw [intercalate_cons_cons, hc, ← hjoin]
          rfl
      · refine ⟨(c :: f) :: fs, by simp, ?_, ?_⟩
        · intro g hg
          rcases List.mem_cons.1 hg with e | e
          · rw [e]
            intro hm
            rcases List.mem_cons.1 hm with e' | e'
            · exact hc e'.symm
            · exact hcomma f (List.mem_cons_self _ _) e'
          · exact hcomma g (List.mem_cons_of_mem _ e)
        · cases fs with
          | nil =>
            rw [intercalate_singleton] at hjoin ⊢
            rw [hjoin]
          | cons g gs =>
            rw [intercalate_cons_cons] at hjoin ⊢
            rw [hjoin]
            rfl

/-- The getline loop of `extractColumnNames` on a line with the comma-separated fields
`fields` yields the names `specHeaderNames fields`. -/
theorem headerLoop_intercalate (fields : List (List Char)) (hne : fields ≠ [])
    (hcomma : ∀ f ∈ fields, ',' ∉ f) :
    ∀ fuel, (List.intercalate [','] fields).length ≤ fuel →
      headerLoop fuel (List.intercalate [','] fields) = specHeaderNames fields := by
  induction fields with
  | nil => exact absurd rfl hne
  | cons f rest ih =>
    intro fuel hfuel
    cases rest with
    | nil =>
      rw [intercalate_singleton] at hfuel ⊢
      by_cases hf : f = []
      · subst hf
        cases fuel with
        | zero => simp [headerLoop, specHeaderNames]
        | succ n => simp [headerLoop, getline, specHeaderNames]
      · cases fuel with
        | zero =>
          have : f.length = 0 := by omega
          exact absurd (List.length_eq_zero.1 this) hf
        | succ n =>
          simp only [headerLoop, getline_last ',' f (hcomma f (List.mem_cons_self _ _)) hf]
          cases n with
          | zero => simp [headerLoop, specHeaderNames, hf]
          | succ m => simp [headerLoop, getline, specHeaderNames, hf]
    | cons g rest =>
      rw [intercalate_cons_cons] at hfuel ⊢
      cases fuel with
      | zero => simp at hfuel
      | succ n =>
        simp only [headerLoop, getline_field ',' f _ (hcomma f (List.mem_cons_self _ _))]
        rw [ih (by simp) (fun x hx => hcomma x (List.mem_cons_of_mem _ hx)) n
          (by simp only [List.length_append, List.length_cons] at hfuel; omega)]
        simp only [specHeaderNames, List.getLast?_cons_cons, List.dropLast_cons₂]
        split <;> simp

theorem headerWords_intercalate (fields : List (List Char)) (hne : fields ≠ [])
    (hcomma : ∀ f ∈ fields, ',' ∉ f) :
    headerWords (String.mk (List.intercalate [','] fields)) = specHeaderNames fields := by
  unfold headerWords
  exact headerLoop_intercalate fields hne hcomma _ (by simp [String.length])

/-- The loop of `extractColumnNames` succeeds exactly on non-empty names that are new and
pairwise distinct, and then appends them. -/
theorem extractLoop_spec (header : List String) :
    ∀ cols : List String, cols.Nodup →
      ((extractLoop header cols).1 = true ↔
        (∀ w ∈ header, w ≠ "") ∧ (cols ++ header).Nodup) ∧
      ((extractLoop header cols).1 = true → (extractLoop header cols).2 = cols ++ header) := by
  induction header with
  | nil =>
    intro cols hnd
    simp [extractLoop, hnd]
  | cons word rest ih =>
    intro cols hnd
    unfold extractLoop
    by_cases h1 : word = ""
    · rw [if_pos h1]
      simp [h1]
    · rw [if_neg h1]
      by_cases h2 : cols.contains word = true
      · rw [if_pos h2]
        have hmem : word ∈ cols := by simpa using h2
        simp only [Bool.false_eq_true, false_iff, false_implies, and_true, not_and]
        intro _ hn
        rw [List.nodup_append] at hn
        exact hn.2.2 hmem (List.mem_cons_self _ _)
      · rw [if_neg h2]
        have hmem : word ∉ cols := by simpa using h2
        have hnd' : (cols ++ [word]).Nodup := by
          rw [List.nodup_append]
          refine ⟨hnd, by simp, ?_⟩
          intro a ha hb
          rw [List.mem_singleton] at hb
          exact hmem (hb ▸ ha)
        obtain ⟨ih1, ih2⟩ := ih (cols ++ [word]) hnd'
        have happ : cols ++ [word] ++ rest = cols ++ word :: rest := by simp
        rw [happ] at ih1 ih2
        refine ⟨?_, ih2⟩
        rw [ih1]
        constructor
        · intro ⟨ha, hb⟩
          refine ⟨?_, hb⟩
          intro w hw
          rcases List.mem_cons.1 hw with e | e
          · rw [e]; exact h1
          · exact ha w e
        · intro ⟨ha, hb⟩
          exact ⟨fun w hw => ha w (List.mem_cons_of_mem _ hw), hb⟩

/-- C24 (amended): on a header line with the comma-separated fields `fields`,
`extractColumnNames` returns true exactly when the trimmed fields (a last field without any
character apart) are at least one, none of them empty and pairwise distinct; in particular it
returns false on an empty or a repeated name.  Whenever it returns true, the column list of
the table is these names in order, pairwise distinct, and `columnCount` is their number. -/
theorem extractColumnNames_header (t : Table) (fields : List (List Char)) (hne : fields ≠ [])
    (hcomma : ∀ f ∈ fields, ',' ∉ f) :
    ((t.extractColumnNames (headerWords (String.mk (List.intercalate [','] fields)))).1 = true ↔
      specHeaderNames fields ≠ [] ∧ (∀ n ∈ specHeaderNames fields, n ≠ "") ∧
        (specHeaderNames fields).Nodup) ∧
    ((t.extractColumnNames (headerWords (String.mk (List.intercalate [','] fields)))).1 = true →
      (t.extractColumnNames (headerWords (String.mk (List.intercalate [','] fields)))).2.columns
          = specHeaderNames fields ∧
        (t.extractColumnNames
            (headerWords (String.mk (List.intercalate [','] fields)))).2.columnCount
          = (specHeaderNames fields).length ∧
        (t.extractColumnNames
            (headerWords (String.mk (List.intercalate [','] fields)))).2.columns.Nodup) := by
  rw [headerWords_intercalate fields hne hcomma]
  obtain ⟨h1, h2⟩ := extractLoop_spec (specHeaderNames fields) [] List.nodup_nil
  simp only [List.nil_append] at h1 h2
  have hB : BLOCK_SIZE > 0 := by decide
  unfold Table.extractColumnNames
  simp only
  by_cases hok : (extractLoop (specHeaderNames fields) []).1 = true
  · have hcols := h2 hok
    have hspec := h1.1 hok
    rw [if_neg (by simp [hok])]
    by_cases hz : (extractLoop (specHeaderNames fields) []).2.length = 0
    · rw [if_pos hz]
      have hnil : specHeaderNames fields = [] := by
        rw [hcols] at hz
        exact List.length_eq_zero.1 hz
      simp [hnil]
    · rw [if_neg hz, if_pos hB]
      have hnn : specHeaderNames fields ≠ [] := by
        intro e
        rw [hcols, e] at hz
        exact hz rfl
      simp only [true_iff, true_implies]
      refine ⟨⟨hnn, hspec.1, hspec.2⟩, hcols, by rw [hcols], by rw [hcols]; exact hspec.2⟩
  · have hfalse : (extractLoop (specHeaderNames fields) []).1 = false := by simpa using hok
    rw [if_pos hfalse]
    simp only [Bool.false_eq_true, false_iff, false_implies, and_true, not_and]
    intro _ ha hb
    exact hok (h1.2 ⟨ha, hb⟩)

/-- The header line `A, B,C `. -/
theorem extractColumnNames_header_witness :
    ((Table.new "T").extractColumnNames
        (headerWords (String.mk (List.intercalate [','] [['A'], [' ', 'B'], ['C', ' ']])))).2.columns
      = ["A", "B", "C"] :=
  ((extractColumnNames_header (Table.new "T") [['A'], [' ', 'B'], ['C', ' ']] (by decide)
    (by decide)).2
    ((extractColumnNames_header (Table.new "T") [['A'], [' ', 'B'], ['C', ' ']] (by decide)
      (by decide)).1.2 (by decide))).1.trans (by decide)

/-- C24 (counterexample): the header line `A,B,` has the comma-separated fields `A`, `B` and a
third, empty one; `extractColumnNames` returns true on it, with the columns `A`, `B`. -/
theorem extractColumnNames_trailing_comma :
    "A,B,".data = List.intercalate [','] [['A'], ['B'], []] ∧
      ((Table.new "T").extractColumnNames (headerWords "A,B,")).1 = true ∧
      ((Table.new "T").extractColumnNames (headerWords "A,B,")).2.columns = ["A", "B"] := by
  decide

/-! ## SEARCH with `!=` -/

/-- The full-scan loop of `executeSEARCH` appends the rows that satisfy the comparison. -/
theorem searchScan_foldl (tR : Table) (hne : tR.sourceFileName ≠ "") (idx : Nat) (v : Int)
    (op : BinaryOperator) (rows : List Row) (hlen : ∀ r ∈ rows, idx < r.length) (src : Sources)
    (hd : List String) (l0 : List (List Int))
    (h : src tR.sourceFileName = some { header := hd, lines := l0 }) :
    (rows.foldl (fun p r => searchScanBody tR (idx : Int) v op p.1 p.2 r) ((), src)).2
        tR.sourceFileName
      = some { header := hd
               lines := l0 ++ rows.filter (fun r => evaluateBinOp (r.getD idx 0) v op) } := by
  induction rows generalizing src l0 with
  | nil => simpa using h
  | cons r rows ih =>
    have hr : idx < r.length := hlen r (List.mem_cons_self _ _)
    have hnot : ¬ ((idx : Int) ≥ (r.length : Int)) := by omega
    rw [List.foldl_cons]
    by_cases hev : evaluateBinOp (r.getD idx 0) v op = true
    · have hb : searchScanBody tR (idx : Int) v op () src r = ((), tR.writeRow src r) := by
        simp only [searchScanBody, if_neg hnot, Int.toNat_ofNat, hev, if_true]
      have h1 : (tR.writeRow src r) tR.sourceFileName
          = some { header := hd, lines := l0 ++ [r] } := by
        simp [Table.writeRow, hne, setFile, h]
      rw [hb, ih (fun x hx => hlen x (List.mem_cons_of_mem _ hx)) _ _ h1,
        @List.filter_cons_of_pos _ (fun r => evaluateBinOp (r.getD idx 0) v op) r rows hev]
      simp
    · have hb : searchScanBody tR (idx : Int) v op () src r = ((), src) := by
        simp only [searchScanBody, if_neg hnot, Int.toNat_ofNat, hev, Bool.false_eq_true,
          if_false]
      rw [hb, ih (fun x hx => hlen x (List.mem_cons_of_mem _ hx)) _ _ h,
        @List.filter_cons_of_neg _ (fun r => evaluateBinOp (r.getD idx 0) v op) r rows hev]

/-- On a table with consistent, non-empty pages, `executeSEARCH` with the
operator `!=` scans the table whether or not the column has an index: with enough fuel it ends
normally and registers a result relation with the columns of the table whose rows, as emitted
and as stored, are exactly the rows of the table with `row[c] != v`, in scan order. -/
theorem executeSEARCH_not_equal (s : State) (pq : ParsedQuery) (table : Table)
    (pages : List (List Row)) (fuel : Nat)
    (hop : pq.selectionBinaryOperator = BinaryOperator.NOT_EQUAL)
    (ht : s.tables pq.selectionRelationName = some table)
    (hh : Held s pq.selectionRelationName pages) (hne : ∀ p ∈ pages, p ≠ [])
    (hcc : table.columnCount = table.columns.length)
    (hc : pq.selectionFirstColumnName ∈ table.columns)
    (hf : pages.flatten.length < fuel) :
    ∃ s' tableR pagesR, executeSEARCH fuel pq s = some s' ∧
      s'.tables pq.selectionResultRelationName = some tableR ∧
      tableR.columns = table.columns ∧
      tableR.rowCount = (pagesR.flatten.length : Int) ∧
      Stored s' pq.selectionResultRelationName pagesR ∧
      emittedRows s' pq.selectionResultRelationName = some pagesR.flatten ∧
      pagesR.flatten = pages.flatten.filter (fun r =>
        decide (subscript r (table.getColumnIndex pq.selectionFirstColumnName)
          ≠ pq.selectionIntLiteral)) := by
  obtain ⟨hn, hw⟩ := hh.table_eq ht
  obtain ⟨idx, hidx, hidxlt, _⟩ := getColumnIndex_mem table hcc _ hc
  have hpos : 0 < table.columns.length := List.length_pos_of_mem hc
  have hrow : ∀ p ∈ pages, ∀ r ∈ p, r ≠ [] := by
    intro p hp r hr e
    have := hw p hp r hr
    rw [e] at this
    simp at this
    omega
  have hsrc := Table.create_source_ne pq.selectionResultRelationName table.columns
  have hRcc : (Table.create pq.selectionResultRelationName table.columns).columnCount
      = table.columnCount := by
    simp [Table.create, hcc]
  have hRm : 0 < (Table.create pq.selectionResultRelationName table.columns).maxRowsPerBlock := by
    have hl : table.columns.length > 0 ∧ BLOCK_SIZE > 0 := ⟨hpos, by decide⟩
    simp only [Table.create, if_pos hl]
    exact computeMaxRowsPerBlock_pos _
  have hH0 : Held ((Table.create pq.selectionResultRelationName table.columns).createFile s)
      pq.selectionRelationName pages := Held_setSources s _ _ pages hh
  obtain ⟨c1, s1, e1, hs1, ht1, _⟩ := cursorLoop_table
    (searchScanBody (Table.create pq.selectionResultRelationName table.columns) (idx : Int)
      pq.selectionIntLiteral BinaryOperator.NOT_EQUAL)
    ((Table.create pq.selectionResultRelationName table.columns).createFile s)
    pq.selectionRelationName pages hH0 hne hrow () fuel hf
  have h0 : ((Table.create pq.selectionResultRelationName table.columns).createFile s).sources
      (Table.create pq.selectionResultRelationName table.columns).sourceFileName
      = some { header := table.columns, lines := [] } := by
    simp [Table.createFile, setFile, Table.create]
  have hall : ∀ r ∈ pages.flatten, idx < r.length := by
    intro r hr
    obtain ⟨p, hp, hrp⟩ := List.mem_flatten.1 hr
    rw [hw p hp r hrp]
    exact hidxlt
  have hsrc1 := searchScan_foldl (Table.create pq.selectionResultRelationName table.columns)
    hsrc idx pq.selectionIntLiteral BinaryOperator.NOT_EQUAL pages.flatten hall _ table.columns
    [] h0
  rw [← hs1, List.nil_append] at hsrc1
  obtain ⟨pagesR, hflat, _, _, hb1, hb2, _, _, hst⟩ := blockify_stored _ s1 _ hsrc1
    (by rw [hRcc, hcc]; exact hpos) hRm (by
      intro l hl
      have hl' := (List.mem_filter.1 hl).1
      obtain ⟨p, hp, hrp⟩ := List.mem_flatten.1 hl'
      rw [hRcc]
      exact hw p hp l hrp)
  have hexec : executeSEARCH fuel pq s = some (insertTable
      ((Table.create pq.selectionResultRelationName table.columns).blockify s1).2.2
      ((Table.create pq.selectionResultRelationName table.columns).blockify s1).2.1) := by
    have hnn : ¬ ((idx : Int) < 0) := by omega
    unfold executeSEARCH
    simp only [ht, hop, indexLookup]
    have hvia : ∀ (x : State × Bool) (hx : x.2 = false) (hx1 : x.1
        = (Table.create pq.selectionResultRelationName table.columns).createFile s),
        (if x.2 = false then
          (if table.getColumnIndex pq.selectionFirstColumnName < 0 then
            some ((Table.create pq.selectionResultRelationName table.columns).unload
              (table.getCursor x.1).2)
          else
            match cursorLoop
              (searchScanBody (Table.create pq.selectionResultRelationName table.columns)
                (table.getColumnIndex pq.selectionFirstColumnName) pq.selectionIntLiteral
                BinaryOperator.NOT_EQUAL) fuel () (table.getCursor x.1).1
                (table.getCursor x.1).2 with
            | none => none
            | some r =>
              some (finishResult (Table.create pq.selectionResultRelationName table.columns)
                r.2.2))
        else some (finishResult (Table.create pq.selectionResultRelationName table.columns) x.1))
        = some (insertTable
          ((Table.create pq.selectionResultRelationName table.columns).blockify s1).2.2
          ((Table.create pq.selectionResultRelationName table.columns).blockify s1).2.1) := by
      intro x hx hx1
      rw [if_pos hx, hidx, if_neg hnn, hx1]
      simp only [Table.getCursor, hn, e1, finishResult, hb1, if_true]
    apply hvia
    · split
      · split <;> rfl
      · rfl
    · split
      · split <;> simp
      · rfl
  refine ⟨_, ((Table.create pq.selectionResultRelationName table.columns).blockify s1).2.1,
    pagesR, hexec, ?_, ?_, ?_, hst, ?_, ?_⟩
  · have hbn : ((Table.create pq.selectionResultRelationName table.columns).blockify
        s1).2.1.tableName = pq.selectionResultRelationName := by rw [hb2]; rfl
    simp [insertTable, hbn]
  · rw [hb2]; rfl
  · rw [hb2]
  · obtain ⟨_, _, _, _, _, _, _, _, hbs, _⟩ := blockify_spec _ s1 _ hsrc1
      (by rw [hRcc, hcc]; exact hpos) hRm
    have hsame : (insertTable
        ((Table.create pq.selectionResultRelationName table.columns).blockify s1).2.2
        ((Table.create pq.selectionResultRelationName table.columns).blockify s1).2.1).sources
        = s1.sources := hbs
    unfold emittedRows
    rw [hsame]
    have hname : (Table.create pq.selectionResultRelationName table.columns).sourceFileName
        = "../data/temp/" ++ pq.selectionResultRelationName ++ ".csv" := rfl
    rw [← hname, hsrc1, hflat]
    rfl
  · rw [hflat]
    apply List.filter_congr
    intro r hr
    simp only [subscript, hidx, Int.toNat_ofNat, evaluateBinOp]

set_option maxRecDepth 100000 in
theorem stateS2Loaded_held :
    Held stateS2Loaded "T" [[[1, 2, 3], [4, 5, 6], [7, 8, 9], [1, 20, 30]]] := by
  have hpool : stateS2Loaded.pages =
      [{ tableName := "T", pageName := pageNameOf "T" ((0 : Nat) : Int), columnCount := 3,
         rowCount := 4, rows := [[1, 2, 3], [4, 5, 6], [7, 8, 9], [1, 20, 30]],
         pageIndex := 0 }] := by decide
  refine ⟨tableS2Loaded, by decide, rfl, rfl, rfl, by decide, ?_, ?_⟩
  · intro i hi
    have h0 : i = 0 := by simpa using hi
    subst h0
    decide
  · intro p hp j hj
    rw [hpool, List.mem_singleton] at hp
    subst hp
    have hj0 := (pageNameOf_injective "T" "T" 0 j hj).2
    subst hj0
    exact ⟨by decide, rfl, rfl⟩

/-- Scenario S2 after `LOAD T`, where every column has an index: `A != 1` emits the rows
`(4,5,6),(7,8,9)`. -/
theorem executeSEARCH_not_equal_witness :
    ∃ (s' : State) (pagesR : List (List Row)),
      executeSEARCH 10 querySearchNeq stateS2Loaded = some s' ∧
      emittedRows s' "Y" = some pagesR.flatten ∧
      pagesR.flatten = [[4, 5, 6], [7, 8, 9]] :=
  match executeSEARCH_not_equal stateS2Loaded querySearchNeq tableS2Loaded
      [[[1, 2, 3], [4, 5, 6], [7, 8, 9], [1, 20, 30]]] 10 rfl (by decide) stateS2Loaded_held
      (by decide) (by decide) (by decide) (by decide) with
  | ⟨s', _, pagesR, h1, _, _, _, _, h6, h7⟩ =>
    ⟨s', pagesR, h1, h6, h7.trans
      (show List.filter (fun r => decide (subscript r
          (tableS2Loaded.getColumnIndex querySearchNeq.selectionFirstColumnName)
            ≠ querySearchNeq.selectionIntLiteral))
          [[[1, 2, 3], [4, 5, 6], [7, 8, 9], [1, 20, 30]]].flatten = [[4, 5, 6], [7, 8, 9]] by
        decide)⟩

set_option maxRecDepth 100000 in
/-- C27 (evaluation): `A` holds the rows `(1,10),(2,20)` on pages 0 and 2, its page 1 is
empty, as `DELETE` leaves a page whose rows all matched.  Both rows have `X != 5`;
`Y <- SEARCH FROM A WHERE X != 5` falls back to the scan and emits `(1,10)` only:
`Cursor::getNext` returns the empty row at the empty page, which ends the scan before the row
`(2,20)`. -/
theorem executeSEARCH_not_equal_stops_at_empty_page :
    storedRows stateGap "A" = some [[1, 10], [2, 20]] ∧
      (executeSEARCH 10 querySearchGap stateGap).map (fun s => emittedRows s "Y")
        = some (some [[1, 10]]) := by
  refine ⟨?_, ?_⟩ <;> decide

/-! ## CROSS: the nested scan -/

/-- The inner loop of `executeCROSS` appends the outer row joined to every inner row. -/
theorem crossInner_foldl (tR : Table) (hne : tR.sourceFileName ≠ "") (row1 : Row)
    (rows : List Row) (src : Sources) (hd : List String) (l0 : List (List Int))
    (h : src tR.sourceFileName = some { header := hd, lines := l0 }) :
    (rows.foldl (fun p r => crossInnerBody tR row1 p.1 p.2 r) ((), src)).2 tR.sourceFileName
      = some { header := hd, lines := l0 ++ rows.map (fun r2 => row1 ++ r2) } := by
  induction rows generalizing src l0 with
  | nil => simpa using h
  | cons r rows ih =>
    have h1 : (tR.writeRow src (row1 ++ r)) tR.sourceFileName
        = some { header := hd, lines := l0 ++ [row1 ++ r] } := by
      simp [Table.writeRow, hne, setFile, h]
    rw [List.foldl_cons]
    have hb : crossInnerBody tR row1 () src r = ((), tR.writeRow src (row1 ++ r)) := rfl
    rw [hb, ih _ _ h1]
    simp

/-- The outer loop of `executeCROSS` over consistent relations with non-empty pages: entered
with the row `row1` and the cursor of the first relation standing before the rows `rest`, it
appends `r1 ++ r2` for every row `r1` of `row1 :: rest` (outer) and every row `r2` of the second
relation (inner), and changes neither the catalogue nor the consistency of any table. -/
theorem crossLoop_spec (n1 n2 : String) (pages1 pages2 : List (List Row)) (table2 tR : Table)
    (hsrc : tR.sourceFileName ≠ "") (htn2 : table2.tableName = n2) (hd : List String)
    (fuel : Nat)
    (hne1 : ∀ p ∈ pages1, p ≠ []) (hrow1 : ∀ p ∈ pages1, ∀ r ∈ p, r ≠ [])
    (hne2 : ∀ p ∈ pages2, p ≠ []) (hrow2 : ∀ p ∈ pages2, ∀ r ∈ p, r ≠ [])
    (hf2 : pages2.flatten.length < fuel) (rest : List Row) :
    ∀ (i j : Nat) (s : State) (c1 : Cursor) (row1 : Row) (l0 : List (List Int)) (n : Nat),
      row1 ≠ [] → remainingRows pages1 i j = rest → CursorAt c1 n1 pages1 i j →
      Held s n1 pages1 → Held s n2 pages2 →
      s.sources tR.sourceFileName = some { header := hd, lines := l0 } →
      rest.length + 1 < n →
      ∃ s', crossLoop table2 tR fuel n row1 c1 s = some s' ∧ s'.tables = s.tables ∧
        s'.sources tR.sourceFileName = some
          { header := hd
            lines := l0 ++ (row1 :: rest).flatMap
              (fun r1 => pages2.flatten.map (fun r2 => r1 ++ r2)) } ∧
        (∀ m pg, Held s m pg → Held s' m pg) := by
  induction rest with
  | nil =>
    intro i j s c1 row1 l0 n hr1 hrem hc1 hh1 hh2 hs0 hn
    obtain ⟨c2, s1, e1, hs1, ht1, hH1⟩ :=
      cursorLoop_table (crossInnerBody tR row1) s n2 pages2 hh2 hne2 hrow2 () fuel hf2
    have hsrc1 := crossInner_foldl tR hsrc row1 pages2.flatten s.sources hd l0 hs0
    rw [← hs1] at hsrc1
    rcases getNext_step s1 c1 n1 pages1 i j (hH1 _ _ hh1) hc1 hne1 hrow1 with
      ⟨_, hex⟩ | ⟨row, rest', _, _, h1, _⟩
    · have hgn := getNext_exhausted s1 c1 hex
      obtain ⟨k, hk⟩ : ∃ k, n = k + 2 := ⟨n - 2, by omega⟩
      subst hk
      refine ⟨s1, ?_, ht1, ?_, hH1⟩
      · simp only [crossLoop, if_neg hr1, Table.getCursor, htn2, e1, hgn, if_true]
      · rw [hsrc1]
        simp
    · rw [hrem] at h1
      cases h1
  | cons row rest ih =>
    intro i j s c1 row1 l0 n hr1 hrem hc1 hh1 hh2 hs0 hn
    obtain ⟨c2, s1, e1, hs1, ht1, hH1⟩ :=
      cursorLoop_table (crossInnerBody tR row1) s n2 pages2 hh2 hne2 hrow2 () fuel hf2
    have hsrc1 := crossInner_foldl tR hsrc row1 pages2.flatten s.sources hd l0 hs0
    rw [← hs1] at hsrc1
    rcases getNext_step s1 c1 n1 pages1 i j (hH1 _ _ hh1) hc1 hne1 hrow1 with
      ⟨hnil, _⟩ | ⟨row', rest', i', j', h1, hrne, hg1, hcur, hrem', hgt, hgs, hgH⟩
    · rw [hrem] at hnil
      cases hnil
    · rw [hrem] at h1
      obtain ⟨e, e'⟩ := List.cons.inj h1
      subst e
      subst e'
      obtain ⟨k, hk⟩ : ∃ k, n = k + 1 := ⟨n - 1, by omega⟩
      subst hk
      have hs2 : (c1.getNext s1).2.2.sources tR.sourceFileName = some
          { header := hd, lines := l0 ++ pages2.flatten.map (fun r2 => row1 ++ r2) } := by
        rw [hgs]; exact hsrc1
      obtain ⟨s', e2, ht2, hsrc2, hH2⟩ := ih i' j' (c1.getNext s1).2.2 (c1.getNext s1).2.1 row
        (l0 ++ pages2.flatten.map (fun r2 => row1 ++ r2)) k hrne hrem' hcur
        (hgH _ _ (hH1 _ _ hh1)) (hgH _ _ (hH1 _ _ hh2)) hs2
        (by simp only [List.length_cons] at hn; omega)
      refine ⟨s', ?_, ?_, ?_, fun m pg h => hH2 m pg (hgH m pg (hH1 m pg h))⟩
      · simp only [crossLoop, if_neg hr1, Table.getCursor, htn2, e1]
        rw [hg1]
        exact e2
      · rw [ht2, hgt, ht1]
      · rw [hsrc2]
        simp [List.flatMap_cons, List.append_assoc]

/-! ## CROSS: the result relation -/

/-- The scans of `executeCROSS` on consistent relations with non-empty pages: the source file
of the result relation receives `r1 ++ r2` for every row `r1` of the first relation (outer)
and every row `r2` of the second (inner). -/
theorem cross_engine (s : State) (fuel : Nat) (n1 n2 : String) (pages1 pages2 : List (List Row))
    (table1 table2 tR : Table) (hsrc : tR.sourceFileName ≠ "")
    (htn1 : table1.tableName = n1) (htn2 : table2.tableName = n2)
    (h1 : Held s n1 pages1) (h2 : Held s n2 pages2)
    (hne1 : ∀ p ∈ pages1, p ≠ []) (hrow1 : ∀ p ∈ pages1, ∀ r ∈ p, r ≠ [])
    (hne2 : ∀ p ∈ pages2, p ≠ []) (hrow2 : ∀ p ∈ pages2, ∀ r ∈ p, r ≠ [])
    (hf1 : pages1.flatten.length < fuel) (hf2 : pages2.flatten.length < fuel) :
    ∃ s1,
      crossLoop table2 tR fuel fuel
          ((table1.getCursor (tR.createFile s)).1.getNext
            (table2.getCursor (table1.getCursor (tR.createFile s)).2).2).1
          ((table1.getCursor (tR.createFile s)).1.getNext
            (table2.getCursor (table1.getCursor (tR.createFile s)).2).2).2.1
          ((table1.getCursor (tR.createFile s)).1.getNext
            (table2.getCursor (table1.getCursor (tR.createFile s)).2).2).2.2 = some s1 ∧
      s1.tables = s.tables ∧
      s1.sources tR.sourceFileName = some
        { header := tR.columns
          lines := pages1.flatten.flatMap (fun r1 => pages2.flatten.map (fun r2 => r1 ++ r2)) } ∧
      (∀ m pg, Held s m pg → Held s1 m pg) := by
  have h0 : (tR.createFile s).sources tR.sourceFileName
      = some { header := tR.columns, lines := [] } := by
    simp [Table.createFile, setFile]
  have hH0 : ∀ m pg, Held s m pg → Held (tR.createFile s) m pg :=
    fun m pg h => Held_setSources s _ m pg h
  simp only [Table.getCursor, htn1, htn2]
  obtain ⟨sa, hsa⟩ : ∃ sa, sa = (Cursor.create (tR.createFile s) n1 0).2 := ⟨_, rfl⟩
  obtain ⟨sb, hsb⟩ : ∃ sb, sb = (Cursor.create sa n2 0).2 := ⟨_, rfl⟩
  have hta : sa.tables = s.tables := by rw [hsa, create_tables]; rfl
  have htb : sb.tables = s.tables := by rw [hsb, create_tables, hta]
  have hsrca : sa.sources = (tR.createFile s).sources := by rw [hsa, create_sources]
  have hsrcb : sb.sources = (tR.createFile s).sources := by rw [hsb, create_sources, hsrca]
  have hHa : ∀ m pg, Held s m pg → Held sa m pg := by
    intro m pg h
    rw [hsa]
    exact Held_getPage _ n1 0 m pg (hH0 m pg h)
  have hHb : ∀ m pg, Held s m pg → Held sb m pg := by
    intro m pg h
    rw [hsb]
    exact Held_getPage _ n2 0 m pg (hHa m pg h)
  rw [← hsa, ← hsb]
  have hsb0 : sb.sources tR.sourceFileName = some { header := tR.columns, lines := [] } := by
    rw [hsrcb]; exact h0
  obtain ⟨k, hk⟩ : ∃ k, fuel = k + 1 := ⟨fuel - 1, by omega⟩
  by_cases hlen : pages1.length = 0
  · have hnil : pages1 = [] := List.length_eq_zero.1 hlen
    subst hnil
    obtain ⟨hcr, hex⟩ := create_exhausted (tR.createFile s) n1 (hH0 _ _ h1)
    rw [hcr] at hex ⊢
    have hex' : Exhausted sb
        { page := Page.empty, pagePointer := 0, tableName := n1, pageIndex := 0 } := by
      obtain ⟨t, ht, hrest⟩ := hex
      refine ⟨t, ?_, hrest⟩
      rw [htb]
      exact ht
    rw [getNext_exhausted sb _ hex']
    refine ⟨sb, ?_, htb, ?_, hHb⟩
    · rw [hk]
      simp [crossLoop]
    · rw [hsb0]
      simp
  · have hpos : 0 < pages1.length := Nat.pos_of_ne_zero hlen
    have hcur := create_cursorAt (tR.createFile s) n1 pages1 (hH0 _ _ h1) hpos
    rcases getNext_step sb (Cursor.create (tR.createFile s) n1 0).1 n1 pages1 0 0 (hHb _ _ h1)
        hcur hne1 hrow1 with
      ⟨hnil, hex⟩ | ⟨row, rest, i', j', hr, hrne, hg1, hcur', hrem', hgt, hgs, hgH⟩
    · rw [getNext_exhausted sb _ hex]
      rw [remainingRows_zero pages1 hpos] at hnil
      refine ⟨sb, ?_, htb, ?_, hHb⟩
      · rw [hk]
        simp [crossLoop]
      · rw [hsb0, hnil]
        simp
    · rw [remainingRows_zero pages1 hpos] at hr
      obtain ⟨s1, e1, ht1, hs1, hH1⟩ := crossLoop_spec n1 n2 pages1 pages2 table2 tR hsrc htn2
        tR.columns fuel hne1 hrow1 hne2 hrow2 hf2 rest i' j'
        ((Cursor.create (tR.createFile s) n1 0).1.getNext sb).2.2
        ((Cursor.create (tR.createFile s) n1 0).1.getNext sb).2.1 row [] fuel hrne hrem' hcur'
        (hgH _ _ (hHb _ _ h1)) (hgH _ _ (hHb _ _ h2)) (by rw [hgs]; exact hsb0)
        (by rw [hr] at hf1; simpa using hf1)
      refine ⟨s1, ?_, by rw [ht1, hgt, htb], ?_, fun m pg h => hH1 m pg (hgH m pg (hHb m pg h))⟩
      · rw [hg1]
        exact e1
      · rw [hs1, hr]
        simp

/-! ## CROSS: no page of another relation becomes resident -/

theorem cursorLoop_fresh {σ : Type} (body : σ → Sources → Row → σ × Sources) (other : String) :
    ∀ (fuel : Nat) (acc : σ) (c : Cursor) (s : State) (r : σ × Cursor × State),
      cursorLoop body fuel acc c s = some r → other ≠ c.tableName → Fresh s other →
      Fresh r.2.2 other := by
  intro fuel
  induction fuel with
  | zero => intro acc c s r h; simp [cursorLoop] at h
  | succ f ih =>
    intro acc c s r h ho hf
    obtain ⟨hro, hname⟩ := getNext_readsOf s c
    have hf1 : Fresh (c.getNext s).2.2 other := hro.2.2.2 other ho hf
    simp only [cursorLoop] at h
    split at h
    · cases h
      exact hf1
    · exact ih _ _ _ r h (by rw [hname]; exact ho) hf1

theorem crossLoop_fresh (table2 tR : Table) (fuel : Nat) (other : String)
    (ho2 : other ≠ table2.tableName) :
    ∀ (n : Nat) (row1 : Row) (c1 : Cursor) (s s' : State),
      crossLoop table2 tR fuel n row1 c1 s = some s' → other ≠ c1.tableName → Fresh s other →
      Fresh s' other := by
  intro n
  induction n with
  | zero => intro row1 c1 s s' h; simp [crossLoop] at h
  | succ k ih =>
    intro row1 c1 s s' h ho hf
    simp only [crossLoop] at h
    split at h
    · cases h
      exact hf
    · have hfc : Fresh (table2.getCursor s).2 other := getPage_fresh s _ 0 other ho2 hf
      cases hin : cursorLoop (crossInnerBody tR row1) fuel () (table2.getCursor s).1
          (table2.getCursor s).2 with
      | none => simp [hin] at h
      | some inner =>
        simp only [hin] at h
        have hfi : Fresh inner.2.2 other :=
          cursorLoop_fresh _ other fuel () _ _ inner hin ho2 hfc
        obtain ⟨hro, hname⟩ := getNext_readsOf inner.2.2 c1
        exact ih _ _ _ s' h (by rw [hname]; exact ho) (hro.2.2.2 other ho hfi)

/-- C25: for two relations with consistent, non-empty pages (each with `columnCount` equal to
its number of columns, at least one), `executeCROSS` with enough fuel for the scans ends
normally and registers a relation whose columns are the columns of the first relation
prefixed with its name and `_`, followed by those of the second prefixed likewise, and whose
stored rows are, page after page, `r1 ++ r2` for every row `r1` of the first relation in scan
order (outer) and every row `r2` of the second in scan order (inner); its row count is the
product of the two row counts.  When the result name is new and no stale page of it is
resident, the pages of the result are consistent, so a cursor scan returns these rows in this
order. -/
theorem executeCROSS_product (s : State) (pq : ParsedQuery) (table1 table2 : Table)
    (pages1 pages2 : List (List Row)) (fuel : Nat)
    (ht1 : s.tables pq.crossFirstRelationName = some table1)
    (ht2 : s.tables pq.crossSecondRelationName = some table2)
    (h1 : Held s pq.crossFirstRelationName pages1)
    (h2 : Held s pq.crossSecondRelationName pages2)
    (hne1 : ∀ p ∈ pages1, p ≠ []) (hne2 : ∀ p ∈ pages2, p ≠ [])
    (hcc1 : table1.columnCount = table1.columns.length)
    (hcc2 : table2.columnCount = table2.columns.length)
    (hpos1 : 0 < table1.columnCount) (hpos2 : 0 < table2.columnCount)
    (hf1 : pages1.flatten.length < fuel) (hf2 : pages2.flatten.length < fuel) :
    ∃ s' tableR pagesR, executeCROSS fuel pq s = Outcome.done s' ∧
      s'.tables pq.crossResultRelationName = some tableR ∧
      tableR.columns = table1.columns.map (fun c => table1.tableName ++ "_" ++ c) ++
        table2.columns.map (fun c => table2.tableName ++ "_" ++ c) ∧
      tableR.rowCount = ((pages1.flatten.length * pages2.flatten.length : Nat) : Int) ∧
      Stored s' pq.crossResultRelationName pagesR ∧
      pagesR.flatten
        = pages1.flatten.flatMap (fun r1 => pages2.flatten.map (fun r2 => r1 ++ r2)) ∧
      (pq.crossResultRelationName ≠ pq.crossFirstRelationName →
        pq.crossResultRelationName ≠ pq.crossSecondRelationName →
        Fresh s pq.crossResultRelationName → Held s' pq.crossResultRelationName pagesR) := by
  obtain ⟨hn1, hw1⟩ := h1.table_eq ht1
  obtain ⟨hn2, hw2⟩ := h2.table_eq ht2
  have hrow1 : ∀ p ∈ pages1, ∀ r ∈ p, r ≠ [] := by
    intro p hp r hr e
    have := hw1 p hp r hr
    rw [e] at this
    simp at this
    omega
  have hrow2 : ∀ p ∈ pages2, ∀ r ∈ p, r ≠ [] := by
    intro p hp r hr e
    have := hw2 p hp r hr
    rw [e] at this
    simp at this
    omega
  obtain ⟨tR, htR⟩ : ∃ tR, tR = Table.create pq.crossResultRelationName
      (crossColumns table1 table2) := ⟨_, rfl⟩
  have hsrc : tR.sourceFileName ≠ "" := by rw [htR]; exact Table.create_source_ne _ _
  have hRcc : tR.columnCount = table1.columnCount + table2.columnCount := by
    rw [htR]
    simp [Table.create, crossColumns, hcc1, hcc2]
  have hRpos : 0 < tR.columnCount := by omega
  have hRm : 0 < tR.maxRowsPerBlock := by
    have hl : (crossColumns table1 table2).length > 0 ∧ BLOCK_SIZE > 0 := by
      refine ⟨?_, by decide⟩
      simp [crossColumns]
      omega
    rw [htR]
    simp only [Table.create, if_pos hl]
    exact computeMaxRowsPerBlock_pos _
  have hRname : tR.tableName = pq.crossResultRelationName := by rw [htR]; rfl
  have hRcols : tR.columns = crossColumns table1 table2 := by rw [htR]; rfl
  obtain ⟨s1, e1, hts1, hsrc1, hH1⟩ := cross_engine s fuel pq.crossFirstRelationName
    pq.crossSecondRelationName pages1 pages2 table1 table2 tR hsrc hn1 hn2 h1 h2 hne1 hrow1
    hne2 hrow2 hf1 hf2
  obtain ⟨pagesR, hflat, _, _, hb1, hb2, _, hbp, hst⟩ := blockify_stored tR s1 _ hsrc1 hRpos hRm
    (by
      intro l hl
      simp only [List.mem_flatMap, List.mem_map] at hl
      obtain ⟨r1, hr1, r2, hr2, rfl⟩ := hl
      obtain ⟨p1, hp1, hq1⟩ := List.mem_flatten.1 hr1
      obtain ⟨p2, hp2, hq2⟩ := List.mem_flatten.1 hr2
      rw [hRcc]
      simp [hw1 p1 hp1 r1 hq1, hw2 p2 hp2 r2 hq2])
  have hlen : pagesR.flatten.length = pages1.flatten.length * pages2.flatten.length := by
    rw [hflat]
    generalize pages1.flatten = L1
    induction L1 with
    | nil => simp
    | cons a L ih =>
      rw [List.flatMap_cons, List.length_append, ih]
      simp only [List.length_map, List.length_cons]
      ring
  have hexec : executeCROSS fuel pq s
      = Outcome.done (insertTable (tR.blockify s1).2.2 (tR.blockify s1).2.1) := by
    unfold executeCROSS
    simp only [ht1, ht2, ← htR, e1]
  have hbn : (tR.blockify s1).2.1.tableName = pq.crossResultRelationName := by
    rw [hb2]; exact hRname
  rw [hRname] at hst
  refine ⟨_, (tR.blockify s1).2.1, pagesR, hexec, ?_, ?_, ?_, hst, hflat, ?_⟩
  · simp [insertTable, hbn]
  · rw [hb2]
    exact hRcols
  · rw [hb2]
    simp only
    rw [hlen]
  · intro hR1 hR2 hfresh
    apply Held_of_stored_fresh _ _ _ hst
    have hf0 : Fresh (tR.createFile s) pq.crossResultRelationName := hfresh
    have hfa : Fresh (table1.getCursor (tR.createFile s)).2 pq.crossResultRelationName :=
      getPage_fresh _ _ 0 _ (by rw [hn1]; exact hR1) hf0
    have hfb : Fresh (table2.getCursor (table1.getCursor (tR.createFile s)).2).2
        pq.crossResultRelationName :=
      getPage_fresh _ _ 0 _ (by rw [hn2]; exact hR2) hfa
    have hc1 : (table1.getCursor (tR.createFile s)).1.tableName = pq.crossFirstRelationName :=
      hn1
    obtain ⟨hro, hname⟩ := getNext_readsOf (table2.getCursor (table1.getCursor
      (tR.createFile s)).2).2 (table1.getCursor (tR.createFile s)).1
    have hfc := hro.2.2.2 pq.crossResultRelationName (by rw [hc1]; exact hR1) hfb
    have hfs1 : Fresh s1 pq.crossResultRelationName :=
      crossLoop_fresh table2 tR fuel _ (by rw [hn2]; exact hR2) fuel _ _ _ s1 e1
        (by rw [hname, hc1]; exact hR1) hfc
    intro p hp j
    have hp' : p ∈ s1.pages := by
      have : (insertTable (tR.blockify s1).2.2 (tR.blockify s1).2.1).pages = s1.pages := hbp
      rw [this] at hp
      exact hp
    exact hfs1 p hp' j

/-- Scenario S3: `R <- CROSS E D` stores the six rows of the product, the rows of `E`
outermost. -/
theorem executeCROSS_product_witness :
    ∃ (s' : State) (tableR : Table) (pagesR : List (List Row)),
      executeCROSS 10 queryCrossS3 stateS3 = Outcome.done s' ∧
      s'.tables "R" = some tableR ∧
      tableR.columns = ["E_EID", "E_DID", "D_DID", "D_NAME_TAG"] ∧
      tableR.rowCount = 6 ∧
      Held s' "R" pagesR ∧
      pagesR.flatten = [[1, 10, 10, 100], [1, 10, 20, 200], [2, 10, 10, 100], [2, 10, 20, 200],
        [3, 20, 10, 100], [3, 20, 20, 200]] :=
  match executeCROSS_product stateS3 queryCrossS3 _ _ [[[1, 10], [2, 10], [3, 20]]]
      [[[10, 100], [20, 200]]] 10 rfl rfl stateS3_held_E stateS3_held_D (by decide) (by decide)
      rfl rfl (by decide) (by decide) (by decide) (by decide) with
  | ⟨s', tableR, pagesR, h1, h2, h3, h4, _, h6, h7⟩ =>
    ⟨s', tableR, pagesR, h1, h2, h3.trans (by decide), h4,
      h7 (by decide) (by decide) (fun p hp => nomatch hp), h6⟩

/-! ## Column names of the results of JOIN and CROSS -/

theorem blockifyLine_name (v : BlockifyVars) (vals : List Int) :
    (blockifyLine v vals).table.tableName = v.table.tableName ∧
      (blockifyLine v vals).table.columns = v.table.columns ∧
      (blockifyLine v vals).state.tables = v.state.tables := by
  unfold blockifyLine
  simp only
  split
  · split
    · exact ⟨rfl, rfl, rfl⟩
    · exact ⟨rfl, rfl, rfl⟩
  · exact ⟨rfl, rfl, rfl⟩

theorem blockify_fold_name (lines : List (List Int)) : ∀ v : BlockifyVars,
    (lines.foldl blockifyLine v).table.tableName = v.table.tableName ∧
      (lines.foldl blockifyLine v).table.columns = v.table.columns ∧
      (lines.foldl blockifyLine v).state.tables = v.state.tables := by
  induction lines with
  | nil => intro v; exact ⟨rfl, rfl, rfl⟩
  | cons l lines ih =>
    intro v
    obtain ⟨h1, h2, h3⟩ := ih (blockifyLine v l)
    obtain ⟨g1, g2, g3⟩ := blockifyLine_name v l
    rw [List.foldl_cons]
    exact ⟨h1.trans g1, h2.trans g2, h3.trans g3⟩

/-- `Table::blockify` changes neither the name nor the columns of the table, nor the
catalogue, whatever it returns. -/
theorem blockify_name_columns (t : Table) (s : State) :
    (t.blockify s).2.1.tableName = t.tableName ∧ (t.blockify s).2.1.columns = t.columns ∧
      (t.blockify s).2.2.tables = s.tables := by
  unfold Table.blockify
  cases hsrc : s.sources t.sourceFileName with
  | none => exact ⟨rfl, rfl, rfl⟩
  | some file =>
    simp only
    split
    · exact ⟨rfl, rfl, rfl⟩
    · split
      · exact ⟨rfl, rfl, rfl⟩
      · obtain ⟨h1, h2, h3⟩ := blockify_fold_name file.lines (blockifyStart t s)
        split
        · exact ⟨h1, h2, h3⟩
        · exact ⟨h1, h2, h3⟩

/-- A scan loop does not change the catalogue. -/
theorem cursorLoop_tables {σ : Type} (body : σ → Sources → Row → σ × Sources) :
    ∀ (fuel : Nat) (acc : σ) (c : Cursor) (s : State) (r : σ × Cursor × State),
      cursorLoop body fuel acc c s = some r → r.2.2.tables = s.tables := by
  intro fuel
  induction fuel with
  | zero => intro acc c s r h; simp [cursorLoop] at h
  | succ f ih =>
    intro acc c s r h
    have ht : (c.getNext s).2.2.tables = s.tables := (getNext_readsOf s c).1.1
    simp only [cursorLoop] at h
    split at h
    · cases h
      exact ht
    · rw [ih _ _ _ r h]
      exact ht

/-- Two names prefixed with different table names and `_` differ, unless one table name
followed by `_` starts the other. -/
theorem prefixed_ne (n1 n2 c1 c2 : String) (hne : n1 ≠ n2)
    (hp1 : ¬ (n1.data ++ ['_']) <+: n2.data) (hp2 : ¬ (n2.data ++ ['_']) <+: n1.data) :
    n1 ++ "_" ++ c1 ≠ n2 ++ "_" ++ c2 := by
  intro h
  have hd := congrArg String.data h
  simp only [String.data_append] at hd
  have hd' : n1.data ++ ('_' :: c1.data) = n2.data ++ ('_' :: c2.data) := by
    simpa using hd
  rcases List.append_eq_append_iff.1 hd' with ⟨a, ha, hb⟩ | ⟨a, ha, hb⟩
  · cases a with
    | nil =>
      apply hne
      apply String.ext
      simpa using ha.symm
    | cons x a =>
      have hx : x = '_' := by
        have := congrArg List.head? hb
        simpa using this.symm
      subst hx
      exact hp1 ⟨a, by rw [ha]; simp⟩
  · cases a with
    | nil =>
      apply hne
      apply String.ext
      simpa using ha
    | cons x a =>
      have hx : x = '_' := by
        have := congrArg List.head? hb
        simpa using this.symm
      subst hx
      exact hp2 ⟨a, by rw [ha]; simp⟩

theorem prefixed_injective (n : String) : Function.Injective (fun c : String => n ++ "_" ++ c) := by
  intro a b h
  have hd := congrArg String.data h
  simp only [String.data_append] at hd
  apply String.ext
  exact List.append_cancel_left hd

/-- The column names that `executeCROSS` gives its result are pairwise distinct when those of
the two relations are and the names of the relations differ, neither followed by `_` being a
prefix of the other. -/
theorem crossColumns_nodup (table1 table2 : Table) (hd1 : table1.columns.Nodup)
    (hd2 : table2.columns.Nodup) (hne : table1.tableName ≠ table2.tableName)
    (hp1 : ¬ (table1.tableName.data ++ ['_']) <+: table2.tableName.data)
    (hp2 : ¬ (table2.tableName.data ++ ['_']) <+: table1.tableName.data) :
    (crossColumns table1 table2).Nodup := by
  unfold crossColumns
  rw [List.nodup_append]
  refine ⟨hd1.map (prefixed_injective _), hd2.map (prefixed_injective _), ?_⟩
  intro x hx1 hx2
  obtain ⟨c1, _, e1⟩ := List.mem_map.1 hx1
  obtain ⟨c2, _, e2⟩ := List.mem_map.1 hx2
  exact prefixed_ne _ _ c1 c2 hne hp1 hp2 (e1.trans e2.symm)

/-- C23 (amended): the relation that `executeJOIN` registers under a new name has pairwise
distinct column names when the two source relations have and share no column name; the
relation that `executeCROSS` registers has pairwise distinct column names when the two source
relations have and their names differ, neither name followed by `_` being a prefix of the
other. -/
theorem result_columns_nodup (fuel : Nat) (pq : ParsedQuery) (s : State) (tR : Table) :
    (∀ table1 table2, s.tables pq.joinFirstRelationName = some table1 →
      s.tables pq.joinSecondRelationName = some table2 →
      table1.columns.Nodup → table2.columns.Nodup →
      (∀ c ∈ table1.columns, c ∉ table2.columns) →
      s.tables pq.joinResultRelationName = none →
      (executeJOIN fuel pq s).state.bind (fun s' => s'.tables pq.joinResultRelationName)
        = some tR →
      tR.columns = table1.columns ++ table2.columns ∧ tR.columns.Nodup) ∧
    (∀ table1 table2, s.tables pq.crossFirstRelationName = some table1 →
      s.tables pq.crossSecondRelationName = some table2 →
      table1.columns.Nodup → table2.columns.Nodup →
      table1.tableName ≠ table2.tableName →
      ¬ (table1.tableName.data ++ ['_']) <+: table2.tableName.data →
      ¬ (table2.tableName.data ++ ['_']) <+: table1.tableName.data →
      (executeCROSS fuel pq s).state.bind (fun s' => s'.tables pq.crossResultRelationName)
        = some tR →
      tR.columns = crossColumns table1 table2 ∧ tR.columns.Nodup) := by
  constructor
  · intro table1 table2 ht1 ht2 hd1 hd2 hdis hnew h
    have hnd : (table1.columns ++ table2.columns).Nodup := by
      rw [List.nodup_append]
      exact ⟨hd1, hd2, fun x h1 h2 => hdis x h1 h2⟩
    unfold executeJOIN at h
    simp only [ht1, ht2] at h
    split at h
    · simp [Outcome.state] at h
    · rename_i built hbuilt
      split at h
      · simp [Outcome.state] at h
      · rename_i probed hprobed
        have htp : probed.2.2.tables = s.tables := by
          rw [cursorLoop_tables _ _ _ _ _ _ hprobed, Table.getCursor, create_tables]
          show built.2.2.tables = s.tables
          rw [cursorLoop_tables _ _ _ _ _ _ hbuilt, Table.getCursor, create_tables]
        obtain ⟨hbn, hbc, hbt⟩ := blockify_name_columns
          (Table.create pq.joinResultRelationName (table1.columns ++ table2.columns)) probed.2.2
        split at h
        · simp only [Outcome.state, Option.some_bind] at h
          have hname : ((Table.create pq.joinResultRelationName
              (table1.columns ++ table2.columns)).blockify probed.2.2).2.1.tableName
              = pq.joinResultRelationName := hbn
          simp only [insertTable, hname, if_true, Option.some.injEq] at h
          rw [← h, hbc]
          exact ⟨rfl, hnd⟩
        · simp only [Outcome.state, Option.some_bind] at h
          rw [hbt, htp, hnew] at h
          cases h
  · intro table1 table2 ht1 ht2 hd1 hd2 hne hp1 hp2 h
    unfold executeCROSS at h
    simp only [ht1, ht2] at h
    split at h
    · simp [Outcome.state] at h
    · rename_i s1 _
      obtain ⟨hbn, hbc, _⟩ := blockify_name_columns
        (Table.create pq.crossResultRelationName (crossColumns table1 table2)) s1
      simp only [Outcome.state, Option.some_bind] at h
      have hname : ((Table.create pq.crossResultRelationName
          (crossColumns table1 table2)).blockify s1).2.1.tableName
          = pq.crossResultRelationName := hbn
      simp only [insertTable, hname, if_true, Option.some.injEq] at h
      rw [← h, hbc]
      exact ⟨rfl, crossColumns_nodup table1 table2 hd1 hd2 hne hp1 hp2⟩

set_option maxRecDepth 100000 in
/-- Scenario S3 with `D(DNO,NAME_TAG)`: `R <- JOIN E, D ON DID DNO` registers `R` with the
columns `EID, DID, DNO, NAME_TAG`; scenario S3: `R <- CROSS E D` registers `R` with the
columns `E_EID, E_DID, D_DID, D_NAME_TAG`. -/
theorem result_columns_nodup_witness :
    ((executeJOIN 10 queryJoinRenamed stateS3Renamed).state.bind (fun s => s.tables "R")
        = some tableJoinResult ∧
      tableJoinResult.columns = ["EID", "DID"] ++ ["DNO", "NAME_TAG"] ∧
      tableJoinResult.columns.Nodup) ∧
    ((executeCROSS 10 queryCrossS3 stateS3).state.bind (fun s => s.tables "R")
        = some tableCrossResult ∧
      tableCrossResult.columns = ["E_EID", "E_DID"] ++ ["D_DID", "D_NAME_TAG"] ∧
      tableCrossResult.columns.Nodup) :=
  ⟨⟨by decide,
     (result_columns_nodup 10 queryJoinRenamed stateS3Renamed tableJoinResult).1
      { tableName := "E", sourceFileName := "../data/E.csv", columns := ["EID", "DID"],
        columnCount := 2, rowCount := 3, blockCount := 1, maxRowsPerBlock := 4096000,
        rowsPerBlockCount := [3], multiColumnIndexData := [] }
      { tableName := "D", sourceFileName := "../data/D.csv", columns := ["DNO", "NAME_TAG"],
        columnCount := 2, rowCount := 2, blockCount := 1, maxRowsPerBlock := 4096000,
        rowsPerBlockCount := [2], multiColumnIndexData := [] }
      (by decide) (by decide) (by decide) (by decide) (by decide) (by decide) (by decide)⟩,
   ⟨by decide,
     (result_columns_nodup 10 queryCrossS3 stateS3 tableCrossResult).2
      { tableName := "E", sourceFileName := "../data/E.csv", columns := ["EID", "DID"],
        columnCount := 2, rowCount := 3, blockCount := 1, maxRowsPerBlock := 4096000,
        rowsPerBlockCount := [3], multiColumnIndexData := [] }
      { tableName := "D", sourceFileName := "../data/D.csv", columns := ["DID", "NAME_TAG"],
        columnCount := 2, rowCount := 2, blockCount := 1, maxRowsPerBlock := 4096000,
        rowsPerBlockCount := [2], multiColumnIndexData := [] }
      (by decide) (by decide) (by decide) (by decide) (by decide) (by decide) (by decide)
      (by decide)⟩⟩

set_option maxRecDepth 100000 in
/-- C23 (counterexample): in scenario S3 the relations `E(EID,DID)` and `D(DID,NAME_TAG)` have
pairwise distinct column names each; `R <- JOIN E, D ON DID DID` registers `R` with the
columns `EID, DID, DID, NAME_TAG`, and `R <- CROSS E E` registers `R` with the columns
`E_EID, E_DID, E_EID, E_DID`. -/
theorem executeJOIN_S3_repeats_column_name :
    (executeJOIN 10 queryJoinS3 stateS3).state.bind
        (fun s => (s.tables "R").map Table.columns) = some ["EID", "DID", "DID", "NAME_TAG"] ∧
      ¬ (["EID", "DID", "DID", "NAME_TAG"] : List String).Nodup ∧
      (executeCROSS 10 queryCrossSelf stateS3).state.bind
        (fun s => (s.tables "R").map Table.columns) = some ["E_EID", "E_DID", "E_EID", "E_DID"] ∧
      ¬ (["E_EID", "E_DID", "E_EID", "E_DID"] : List String).Nodup := by
  refine ⟨?_, ?_, ?_, ?_⟩ <;> decide

/-! ## Decimal text of integers: `operator<<` and `stoi` -/

theorem digitChar_isDigit (d : Nat) (h : d < 10) :
    (Nat.digitChar d).isDigit = true ∧ isSpaceC (Nat.digitChar d) = false ∧
      Nat.digitChar d ≠ ',' ∧ Nat.digitChar d ≠ '\n' ∧ (Nat.digitChar d).toNat ≠ 45 ∧
      (Nat.digitChar d).toNat ≠ 43 := by
  interval_cases d <;> decide

theorem toDigitsCore_digit (fuel : Nat) : ∀ (n : Nat) (ds : List Char) (c : Char),
    c ∈ Nat.toDigitsCore 10 fuel n ds → c ∈ ds ∨ ∃ d, d < 10 ∧ c = Nat.digitChar d := by
  induction fuel with
  | zero => intro n ds c h; left; simpa [Nat.toDigitsCore] using h
  | succ f ih =>
    intro n ds c h
    simp only [Nat.toDigitsCore] at h
    split at h
    · rcases List.mem_cons.1 h with h | h
      · right; exact ⟨n % 10, Nat.mod_lt _ (by decide), h⟩
      · left; exact h
    · rcases ih _ _ _ h with h | h
      · rcases List.mem_cons.1 h with h | h
        · right; exact ⟨n % 10, Nat.mod_lt _ (by decide), h⟩
        · left; exact h
      · right; exact h

theorem toDigits_digit (n : Nat) (c : Char) (h : c ∈ Nat.toDigits 10 n) :
    ∃ d, d < 10 ∧ c = Nat.digitChar d := by
  rcases toDigitsCore_digit _ _ _ _ h with h | h
  · simp at h
  · exact h

theorem toDigitsCore_ne_nil (fuel : Nat) (hf : 0 < fuel) : ∀ (n : Nat) (ds : List Char),
    Nat.toDigitsCore 10 fuel n ds ≠ [] := by
  induction fuel with
  | zero => omega
  | succ f ih =>
    intro n ds
    simp only [Nat.toDigitsCore]
    split
    · simp
    · cases f with
      | zero => simp [Nat.toDigitsCore]
      | succ g => exact ih (by omega) _ _

theorem toDigits_ne_nil (n : Nat) : Nat.toDigits 10 n ≠ [] :=
  toDigitsCore_ne_nil (n + 1) (by omega) n []

/-- The digits of `n` read back as `stoi` reads them. -/
theorem toDigits_fold (n : Nat) :
    (Nat.toDigits 10 n).foldl (fun (acc : Int) c => acc * 10 + ((c.toNat - 48 : Nat) : Int)) 0
      = (n : Int) := by
  have h := toDigitsCore_val (n + 1) n [] (by omega)
  simp only [List.foldl] at h
  have key : ∀ (l : List Char) (a : Nat),
      l.foldl (fun (acc : Int) c => acc * 10 + ((c.toNat - 48 : Nat) : Int)) (a : Int)
        = ((l.foldl (fun a c => 10 * a + digitVal c) a : Nat) : Int) := by
    intro l
    induction l with
    | nil => intro a; rfl
    | cons c l ih =>
      intro a
      simp only [List.foldl_cons]
      have : (a : Int) * 10 + ((c.toNat - 48 : Nat) : Int) = ((10 * a + digitVal c : Nat) : Int) := by
        simp only [digitVal]
        push_cast
        ring
      rw [this, ih]
  have h0 := key (Nat.toDigits 10 n) 0
  simp only [Nat.cast_zero] at h0
  rw [h0]
  unfold Nat.toDigits
  rw [h]

/-- The decimal text of an integer, as `operator<<` writes it and Lean's `toString` gives
it: an optional minus sign and the digits of the absolute value. -/
theorem toString_int_data (v : Int) :
    (toString v).data = (if v < 0 then ['-'] else []) ++ Nat.toDigits 10 v.natAbs := by
  cases v with
  | ofNat n =>
    have hn : ¬ (Int.ofNat n < 0) := by simp
    rw [if_neg hn]
    rfl
  | negSucc n =>
    have hn : Int.negSucc n < 0 := Int.negSucc_lt_zero n
    rw [if_pos hn]
    rfl

theorem toString_int_chars (v : Int) (c : Char) (h : c ∈ (toString v).data) :
    isSpaceC c = false ∧ c ≠ ',' ∧ c ≠ '\n' := by
  rw [toString_int_data] at h
  rcases List.mem_append.1 h with h | h
  · split at h
    · rw [List.mem_singleton] at h
      subst h
      decide
    · cases h
  · obtain ⟨d, hd, e⟩ := toDigits_digit _ _ h
    obtain ⟨_, h2, h3, h4, _⟩ := digitChar_isDigit d hd
    rw [e]
    exact ⟨h2, h3, h4⟩

theorem toString_int_ne_nil (v : Int) : (toString v).data ≠ [] := by
  rw [toString_int_data]
  intro h
  exact toDigits_ne_nil _ (List.append_eq_nil.1 h).2

theorem takeWhile_all {α : Type} (p : α → Bool) (l : List α) (h : ∀ x ∈ l, p x = true) :
    l.takeWhile p = l := by
  induction l with
  | nil => rfl
  | cons a l ih =>
    rw [List.takeWhile_cons_of_pos (h a (List.mem_cons_self _ _)),
      ih (fun x hx => h x (List.mem_cons_of_mem _ hx))]

/-- `stoi` reads back what `operator<<` has written for an `int`. -/
theorem stoi_toString (v : Int) (h1 : -2147483648 ≤ v) (h2 : v ≤ 2147483647) :
    stoi (String.mk (toString v).data) = some v := by
  have hdig : ∀ c ∈ Nat.toDigits 10 v.natAbs, c.isDigit = true := by
    intro c hc
    obtain ⟨d, hd, e⟩ := toDigits_digit _ _ hc
    rw [e]
    exact (digitChar_isDigit d hd).1
  obtain ⟨c0, l0, hl0⟩ : ∃ c0 l0, Nat.toDigits 10 v.natAbs = c0 :: l0 := by
    cases h : Nat.toDigits 10 v.natAbs with
    | nil => exact absurd h (toDigits_ne_nil _)
    | cons a l => exact ⟨a, l, rfl⟩
  have hc0 : c0 ∈ Nat.toDigits 10 v.natAbs := by rw [hl0]; exact List.mem_cons_self _ _
  obtain ⟨d0, hd0, e0⟩ := toDigits_digit _ _ hc0
  obtain ⟨_, hsp0, _, _, hm0, hp0⟩ := digitChar_isDigit d0 hd0
  rw [← e0] at hsp0 hm0 hp0
  unfold stoi
  simp only [toString_int_data]
  by_cases hneg : v < 0
  · simp only [if_pos hneg, List.singleton_append]
    have hds : List.dropWhile isSpaceC ('-' :: Nat.toDigits 10 v.natAbs)
        = '-' :: Nat.toDigits 10 v.natAbs := by
      rw [List.dropWhile_cons_of_neg (by decide)]
    simp only [hds, List.head?_cons, Option.map_some', List.drop_succ_cons, List.drop_zero]
    have h45 : ('-' : Char).toNat = 45 := by decide
    simp only [h45, true_or, decide_True, if_true, takeWhile_all _ _ hdig]
    rw [if_neg (toDigits_ne_nil _), toDigits_fold]
    have hv : -((v.natAbs : Nat) : Int) = v := by omega
    rw [hv]
    rw [if_neg (by omega)]
  · simp only [if_neg hneg, List.nil_append]
    have hds : List.dropWhile isSpaceC (Nat.toDigits 10 v.natAbs) = Nat.toDigits 10 v.natAbs := by
      rw [hl0, List.dropWhile_cons_of_neg (by simp [hsp0])]
    simp only [hds]
    have hh : (Nat.toDigits 10 v.natAbs).head?.map Char.toNat = some c0.toNat := by
      rw [hl0]; rfl
    simp only [hh, Option.some.injEq, hm0, hp0, or_self, decide_False, Bool.false_eq_true,
      if_false, takeWhile_all _ _ hdig]
    rw [if_neg (toDigits_ne_nil _), toDigits_fold]
    have hv : ((v.natAbs : Nat) : Int) = v := by omega
    rw [hv]
    rw [if_neg (by omega)]

/-! ## Lines written by `writeRow` and read by `blockify` and `extractColumnNames` -/

theorem dropWhile_head {α : Type} (p : α → Bool) (w : List α)
    (h : ∀ c, w.head? = some c → p c = false) : w.dropWhile p = w := by
  cases w with
  | nil => rfl
  | cons a l =>
    rw [List.dropWhile_cons_of_neg]
    simp [h a rfl]

theorem dropWhile_pre {α : Type} (p : α → Bool) (pre w : List α)
    (h : ∀ c ∈ pre, p c = true) : (pre ++ w).dropWhile p = w.dropWhile p := by
  induction pre with
  | nil => rfl
  | cons a l ih =>
    rw [List.cons_append, List.dropWhile_cons_of_pos (h a (List.mem_cons_self _ _)),
      ih (fun c hc => h c (List.mem_cons_of_mem _ hc))]

/-- Trimming leaves a word alone that neither starts nor ends with white space. -/
theorem trimWord_id (w : List Char) (hh : ∀ c, w.head? = some c → isSpaceC c = false)
    (hl : ∀ c, w.getLast? = some c → isSpaceC c = false) : trimWord w = w := by
  unfold trimWord
  rw [dropWhile_head isSpaceC w hh, dropWhile_head isSpaceC w.reverse
    (by intro c hc; rw [List.head?_reverse] at hc; exact hl c hc), List.reverse_reverse]

theorem trimWord_pre (pre w : List Char) (h : ∀ c ∈ pre, isSpaceC c = true) :
    trimWord (pre ++ w) = trimWord w := by
  unfold trimWord
  rw [dropWhile_pre isSpaceC pre w h]

theorem trimWord_int (pre : List Char) (h : ∀ c ∈ pre, isSpaceC c = true) (v : Int) :
    trimWord (pre ++ (toString v).data) = (toString v).data := by
  rw [trimWord_pre pre _ h]
  apply trimWord_id
  · intro c hc
    exact (toString_int_chars v c (List.mem_of_mem_head? hc)).1
  · intro c hc
    exact (toString_int_chars v c (List.mem_of_getLast?_eq_some hc)).1

theorem intercalate2_cons_cons (x y : List Char) (l : List (List Char)) :
    List.intercalate [',', ' '] (x :: y :: l)
      = x ++ ',' :: ' ' :: List.intercalate [',', ' '] (y :: l) := by
  simp [List.intercalate, List.intersperse]

theorem intercalate2_singleton (x : List Char) : List.intercalate [',', ' '] [x] = x := by
  simp [List.intercalate, List.intersperse]

theorem parseColumns_step (n : Nat) (stream word rest : List Char) (v : Int)
    (hg : getline ',' stream = some (word, rest)) (hw : trimWord word ≠ [])
    (hs : stoi (String.mk (trimWord word)) = some v) :
    parseColumns (n + 1) stream = (v :: (parseColumns n rest).1, (parseColumns n rest).2) := by
  simp only [parseColumns, hg, if_neg hw, hs]

/-- The column loop of `blockify` on a line that `writeRow` has written for a row of 32-bit
integers reads the row and leaves nothing of the line. -/
theorem parseColumns_written (l : List Int) :
    ∀ (a : Int) (pre : List Char), (∀ c ∈ pre, isSpaceC c = true ∧ c ≠ ',') →
      (∀ v ∈ a :: l, -2147483648 ≤ v ∧ v ≤ 2147483647) →
      parseColumns (l.length + 1)
          (pre ++ List.intercalate [',', ' '] ((a :: l).map (fun v => (toString v).data)))
        = (a :: l, true, []) := by
  induction l with
  | nil =>
    intro a pre hpre h32
    have hcomma : ',' ∉ pre ++ (toString a).data := by
      intro hm
      rcases List.mem_append.1 hm with hm | hm
      · exact (hpre _ hm).2 rfl
      · exact (toString_int_chars a _ hm).2.1 rfl
    have hne : pre ++ (toString a).data ≠ [] := by
      intro e
      exact toString_int_ne_nil a (List.append_eq_nil.1 e).2
    have ha := h32 a (List.mem_cons_self _ _)
    simp only [List.map_cons, List.map_nil, intercalate2_singleton, List.length_nil, Nat.zero_add]
    rw [parseColumns_step 0 _ _ _ a (getline_last ',' _ hcomma hne)
      (by rw [trimWord_int pre (fun c hc => (hpre c hc).1) a]; exact toString_int_ne_nil a)
      (by rw [trimWord_int pre (fun c hc => (hpre c hc).1) a]; exact stoi_toString a ha.1 ha.2)]
    rfl
  | cons b l ih =>
    intro a pre hpre h32
    have hcomma : ',' ∉ pre ++ (toString a).data := by
      intro hm
      rcases List.mem_append.1 hm with hm | hm
      · exact (hpre _ hm).2 rfl
      · exact (toString_int_chars a _ hm).2.1 rfl
    have ha := h32 a (List.mem_cons_self _ _)
    have ih' := ih b [' '] (by
      intro c hc
      rw [List.mem_singleton] at hc
      subst hc
      decide) (fun v hv => h32 v (List.mem_cons_of_mem _ hv))
    have hstream : pre ++ List.intercalate [',', ' ']
        ((a :: b :: l).map (fun v => (toString v).data))
        = (pre ++ (toString a).data) ++ ',' ::
          ([' '] ++ List.intercalate [',', ' '] ((b :: l).map (fun v => (toString v).data))) := by
      simp only [List.map_cons, intercalate2_cons_cons]
      simp
    rw [hstream, List.length_cons]
    rw [parseColumns_step _ _ _ _ a (getline_field ',' _ _ hcomma)
      (by rw [trimWord_int pre (fun c hc => (hpre c hc).1) a]; exact toString_int_ne_nil a)
      (by rw [trimWord_int pre (fun c hc => (hpre c hc).1) a]; exact stoi_toString a ha.1 ha.2)]
    rw [ih']

/-- A line written by `writeRow` for a non-empty row of 32-bit integers is read by `blockify`
as this row. -/
theorem parseLine_written (row : List Int) (hne : row ≠ [])
    (h32 : ∀ v ∈ row, -2147483648 ≤ v ∧ v ≤ 2147483647) :
    parseLine row.length
        (String.mk (List.intercalate [',', ' '] (row.map (fun v => (toString v).data)))) = row := by
  cases row with
  | nil => exact absurd rfl hne
  | cons a l =>
    have h := parseColumns_written l a [] (by intro c hc; cases hc) h32
    simp only [List.nil_append] at h
    unfold parseLine
    simp only [List.length_cons, h, if_true, getline]

/-! ## The header line and the lines of a written file -/

/-- The getline loop of `extractColumnNames` on a header line that `writeRow` has written for
names that are not empty, hold no comma and neither start nor end with white space yields
these names. -/
theorem headerLoop_written (l : List String) :
    ∀ (a : String) (pre : List Char) (fuel : Nat), (∀ c ∈ pre, isSpaceC c = true ∧ c ≠ ',') →
      (∀ n ∈ a :: l, n ≠ "" ∧ ',' ∉ n.data ∧ (∀ c, n.data.head? = some c → isSpaceC c = false) ∧
        (∀ c, n.data.getLast? = some c → isSpaceC c = false)) →
      (pre ++ List.intercalate [',', ' '] ((a :: l).map String.data)).length ≤ fuel →
      headerLoop fuel (pre ++ List.intercalate [',', ' '] ((a :: l).map String.data))
        = a :: l := by
  induction l with
  | nil =>
    intro a pre fuel hpre hn hfuel
    obtain ⟨ha1, ha2, ha3, ha4⟩ := hn a (List.mem_cons_self _ _)
    have hane : a.data ≠ [] := by
      intro e
      apply ha1
      apply String.ext
      simpa using e
    have hcomma : ',' ∉ pre ++ a.data := by
      intro hm
      rcases List.mem_append.1 hm with hm | hm
      · exact (hpre _ hm).2 rfl
      · exact ha2 hm
    have hne : pre ++ a.data ≠ [] := fun e => hane (List.append_eq_nil.1 e).2
    simp only [List.map_cons, List.map_nil, intercalate2_singleton] at hfuel ⊢
    cases fuel with
    | zero =>
      have : (pre ++ a.data).length = 0 := by omega
      exact absurd (List.length_eq_zero.1 this) hne
    | succ k =>
      simp only [headerLoop, getline_last ',' _ hcomma hne,
        trimWord_pre pre _ (fun c hc => (hpre c hc).1), trimWord_id a.data ha3 ha4]
      cases k with
      | zero => simp [headerLoop]
      | succ m => simp [headerLoop, getline]
  | cons b l ih =>
    intro a pre fuel hpre hn hfuel
    obtain ⟨ha1, ha2, ha3, ha4⟩ := hn a (List.mem_cons_self _ _)
    have hcomma : ',' ∉ pre ++ a.data := by
      intro hm
      rcases List.mem_append.1 hm with hm | hm
      · exact (hpre _ hm).2 rfl
      · exact ha2 hm
    have hstream : pre ++ List.intercalate [',', ' '] ((a :: b :: l).map String.data)
        = (pre ++ a.data) ++ ',' ::
          ([' '] ++ List.intercalate [',', ' '] ((b :: l).map String.data)) := by
      simp only [List.map_cons, intercalate2_cons_cons]
      simp
    rw [hstream] at hfuel ⊢
    cases fuel with
    | zero => simp at hfuel
    | succ k =>
      simp only [headerLoop, getline_field ',' _ _ hcomma,
        trimWord_pre pre _ (fun c hc => (hpre c hc).1), trimWord_id a.data ha3 ha4]
      rw [ih b [' '] k (by
          intro c hc
          rw [List.mem_singleton] at hc
          subst hc
          decide) (fun n hn' => hn n (List.mem_cons_of_mem _ hn'))
        (by simp only [List.length_append, List.length_cons] at hfuel ⊢; omega)]

theorem headerWords_written (names : List String) (hne : names ≠ [])
    (hn : ∀ n ∈ names, n ≠ "" ∧ ',' ∉ n.data ∧ (∀ c, n.data.head? = some c → isSpaceC c = false) ∧
      (∀ c, n.data.getLast? = some c → isSpaceC c = false)) :
    headerWords (String.mk (List.intercalate [',', ' '] (names.map String.data))) = names := by
  cases names with
  | nil => exact absurd rfl hne
  | cons a l =>
    have h := headerLoop_written l a [] _ (by intro c hc; cases hc) hn (le_refl _)
    simp only [List.nil_append] at h
    unfold headerWords
    exact h

theorem mem_intercalate2 (c : Char) (xs : List (List Char))
    (h : c ∈ List.intercalate [',', ' '] xs) : c = ',' ∨ c = ' ' ∨ ∃ x ∈ xs, c ∈ x := by
  induction xs with
  | nil => simp [List.intercalate] at h
  | cons x xs ih =>
    cases xs with
    | nil =>
      rw [intercalate2_singleton] at h
      exact Or.inr (Or.inr ⟨x, List.mem_cons_self _ _, h⟩)
    | cons y ys =>
      rw [intercalate2_cons_cons] at h
      rcases List.mem_append.1 h with h | h
      · exact Or.inr (Or.inr ⟨x, List.mem_cons_self _ _, h⟩)
      · rcases List.mem_cons.1 h with h | h
        · exact Or.inl h
        · rcases List.mem_cons.1 h with h | h
          · exact Or.inr (Or.inl h)
          · rcases ih h with h | h | ⟨z, hz, hc⟩
            · exact Or.inl h
            · exact Or.inr (Or.inl h)
            · exact Or.inr (Or.inr ⟨z, List.mem_cons_of_mem _ hz, hc⟩)

/-- The getline loop over a file in which every line ends with a line break reads the
lines. -/
theorem linesLoop_written (lines : List (List Char)) (hnl : ∀ l ∈ lines, '\n' ∉ l) :
    ∀ fuel, (lines.map (fun l => l ++ ['\n'])).flatten.length ≤ fuel →
      linesLoop fuel (lines.map (fun l => l ++ ['\n'])).flatten = lines.map String.mk := by
  induction lines with
  | nil =>
    intro fuel _
    cases fuel with
    | zero => rfl
    | succ k => simp [linesLoop, getline]
  | cons l lines ih =>
    intro fuel hfuel
    have hstream : ((l :: lines).map (fun l => l ++ ['\n'])).flatten
        = l ++ '\n' :: (lines.map (fun l => l ++ ['\n'])).flatten := by
      simp
    rw [hstream] at hfuel ⊢
    cases fuel with
    | zero => simp at hfuel
    | succ k =>
      simp only [linesLoop, getline_field '\n' l _ (hnl l (List.mem_cons_self _ _)), List.map_cons]
      rw [ih (fun x hx => hnl x (List.mem_cons_of_mem _ hx)) k
        (by simp only [List.length_append, List.length_cons] at hfuel; omega)]

/-! ## EXPORT: what `makePermanent` writes -/

/-- The export loop from a position inside a consistent table with non-empty pages, run for
as many rows as remain, writes one line per remaining row. -/
theorem exportRows_from (name : String) (pages : List (List Row))
    (hne : ∀ p ∈ pages, p ≠ []) (hrow : ∀ p ∈ pages, ∀ r ∈ p, r ≠ []) (rem : List Row) :
    ∀ (i j : Nat) (s : State) (c : Cursor), remainingRows pages i j = rem →
      Held s name pages → CursorAt c name pages i j →
      (exportRows rem.length c s).1
          = (rem.map (fun r => writeRowText (r.map (fun v => toString v)))).flatten ∧
        (exportRows rem.length c s).2.tables = s.tables ∧
        (exportRows rem.length c s).2.sources = s.sources ∧
        (∀ n pg, Held s n pg → Held (exportRows rem.length c s).2 n pg) := by
  induction rem with
  | nil =>
    intro i j s c _ _ _
    exact ⟨rfl, rfl, rfl, fun _ _ h => h⟩
  | cons r rem ih =>
    intro i j s c hrem hh hc
    rcases getNext_step s c name pages i j hh hc hne hrow with ⟨h0, _⟩ |
      ⟨row, rest, i', j', h1, hrne, h3, h4, h5, h6, h7, h8⟩
    · rw [hrem] at h0; cases h0
    · rw [hrem] at h1
      obtain ⟨e, e'⟩ := List.cons.inj h1
      subst e
      subst e'
      obtain ⟨g1, g2, g3, g4⟩ := ih i' j' (c.getNext s).2.2 (c.getNext s).2.1 h5
        (h8 name pages hh) h4
      have hne' : ¬ ((c.getNext s).1 = []) := by rw [h3]; exact hrne
      simp only [List.length_cons, exportRows, if_neg hne', List.map_cons, List.flatten_cons]
      refine ⟨?_, ?_, ?_, ?_⟩
      · rw [g1, h3]
      · rw [g2, h6]
      · rw [g3, h7]
      · intro n pg h
        exact g4 n pg (h8 n pg h)

/-- The content that `makePermanent` writes for a consistent table with non-empty pages
whose `rowCount` is its number of rows: the header line, then one line per row in scan
order. -/
theorem makePermanent_content (s : State) (t : Table) (pages : List (List Row))
    (hh : Held s t.tableName pages) (hne : ∀ p ∈ pages, p ≠ [])
    (hrow : ∀ p ∈ pages, ∀ r ∈ p, r ≠ [])
    (hrc : t.rowCount = (pages.flatten.length : Int)) :
    (t.makePermanent s).1 = writeRowText t.columns ++
        (pages.flatten.map (fun r => writeRowText (r.map (fun v => toString v)))).flatten := by
  have hn : t.rowCount.toNat = pages.flatten.length := by omega
  unfold Table.makePermanent
  simp only [hn]
  congr 1
  by_cases hlen : pages.length = 0
  · have hnil : pages = [] := List.length_eq_zero.1 hlen
    subst hnil
    rfl
  · have hpos : 0 < pages.length := Nat.pos_of_ne_zero hlen
    exact (exportRows_from t.tableName pages hne hrow pages.flatten 0 0
      (Cursor.create s t.tableName 0).2 (Cursor.create s t.tableName 0).1
      (remainingRows_zero pages hpos) (Held_getPage s t.tableName 0 t.tableName pages hh)
      (create_cursorAt s t.tableName pages hh hpos)).1

/-- Reading back a file that holds a header line written for well-formed names and one
written line per row of `names.length` 32-bit integers. -/
theorem parseSource_written (names : List String) (rows : List Row) (hne : names ≠ [])
    (hn : ∀ n ∈ names, n ≠ "" ∧ ',' ∉ n.data ∧ (∀ c, n.data.head? = some c → isSpaceC c = false) ∧
      (∀ c, n.data.getLast? = some c → isSpaceC c = false))
    (hnl : ∀ n ∈ names, '\n' ∉ n.data)
    (hw : ∀ r ∈ rows, r.length = names.length)
    (h32 : ∀ r ∈ rows, ∀ v ∈ r, -2147483648 ≤ v ∧ v ≤ 2147483647) :
    parseSource (writeRowText names ++
        (rows.map (fun r => writeRowText (r.map (fun v => toString v)))).flatten)
      = { header := names, lines := rows } := by
  have hcontent : writeRowText names ++
      (rows.map (fun r => writeRowText (r.map (fun v => toString v)))).flatten
      = ((List.intercalate [',', ' '] (names.map String.data) ::
          rows.map (fun r => List.intercalate [',', ' '] (r.map (fun v => (toString v).data)))).map
            (fun l => l ++ ['\n'])).flatten := by
    simp only [List.map_cons, List.flatten_cons, writeRowText, List.map_map]
    congr 2
  have hlines : ∀ l ∈ (List.intercalate [',', ' '] (names.map String.data) ::
      rows.map (fun r => List.intercalate [',', ' '] (r.map (fun v => (toString v).data)))),
      '\n' ∉ l := by
    intro l hl hm
    rcases List.mem_cons.1 hl with e | hl
    · rw [e] at hm
      rcases mem_intercalate2 _ _ hm with h | h | ⟨x, hx, hc⟩
      · exact absurd h (by decide)
      · exact absurd h (by decide)
      · obtain ⟨n, hn', e'⟩ := List.mem_map.1 hx
        rw [← e'] at hc
        exact hnl n hn' hc
    · obtain ⟨r, _, e⟩ := List.mem_map.1 hl
      rw [← e] at hm
      rcases mem_intercalate2 _ _ hm with h | h | ⟨x, hx, hc⟩
      · exact absurd h (by decide)
      · exact absurd h (by decide)
      · obtain ⟨v, _, e'⟩ := List.mem_map.1 hx
        rw [← e'] at hc
        exact (toString_int_chars v _ hc).2.2 rfl
  unfold parseSource fileLines
  rw [hcontent, linesLoop_written _ hlines _ (le_refl _)]
  simp only [List.map_cons, headerWords_written names hne hn, List.map_map]
  congr 1
  have hpos : 0 < names.length := List.length_pos.2 hne
  calc rows.map ((parseLine names.length ∘ String.mk) ∘
          fun r => List.intercalate [',', ' '] (r.map (fun v => (toString v).data)))
      = rows.map id := by
        apply List.map_congr_left
        intro r hr
        have hrl := hw r hr
        have hrne : r ≠ [] := by
          intro e
          rw [e] at hrl
          simp at hrl
          omega
        simp only [Function.comp, id]
        rw [← hrl]
        exact parseLine_written r hrne (h32 r hr)
    _ = rows := List.map_id _

/-! ## EXPORT and LOAD -/

/-- `extractColumnNames` on names that are not empty and pairwise distinct. -/
theorem extractColumnNames_names (t : Table) (names : List String) (hne : names ≠ [])
    (hn : ∀ n ∈ names, n ≠ "") (hnd : names.Nodup) :
    (t.extractColumnNames names).1 = true ∧ (t.extractColumnNames names).2.columns = names := by
  obtain ⟨h1, h2⟩ := extractLoop_spec names [] List.nodup_nil
  simp only [List.nil_append] at h1 h2
  have hok : (extractLoop names []).1 = true := h1.2 ⟨hn, hnd⟩
  have hcols := h2 hok
  have hlen : ¬ ((extractLoop names []).2.length = 0) := by
    rw [hcols]
    intro e
    exact hne (List.length_eq_zero.1 e)
  have hB : BLOCK_SIZE > 0 := by decide
  unfold Table.extractColumnNames
  simp only
  rw [if_neg (by simp [hok]), if_neg hlen, if_pos hB]
  exact ⟨rfl, hcols⟩

theorem any_false_of_some (o : Option Char) (h : (!o.any isSpaceC) = true) (c : Char)
    (hc : o = some c) : isSpaceC c = false := by
  subst hc
  simpa using h

theorem plainName_spec (n : String) (h : plainName n = true) :
    (n ≠ "" ∧ ',' ∉ n.data ∧ (∀ c, n.data.head? = some c → isSpaceC c = false) ∧
      (∀ c, n.data.getLast? = some c → isSpaceC c = false)) ∧ '\n' ∉ n.data := by
  unfold plainName at h
  rw [Bool.and_eq_true, Bool.and_eq_true, Bool.and_eq_true, Bool.and_eq_true] at h
  obtain ⟨⟨⟨⟨h1, h2⟩, h3⟩, h4⟩, h5⟩ := h
  refine ⟨⟨by simpa using h1, ?_, any_false_of_some _ h4, any_false_of_some _ h5⟩, ?_⟩
  · intro hm
    have : n.data.contains ',' = true := by simpa using hm
    rw [this] at h2
    cases h2
  · intro hm
    have : n.data.contains '\n' = true := by simpa using hm
    rw [this] at h3
    cases h3

/-- C29 (amended): for a registered table with consistent, non-empty pages (`columnCount`
its number of columns, at least one; `rowCount` its number of rows; 32-bit values) whose
column names are not empty, pairwise distinct, hold no comma and no line break and neither
start nor end with white space, the file that `makePermanent` writes reads back, line by
line, as the column list of the table and its rows in scan order, every line a row of
`columnCount` values, so `blockify` skips none; and `Table::load` of that file succeeds and
stores the same columns and the same sequence of rows. -/
theorem makePermanent_roundtrip (s : State) (t : Table) (pages : List (List Row))
    (ht : s.tables t.tableName = some t) (hh : Held s t.tableName pages)
    (hne : ∀ p ∈ pages, p ≠ [])
    (hcc : t.columnCount = t.columns.length) (hpos : 0 < t.columnCount)
    (hrc : t.rowCount = (pages.flatten.length : Int))
    (h32 : ∀ p ∈ pages, ∀ r ∈ p, ∀ v ∈ r, -2147483648 ≤ v ∧ v ≤ 2147483647)
    (hplain : ∀ n ∈ t.columns, plainName n = true) (hnd : t.columns.Nodup) :
    parseSource (t.makePermanent s).1 = { header := t.columns, lines := pages.flatten } ∧
      (∀ l ∈ (parseSource (t.makePermanent s).1).lines, l.length = t.columnCount) ∧
      (t.makePermanent s).2.sources ("../data/" ++ t.tableName ++ ".csv")
        = some (parseSource (t.makePermanent s).1) ∧
      ∃ pagesL : List (List Row),
        ((Table.new t.tableName).load (t.makePermanent s).2).1 = true ∧
        ((Table.new t.tableName).load (t.makePermanent s).2).2.1.columns = t.columns ∧
        ((Table.new t.tableName).load (t.makePermanent s).2).2.1.rowCount = t.rowCount ∧
        pagesL.flatten = pages.flatten ∧
        Stored (insertTable ((Table.new t.tableName).load (t.makePermanent s).2).2.2
          ((Table.new t.tableName).load (t.makePermanent s).2).2.1) t.tableName pagesL := by
  obtain ⟨_, hw⟩ := hh.table_eq ht
  have hn : ∀ n ∈ t.columns, n ≠ "" ∧ ',' ∉ n.data ∧
      (∀ c, n.data.head? = some c → isSpaceC c = false) ∧
      (∀ c, n.data.getLast? = some c → isSpaceC c = false) :=
    fun n h => (plainName_spec n (hplain n h)).1
  have hnl : ∀ n ∈ t.columns, '\n' ∉ n.data := fun n h => (plainName_spec n (hplain n h)).2
  have hrow : ∀ p ∈ pages, ∀ r ∈ p, r ≠ [] := by
    intro p hp r hr e
    have := hw p hp r hr
    rw [e] at this
    simp at this
    omega
  have hcne : t.columns ≠ [] := by
    intro e
    rw [e] at hcc
    simp at hcc
    omega
  have hwf : ∀ r ∈ pages.flatten, r.length = t.columns.length := by
    intro r hr
    obtain ⟨p, hp, hrp⟩ := List.mem_flatten.1 hr
    rw [hw p hp r hrp, hcc]
  have h32f : ∀ r ∈ pages.flatten, ∀ v ∈ r, -2147483648 ≤ v ∧ v ≤ 2147483647 := by
    intro r hr
    obtain ⟨p, hp, hrp⟩ := List.mem_flatten.1 hr
    exact h32 p hp r hrp
  have hparse : parseSource (t.makePermanent s).1
      = { header := t.columns, lines := pages.flatten } := by
    rw [makePermanent_content s t pages hh hne hrow hrc]
    exact parseSource_written t.columns pages.flatten hcne hn hnl hwf h32f
  have hfile : (t.makePermanent s).2.sources ("../data/" ++ t.tableName ++ ".csv")
      = some (parseSource (t.makePermanent s).1) := by
    unfold Table.makePermanent
    simp only
    split
    · rename_i hc
      simp only [insertTable, setFile]
      rw [if_neg (fun e => hc.2 e.symm)]
      simp
    · simp [insertTable, setFile]
  refine ⟨hparse, ?_, hfile, ?_⟩
  · rw [hparse]
    intro l hl
    rw [hwf l hl, hcc]
  · obtain ⟨he1, he2⟩ := extractColumnNames_names (Table.new t.tableName) t.columns hcne
      (fun n h => (hn n h).1) hnd
    obtain ⟨g1, g2, _, g4, g5, _, g7⟩ := extractColumnNames_ok (Table.new t.tableName) t.columns he1
    have hsrcname : (Table.new t.tableName).sourceFileName = "../data/" ++ t.tableName ++ ".csv" :=
      rfl
    have hsrc : (t.makePermanent s).2.sources
        ((Table.new t.tableName).extractColumnNames t.columns).2.sourceFileName
        = some { header := t.columns, lines := pages.flatten } := by
      rw [g2, hsrcname, hfile, hparse]
    obtain ⟨pagesL, hflat, _, _, hb1, hb2, _, _, hst⟩ := blockify_stored _ (t.makePermanent s).2 _
      hsrc g5 g7 (by
        intro l hl
        rw [g4, he2]
        exact hwf l hl)
    have hload : (Table.new t.tableName).load (t.makePermanent s).2
        = (((Table.new t.tableName).extractColumnNames t.columns).2).blockify
            (t.makePermanent s).2 := by
      unfold Table.load
      rw [hsrcname, hfile, hparse]
      simp only [he1, if_true]
    rw [hload]
    rw [g1] at hst
    refine ⟨pagesL, hb1, ?_, ?_, hflat, hst⟩
    · rw [hb2]
      exact he2
    · rw [hb2]
      simp only
      rw [hflat, hrc]

set_option maxRecDepth 100000 in
/-- Scenario S3: the file written for `E(EID,DID)` reads back as its columns and rows. -/
theorem makePermanent_roundtrip_witness :
    (stateS3.tables "E").map (fun t => parseSource (t.makePermanent stateS3).1)
      = some { header := ["EID", "DID"], lines := [[1, 10], [2, 10], [3, 20]] } :=
  congrArg some (makePermanent_roundtrip stateS3
    { tableName := "E", sourceFileName := "../data/E.csv", columns := ["EID", "DID"],
      columnCount := 2, rowCount := 3, blockCount := 1, maxRowsPerBlock := 4096000,
      rowsPerBlockCount := [3], multiColumnIndexData := [] }
    [[[1, 10], [2, 10], [3, 20]]] rfl stateS3_held_E (by decide) rfl (by decide) rfl (by decide)
    (by decide) (by decide)).1

set_option maxRecDepth 100000 in
/-- C29 (counterexample): four tables whose export does not read back.  The result of
`R <- JOIN E, D ON DID DID` in scenario S3 has the column `DID` twice, and `Table::load`
rejects the header of its file.  Table `A` of `stateGap` has an empty page between its two
rows, and its file holds the first row only.  Table `P` has an empty column name, and
`Table::load` rejects the header of its file.  The name of the column of `Q` holds a line
break, and its file reads back with the column `A`. -/
theorem makePermanent_export_not_read_back :
    (executeJOIN 10 queryJoinS3 stateS3).state.bind (fun s => (s.tables "R").map
        (fun t => (t.columns, ((Table.new "R").load (t.makePermanent s).2).1)))
      = some (["EID", "DID", "DID", "NAME_TAG"], false) ∧
    (storedRows stateGap "A" = some [[1, 10], [2, 20]] ∧
      (stateGap.tables "A").map (fun t => parseSource (t.makePermanent stateGap).1)
        = some { header := ["X", "Y"], lines := [[1, 10]] }) ∧
    (stateOddNames.tables "P").map
        (fun t => ((Table.new "P").load (t.makePermanent stateOddNames).2).1) = some false ∧
    (stateOddNames.tables "Q").map (fun t => parseSource (t.makePermanent stateOddNames).1)
      = some { header := ["A"], lines := [[], [1]] } := by
  refine ⟨?_, ⟨?_, ?_⟩, ?_, ?_⟩ <;> decide

/-! ## Rows per block -/

/-- C31: for every column count `c ≥ 1` the `maxRowsPerBlock` computed by the schema
constructor `Table::Table(tableName, columns)` and by `Table::extractColumnNames` is
`max(1, floor(B / (4 * c)))` with `B = BLOCK_SIZE * 1000 = 32768000`, a product that stays
below `2^32`; in particular it is at least 1 however wide the table is. -/
theorem maxRowsPerBlock_formula (c : Nat) (hc : 1 ≤ c) :
    BLOCK_SIZE * 1000 < 2 ^ 32 ∧
    computeMaxRowsPerBlock c = max 1 (BLOCK_SIZE * 1000 / (4 * c)) ∧
    (∀ (tableName : String) (columns : List String), columns.length = c →
      (Table.create tableName columns).maxRowsPerBlock = max 1 (BLOCK_SIZE * 1000 / (4 * c))) ∧
    (∀ (t : Table) (header : List String), (t.extractColumnNames header).1 = true →
      (t.extractColumnNames header).2.columnCount = c →
      (t.extractColumnNames header).2.maxRowsPerBlock = max 1 (BLOCK_SIZE * 1000 / (4 * c))) ∧
    1 ≤ computeMaxRowsPerBlock c := by
  have hB : BLOCK_SIZE * 1000 = 32768000 := by decide
  have hformula : ∀ n, 1 ≤ n →
      computeMaxRowsPerBlock n = max 1 (BLOCK_SIZE * 1000 / (4 * n)) := by
    intro n hn
    unfold computeMaxRowsPerBlock
    rw [hB]
    have h1 : (32768000 : Nat) % 2 ^ 32 = 32768000 := by norm_num
    have h2 : 32768000 / (4 * n) ≤ 32768000 := Nat.div_le_self _ _
    have h3 : 32768000 / (4 * n) % 2 ^ 32 = 32768000 / (4 * n) :=
      Nat.mod_eq_of_lt (by omega)
    simp only [h1, h3]
    by_cases h0 : 32768000 / (4 * n) = 0
    · simp [h0]
    · rw [if_neg h0]
      omega
  refine ⟨by rw [hB]; norm_num, hformula c hc, ?_, ?_, ?_⟩
  · intro tableName columns hlen
    have hl : c > 0 ∧ BLOCK_SIZE > 0 := ⟨by omega, by decide⟩
    simp only [Table.create, hlen, if_pos hl]
    exact hformula c hc
  · intro t header hok hcount
    unfold Table.extractColumnNames at hok hcount ⊢
    by_cases h1 : (extractLoop header []).1 = false
    · simp [h1] at hok
    · simp only [h1, if_false] at hok hcount ⊢
      by_cases h2 : (extractLoop header []).2.length = 0
      · simp [h2] at hok
      · simp only [h2, if_false] at hok hcount ⊢
        have hb : BLOCK_SIZE > 0 := by decide
        simp only [hb, if_true] at hok hcount ⊢
        have ht : (true = false) = False := by simp
        simp only [ht, if_false] at hcount ⊢
        rw [hcount]
        exact hformula c hc
  · exact computeMaxRowsPerBlock_pos c

/-- Three columns: `floor(32768000 / 12) = 2730666` rows per block. -/
theorem maxRowsPerBlock_formula_witness :
    computeMaxRowsPerBlock 3 = max 1 (BLOCK_SIZE * 1000 / (4 * 3)) ∧
      (Table.create "T" ["A", "B", "C"]).maxRowsPerBlock = max 1 (BLOCK_SIZE * 1000 / (4 * 3)) :=
  ⟨(maxRowsPerBlock_formula 3 (by decide)).2.1,
    (maxRowsPerBlock_formula 3 (by decide)).2.2.1 "T" ["A", "B", "C"] rfl⟩

/-! ## Clearing the pool for one table -/

set_option maxRecDepth 100000 in
/-- C32 (evaluation): the catalogue holds the relations `A` and `A_Page1`; page 0 of each is
resident.  `clearPoolForTable("A")` empties the pool: the page `../data/temp/A_Page1_Page0` of
the other relation starts with the prefix `../data/temp/A_Page` and is dropped as well, while
`deletePage("A", 0)`, which compares whole page names, leaves it resident.  No file is
written. -/
theorem clearPoolForTable_drops_prefixed_table :
    statePrefixResident.pages.map (fun p => (p.tableName, p.pageName))
        = [("A_Page1", "../data/temp/A_Page1_Page0"), ("A", "../data/temp/A_Page0")] ∧
      (clearPoolForTable statePrefixResident "A").pages = [] ∧
      (statePrefixResident.pages.filter (fun p => decide (p.tableName ≠ "A"))).map
          (fun p => p.pageName) = ["../data/temp/A_Page1_Page0"] ∧
      (BufferManager.deletePage statePrefixResident "A" 0).pages.map (fun p => p.pageName)
        = ["../data/temp/A_Page1_Page0"] ∧
      (clearPoolForTable statePrefixResident "A_Page1").pages.map (fun p => p.pageName)
        = ["../data/temp/A_Page0"] ∧
      (clearPoolForTable statePrefixResident "A").files "../data/temp/A_Page0" = some [[1]] ∧
      (clearPoolForTable statePrefixResident "A").files "../data/temp/A_Page1_Page0"
        = some [[2]] := by
  refine ⟨?_, ?_, ?_, ?_, ?_, ?_, ?_⟩ <;> decide

/-! ## Self-join -/

set_option maxRecDepth 100000 in
/-- C33 (evaluation): `T(A,B)` holds the rows `(1,2),(2,1)`.  The rows `r ++ s` with
`r[A] = s[B]` are `(1,2,2,1)` and `(2,1,1,2)`; `R <- JOIN T, T ON A B` stores `(1,2,1,2)` and
`(2,1,2,1)`, the rows with `r[A] = s[A]`: both pointer tests `smallerTable == table1` and
`largerTable == table1` hold, so the first column name is used for both sides.  In scenario
S3, `R <- JOIN E, E ON EID DID` pairs every row with itself although no `EID` equals a
`DID`. -/
theorem executeJOIN_self_join_uses_first_column :
    storedRows stateSelfJoin "T" = some [[1, 2], [2, 1]] ∧
      joinRows [[1, 2], [2, 1]] [[1, 2], [2, 1]] 0 1 = [[1, 2, 2, 1], [2, 1, 1, 2]] ∧
      (executeJOIN 10 queryJoinSelf stateSelfJoin).state.bind (fun s => storedRows s "R")
        = some [[1, 2, 1, 2], [2, 1, 2, 1]] ∧
      joinRows [[1, 10], [2, 10], [3, 20]] [[1, 10], [2, 10], [3, 20]] 0 1 = [] ∧
      (executeJOIN 10 queryJoinSelfS3 stateS3).state.bind (fun s => storedRows s "R")
        = some [[1, 10, 1, 10], [2, 10, 2, 10], [3, 20, 3, 20]] := by
  refine ⟨?_, ?_, ?_, ?_, ?_⟩ <;> decide

/-! ## SORT on a table of one block -/

set_option maxRecDepth 100000 in
/-- C36 (evaluation): relation `E` of scenario S3 has one block.  For it the divisor
`numBlocks / blocksPerRun` of `executeSORT` is `1 / 2 = 0`, and
`SORT E BY DID IN DESC, EID IN ASC` ends in the division `i / 0` of the cursor-initialisation
loop.  The divisor is 0 for one block and non-zero from two blocks on. -/
theorem executeSORT_one_block_divisor_zero :
    (stateS3.tables "E").map (fun t => t.blockCount) = some 1 ∧
      (stateS3.tables "E").map (fun t => t.blockCount / BLOCK_COUNT) = some 0 ∧
      (executeSORT 100 querySortS3 stateS3).isUndefined = true ∧
      (List.range 6).map (fun numBlocks => numBlocks / BLOCK_COUNT) = [0, 0, 1, 1, 2, 2] := by
  refine ⟨?_, ?_, ?_, ?_⟩ <;> decide

/-! ## ORDER BY on a relation without blocks -/

/-- On a source relation with `blockCount = 0` the run loop of `executeORDERBY` pushes no run
and `sortedRuns[0]` subscripts an empty vector. -/
theorem executeORDERBY_zero_blocks (pq : ParsedQuery) (s : State) (sourceTable : Table)
    (ht : s.tables pq.orderByRelationName = some sourceTable)
    (hb : sourceTable.blockCount = 0) :
    executeORDERBY pq s = Outcome.undefined := by
  unfold executeORDERBY
  simp [ht, hb, mergeRuns]

set_option maxRecDepth 100000 in
/-- C37 (evaluation): `DELETE FROM T WHERE col >= 0` empties the one page of `T` (scenario S4);
`R <- ORDER BY col ASC ON T` then registers `R` with `rowCount = 0` and `blockCount = 0`, and
`Q <- ORDER BY col ASC ON R`, whose source has no block, forms no run and reads
`sortedRuns[0]` of an empty vector; no relation `Q` is registered.  The same holds for a
catalogue entry `R` without blocks written down directly. -/
theorem executeORDERBY_no_blocks_reads_missing_run :
    (executeDELETE queryDeleteAll stateS4).state.bind (fun s =>
        (executeORDERBY queryOrderT s).state.bind (fun s1 => tableCounts s1 "R"))
      = some (0, 0, []) ∧
    (executeDELETE queryDeleteAll stateS4).state.bind (fun s =>
        (executeORDERBY queryOrderT s).state.map (fun s1 =>
          (executeORDERBY queryOrderR s1).isUndefined))
      = some true ∧
    tableCounts stateNoBlocks "R" = some (0, 0, []) ∧
    (executeORDERBY queryOrderR stateNoBlocks).isUndefined = true ∧
    ((executeORDERBY queryOrderR stateNoBlocks).state.bind (fun s => tableCounts s "Q")) = none := by
  refine ⟨?_, ?_, ?_, ?_, ?_⟩ <;> decide

/-! ## UPDATE run twice -/

set_option maxRecDepth 100000 in
/-- C39 (evaluation): `UPDATE T WHERE col >= 0 SET col = 9` on the table with the rows `3,1,2`
on three pages.  After one run and after two runs the pages hold `3,9,9`, but the second run
is not idle: page 0 again holds a row to change, its page loop counts `totalRowsUpdated = 1`
and hands page 0 with the row `9` to `BufferManager::writePage`, and the fetch of page 2
writes the stale copy back once more.  On the two-page table with the rows `2,1,3` the second
run changes no row and writes nothing. -/
theorem executeUPDATE_second_run_rewrites_page :
    storedRows (executeUPDATE queryUpdateAll stateThreePages) "T" = some [[3], [9], [9]] ∧
    storedRows (executeUPDATE queryUpdateAll (executeUPDATE queryUpdateAll stateThreePages)) "T"
      = some [[3], [9], [9]] ∧
    (stateThreePages.tables "T").map (fun t =>
        ((List.range t.blockCount).foldl (updatePage t 0 0 0 BinaryOperator.GEQ 9)
          (insertTable (executeUPDATE queryUpdateAll stateThreePages) t, 0)).2) = some 1 ∧
    (executeUPDATE queryUpdateAll stateThreePages).files "../data/temp/T_Page0" = some [[3]] ∧
    (stateThreePages.tables "T").bind (fun t =>
        (updatePage t 0 0 0 BinaryOperator.GEQ 9
          (insertTable (executeUPDATE queryUpdateAll stateThreePages) t, 0) 0).1.files
            "../data/temp/T_Page0") = some [[9]] ∧
    storedRows (executeUPDATE queryUpdateAll stateTwoPages) "T" = some [[9], [9], [9]] ∧
    storedRows (executeUPDATE queryUpdateAll (executeUPDATE queryUpdateAll stateTwoPages)) "T"
      = some [[9], [9], [9]] ∧
    (stateTwoPages.tables "T").map (fun t =>
        ((List.range t.blockCount).foldl (updatePage t 0 0 0 BinaryOperator.GEQ 9)
          (insertTable (executeUPDATE queryUpdateAll stateTwoPages) t, 0)).2) = some 0 := by
  refine ⟨?_, ?_, ?_, ?_, ?_, ?_, ?_, ?_⟩ <;> decide

/-! ## The HAVING value of GROUP BY -/

set_option maxRecDepth 100000 in
/-- `std::stoi` on a string of one character: the digit value for `0` to `9`, an exception
otherwise. -/
theorem stoi_singleton (n : Fin 256) :
    stoi (String.singleton (Char.ofNat n.val))
      = if 48 ≤ n.val ∧ n.val ≤ 57 then some ((n.val : Int) - 48) else none := by
  revert n
  decide

/-- No integer written in the command is read back: the one character stored for `v` is a
digit only when `v % 256` lies in `48 .. 57`, and then `stoi` yields `v % 256 - 48`. -/
theorem assignIntToString_never_read_back (v : Int) : stoi (assignIntToString v) ≠ some v := by
  have hlt : (v % 256).toNat < 256 := by omega
  have h := stoi_singleton ⟨(v % 256).toNat, hlt⟩
  simp only at h
  unfold assignIntToString
  rw [h]
  split
  · rename_i hd
    intro e
    have e1 := Option.some.inj e
    omega
  · intro e
    cases e

set_option maxRecDepth 100000 in
/-- C40 (evaluation): for `R <- GROUP BY DID FROM EMP HAVING AVG(SAL) > 20 RETURN MAX(SAL)`
`syntacticParseGROUPBY` stores in `havingValue` the one character with code 20, on which
`stoi` throws, where the command says 20; for the value 50000 it stores `P` (50000 mod 256 =
80), and for 53 it stores the digit `5`, read back as 5. -/
theorem syntacticParseGROUPBY_stores_one_character :
    stoi "20" = some 20 ∧
    (syntacticParseGROUPBY tokensGroupS5 {}).map (fun q => q.havingValue.data.map Char.toNat)
      = some [20] ∧
    (syntacticParseGROUPBY tokensGroupS5 {}).map (fun q => stoi q.havingValue) = some none ∧
    (syntacticParseGROUPBY tokensGroupS5 {}).map
        (fun q => (q.havingFunction, q.havingAttribute, q.havingOperator, q.returnFunction,
          q.returnAttribute))
      = some ("AVG", "SAL", ">", "MAX", "SAL") ∧
    (syntacticParseGROUPBY tokensGroupLarge {}).map (fun q => q.havingValue) = some "P" ∧
    (syntacticParseGROUPBY tokensGroupLarge {}).map (fun q => stoi q.havingValue) = some none ∧
    (syntacticParseGROUPBY tokensGroupDigit {}).map (fun q => q.havingValue) = some "5" ∧
    (syntacticParseGROUPBY tokensGroupDigit {}).map (fun q => stoi q.havingValue)
      = some (some 5) := by
  refine ⟨?_, ?_, ?_, ?_, ?_, ?_, ?_, ?_⟩ <;> decide

/-! ## `compareRows` is a strict weak ordering -/

theorem compareRowsFrom_cons (table : Table) (a b : Row) (col : String) (cols : List String)
    (strategies : List SortingStrategy) :
    compareRowsFrom table a b (col :: cols) strategies
      = if subscript a (table.getColumnIndex col) = subscript b (table.getColumnIndex col) then
          compareRowsFrom table a b cols strategies.tail
        else if strategies.head? = some SortingStrategy.ASC then
          decide (subscript a (table.getColumnIndex col) < subscript b (table.getColumnIndex col))
        else
          decide (subscript a (table.getColumnIndex col) > subscript b (table.getColumnIndex col)) := by
  rw [compareRowsFrom]

theorem compareRowsFrom_irrefl (table : Table) (a : Row) (cols : List String)
    (strategies : List SortingStrategy) : compareRowsFrom table a a cols strategies = false := by
  induction cols generalizing strategies with
  | nil => rw [compareRowsFrom]
  | cons col cols ih => rw [compareRowsFrom_cons, if_pos rfl, ih]

theorem compareRowsFrom_trans (table : Table) (a b c : Row) (cols : List String)
    (strategies : List SortingStrategy)
    (hab : compareRowsFrom table a b cols strategies = true)
    (hbc : compareRowsFrom table b c cols strategies = true) :
    compareRowsFrom table a c cols strategies = true := by
  induction cols generalizing strategies with
  | nil => rw [compareRowsFrom] at hab; cases hab
  | cons col cols ih =>
    rw [compareRowsFrom_cons] at hab hbc ⊢
    by_cases h1 : subscript a (table.getColumnIndex col) = subscript b (table.getColumnIndex col)
    · by_cases h2 : subscript b (table.getColumnIndex col) = subscript c (table.getColumnIndex col)
      · rw [if_pos h1] at hab
        rw [if_pos h2] at hbc
        rw [if_pos (h1.trans h2)]
        exact ih _ hab hbc
      · rw [if_neg h2] at hbc
        rw [if_neg (by rw [h1]; exact h2), h1]
        exact hbc
    · rw [if_neg h1] at hab
      by_cases h2 : subscript b (table.getColumnIndex col) = subscript c (table.getColumnIndex col)
      · rw [if_neg (by rw [← h2]; exact h1), ← h2]
        exact hab
      · rw [if_neg h2] at hbc
        by_cases hs : strategies.head? = some SortingStrategy.ASC
        · rw [if_pos hs] at hab hbc
          have hab2 := of_decide_eq_true hab
          have hbc2 := of_decide_eq_true hbc
          rw [if_neg (by omega), if_pos hs]
          exact decide_eq_true (by omega)
        · rw [if_neg hs] at hab hbc
          have hab2 := of_decide_eq_true hab
          have hbc2 := of_decide_eq_true hbc
          rw [if_neg (by omega), if_neg hs]
          exact decide_eq_true (by omega)

/-- Two rows are incomparable exactly when they agree on every sort column. -/
theorem compareRowsFrom_incomparable (table : Table) (a b : Row) (cols : List String)
    (strategies : List SortingStrategy) :
    (compareRowsFrom table a b cols strategies = false ∧
      compareRowsFrom table b a cols strategies = false) ↔
    ∀ col ∈ cols,
      subscript a (table.getColumnIndex col) = subscript b (table.getColumnIndex col) := by
  induction cols generalizing strategies with
  | nil => simp [compareRowsFrom]
  | cons col cols ih =>
    rw [compareRowsFrom_cons, compareRowsFrom_cons]
    by_cases h1 : subscript a (table.getColumnIndex col) = subscript b (table.getColumnIndex col)
    · rw [if_pos h1, if_pos h1.symm, ih]
      constructor
      · intro h c hc
        rcases List.mem_cons.1 hc with e | e
        · rw [e]; exact h1
        · exact h c e
      · intro h c hc
        exact h c (List.mem_cons_of_mem _ hc)
    · have h1s : ¬ subscript b (table.getColumnIndex col)
          = subscript a (table.getColumnIndex col) := fun e => h1 e.symm
      rw [if_neg h1, if_neg h1s]
      constructor
      · intro h
        exfalso
        by_cases hs : strategies.head? = some SortingStrategy.ASC
        · rw [if_pos hs, if_pos hs] at h
          have h2 := of_decide_eq_false h.1
          have h3 := of_decide_eq_false h.2
          omega
        · rw [if_neg hs, if_neg hs] at h
          have h2 := of_decide_eq_false h.1
          have h3 := of_decide_eq_false h.2
          omega
      · intro h
        exact absurd (h col (List.mem_cons_self _ _)) h1

/-- Not being before is transitive. -/
theorem compareRowsFrom_negtrans (table : Table) (a b c : Row) (cols : List String)
    (strategies : List SortingStrategy)
    (hab : compareRowsFrom table a b cols strategies = false)
    (hbc : compareRowsFrom table b c cols strategies = false) :
    compareRowsFrom table a c cols strategies = false := by
  induction cols generalizing strategies with
  | nil => rw [compareRowsFrom]
  | cons col cols ih =>
    rw [compareRowsFrom_cons] at hab hbc ⊢
    by_cases h1 : subscript a (table.getColumnIndex col) = subscript b (table.getColumnIndex col)
    · by_cases h2 : subscript b (table.getColumnIndex col) = subscript c (table.getColumnIndex col)
      · rw [if_pos h1] at hab
        rw [if_pos h2] at hbc
        rw [if_pos (h1.trans h2)]
        exact ih _ hab hbc
      · rw [if_neg h2] at hbc
        rw [if_neg (by rw [h1]; exact h2), h1]
        exact hbc
    · rw [if_neg h1] at hab
      by_cases h2 : subscript b (table.getColumnIndex col) = subscript c (table.getColumnIndex col)
      · rw [if_neg (by rw [← h2]; exact h1), ← h2]
        exact hab
      · rw [if_neg h2] at hbc
        by_cases hs : strategies.head? = some SortingStrategy.ASC
        · rw [if_pos hs] at hab hbc
          have hab2 := of_decide_eq_false hab
          have hbc2 := of_decide_eq_false hbc
          rw [if_neg (by omega), if_pos hs]
          exact decide_eq_false (by omega)
        · rw [if_neg hs] at hab hbc
          have hab2 := of_decide_eq_false hab
          have hbc2 := of_decide_eq_false hbc
          rw [if_neg (by omega), if_neg hs]
          exact decide_eq_false (by omega)

/-- The comparator of `SORT` is a strict weak ordering, whatever the sort columns and
directions. -/
theorem compareRows_swo (pq : ParsedQuery) (table : Table) :
    StrictWeakOrder (compareRows pq table) := by
  refine ⟨?_, ?_, ?_⟩
  · intro a
    exact compareRowsFrom_irrefl table a _ _
  · intro a b c hab hbc
    exact compareRowsFrom_trans table a b c _ _ hab hbc
  · intro a b c h1 h2 h3 h4
    exact ⟨compareRowsFrom_negtrans table a b c _ _ h1 h3,
      compareRowsFrom_negtrans table c b a _ _ h4 h2⟩

theorem getD_tail_strategy (strategies : List SortingStrategy) (i : Nat) :
    strategies.tail.getD i SortingStrategy.DESC = strategies.getD (i + 1) SortingStrategy.DESC := by
  cases strategies with
  | nil => rfl
  | cons d ds => rfl

theorem head_asc_iff (strategies : List SortingStrategy) :
    strategies.head? = some SortingStrategy.ASC
      ↔ strategies.getD 0 SortingStrategy.DESC = SortingStrategy.ASC := by
  cases strategies with
  | nil => simp
  | cons d ds => simp

/-- The comparator is the lexicographic order of the sort columns: `a` is before `b` exactly
when at the first sort column on which they differ the value of `a` is smaller (ASC) or
larger (any other direction). -/
theorem compareRowsFrom_lex (table : Table) (a b : Row) (cols : List String)
    (strategies : List SortingStrategy) :
    compareRowsFrom table a b cols strategies = true ↔
    ∃ i, i < cols.length ∧
      (∀ j, j < i → subscript a (table.getColumnIndex (cols.getD j ""))
        = subscript b (table.getColumnIndex (cols.getD j ""))) ∧
      ((strategies.getD i SortingStrategy.DESC = SortingStrategy.ASC ∧
          subscript a (table.getColumnIndex (cols.getD i ""))
            < subscript b (table.getColumnIndex (cols.getD i ""))) ∨
        (strategies.getD i SortingStrategy.DESC ≠ SortingStrategy.ASC ∧
          subscript a (table.getColumnIndex (cols.getD i ""))
            > subscript b (table.getColumnIndex (cols.getD i "")))) := by
  induction cols generalizing strategies with
  | nil =>
    rw [compareRowsFrom]
    simp
  | cons col cols ih =>
    rw [compareRowsFrom_cons]
    by_cases h1 : subscript a (table.getColumnIndex col) = subscript b (table.getColumnIndex col)
    · rw [if_pos h1, ih]
      constructor
      · rintro ⟨i, hi, hagree, hdiff⟩
        refine ⟨i + 1, by simp only [List.length_cons]; omega, ?_, ?_⟩
        · intro j hj
          cases j with
          | zero => exact h1
          | succ j => exact hagree j (by omega)
        · rw [getD_tail_strategy] at hdiff
          exact hdiff
      · rintro ⟨i, hi, hagree, hdiff⟩
        cases i with
        | zero =>
          exfalso
          simp only [List.getD_cons_zero] at hdiff
          rcases hdiff with h | h <;> omega
        | succ i =>
          refine ⟨i, by simp only [List.length_cons] at hi; omega, ?_, ?_⟩
          · intro j hj
            exact hagree (j + 1) (by omega)
          · rw [getD_tail_strategy]
            exact hdiff
    · rw [if_neg h1]
      constructor
      · intro h
        refine ⟨0, by simp, by intro j hj; omega, ?_⟩
        simp only [List.getD_cons_zero]
        by_cases hs : strategies.head? = some SortingStrategy.ASC
        · rw [if_pos hs] at h
          exact Or.inl ⟨(head_asc_iff _).1 hs, of_decide_eq_true h⟩
        · rw [if_neg hs] at h
          exact Or.inr ⟨fun e => hs ((head_asc_iff _).2 e), of_decide_eq_true h⟩
      · rintro ⟨i, hi, hagree, hdiff⟩
        cases i with
        | zero =>
          simp only [List.getD_cons_zero] at hdiff
          rcases hdiff with ⟨hs, hlt⟩ | ⟨hs, hgt⟩
          · rw [if_pos ((head_asc_iff _).2 hs)]
            exact decide_eq_true hlt
          · rw [if_neg (fun e => hs ((head_asc_iff _).1 e))]
            exact decide_eq_true hgt
        | succ i => exact absurd (hagree 0 (by omega)) h1

theorem getD_asc_or_desc (strategies : List SortingStrategy) (i : Nat)
    (hdir : ∀ d ∈ strategies, d = SortingStrategy.ASC ∨ d = SortingStrategy.DESC) :
    strategies.getD i SortingStrategy.DESC ≠ SortingStrategy.ASC
      ↔ strategies.getD i SortingStrategy.DESC = SortingStrategy.DESC := by
  constructor
  · intro h
    by_cases hi : i < strategies.length
    · rw [List.getD_eq_getElem _ _ hi] at h ⊢
      rcases hdir _ (List.getElem_mem hi) with e | e
      · exact absurd e h
      · exact e
    · rw [List.getD_eq_default _ _ (by omega)]
  · intro h e
    rw [h] at e
    cases e

/-- C35: for every list of sort columns with one direction (ASC or DESC) per column,
`compareRows` is a strict weak ordering on rows: irreflexive, transitive, with a transitive
incomparability relation; two rows are incomparable exactly when they agree on every sort
column, and `a` is before `b` exactly when, at the first sort column on which they differ,
`a` holds the smaller value for ASC and the larger value for DESC.
`MergeElementSort::operator>` is the same comparison with its arguments exchanged.  (The
values are those `row[getColumnIndex(col)]` reads; on rows of the table's width and columns
of the table every subscript is inside the row.) -/
theorem compareRows_strict_weak_order (pq : ParsedQuery) (table : Table)
    (hlen : pq.sortingStrategies.length = pq.sortColumns.length)
    (hdir : ∀ d ∈ pq.sortingStrategies, d = SortingStrategy.ASC ∨ d = SortingStrategy.DESC) :
    (∀ a, compareRows pq table a a = false) ∧
    (∀ a b c, compareRows pq table a b = true → compareRows pq table b c = true →
      compareRows pq table a c = true) ∧
    (∀ a b c, incomparable (compareRows pq table) a b = true →
      incomparable (compareRows pq table) b c = true →
      incomparable (compareRows pq table) a c = true) ∧
    (∀ a b, incomparable (compareRows pq table) a b = true ↔
      ∀ col ∈ pq.sortColumns,
        subscript a (table.getColumnIndex col) = subscript b (table.getColumnIndex col)) ∧
    (∀ a b, compareRows pq table a b = true ↔
      ∃ i, i < pq.sortColumns.length ∧ i < pq.sortingStrategies.length ∧
        (∀ j, j < i → sortValue pq table j a = sortValue pq table j b) ∧
        ((pq.sortingStrategies.getD i SortingStrategy.DESC = SortingStrategy.ASC ∧
            sortValue pq table i a < sortValue pq table i b) ∨
          (pq.sortingStrategies.getD i SortingStrategy.DESC = SortingStrategy.DESC ∧
            sortValue pq table i a > sortValue pq table i b))) ∧
    (∀ x y : Row × Nat, MergeElementSort.gt pq table x y = true ↔
      compareRows pq table y.1 x.1 = true) ∧
    StrictWeakOrder (fun a b => MergeElementSort.gt pq table (b, 0) (a, 0)) := by
  have hinc : ∀ a b, incomparable (compareRows pq table) a b = true ↔
      (compareRows pq table a b = false ∧ compareRows pq table b a = false) := by
    intro a b
    simp [incomparable]
  refine ⟨(compareRows_swo pq table).1, (compareRows_swo pq table).2.1, ?_, ?_, ?_, ?_, ?_⟩
  · intro a b c hab hbc
    rw [hinc] at hab hbc ⊢
    exact (compareRows_swo pq table).2.2 a b c hab.1 hab.2 hbc.1 hbc.2
  · intro a b
    rw [hinc]
    exact compareRowsFrom_incomparable table a b _ _
  · intro a b
    unfold compareRows sortValue
    rw [compareRowsFrom_lex]
    constructor
    · rintro ⟨i, hi, hagree, hdiff⟩
      refine ⟨i, hi, by omega, hagree, ?_⟩
      rcases hdiff with h | h
      · exact Or.inl h
      · exact Or.inr ⟨(getD_asc_or_desc _ i hdir).1 h.1, h.2⟩
    · rintro ⟨i, hi, _, hagree, hdiff⟩
      refine ⟨i, hi, hagree, ?_⟩
      rcases hdiff with h | h
      · exact Or.inl h
      · exact Or.inr ⟨(getD_asc_or_desc _ i hdir).2 h.1, h.2⟩
  · intro x y
    rfl
  · exact compareRows_swo pq table

/-- `SORT E BY DID IN DESC, EID IN ASC`: `(3,20)` is before `(1,10)`, and `(1,10)` before
`(2,10)`. -/
theorem compareRows_strict_weak_order_witness :
    compareRows querySortS3 tableE [1, 10] [1, 10] = false ∧
      (incomparable (compareRows querySortS3 tableE) [1, 10] [2, 10] = true ↔
        ∀ col ∈ querySortS3.sortColumns,
          subscript [1, 10] (tableE.getColumnIndex col)
            = subscript [2, 10] (tableE.getColumnIndex col)) ∧
      compareRows querySortS3 tableE [3, 20] [1, 10] = true ∧
      compareRows querySortS3 tableE [1, 10] [2, 10] = true :=
  ⟨(compareRows_strict_weak_order querySortS3 tableE (by decide) (by decide)).1 [1, 10],
    (compareRows_strict_weak_order querySortS3 tableE (by decide) (by decide)).2.2.2.1
      [1, 10] [2, 10],
    by decide, by decide⟩

/-! ## Merging runs under a strict weak ordering -/

theorem StrictWeakOrder.asymm {lt : Row → Row → Bool} (h : StrictWeakOrder lt) (a b : Row)
    (hab : lt a b = true) : lt b a = false := by
  cases hba : lt b a with
  | false => rfl
  | true =>
    have := h.2.1 a b a hab hba
    rw [h.1 a] at this
    cases this

/-- Not being before is transitive. -/
theorem StrictWeakOrder.negtrans {lt : Row → Row → Bool} (h : StrictWeakOrder lt) (a b c : Row)
    (hab : lt a b = false) (hbc : lt b c = false) : lt a c = false := by
  cases hac : lt a c with
  | false => rfl
  | true =>
    exfalso
    cases hba : lt b a with
    | true =>
      have := h.2.1 b a c hba hac
      rw [hbc] at this
      cases this
    | false =>
      cases hcb : lt c b with
      | true =>
        have := h.2.1 a c b hac hcb
        rw [hab] at this
        cases this
      | false =>
        have := (h.2.2 a b c hab hba hbc hcb).1
        rw [hac] at this
        cases this

/-- Being before a row that is not after a third one. -/
theorem StrictWeakOrder.lt_of_lt_of_not_lt {lt : Row → Row → Bool} (h : StrictWeakOrder lt)
    (a b c : Row) (hab : lt a b = true) (hcb : lt c b = false) : lt a c = true := by
  cases hac : lt a c with
  | true => rfl
  | false =>
    have := h.negtrans a c b hac hcb
    rw [hab] at this
    cases this

/-- The selection loop of the merge returns the head of the first run among those whose head
no other head is before: it is strictly before the head of every earlier run. -/
theorem bestRun_first_min (lt : Row → Row → Bool) (hswo : StrictWeakOrder lt)
    (runs : List (List Row)) (i : Nat) (best : Option (Nat × Row)) (j : Nat) (row : Row)
    (h : bestRun lt runs i best = some (j, row)) :
    (∀ b, best = some b → lt b.2 row = false) ∧
    (∀ run ∈ runs, ∀ c t, run = c :: t → lt c row = false) ∧
    (best = some (j, row) ∨
      ∃ A rest B, runs = A ++ (row :: rest) :: B ∧ j = i + A.length ∧
        (∀ run ∈ A, ∀ c t, run = c :: t → lt row c = true) ∧
        (∀ b, best = some b → lt row b.2 = true)) := by
  induction runs generalizing i best with
  | nil =>
    rw [bestRun] at h
    subst h
    exact ⟨by intro b hb; cases hb; exact hswo.1 _, by simp, Or.inl rfl⟩
  | cons run rest ih =>
    cases run with
    | nil =>
      rw [bestRun] at h
      obtain ⟨h1, h2, h3⟩ := ih _ _ h
      refine ⟨h1, ?_, ?_⟩
      · intro run hrun c t e
        rcases List.mem_cons.1 hrun with hr | hr
        · rw [hr] at e; cases e
        · exact h2 run hr c t e
      · rcases h3 with h3 | ⟨A, r, B, e, hj, hA, hb⟩
        · exact Or.inl h3
        · refine Or.inr ⟨[] :: A, r, B, by rw [e]; rfl, by simp [hj]; omega, ?_, hb⟩
          intro run hrun c t e2
          rcases List.mem_cons.1 hrun with hr | hr
          · rw [hr] at e2; cases e2
          · exact hA run hr c t e2
    | cons c t =>
      have heads : lt c row = false → (∀ run ∈ rest, ∀ c t, run = c :: t → lt c row = false) →
          ∀ run ∈ (c :: t) :: rest, ∀ c' t', run = c' :: t' → lt c' row = false := by
        intro hc h2 run hrun c' t' e
        rcases List.mem_cons.1 hrun with hr | hr
        · rw [hr] at e; cases e; exact hc
        · exact h2 run hr c' t' e
      have later : lt row c = true → ∀ (A : List (List Row)) (r : List Row) (B : List (List Row)),
          rest = A ++ (row :: r) :: B → j = i + 1 + A.length →
          (∀ run ∈ A, ∀ c t, run = c :: t → lt row c = true) →
          ∃ A' r' B', (c :: t) :: rest = A' ++ (row :: r') :: B' ∧ j = i + A'.length ∧
            (∀ run ∈ A', ∀ c t, run = c :: t → lt row c = true) := by
        intro hc A r B e hj hA
        refine ⟨(c :: t) :: A, r, B, by rw [e]; rfl, by simp [hj]; omega, ?_⟩
        intro run hrun c' t' e2
        rcases List.mem_cons.1 hrun with hr | hr
        · rw [hr] at e2; cases e2; exact hc
        · exact hA run hr c' t' e2
      cases best with
      | none =>
        rw [bestRun] at h
        obtain ⟨h1, h2, h3⟩ := ih _ _ h
        have h1c : lt c row = false := h1 (i, c) rfl
        refine ⟨(by intro b hb; cases hb), heads h1c h2, ?_⟩
        rcases h3 with h3 | ⟨A, r, B, e, hj, hA, hb⟩
        · cases h3
          exact Or.inr ⟨[], t, rest, rfl, by simp, by simp, (by intro b hb; cases hb)⟩
        · obtain ⟨A', r', B', e', hj', hA'⟩ := later (hb (i, c) rfl) A r B e hj hA
          exact Or.inr ⟨A', r', B', e', hj', hA', (by intro b hb; cases hb)⟩
      | some b =>
        rw [bestRun] at h
        split at h
        · rename_i hcb
          obtain ⟨h1, h2, h3⟩ := ih _ _ h
          have h1c : lt c row = false := h1 (i, c) rfl
          rcases h3 with h3 | ⟨A, r, B, e, hj, hA, hb⟩
          · cases h3
            refine ⟨?_, heads h1c h2, ?_⟩
            · intro b0 hb0
              cases hb0
              exact hswo.asymm _ _ hcb
            · exact Or.inr ⟨[], t, rest, rfl, by simp, by simp,
                by intro b0 hb0; cases hb0; exact hcb⟩
          · have hrc : lt row c = true := hb (i, c) rfl
            have hrb : lt row b.2 = true := hswo.2.1 _ _ _ hrc hcb
            refine ⟨?_, heads h1c h2, ?_⟩
            · intro b0 hb0
              cases hb0
              exact hswo.asymm _ _ hrb
            · obtain ⟨A', r', B', e', hj', hA'⟩ := later hrc A r B e hj hA
              exact Or.inr ⟨A', r', B', e', hj', hA', by intro b0 hb0; cases hb0; exact hrb⟩
        · rename_i hcb
          have hcb2 : lt c b.2 = false := by simpa using hcb
          obtain ⟨h1, h2, h3⟩ := ih _ _ h
          have h1b : lt b.2 row = false := h1 b rfl
          have h1c : lt c row = false := hswo.negtrans _ _ _ hcb2 h1b
          refine ⟨(by intro b0 hb0; cases hb0; exact h1b), heads h1c h2, ?_⟩
          rcases h3 with h3 | ⟨A, r, B, e, hj, hA, hb⟩
          · exact Or.inl h3
          · have hrb : lt row b.2 = true := hb b rfl
            have hrc : lt row c = true := hswo.lt_of_lt_of_not_lt _ _ _ hrb hcb2
            obtain ⟨A', r', B', e', hj', hA'⟩ := later hrc A r B e hj hA
            exact Or.inr ⟨A', r', B', e', hj', hA', by intro b0 hb0; cases hb0; exact hrb⟩

theorem filter_eq_nil_of_forall {α : Type} (p : α → Bool) (l : List α)
    (h : ∀ x ∈ l, p x = false) : l.filter p = [] := by
  rw [List.filter_eq_nil_iff]
  intro x hx
  rw [h x hx]
  simp

/-- Merging runs that are sorted under a strict weak ordering: the output is a sorted
permutation of the rows, and the rows of every class of mutually incomparable rows come in
the order of the concatenation of the runs. -/
theorem merge_sorted_stable (lt : Row → Row → Bool) (hswo : StrictWeakOrder lt) (fuel : Nat)
    (runs : List (List Row)) (hfuel : (runs.map List.length).sum ≤ fuel)
    (hs : ∀ run ∈ runs, run.Pairwise (fun a b => lt b a = false)) :
    (mergeMultipleRunsOrderBy lt fuel runs).Perm runs.flatten ∧
    (mergeMultipleRunsOrderBy lt fuel runs).Pairwise (fun a b => lt b a = false) ∧
    (∀ x, (mergeMultipleRunsOrderBy lt fuel runs).filter (incomparable lt x)
      = runs.flatten.filter (incomparable lt x)) ∧
    mergeMultipleRunsOrderBy lt fuel runs
      = mergeMultipleRunsOrderBy lt (runs.map List.length).sum runs := by
  induction fuel generalizing runs with
  | zero =>
    have hz : (runs.map List.length).sum = 0 := by omega
    have hnil : runs.flatten = [] := by
      apply List.eq_nil_of_length_eq_zero
      rw [List.length_flatten]
      omega
    rw [hnil, hz]
    exact ⟨List.Perm.refl _, List.Pairwise.nil, fun _ => rfl, rfl⟩
  | succ fuel ih =>
    cases hb : bestRun lt runs 0 none with
    | none =>
      have hall := (bestRun_none lt runs 0 none hb).2
      have hnil : runs.flatten = [] := by
        rw [List.flatten_eq_nil_iff]
        exact hall
      have hz : (runs.map List.length).sum = 0 := by
        rw [← List.length_flatten, hnil]
        rfl
      have hm : mergeMultipleRunsOrderBy lt (fuel + 1) runs = [] := by
        rw [mergeMultipleRunsOrderBy, hb]
      have h0 : mergeMultipleRunsOrderBy lt 0 runs = [] := by
        rw [mergeMultipleRunsOrderBy]
      rw [hnil, hz, hm, h0]
      exact ⟨List.Perm.refl _, List.Pairwise.nil, fun _ => rfl, rfl⟩
    | some b =>
      obtain ⟨j, row⟩ := b
      obtain ⟨_, hmin, hpos⟩ := bestRun_first_min lt hswo runs 0 none j row hb
      rcases hpos with hpos | ⟨A, rest, B, e, hj, hA, _⟩
      · cases hpos
      · have hj2 : j = A.length := by omega
        subst hj2
        subst e
        have hsum1 : (((A ++ (row :: rest) :: B)).map List.length).sum
            = ((A ++ rest :: B).map List.length).sum + 1 := by
          simp only [List.map_append, List.map_cons, List.sum_append, List.sum_cons,
            List.length_cons]
          omega
        have hsum : ((A ++ rest :: B).map List.length).sum ≤ fuel := by omega
        have hs2 : ∀ run ∈ A ++ rest :: B, run.Pairwise (fun a b => lt b a = false) := by
          intro run hrun
          rcases List.mem_append.1 hrun with h1 | h1
          · exact hs run (List.mem_append_left _ h1)
          · rcases List.mem_cons.1 h1 with h2 | h2
            · subst h2
              exact (List.pairwise_cons.1 (hs (row :: run) (by simp))).2
            · exact hs run (List.mem_append_right _ (List.mem_cons_of_mem _ h2))
        obtain ⟨ihp, ihs, ihf, ihe⟩ := ih (A ++ rest :: B) hsum hs2
        have hstep : ∀ f, mergeMultipleRunsOrderBy lt (f + 1) (A ++ (row :: rest) :: B)
            = row :: mergeMultipleRunsOrderBy lt f (A ++ rest :: B) := by
          intro f
          rw [mergeMultipleRunsOrderBy, hb]
          simp only
          rw [modify_append_cons, List.tail_cons]
        have hbelow : ∀ x ∈ (A ++ (row :: rest) :: B).flatten, lt x row = false := by
          intro x hx
          obtain ⟨run, hrun, hxr⟩ := List.mem_flatten.1 hx
          cases run with
          | nil => cases hxr
          | cons c t =>
            have hc := hmin _ hrun c t rfl
            rcases List.mem_cons.1 hxr with h1 | h1
            · subst h1; exact hc
            · have hxc : lt x c = false := (List.pairwise_cons.1 (hs _ hrun)).1 x h1
              exact hswo.negtrans _ _ _ hxc hc
        have habove : ∀ x ∈ A.flatten, lt row x = true := by
          intro x hx
          obtain ⟨run, hrun, hxr⟩ := List.mem_flatten.1 hx
          cases run with
          | nil => cases hxr
          | cons c t =>
            have hc := hA _ hrun c t rfl
            rcases List.mem_cons.1 hxr with h1 | h1
            · subst h1; exact hc
            · have hxc : lt x c = false :=
                (List.pairwise_cons.1 (hs _ (List.mem_append_left _ hrun))).1 x h1
              exact hswo.lt_of_lt_of_not_lt _ _ _ hc hxc
        rw [hstep, hsum1, hstep]
        refine ⟨?_, ?_, ?_, ?_⟩
        · refine (List.Perm.cons row ihp).trans ?_
          simp only [List.flatten_append, List.flatten_cons]
          exact (@List.perm_middle _ row A.flatten (rest ++ B.flatten)).symm
        · rw [List.pairwise_cons]
          refine ⟨?_, ihs⟩
          intro x hx
          apply hbelow
          have := ihp.mem_iff.1 hx
          simp only [List.flatten_append, List.flatten_cons, List.mem_append,
            List.mem_cons] at this ⊢
          tauto
        · intro x
          simp only [List.flatten_append, List.flatten_cons, List.filter_append,
            List.cons_append]
          by_cases hx : incomparable lt x row = true
          · have hAnil : A.flatten.filter (incomparable lt x) = [] := by
              apply filter_eq_nil_of_forall
              intro y hy
              have hry := habove y hy
              cases hxy : incomparable lt x y with
              | false => rfl
              | true =>
                exfalso
                simp only [incomparable, Bool.and_eq_true, Bool.not_eq_true'] at hx hxy
                have := (hswo.2.2 row x y hx.2 hx.1 hxy.1 hxy.2).1
                rw [hry] at this
                cases this
            rw [List.filter_cons_of_pos hx, ihf x, List.filter_cons_of_pos hx]
            simp only [List.flatten_append, List.flatten_cons, List.filter_append, hAnil,
              List.nil_append]
          · rw [List.filter_cons_of_neg hx, ihf x, List.filter_cons_of_neg hx]
            simp only [List.flatten_append, List.flatten_cons, List.filter_append]
        · rw [ihe]

/-- The comparator of `ORDER BY` is a strict weak ordering. -/
theorem compareRowsOrderBy_swo (pq : ParsedQuery) (table : Table) :
    StrictWeakOrder (compareRowsOrderBy pq table) := by
  unfold StrictWeakOrder compareRowsOrderBy
  by_cases hs : pq.orderByStrategy = SortingStrategy.ASC
  · simp only [hs, if_true, decide_eq_true_eq, decide_eq_false_iff_not]
    refine ⟨?_, ?_, ?_⟩
    · intro a; omega
    · intro a b c h1 h2; omega
    · intro a b c h1 h2 h3 h4; omega
  · simp only [hs, if_false, decide_eq_true_eq, decide_eq_false_iff_not]
    refine ⟨?_, ?_, ?_⟩
    · intro a; omega
    · intro a b c h1 h2; omega
    · intro a b c h1 h2 h3 h4; omega

/-- C34: for every list of runs, each sorted under the ORDER BY comparator (no row is before
an earlier row of its run), `mergeMultipleRunsOrderBy` ends after as many steps as there are
rows (more fuel changes nothing) and returns a permutation of the concatenation of the runs
that is sorted under the comparator; the rows that compare equal to a given row come out in
the order of the concatenation of the runs, so a row of an earlier run is emitted before an
equal row of a later run.  `mergeMultipleRuns` of `sort.cpp` satisfies the same statement with
`compareRows`. -/
theorem mergeMultipleRuns_sorted_stable (pq : ParsedQuery) (table : Table)
    (runs : List (List Row)) (fuel : Nat) (hfuel : (runs.map List.length).sum ≤ fuel) :
    ((∀ run ∈ runs, run.Pairwise (fun a b => compareRowsOrderBy pq table b a = false)) →
      (mergeMultipleRunsOrderBy (compareRowsOrderBy pq table) fuel runs).Perm runs.flatten ∧
      (mergeMultipleRunsOrderBy (compareRowsOrderBy pq table) fuel runs).Pairwise
        (fun a b => compareRowsOrderBy pq table b a = false) ∧
      (∀ x, (mergeMultipleRunsOrderBy (compareRowsOrderBy pq table) fuel runs).filter
          (incomparable (compareRowsOrderBy pq table) x)
        = runs.flatten.filter (incomparable (compareRowsOrderBy pq table) x)) ∧
      mergeMultipleRunsOrderBy (compareRowsOrderBy pq table) fuel runs
        = mergeMultipleRunsOrderBy (compareRowsOrderBy pq table) (runs.map List.length).sum runs) ∧
    ((∀ run ∈ runs, run.Pairwise (fun a b => compareRows pq table b a = false)) →
      (mergeMultipleRuns pq table fuel runs).Perm runs.flatten ∧
      (mergeMultipleRuns pq table fuel runs).Pairwise
        (fun a b => compareRows pq table b a = false) ∧
      (∀ x, (mergeMultipleRuns pq table fuel runs).filter (incomparable (compareRows pq table) x)
        = runs.flatten.filter (incomparable (compareRows pq table) x)) ∧
      mergeMultipleRuns pq table fuel runs
        = mergeMultipleRuns pq table (runs.map List.length).sum runs) :=
  ⟨fun hs => merge_sorted_stable _ (compareRowsOrderBy_swo pq table) fuel runs hfuel hs,
    fun hs => merge_sorted_stable _ (compareRows_swo pq table) fuel runs hfuel hs⟩

/-- Runs `(3,20),(1,10)` and `(2,10)` under `ORDER BY DID DESC`: the rows with `DID = 10` come
out as `(1,10),(2,10)`, the row of the first run first. -/
theorem mergeMultipleRuns_sorted_stable_witness :
    (mergeMultipleRunsOrderBy (compareRowsOrderBy queryOrderS3 tableE) 3
        [[[3, 20], [1, 10]], [[2, 10]]]).filter
          (incomparable (compareRowsOrderBy queryOrderS3 tableE) [2, 10])
      = ([[[3, 20], [1, 10]], [[2, 10]]] : List (List Row)).flatten.filter
          (incomparable (compareRowsOrderBy queryOrderS3 tableE) [2, 10]) ∧
    (mergeMultipleRuns querySortS3 tableE 3 [[[3, 20], [1, 10]], [[2, 10]]]).Perm
      ([[[3, 20], [1, 10]], [[2, 10]]] : List (List Row)).flatten ∧
    mergeMultipleRunsOrderBy (compareRowsOrderBy queryOrderS3 tableE) 3
        [[[3, 20], [1, 10]], [[2, 10]]] = [[3, 20], [1, 10], [2, 10]] :=
  ⟨((mergeMultipleRuns_sorted_stable queryOrderS3 tableE [[[3, 20], [1, 10]], [[2, 10]]] 3
      (by decide)).1 (by decide)).2.2.1 [2, 10],
    ((mergeMultipleRuns_sorted_stable querySortS3 tableE [[[3, 20], [1, 10]], [[2, 10]]] 3
      (by decide)).2 (by decide)).1,
    by decide⟩

/-! ## The indices of the reachable states are keyed on the rows -/

theorem IndexMap.self_mem_assign (m : IndexMap) (k : Int) (loc : RowLocation) :
    (k, loc) ∈ IndexMap.assign m k loc := by
  induction m with
  | nil => simp [IndexMap.assign]
  | cons x rest ih =>
    obtain ⟨k', loc'⟩ := x
    unfold IndexMap.assign
    split
    · simp
    · split
      · simp
      · exact List.mem_cons_of_mem _ ih

theorem IndexMap.key_assign (m : IndexMap) (k : Int) (loc : RowLocation) (e : Int × RowLocation)
    (he : e ∈ m) : ∃ e' ∈ IndexMap.assign m k loc, e'.1 = e.1 := by
  induction m with
  | nil => cases he
  | cons x rest ih =>
    obtain ⟨k', loc'⟩ := x
    unfold IndexMap.assign
    split
    · exact ⟨e, List.mem_cons_of_mem _ he, rfl⟩
    · split
      · rename_i hk
        rcases List.mem_cons.1 he with h | h
        · exact ⟨(k, loc), List.mem_cons_self _ _, by rw [h]; exact hk⟩
        · exact ⟨e, List.mem_cons_of_mem _ h, rfl⟩
      · rcases List.mem_cons.1 he with h | h
        · exact ⟨e, by rw [h]; exact List.mem_cons_self _ _, rfl⟩
        · obtain ⟨e', he', hk'⟩ := ih h
          exact ⟨e', List.mem_cons_of_mem _ he', hk'⟩

/-- A step that works on table `name` alone keeps the invariant of the indexed tables when it
keeps it for `name`. -/
theorem IndexedInv.step_table {s s' : State} (name : String) (hinv : IndexedInv s)
    (hfr : Frame name s s')
    (h2 : ∀ t', s'.tables name = some t' → t'.multiColumnIndexData ≠ [] →
      t'.columnCount = t'.columns.length ∧ 0 < t'.columnCount ∧ t'.columns.Nodup ∧
      ∃ pages, Held s' name pages ∧ (∀ p ∈ pages, p ≠ []) ∧ SoundOn t' pages ∧
        KeyedOn t' pages) : IndexedInv s' := by
  obtain ⟨f1, f2, _, _⟩ := hfr
  intro n t ht hidx
  by_cases e : n = name
  · subst e
    exact h2 t ht hidx
  · rw [f1 n e] at ht
    obtain ⟨c1, c2, c3, pages, hh, hne, hs, hk⟩ := hinv n t ht hidx
    exact ⟨c1, c2, c3, pages, f2 n e pages hh, hne, hs, hk⟩

theorem executeUPDATE_indexed (s : State) (pq : ParsedQuery) (hinv : ReachInv s)
    (hix : IndexedInv s) : IndexedInv (executeUPDATE pq s) := by
  obtain ⟨hfr, hn⟩ := executeUPDATE_frame s pq (hinv.1 pq.tableName)
  apply IndexedInv.step_table pq.tableName hix hfr
  intro t' ht' hidx
  exact absurd (hn t' ht').2 hidx

theorem executeDELETE_indexed (s s' : State) (pq : ParsedQuery) (hinv : ReachInv s)
    (hix : IndexedInv s) (hd : executeDELETE pq s = Outcome.done s') : IndexedInv s' := by
  obtain ⟨hfr, hn⟩ := executeDELETE_frame s s' pq (hinv.1 pq.tableName) hd
  apply IndexedInv.step_table pq.tableName hix hfr
  intro t' ht' hidx
  exact absurd (hn t' ht').2 hidx

/-- The pages a state holds for a table are determined by the state. -/
theorem Held.unique {s : State} {name : String} {pages1 pages2 : List (List Row)}
    (h1 : Held s name pages1) (h2 : Held s name pages2) : pages1 = pages2 := by
  obtain ⟨t1, a1, _, a3, _, _, a6, _⟩ := h1
  obtain ⟨t2, b1, _, b3, _, _, b6, _⟩ := h2
  rw [a1] at b1
  cases b1
  have hlen : pages1.length = pages2.length := by rw [← a3, ← b3]
  apply List.ext_getElem hlen
  intro i hi1 hi2
  have e1 := (a6 i hi1).1
  have e2 := (b6 i hi2).1
  rw [List.getD_eq_getElem _ _ hi1] at e1
  rw [List.getD_eq_getElem _ _ hi2] at e2
  rw [← e1, ← e2]

/-- `executeINSERT` on a consistent table whose indices are sound and keyed leaves the table
consistent, its pages non-empty and its indices sound and keyed. -/
theorem executeINSERT_keyed (s : State) (pq : ParsedQuery) (table : Table)
    (pages : List (List Row)) (hts : s.tables pq.tableName = some table)
    (hh : Held s pq.tableName pages) (hcc : table.columnCount = table.columns.length)
    (hpos : 0 < table.columnCount) (hnd : table.columns.Nodup)
    (hne : ∀ p ∈ pages, p ≠ []) (hs : SoundOn table pages) (hk : KeyedOn table pages) :
    ∃ t' pages', (executeINSERT pq s).tables pq.tableName = some t' ∧
      t'.columnCount = t'.columns.length ∧ 0 < t'.columnCount ∧ t'.columns.Nodup ∧
      Held (executeINSERT pq s) pq.tableName pages' ∧ (∀ p ∈ pages', p ≠ []) ∧
      SoundOn t' pages' ∧ KeyedOn t' pages' := by
  rcases Option.eq_none_or_eq_some (insertRowValues table pq.insertColumnsAndValues
    (List.replicate table.columnCount 0)) with hr | ⟨row, hr⟩
  · have hsame : executeINSERT pq s = s := by
      unfold executeINSERT
      simp only [hts, hr]
    rw [hsame]
    exact ⟨table, pages, hts, hcc, hpos, hnd, hh, hne, hs, hk⟩
  · have hlen : row.length = table.columnCount := by
      rw [insertRowValues_length table _ _ _ hr, List.length_replicate]
    obtain ⟨hheld, htab⟩ := executeINSERT_held_row s pq table pages row hts hh hpos hr hlen
    obtain ⟨t1, pages1, e1, _, _, _, e5, e6⟩ :=
      executeINSERT_sound s pq table pages hts hh hcc hpos hnd hs
    have hp1 : pages1 = pagesAfterInsert table.maxRowsPerBlock pages row := e5.unique hheld
    rw [htab] at e1
    have ht1 := Option.some.inj e1
    subst hp1
    obtain ⟨hspec1, hspec2, hspec3⟩ :=
      insertIndexUpdate_spec table row (insertLocation table) hcc hnd
    refine ⟨_, _, htab, hcc, hpos, hnd, hheld,
      pagesAfterInsert_ne_nil table.maxRowsPerBlock pages row hne, by rw [ht1]; exact e6, ?_, ?_, ?_⟩
    · intro c idx' hlk
      have hlk' : (insertIndexUpdate table row (insertLocation table)).lookup c = some idx' := hlk
      by_cases hc : c ∈ table.columns
      · obtain ⟨k, _, hk2, hk3⟩ := getColumnIndex_mem table hcc c hc
        cases hold : table.multiColumnIndexData.lookup c with
        | none =>
          rw [hspec2 c hold] at hlk'
          cases hlk'
        | some m =>
          have := hspec1 k hk2 m (by rw [hk3]; exact hold)
          rw [hk3, hlk'] at this
          rw [Option.some.inj this]
          exact IndexMap.assign_sorted m _ _ (hk.1 c m hold)
      · rw [hspec3 c hc] at hlk'
        exact hk.1 c idx' hlk'
    · intro ci hci idx' hlk row' hrow'
      have hlk' : (insertIndexUpdate table row (insertLocation table)).lookup
          (table.columns.getD ci "") = some idx' := hlk
      have hci' : ci < table.columnCount := hci
      rw [pagesAfterInsert_flatten] at hrow'
      cases hold : table.multiColumnIndexData.lookup (table.columns.getD ci "") with
      | none =>
        rw [hspec2 _ hold] at hlk'
        cases hlk'
      | some m =>
        have := hspec1 ci hci' m hold
        rw [hlk'] at this
        rw [Option.some.inj this]
        rcases List.mem_append.1 hrow' with h | h
        · obtain ⟨e, he, hke⟩ := hk.2.1 ci hci' m hold row' h
          obtain ⟨e', he', hke'⟩ := IndexMap.key_assign m (row.getD ci 0) (insertLocation table) e he
          exact ⟨e', he', hke'.trans hke⟩
        · rw [List.mem_singleton.1 h]
          exact ⟨_, IndexMap.self_mem_assign m _ _, rfl⟩
    · intro c hc
      have hc' : c ∉ table.columns := hc
      show (insertIndexUpdate table row (insertLocation table)).lookup c = none
      rw [hspec3 c hc']
      exact hk.2.2 c hc'

theorem executeINSERT_indexed (s : State) (pq : ParsedQuery) (hinv : ReachInv s)
    (hix : IndexedInv s) : IndexedInv (executeINSERT pq s) := by
  obtain ⟨hfr, hn⟩ := executeINSERT_frame s pq (hinv.1 pq.tableName)
  apply IndexedInv.step_table pq.tableName hix hfr
  intro t' ht' hidx
  rcases Option.eq_none_or_eq_some (s.tables pq.tableName) with hts | ⟨table, hts⟩
  · exfalso
    have hsame : executeINSERT pq s = s := by
      unfold executeINSERT
      simp only [hts]
    rw [hsame, hts] at ht'
    cases ht'
  · by_cases hnil : table.multiColumnIndexData = []
    · exact absurd ((hn t' ht').2 table hts hnil) hidx
    · obtain ⟨c1, c2, c3, pages, hh, hne, hs, hk⟩ := hix pq.tableName table hts hnil
      obtain ⟨t1, pages', e1, e2, e3, e4, e5, e6, e7, e8⟩ :=
        executeINSERT_keyed s pq table pages hts hh c1 c2 c3 hne hs hk
      rw [e1] at ht'
      cases ht'
      exact ⟨e2, e3, e4, pages', e5, e6, e7, e8⟩

/-- The pages `blockify` cuts the valid lines into are non-empty. -/
theorem blockify_stored_nonempty (t : Table) (s : State) (file : SourceFile)
    (hsrc : s.sources t.sourceFileName = some file) (hcc : 0 < t.columnCount)
    (hm : 0 < t.maxRowsPerBlock) :
    ∃ pagesR : List (List Row),
      (∀ p ∈ pagesR, p ≠ []) ∧
      (t.blockify s).1 = true ∧
      (t.blockify s).2.1 = { t with rowCount := (pagesR.flatten.length : Int),
                                    blockCount := pagesR.length,
                                    rowsPerBlockCount := pagesR.map List.length } ∧
      (t.blockify s).2.2.tables = s.tables ∧ (t.blockify s).2.2.pages = s.pages ∧
      (∀ n, (∀ i : Nat, n ≠ pageNameOf t.tableName (i : Int)) →
        (t.blockify s).2.2.files n = s.files n) ∧
      Stored (insertTable (t.blockify s).2.2 (t.blockify s).2.1) t.tableName pagesR := by
  obtain ⟨pagesR, h1, h2, _, h4, h5, h6, h7, _, h9, h10⟩ := blockify_spec t s file hsrc hcc hm
  refine ⟨pagesR, h2, h4, h5, h6, h7, h10, ?_⟩
  have hname : (t.blockify s).2.1.tableName = t.tableName := by rw [h5]
  have htab : (insertTable (t.blockify s).2.2 (t.blockify s).2.1).tables t.tableName
      = some (t.blockify s).2.1 := by
    simp [insertTable, hname]
  have hwid : ∀ p ∈ pagesR, ∀ r ∈ p, r.length = (t.blockify s).2.1.columnCount := by
    intro p hp r hr
    rw [h5]
    have hmem : r ∈ file.lines.filter (fun l => decide (l.length = t.columnCount)) := by
      rw [← h1]
      exact List.mem_flatten.2 ⟨p, hp, hr⟩
    simpa using (List.mem_filter.1 hmem).2
  refine ⟨(t.blockify s).2.1, htab, hname, by rw [h5], by rw [h5], hwid, ?_⟩
  intro i hi
  obtain ⟨lines, extra, hf, hl⟩ := h9 i hi
  exact Page.load_rows _ t.tableName i _ pagesR lines extra htab (by rw [h5]) (by rw [h5]) hwid hi
    hf hl

/-- The indices built from the entries of the pages are keyed on these pages. -/
theorem keyedOn_of_entries (t : Table) (pages : List (List Row))
    (hcols : ∀ j, j < t.columnCount → t.multiColumnIndexData.lookup (t.columns.getD j "")
      = some ((indexEntries j pages).foldl (fun m x => IndexMap.assign m x.1 x.2) []))
    (hcc : t.columnCount = t.columns.length)
    (hother : ∀ c, c ∉ t.columns → t.multiColumnIndexData.lookup c = none) :
    KeyedOn t pages := by
  refine ⟨?_, ?_, hother⟩
  · intro c idx hlk
    by_cases hc : c ∈ t.columns
    · obtain ⟨k, _, hk2, hk3⟩ := getColumnIndex_mem t hcc c hc
      have := hcols k hk2
      rw [hk3, hlk] at this
      rw [Option.some.inj this]
      exact foldl_assign_sorted _
    · rw [hother c hc] at hlk
      cases hlk
  · intro ci hci idx hlk row hrow
    have := hcols ci hci
    rw [hlk] at this
    rw [Option.some.inj this]
    obtain ⟨p, r, hp, hr, hpr⟩ := (mem_flatten_iff_rowAt pages row).1 hrow
    have hmem : ((rowAt pages p r).getD ci 0, ((p : Int), (r : Int))) ∈ indexEntries ci pages :=
      (mem_indexEntries ci pages _).2 ⟨p, r, hp, hr, rfl⟩
    obtain ⟨loc, hloc⟩ := (lookup_foldl_assign_some (indexEntries ci pages)
      ((rowAt pages p r).getD ci 0)).2 ⟨_, hmem, rfl⟩
    refine ⟨_, mem_of_lookup _ _ _ hloc, ?_⟩
    rw [hpr]

/-- `executeLOAD` of a relation that is not in the catalogue keeps the invariant of the
indexed tables: the pages of the new table are non-empty and its indices keyed. -/
theorem executeLOAD_indexed (s : State) (pq : ParsedQuery) (hinv : ReachInv s)
    (hix : IndexedInv s) (hnew : s.tables pq.loadRelationName = none) :
    IndexedInv (executeLOAD pq s) := by
  obtain ⟨N, hN⟩ : ∃ N, N = pq.loadRelationName := ⟨_, rfl⟩
  rw [← hN] at hnew
  have hexec0 : executeLOAD pq s = (if ((Table.new N).load s).1 then
      (buildAllIndices ((Table.new N).load s).2.1
        (insertTable ((Table.new N).load s).2.2 ((Table.new N).load s).2.1)).2
      else ((Table.new N).load s).2.2) := by
    rw [hN]
    rfl
  rcases Option.eq_none_or_eq_some (s.sources (Table.new N).sourceFileName) with hsrc | ⟨file, hsrc⟩
  · have hload : (Table.new N).load s = (false, Table.new N, s) := by
      unfold Table.load
      simp only [hsrc]
    rw [hexec0, hload]
    exact hix
  · by_cases hex : ((Table.new N).extractColumnNames file.header).1 = true
    · obtain ⟨x1, x2, x3, x4, x5, x6, x7⟩ := extractColumnNames_ok (Table.new N) file.header hex
      obtain ⟨t1, ht1⟩ : ∃ t1, t1 = ((Table.new N).extractColumnNames file.header).2 := ⟨_, rfl⟩
      rw [← ht1] at x1 x2 x3 x4 x5 x6 x7
      have hname1 : t1.tableName = N := x1
      have hload : (Table.new N).load s = t1.blockify s := by
        unfold Table.load
        simp only [hsrc, hex, if_true]
        rw [ht1]
      obtain ⟨pagesR, b0, b1, b2, b3, b4, b5, b6⟩ := blockify_stored_nonempty t1 s file
        (by rw [x2]; exact hsrc) x5 x7
      obtain ⟨tb, htb⟩ : ∃ tb, tb = (t1.blockify s).2.1 := ⟨_, rfl⟩
      obtain ⟨sb, hsb⟩ : ∃ sb, sb = (t1.blockify s).2.2 := ⟨_, rfl⟩
      rw [← htb] at b2 b6
      rw [← hsb] at b3 b4 b5 b6
      rw [hname1] at b5 b6
      have hexec : executeLOAD pq s = (buildAllIndices tb (insertTable sb tb)).2 := by
        rw [hexec0, hload, b1, if_pos rfl, htb, hsb]
      have htbn : tb.tableName = N := by rw [b2]; exact hname1
      have hfresh : Fresh (insertTable sb tb) N := by
        intro p hp j
        have hp' : p ∈ s.pages := by
          rw [← b4]
          exact hp
        exact hinv.2.1 N hnew p hp' j
      have hheld : Held (insertTable sb tb) N pagesR := Held_of_stored_fresh _ _ _ b6 hfresh
      have hfr1 : Frame N s sb := by
        refine ⟨fun other _ => by rw [b3], ?_, fun n hn => by rw [b3]; exact hn, ?_⟩
        · intro other ho pg h
          apply Held_of_same s sb other pg h (by rw [b3]) b4
          intro i
          apply b5
          intro j e
          exact ho (pageNameOf_injective _ _ _ _ e).1
        · intro n _ hf p hp j
          rw [b4] at hp
          exact hf p hp j
      have hfr2 : Frame N sb (insertTable sb tb) := by
        have := Frame.of_insertTable sb tb
        rw [htbn] at this
        exact this
      have htab : (insertTable sb tb).tables N = some tb := by
        simp [insertTable, htbn]
      have hcc : tb.columnCount = tb.columns.length := by rw [b2]; exact x4
      have hnd : tb.columns.Nodup := by rw [b2]; exact x6
      have hpos : 0 < tb.columnCount := by rw [b2]; exact x5
      obtain ⟨M, s', hbuild, ht', hh', hfr3, hcols, hother⟩ :=
        buildAllIndices_spec (insertTable sb tb) N pagesR tb htab hheld hcc hnd
      rw [hexec, hbuild]
      apply IndexedInv.step_table N hix (hfr1.comp (hfr2.comp hfr3))
      intro t' h _
      rw [ht'] at h
      cases h
      exact ⟨hcc, hpos, hnd, pagesR, hh', b0, soundOn_of_entries _ pagesR hcc hcols hother,
        keyedOn_of_entries _ pagesR hcols hcc hother⟩
    · have hload : (Table.new N).load s
          = (false, ((Table.new N).extractColumnNames file.header).2, s) := by
        unfold Table.load
        simp only [hsrc, hex]
        rfl
      rw [hexec0, hload]
      exact hix

/-- Every reachable state satisfies the invariant of the indexed tables. -/
theorem Reachable.indexed {s : State} (h : Reachable s) : IndexedInv s := by
  induction h with
  | init s ht hp =>
    intro n t h
    rw [ht n] at h
    cases h
  | load s pq hr hnew ih => exact executeLOAD_indexed s pq hr.inv ih hnew
  | insert s pq hr ih => exact executeINSERT_indexed s pq hr.inv ih
  | update s pq hr ih => exact executeUPDATE_indexed s pq hr.inv ih
  | delete s s' pq hr hd ih => exact executeDELETE_indexed s s' pq hr.inv ih hd

/-! ## Fetching rows by location -/

/-- On a consistent table `getPage` returns a page that carries its page name. -/
theorem Held.getPage_name {s : State} {name : String} {pages : List (List Row)}
    (h : Held s name pages) (i : Nat) (hi : i < pages.length) :
    (getPage s name (i : Int)).1.pageName ≠ "" := by
  obtain ⟨t, ht, htn, hbc, hrpb, hw, hd, hc⟩ := h
  rw [getPage_fst]
  unfold viewPage
  cases hf : s.pages.find? (fun p => decide (p.pageName = pageNameOf name (i : Int))) with
  | some found =>
    simp only
    rw [(find?_name_some _ _ _ hf).1]
    exact pageNameOf_ne_empty _ _
  | none =>
    simp only
    obtain ⟨h1, h2⟩ := hd i hi
    have hval : (Page.load s name (i : Int)).pageIndex ≠ -1 := by rw [h2]; omega
    rw [if_neg hval, (Page.load_valid s name i hval).1]
    exact pageNameOf_ne_empty _ _

theorem writeRow_append (tR : Table) (hne : tR.sourceFileName ≠ "") (src : Sources)
    (hd : List String) (l0 : List (List Int)) (row : Row)
    (h : src tR.sourceFileName = some { header := hd, lines := l0 }) :
    (tR.writeRow src row) tR.sourceFileName = some { header := hd, lines := l0 ++ [row] } := by
  simp [Table.writeRow, hne, setFile, h]

/-- `fetchRows` on a consistent table with locations inside its pages: the rows at the
locations are appended to the source file of the result, in the order of the locations; the
catalogue stays as it is. -/
theorem fetchRows_spec (tR t : Table) (name : String) (pages : List (List Row))
    (hname : t.tableName = name) (hne : tR.sourceFileName ≠ "") (hd : List String)
    (hrow : ∀ p ∈ pages, ∀ r ∈ p, r ≠ []) (locs : List RowLocation) :
    ∀ (cache : List (Int × Page)) (s : State) (l0 : List (List Int)),
      Held s name pages →
      (∀ i pg, cache.lookup i = some pg →
        ∃ p : Nat, i = (p : Int) ∧ p < pages.length ∧ pg.rows = pages.getD p []) →
      (∀ loc ∈ locs, ∃ p r : Nat, loc = ((p : Int), (r : Int)) ∧ p < pages.length ∧
        r < (pages.getD p []).length) →
      s.sources tR.sourceFileName = some { header := hd, lines := l0 } →
      (fetchRows tR t locs cache s).sources tR.sourceFileName
          = some { header := hd
                   lines := l0 ++ locs.map (fun loc => rowAt pages loc.1.toNat loc.2.toNat) } ∧
        (fetchRows tR t locs cache s).tables = s.tables := by
  induction locs with
  | nil =>
    intro cache s l0 _ _ _ hsrc
    rw [fetchRows]
    simpa using hsrc
  | cons loc rest ih =>
    intro cache s l0 hh hcache hlocs hsrc
    obtain ⟨p, r, hloc, hp, hr⟩ := hlocs loc (List.mem_cons_self _ _)
    have hrest : ∀ loc ∈ rest, ∃ p r : Nat, loc = ((p : Int), (r : Int)) ∧ p < pages.length ∧
        r < (pages.getD p []).length := fun l hl => hlocs l (List.mem_cons_of_mem _ hl)
    have hmem : rowAt pages p r ∈ pages.getD p [] := by
      unfold rowAt
      rw [List.getD_eq_getElem _ _ hr]
      exact List.getElem_mem _
    have hrne : rowAt pages p r ≠ [] := hrow _ (Held.getD_mem hp) _ hmem
    have hmap : (loc :: rest).map (fun loc => rowAt pages loc.1.toNat loc.2.toNat)
        = rowAt pages p r :: rest.map (fun loc => rowAt pages loc.1.toNat loc.2.toNat) := by
      rw [List.map_cons, hloc]
      simp
    rw [hmap, fetchRows, hloc]
    simp only
    cases hc : cache.lookup (p : Int) with
    | none =>
      simp only [hname]
      rw [if_neg (hh.getPage_name p hp)]
      have hrows := (hh.getPage_rows p hp).1
      have hget : (getPage s name (p : Int)).1.getRow (r : Int) = rowAt pages p r := by
        rw [Page.getRow_lt _ r (by rw [hrows]; exact hr), hrows]
        rfl
      rw [hget, if_pos hrne]
      have hh1 : Held { (getPage s name (p : Int)).2 with
          sources := tR.writeRow (getPage s name (p : Int)).2.sources (rowAt pages p r) }
          name pages := Held_setSources _ _ _ _ (Held_getPage s name p name pages hh)
      have hsrc1 := writeRow_append tR hne (getPage s name (p : Int)).2.sources hd l0
        (rowAt pages p r) (by rw [getPage_sources]; exact hsrc)
      have hcache1 : ∀ i pg,
          List.lookup i (((p : Int), (getPage s name (p : Int)).1) :: cache) = some pg →
          ∃ q : Nat, i = (q : Int) ∧ q < pages.length ∧ pg.rows = pages.getD q [] := by
        intro i pg hl
        by_cases hi : i = (p : Int)
        · subst hi
          simp only [List.lookup_cons, beq_self_eq_true] at hl
          cases hl
          exact ⟨p, rfl, hp, hrows⟩
        · have hb : (i == (p : Int)) = false := by simpa using hi
          simp only [List.lookup_cons, hb] at hl
          exact hcache i pg hl
      obtain ⟨i1, i2⟩ := ih _ _ _ hh1 hcache1 hrest hsrc1
      refine ⟨?_, ?_⟩
      · rw [i1]
        simp
      · rw [i2]
        exact getPage_tables s name p
    | some page =>
      simp only
      obtain ⟨q, hq, hqlt, hrows⟩ := hcache _ _ hc
      have hqp : q = p := by omega
      subst hqp
      have hget : page.getRow (r : Int) = rowAt pages q r := by
        rw [Page.getRow_lt _ r (by rw [hrows]; exact hr), hrows]
        rfl
      rw [hget, if_pos hrne]
      have hh1 : Held { s with sources := tR.writeRow s.sources (rowAt pages q r) } name pages :=
        Held_setSources _ _ _ _ hh
      have hsrc1 := writeRow_append tR hne s.sources hd l0 (rowAt pages q r) hsrc
      obtain ⟨i1, i2⟩ := ih _ _ _ hh1 hcache hrest hsrc1
      refine ⟨?_, ?_⟩
      · rw [i1]
        simp
      · rw [i2]

/-! ## Index entries and rows of a column with distinct values -/

/-- Over a column whose values are distinct, the rows at the locations of a sound and complete
index with ascending keys are the rows of the table, up to order; this stays so when both
sides are restricted by a condition on the value of the column. -/
theorem index_rows_perm (idx : IndexMap) (pages : List (List Row)) (ci : Nat)
    (hsorted : idx.Pairwise (fun a b => a.1 < b.1))
    (hsound : ∀ e ∈ idx, ∃ p r : Nat, e.2 = ((p : Int), (r : Int)) ∧ p < pages.length ∧
      r < (pages.getD p []).length ∧ (rowAt pages p r).getD ci 0 = e.1)
    (hcomplete : ∀ row ∈ pages.flatten, ∃ e ∈ idx, e.1 = row.getD ci 0)
    (hdist : (pages.flatten.map (fun row => row.getD ci 0)).Nodup) (P : Int → Bool) :
    ((idx.filter (fun e => P e.1)).map (fun e => rowAt pages e.2.1.toNat e.2.2.toNat)).Perm
      (pages.flatten.filter (fun row => P (row.getD ci 0))) := by
  have hf : ∀ e ∈ idx, (rowAt pages e.2.1.toNat e.2.2.toNat).getD ci 0 = e.1 ∧
      rowAt pages e.2.1.toNat e.2.2.toNat ∈ pages.flatten := by
    intro e he
    obtain ⟨p, r, hloc, hp, hr, hv⟩ := hsound e he
    rw [hloc]
    simp only [Int.toNat_ofNat]
    exact ⟨hv, (mem_flatten_iff_rowAt pages _).2 ⟨p, r, hp, hr, rfl⟩⟩
  have hnd1 : (idx.map (fun e => rowAt pages e.2.1.toNat e.2.2.toNat)).Nodup := by
    unfold List.Nodup
    rw [List.pairwise_map]
    apply List.Pairwise.imp_of_mem _ hsorted
    intro a b ha hb hab e
    have h1 := (hf a ha).1
    have h2 := (hf b hb).1
    rw [e] at h1
    omega
  have hnd2 : pages.flatten.Nodup := List.Nodup.of_map _ hdist
  have hperm : (idx.map (fun e => rowAt pages e.2.1.toNat e.2.2.toNat)).Perm pages.flatten := by
    rw [List.perm_ext_iff_of_nodup hnd1 hnd2]
    intro row
    constructor
    · intro h
      obtain ⟨e, he, hrow⟩ := List.mem_map.1 h
      rw [← hrow]
      exact (hf e he).2
    · intro h
      obtain ⟨e, he, hk⟩ := hcomplete row h
      refine List.mem_map.2 ⟨e, he, ?_⟩
      apply List.inj_on_of_nodup_map hdist (hf e he).2 h
      rw [(hf e he).1, hk]
  have hfm : (idx.filter (fun e => P e.1)).map (fun e => rowAt pages e.2.1.toNat e.2.2.toNat)
      = (idx.map (fun e => rowAt pages e.2.1.toNat e.2.2.toNat)).filter
          (fun row => P (row.getD ci 0)) := by
    rw [List.filter_map]
    congr 1
    apply List.filter_congr
    intro e he
    simp only [Function.comp]
    rw [(hf e he).1]
  rw [hfm]
  exact hperm.filter _

/-- In an index with ascending keys the entries with key `v` are the one entry `find` yields. -/
theorem filter_key_of_lookup (idx : IndexMap) (v : Int) (loc : RowLocation)
    (hsorted : idx.Pairwise (fun a b => a.1 < b.1)) (h : idx.lookup v = some loc) :
    idx.filter (fun e => decide (e.1 = v)) = [(v, loc)] := by
  induction idx with
  | nil => simp at h
  | cons x rest ih =>
    obtain ⟨k, l⟩ := x
    rw [List.pairwise_cons] at hsorted
    by_cases hk : v = k
    · subst hk
      simp only [List.lookup_cons, beq_self_eq_true] at h
      cases h
      have hrest : rest.filter (fun e => decide (e.1 = v)) = [] := by
        apply filter_eq_nil_of_forall
        intro e he
        have := hsorted.1 e he
        simp only at this
        exact decide_eq_false (by omega)
      rw [List.filter_cons_of_pos (by simp), hrest]
    · have hb : (v == k) = false := by simpa using hk
      simp only [List.lookup_cons, hb] at h
      rw [List.filter_cons_of_neg (by simpa using fun e => hk e.symm)]
      exact ih hsorted.2 h

/-- A key that `find` does not yield is the key of no entry. -/
theorem not_mem_of_lookup_none (idx : IndexMap) (v : Int) (h : idx.lookup v = none) :
    ∀ e ∈ idx, e.1 ≠ v := by
  induction idx with
  | nil => intro e he; cases he
  | cons x rest ih =>
    obtain ⟨k, l⟩ := x
    by_cases hk : v = k
    · subst hk
      simp [List.lookup_cons] at h
    · have hb : (v == k) = false := by simpa using hk
      simp only [List.lookup_cons, hb] at h
      intro e he
      rcases List.mem_cons.1 he with e1 | e1
      · rw [e1]
        exact fun e2 => hk e2.symm
      · exact ih h e e1

/-! ## The two paths of SEARCH -/

/-- The finalisation of `executeSEARCH` when the source file of the result holds the lines
`L` of the right width: the result is registered and stored with exactly these rows. -/
theorem finishResult_spec (name : String) (columns : List String) (s1 : State) (L : List Row)
    (hpos : 0 < columns.length)
    (hsrc : s1.sources (Table.create name columns).sourceFileName
      = some { header := columns, lines := L })
    (hw : ∀ l ∈ L, l.length = columns.length) :
    ∃ tableR pagesR,
      (finishResult (Table.create name columns) s1).tables name = some tableR ∧
      tableR.columns = columns ∧
      tableR.rowCount = (L.length : Int) ∧
      Stored (finishResult (Table.create name columns) s1) name pagesR ∧
      emittedRows (finishResult (Table.create name columns) s1) name = some L ∧
      pagesR.flatten = L := by
  have hRcc : (Table.create name columns).columnCount = columns.length := rfl
  have hRm : 0 < (Table.create name columns).maxRowsPerBlock := by
    have hl : columns.length > 0 ∧ BLOCK_SIZE > 0 := ⟨hpos, by decide⟩
    simp only [Table.create, if_pos hl]
    exact computeMaxRowsPerBlock_pos _
  obtain ⟨pagesR, hflat, _, _, hb1, hb2, _, _, hst⟩ := blockify_stored _ s1 _ hsrc
    (by rw [hRcc]; exact hpos) hRm (by
      intro l hl
      rw [hRcc]
      exact hw l hl)
  have hfin : finishResult (Table.create name columns) s1 = insertTable
      ((Table.create name columns).blockify s1).2.2
      ((Table.create name columns).blockify s1).2.1 := by
    simp only [finishResult, hb1, if_true]
  rw [hfin]
  refine ⟨((Table.create name columns).blockify s1).2.1, pagesR, ?_, ?_, ?_, hst, ?_, hflat⟩
  · have hbn : ((Table.create name columns).blockify s1).2.1.tableName = name := by
      rw [hb2]; rfl
    simp [insertTable, hbn]
  · rw [hb2]; rfl
  · rw [hb2]
    simp only
    rw [hflat]
  · obtain ⟨_, _, _, _, _, _, _, _, hbs, _⟩ := blockify_spec _ s1 _ hsrc
      (by rw [hRcc]; exact hpos) hRm
    have hsame : (insertTable
        ((Table.create name columns).blockify s1).2.2
        ((Table.create name columns).blockify s1).2.1).sources = s1.sources := hbs
    unfold emittedRows
    rw [hsame]
    have hname : (Table.create name columns).sourceFileName
        = "../data/temp/" ++ name ++ ".csv" := rfl
    rw [← hname, hsrc]
    rfl

/-- The index path of `executeSEARCH`: when the lookup counts as used, the rows at its
locations are fetched and no scan follows. -/
theorem executeSEARCH_index_used (fuel : Nat) (pq : ParsedQuery) (s : State) (table : Table)
    (index : IndexMap) (locs : List RowLocation)
    (ht : s.tables pq.selectionRelationName = some table)
    (hidx : table.multiColumnIndexData.lookup pq.selectionFirstColumnName = some index)
    (hlit : pq.selectType = SelectType.INT_LITERAL)
    (hl : indexLookup index pq.selectionIntLiteral pq.selectionBinaryOperator = (locs, true)) :
    executeSEARCH fuel pq s = some
      (finishResult (Table.create pq.selectionResultRelationName table.columns)
        (if locs ≠ [] then
          fetchRows (Table.create pq.selectionResultRelationName table.columns) table locs []
            ((Table.create pq.selectionResultRelationName table.columns).createFile s)
         else (Table.create pq.selectionResultRelationName table.columns).createFile s)) := by
  have hix : table.isIndexed pq.selectionFirstColumnName = true := by
    simp [Table.isIndexed, hidx]
  unfold executeSEARCH
  simp only [ht, hix, hlit, hidx, hl, and_self, if_true, true_and]
  by_cases hne : locs = []
  · simp [hne]
  · simp [hne]

/-- The scan path of `executeSEARCH`: when the lookup does not count as used, the table is
scanned from the state in which the result file was created. -/
theorem executeSEARCH_index_unused (fuel : Nat) (pq : ParsedQuery) (s : State) (table : Table)
    (index : IndexMap) (locs : List RowLocation)
    (ht : s.tables pq.selectionRelationName = some table)
    (hidx : table.multiColumnIndexData.lookup pq.selectionFirstColumnName = some index)
    (hlit : pq.selectType = SelectType.INT_LITERAL)
    (hl : indexLookup index pq.selectionIntLiteral pq.selectionBinaryOperator = (locs, false))
    (hcol : ¬ table.getColumnIndex pq.selectionFirstColumnName < 0) :
    executeSEARCH fuel pq s =
      (cursorLoop
          (searchScanBody (Table.create pq.selectionResultRelationName table.columns)
            (table.getColumnIndex pq.selectionFirstColumnName) pq.selectionIntLiteral
            pq.selectionBinaryOperator) fuel ()
          (table.getCursor
            ((Table.create pq.selectionResultRelationName table.columns).createFile s)).1
          (table.getCursor
            ((Table.create pq.selectionResultRelationName table.columns).createFile s)).2).map
        (fun r =>
          finishResult (Table.create pq.selectionResultRelationName table.columns) r.2.2) := by
  have hix : table.isIndexed pq.selectionFirstColumnName = true := by
    simp [Table.isIndexed, hidx]
  unfold executeSEARCH
  simp only [ht, hix, hlit, hidx, hl, and_self, if_true, true_and]
  simp only [Bool.false_eq_true, false_and, if_false, if_true, if_neg hcol]
  cases cursorLoop
      (searchScanBody (Table.create pq.selectionResultRelationName table.columns)
        (table.getColumnIndex pq.selectionFirstColumnName) pq.selectionIntLiteral
        pq.selectionBinaryOperator) fuel ()
      (table.getCursor
        ((Table.create pq.selectionResultRelationName table.columns).createFile s)).1
      (table.getCursor
        ((Table.create pq.selectionResultRelationName table.columns).createFile s)).2 <;> rfl

/-- The full scan of `executeSEARCH` over a consistent table with non-empty pages writes the
rows that satisfy the comparison, in scan order. -/
theorem searchScan_result (pq : ParsedQuery) (s : State) (table : Table)
    (pages : List (List Row)) (fuel : Nat) (ci : Nat)
    (ht : s.tables pq.selectionRelationName = some table)
    (hh : Held s pq.selectionRelationName pages) (hne : ∀ p ∈ pages, p ≠ [])
    (hci : table.getColumnIndex pq.selectionFirstColumnName = (ci : Int))
    (hcilt : ci < table.columnCount)
    (hf : pages.flatten.length < fuel) :
    ∃ c1 s1, cursorLoop
        (searchScanBody (Table.create pq.selectionResultRelationName table.columns)
          (table.getColumnIndex pq.selectionFirstColumnName) pq.selectionIntLiteral
          pq.selectionBinaryOperator) fuel ()
        (table.getCursor
          ((Table.create pq.selectionResultRelationName table.columns).createFile s)).1
        (table.getCursor
          ((Table.create pq.selectionResultRelationName table.columns).createFile s)).2
        = some ((), c1, s1) ∧
      s1.sources (Table.create pq.selectionResultRelationName table.columns).sourceFileName
        = some { header := table.columns
                 lines := linearScanRows pages.flatten ci pq.selectionBinaryOperator
                   pq.selectionIntLiteral } := by
  obtain ⟨hn, hw⟩ := hh.table_eq ht
  have hrow : ∀ p ∈ pages, ∀ r ∈ p, r ≠ [] := by
    intro p hp r hr e
    have := hw p hp r hr
    rw [e] at this
    simp at this
    omega
  have hsrc := Table.create_source_ne pq.selectionResultRelationName table.columns
  have hH0 : Held ((Table.create pq.selectionResultRelationName table.columns).createFile s)
      pq.selectionRelationName pages := Held_setSources s _ _ pages hh
  obtain ⟨c1, s1, e1, hs1, _, _⟩ := cursorLoop_table
    (searchScanBody (Table.create pq.selectionResultRelationName table.columns) (ci : Int)
      pq.selectionIntLiteral pq.selectionBinaryOperator)
    ((Table.create pq.selectionResultRelationName table.columns).createFile s)
    pq.selectionRelationName pages hH0 hne hrow () fuel hf
  have h0 : ((Table.create pq.selectionResultRelationName table.columns).createFile s).sources
      (Table.create pq.selectionResultRelationName table.columns).sourceFileName
      = some { header := table.columns, lines := [] } := by
    simp [Table.createFile, setFile, Table.create]
  have hall : ∀ r ∈ pages.flatten, ci < r.length := by
    intro r hr
    obtain ⟨p, hp, hrp⟩ := List.mem_flatten.1 hr
    rw [hw p hp r hrp]
    exact hcilt
  have hsrc1 := searchScan_foldl (Table.create pq.selectionResultRelationName table.columns)
    hsrc ci pq.selectionIntLiteral pq.selectionBinaryOperator pages.flatten hall _ table.columns
    [] h0
  rw [← hs1, List.nil_append] at hsrc1
  refine ⟨c1, s1, ?_, hsrc1⟩
  rw [hci]
  simp only [Table.getCursor, hn]
  exact e1

/-! ## The index path agrees with the linear scan -/

/-- The rows stored for a table are the rows of its pages. -/
theorem Stored.storedRows_eq {s : State} {name : String} {pages : List (List Row)}
    (h : Stored s name pages) : storedRows s name = some pages.flatten := by
  obtain ⟨t, h1, _, h3, _, _, h6⟩ := h
  unfold storedRows
  rw [h1]
  simp only [Option.map_some', h3]
  congr 1
  have hmap : (List.range pages.length).map (fun (i : Nat) => (Page.load s name (i : Int)).rows)
      = pages := by
    apply List.ext_getElem (by simp)
    intro i hi1 hi2
    simp only [List.getElem_map, List.getElem_range]
    rw [(h6 i hi2).1, List.getD_eq_getElem _ _ hi2]
  rw [List.flatMap_def, hmap]

theorem Held.stored {s : State} {name : String} {pages : List (List Row)}
    (h : Held s name pages) : Stored s name pages := by
  obtain ⟨t, h1, h2, h3, h4, h5, h6, _⟩ := h
  exact ⟨t, h1, h2, h3, h4, h5, h6⟩

/-- The index path of `executeSEARCH` over a column with distinct values, when the locations
looked up are those of the index entries whose key satisfies a condition: the rows emitted
are, up to order, the rows whose value satisfies the condition. -/
theorem search_via_entries (fuel : Nat) (pq : ParsedQuery) (s : State) (table : Table)
    (idx : IndexMap) (pages : List (List Row)) (ci : Nat) (P : Int → Bool)
    (ht : s.tables pq.selectionRelationName = some table)
    (hidx : table.multiColumnIndexData.lookup pq.selectionFirstColumnName = some idx)
    (hlit : pq.selectType = SelectType.INT_LITERAL)
    (hh : Held s pq.selectionRelationName pages)
    (hcc : table.columnCount = table.columns.length) (hpos : 0 < table.columnCount)
    (hsorted : idx.Pairwise (fun a b => a.1 < b.1))
    (hsound : ∀ e ∈ idx, ∃ p r : Nat, e.2 = ((p : Int), (r : Int)) ∧ p < pages.length ∧
      r < (pages.getD p []).length ∧ (rowAt pages p r).getD ci 0 = e.1)
    (hcomplete : ∀ row ∈ pages.flatten, ∃ e ∈ idx, e.1 = row.getD ci 0)
    (hdist : (pages.flatten.map (fun row => row.getD ci 0)).Nodup)
    (hl : indexLookup idx pq.selectionIntLiteral pq.selectionBinaryOperator
      = ((idx.filter (fun e => P e.1)).map Prod.snd, true)) :
    ∃ s' emitted, executeSEARCH fuel pq s = some s' ∧
      emittedRows s' pq.selectionResultRelationName = some emitted ∧
      storedRows s' pq.selectionResultRelationName = some emitted ∧
      emitted.Perm (pages.flatten.filter (fun row => P (row.getD ci 0))) := by
  obtain ⟨hn, hw⟩ := hh.table_eq ht
  have hrow : ∀ p ∈ pages, ∀ r ∈ p, r ≠ [] := by
    intro p hp r hr e
    have := hw p hp r hr
    rw [e] at this
    simp at this
    omega
  have hexec := executeSEARCH_index_used fuel pq s table idx _ ht hidx hlit hl
  have h0 : ((Table.create pq.selectionResultRelationName table.columns).createFile s).sources
      (Table.create pq.selectionResultRelationName table.columns).sourceFileName
      = some { header := table.columns, lines := [] } := by
    simp [Table.createFile, setFile, Table.create]
  have hlocs : ∀ loc ∈ (idx.filter (fun e => P e.1)).map Prod.snd,
      ∃ p r : Nat, loc = ((p : Int), (r : Int)) ∧ p < pages.length ∧
        r < (pages.getD p []).length := by
    intro loc hloc
    obtain ⟨e, he, hel⟩ := List.mem_map.1 hloc
    obtain ⟨p, r, h1, h2, h3, _⟩ := hsound e (List.mem_filter.1 he).1
    exact ⟨p, r, by rw [← hel]; exact h1, h2, h3⟩
  have hsrc : (if (idx.filter (fun e => P e.1)).map Prod.snd ≠ [] then
        fetchRows (Table.create pq.selectionResultRelationName table.columns) table
          ((idx.filter (fun e => P e.1)).map Prod.snd) []
          ((Table.create pq.selectionResultRelationName table.columns).createFile s)
      else (Table.create pq.selectionResultRelationName table.columns).createFile s).sources
        (Table.create pq.selectionResultRelationName table.columns).sourceFileName
      = some { header := table.columns
               lines := (idx.filter (fun e => P e.1)).map
                 (fun e => rowAt pages e.2.1.toNat e.2.2.toNat) } := by
    by_cases hnil : (idx.filter (fun e => P e.1)).map Prod.snd = []
    · rw [if_neg (by simpa using hnil), h0]
      have hnil2 : idx.filter (fun e => P e.1) = [] := by simpa using hnil
      rw [hnil2]
      rfl
    · rw [if_pos hnil]
      have := (fetchRows_spec (Table.create pq.selectionResultRelationName table.columns) table
        pq.selectionRelationName pages hn
        (Table.create_source_ne pq.selectionResultRelationName table.columns) table.columns hrow
        ((idx.filter (fun e => P e.1)).map Prod.snd) []
        ((Table.create pq.selectionResultRelationName table.columns).createFile s) []
        (Held_setSources s _ _ pages hh) (by intro i pg h; simp at h) hlocs h0).1
      rw [this, List.nil_append, List.map_map]
      rfl
  have hwid : ∀ l ∈ (idx.filter (fun e => P e.1)).map
      (fun e => rowAt pages e.2.1.toNat e.2.2.toNat), l.length = table.columns.length := by
    intro l hl
    obtain ⟨e, he, hel⟩ := List.mem_map.1 hl
    obtain ⟨p, r, h1, h2, h3, _⟩ := hsound e (List.mem_filter.1 he).1
    rw [← hel, h1]
    simp only [Int.toNat_ofNat]
    rw [← hcc]
    apply hw _ (Held.getD_mem h2)
    unfold rowAt
    rw [List.getD_eq_getElem _ _ h3]
    exact List.getElem_mem _
  obtain ⟨tableR, pagesR, _, _, _, hst, hem, hflat⟩ := finishResult_spec
    pq.selectionResultRelationName table.columns _ _ (by rw [← hcc]; exact hpos) hsrc hwid
  refine ⟨_, _, hexec, hem, ?_, index_rows_perm idx pages ci hsorted hsound hcomplete hdist P⟩
  rw [hst.storedRows_eq, hflat]

/-- The scan path of `executeSEARCH` over a consistent table with non-empty pages: the rows
emitted are the rows the linear scan selects. -/
theorem search_via_scan (fuel : Nat) (pq : ParsedQuery) (s : State) (table : Table)
    (idx : IndexMap) (pages : List (List Row)) (ci : Nat) (locs : List RowLocation)
    (ht : s.tables pq.selectionRelationName = some table)
    (hidx : table.multiColumnIndexData.lookup pq.selectionFirstColumnName = some idx)
    (hlit : pq.selectType = SelectType.INT_LITERAL)
    (hh : Held s pq.selectionRelationName pages) (hne : ∀ p ∈ pages, p ≠ [])
    (hcc : table.columnCount = table.columns.length) (hpos : 0 < table.columnCount)
    (hci : table.getColumnIndex pq.selectionFirstColumnName = (ci : Int))
    (hcilt : ci < table.columnCount) (hf : pages.flatten.length < fuel)
    (hl : indexLookup idx pq.selectionIntLiteral pq.selectionBinaryOperator = (locs, false)) :
    ∃ s' emitted, executeSEARCH fuel pq s = some s' ∧
      emittedRows s' pq.selectionResultRelationName = some emitted ∧
      storedRows s' pq.selectionResultRelationName = some emitted ∧
      emitted.Perm (linearScanRows pages.flatten ci pq.selectionBinaryOperator
        pq.selectionIntLiteral) := by
  obtain ⟨hn, hw⟩ := hh.table_eq ht
  have hexec := executeSEARCH_index_unused fuel pq s table idx locs ht hidx hlit hl
    (by rw [hci]; omega)
  obtain ⟨c1, s1, e1, hsrc⟩ := searchScan_result pq s table pages fuel ci ht hh hne hci hcilt hf
  rw [e1] at hexec
  have hwid : ∀ l ∈ linearScanRows pages.flatten ci pq.selectionBinaryOperator
      pq.selectionIntLiteral, l.length = table.columns.length := by
    intro l hl
    obtain ⟨p, hp, hrp⟩ := List.mem_flatten.1 (List.mem_filter.1 hl).1
    rw [← hcc]
    exact hw p hp l hrp
  obtain ⟨tableR, pagesR, _, _, _, hst, hem, hflat⟩ := finishResult_spec
    pq.selectionResultRelationName table.columns s1 _ (by rw [← hcc]; exact hpos) hsrc hwid
  refine ⟨_, _, hexec, hem, ?_, List.Perm.refl _⟩
  rw [hst.storedRows_eq, hflat]

/-- C38: in a state reached by `LOAD`, `INSERT`, `UPDATE` and `DELETE` commands, a table that
has an index on column `c` carries the index `executeLOAD` built, maintained by the `INSERT`s
that followed (`UPDATE` and `DELETE` drop all indices).  If no two rows of the table hold the
same value in `c`, then for every operator and every integer `v` the command
`R <- SEARCH FROM T WHERE c op v` ends normally with enough fuel, and the rows it emits, which
are the rows it stores for `R`, are as a multiset the rows the linear scan selects, the rows
with `row[c] op v`. -/
theorem executeSEARCH_index_agrees_with_scan (s : State) (pq : ParsedQuery) (table : Table)
    (rows : List Row) (fuel : Nat) (ci : Nat)
    (hr : Reachable s)
    (ht : s.tables pq.selectionRelationName = some table)
    (hix : table.isIndexed pq.selectionFirstColumnName = true)
    (hlit : pq.selectType = SelectType.INT_LITERAL)
    (hci : table.getColumnIndex pq.selectionFirstColumnName = (ci : Int))
    (hrows : storedRows s pq.selectionRelationName = some rows)
    (hdist : (rows.map (fun row => row.getD ci 0)).Nodup)
    (hfuel : rows.length < fuel) :
    ∃ s' emitted, executeSEARCH fuel pq s = some s' ∧
      emittedRows s' pq.selectionResultRelationName = some emitted ∧
      storedRows s' pq.selectionResultRelationName = some emitted ∧
      emitted.Perm (linearScanRows rows ci pq.selectionBinaryOperator pq.selectionIntLiteral) := by
  obtain ⟨idx, hidx⟩ : ∃ idx,
      table.multiColumnIndexData.lookup pq.selectionFirstColumnName = some idx := by
    unfold Table.isIndexed at hix
    exact Option.isSome_iff_exists.1 hix
  have hidxne : table.multiColumnIndexData ≠ [] := by
    intro e
    rw [e] at hidx
    simp at hidx
  obtain ⟨hcc, hpos, hnd, pages, hh, hne, hsound, hkeyed⟩ :=
    hr.indexed pq.selectionRelationName table ht hidxne
  have hcol : pq.selectionFirstColumnName ∈ table.columns := by
    by_contra hc
    rw [hkeyed.2.2 _ hc] at hidx
    cases hidx
  obtain ⟨k, hk1, hk2, hk3⟩ := getColumnIndex_mem table hcc _ hcol
  have hkci : k = ci := by
    rw [hk1] at hci
    exact Int.ofNat.inj hci
  subst hkci
  have hrows2 : rows = pages.flatten := by
    rw [hh.stored.storedRows_eq] at hrows
    exact (Option.some.inj hrows).symm
  subst hrows2
  have hsorted := hkeyed.1 _ idx hidx
  have hsound2 : ∀ e ∈ idx, ∃ p r : Nat, e.2 = ((p : Int), (r : Int)) ∧ p < pages.length ∧
      r < (pages.getD p []).length ∧ (rowAt pages p r).getD k 0 = e.1 := by
    intro e he
    obtain ⟨ci', p, r, h1, _, h3, h4, h5, h6⟩ := hsound _ idx hidx e he
    have : ci' = k := by
      rw [hk1] at h1
      exact (Int.ofNat.inj h1).symm
    subst this
    exact ⟨p, r, h3, h4, h5, h6⟩
  have hcomplete : ∀ row ∈ pages.flatten, ∃ e ∈ idx, e.1 = row.getD k 0 :=
    hkeyed.2.1 k hk2 idx (by rw [hk3]; exact hidx)
  obtain ⟨r1, r2, r3, r4⟩ := index_range_entries idx pq.selectionIntLiteral hsorted
  have viaP : ∀ P : Int → Bool,
      (∀ x, P x = evaluateBinOp x pq.selectionIntLiteral pq.selectionBinaryOperator) →
      indexLookup idx pq.selectionIntLiteral pq.selectionBinaryOperator
        = ((idx.filter (fun e => P e.1)).map Prod.snd, true) →
      ∃ s' emitted, executeSEARCH fuel pq s = some s' ∧
        emittedRows s' pq.selectionResultRelationName = some emitted ∧
        storedRows s' pq.selectionResultRelationName = some emitted ∧
        emitted.Perm (linearScanRows pages.flatten k pq.selectionBinaryOperator
          pq.selectionIntLiteral) := by
    intro P hP hl
    obtain ⟨s', emitted, e1, e2, e3, e4⟩ := search_via_entries fuel pq s table idx pages k P ht
      hidx hlit hh hcc hpos hsorted hsound2 hcomplete hdist hl
    refine ⟨s', emitted, e1, e2, e3, ?_⟩
    have : pages.flatten.filter (fun row => P (row.getD k 0))
        = linearScanRows pages.flatten k pq.selectionBinaryOperator pq.selectionIntLiteral := by
      unfold linearScanRows
      apply List.filter_congr
      intro row _
      exact hP _
    rw [← this]
    exact e4
  have viaScan : ∀ locs,
      indexLookup idx pq.selectionIntLiteral pq.selectionBinaryOperator = (locs, false) →
      ∃ s' emitted, executeSEARCH fuel pq s = some s' ∧
        emittedRows s' pq.selectionResultRelationName = some emitted ∧
        storedRows s' pq.selectionResultRelationName = some emitted ∧
        emitted.Perm (linearScanRows pages.flatten k pq.selectionBinaryOperator
          pq.selectionIntLiteral) := by
    intro locs hl
    exact search_via_scan fuel pq s table idx pages k locs ht hidx hlit hh hne hcc hpos hk1 hk2
      hfuel hl
  cases hop : pq.selectionBinaryOperator with
  | LESS_THAN =>
    rw [hop] at viaP
    exact viaP (fun x => decide (x < pq.selectionIntLiteral)) (fun _ => rfl)
      (by rw [← r1]; rfl)
  | GREATER_THAN =>
    rw [hop] at viaP
    exact viaP (fun x => decide (x > pq.selectionIntLiteral)) (fun _ => rfl)
      (by rw [← r3]; rfl)
  | LEQ =>
    rw [hop] at viaP
    exact viaP (fun x => decide (x ≤ pq.selectionIntLiteral)) (fun _ => rfl)
      (by rw [← r2]; rfl)
  | GEQ =>
    rw [hop] at viaP
    exact viaP (fun x => decide (x ≥ pq.selectionIntLiteral)) (fun _ => rfl)
      (by rw [← r4]; rfl)
  | EQUAL =>
    rw [hop] at viaP viaScan
    cases hlk : idx.lookup pq.selectionIntLiteral with
    | none =>
      exact viaScan [] (by simp only [indexLookup, hlk])
    | some loc =>
      exact viaP (fun x => decide (x = pq.selectionIntLiteral)) (fun _ => rfl)
        (by
          rw [filter_key_of_lookup idx _ loc hsorted hlk]
          simp only [indexLookup, hlk, List.map_cons, List.map_nil])
  | NOT_EQUAL =>
    rw [hop] at viaScan
    exact viaScan [] rfl
  | NO_BINOP_CLAUSE =>
    rw [hop] at viaScan
    exact viaScan [] rfl

set_option maxRecDepth 100000 in
/-- Scenario S2 after `LOAD T` and the insertion of `(5,6,7)`: column `B` holds the distinct
values `2,5,8,20,6`, and `Y <- SEARCH FROM T WHERE B >= 5` emits the four rows with
`B >= 5`. -/
theorem executeSEARCH_index_agrees_with_scan_witness :
    ∃ (s' : State) (emitted : List Row),
      executeSEARCH 10 querySearchB stateS2Inserted = some s' ∧
      emittedRows s' "Y" = some emitted ∧
      emitted.Perm [[4, 5, 6], [7, 8, 9], [1, 20, 30], [5, 6, 7]] :=
  match executeSEARCH_index_agrees_with_scan stateS2Inserted querySearchB _
      [[1, 2, 3], [4, 5, 6], [7, 8, 9], [1, 20, 30], [5, 6, 7]] 10 1
      (Reachable.insert _ _ (Reachable.load stateS2 queryLoadT
        (Reachable.init stateS2 (fun _ => rfl) rfl) rfl))
      rfl (by decide) rfl (by decide) (by decide) (by decide) (by decide) with
  | ⟨s', emitted, h1, h2, _, h4⟩ => ⟨s', emitted, h1, h2, h4.trans (List.Perm.of_eq (by decide))⟩

end LessSimpleRA
